import Mathlib

/-!
Maze solver (`code.cpp`): containers, coordinate index, graph construction, solvers.

A shallow embedding of the core of the maze solver: the hand-built containers
(`StackArray`, `StackLinkedList`, `QueueArray`, `QueueLinkedList`, `HashMap`), the
`Graph`, the `MazeSolver::buildGraph` construction and the three solvers with
`reconstructPath`.

Conventions of the embedding.

* C++ `int` values are `Int`; every arithmetic expression that occurs stays far
  below `2^31` on the inputs considered (grids of at most 50 x 50 cells), and
  `%` on `int` is the truncating remainder `Int.tmod`.
* A fixed-size array is a function from indices to values.  An access outside the
  declared bounds is undefined behaviour in C++; it is modelled as the fault
  `Fault.outOfBounds` wherever the index comes from data: the bucket table of
  `HashMap`, the arrays of `Graph`, and the `visited` and `parent` arrays of the
  solvers.  `StackArray` tests `top` itself before every access, `QueueArray`
  reduces `front` and `rear` modulo `MAX_NODES` (`QueueArray.Valid` states the
  resulting index bounds), `Maze::getCell` tests `r` and `c` (the grids considered
  have `rows <= MAX_ROWS` and `cols <= MAX_COLS`), and `path` is storage of the
  caller.
* A singly linked list of heap nodes is the `List` of its payloads, head first.
* Loops that are not structurally bounded take a fuel argument and report
  `Fault.outOfFuel` when it is used up.
* Storage the source leaves uninitialised is a parameter of the embedding.
-/

namespace MazeProject

/-! ## Constants and faults -/

def MAX_ROWS : Int := 50
def MAX_COLS : Int := 50
def MAX_NODES : Int := 2500

/-- The ways in which a run of the embedded code can fail to produce a value. -/
inductive Fault where
  | outOfBounds
  | outOfFuel
  deriving DecidableEq, Repr

deriving instance DecidableEq for Except

/-- Array store `a[i] = v`. -/
def store {α : Type} (a : Int → α) (i : Int) (v : α) : Int → α :=
  fun j => if j = i then v else a j

/-! ## StackArray -/

/-- Class `StackArray`: `int arr[MAX_NODES]; int top;`.  Every state the methods
reach has `-1 <= top < MAX_NODES`. -/
structure StackArray where
  arr : Int → Int
  top : Int

namespace StackArray

/-- Constructor `StackArray() : top(-1)`; `arr` is left uninitialised. -/
def init (arr0 : Int → Int) : StackArray := { arr := arr0, top := -1 }

/-- Method `push`: `if (top < MAX_NODES - 1) arr[++top] = val;`. -/
def push (s : StackArray) (val : Int) : StackArray :=
  if s.top < MAX_NODES - 1 then { arr := store s.arr (s.top + 1) val, top := s.top + 1 } else s

/-- Method `pop`: `if (top >= 0) return arr[top--]; return -1;`. -/
def pop (s : StackArray) : Int × StackArray :=
  if s.top ≥ 0 then (s.arr s.top, { s with top := s.top - 1 }) else (-1, s)

/-- Method `isEmpty`: `top == -1`. -/
def isEmpty (s : StackArray) : Bool := decide (s.top = -1)

/-- Method `peek`: `if (top >= 0) return arr[top]; return -1;`. -/
def peek (s : StackArray) : Int := if s.top ≥ 0 then s.arr s.top else -1

/-- The stored elements `arr[top], ..., arr[0]`, most recently pushed first. -/
def toList (s : StackArray) : List Int :=
  ((List.range (s.top + 1).toNat).map (fun i : Nat => s.arr (i : Int))).reverse

end StackArray

/-! ## StackLinkedList -/

/-- Class `StackLinkedList`: the chain of `ListNode`s hanging off `top`. -/
structure StackLinkedList where
  top : List Int
  deriving DecidableEq, Repr

namespace StackLinkedList

/-- Constructor `StackLinkedList() : top(NULL)`. -/
def init : StackLinkedList := { top := [] }

/-- Method `push`: a new node in front of `top`. -/
def push (s : StackLinkedList) (val : Int) : StackLinkedList := { top := val :: s.top }

/-- Method `pop`: `-1` when `top == NULL`, else unlink and return the first node. -/
def pop (s : StackLinkedList) : Int × StackLinkedList :=
  match s.top with
  | [] => (-1, s)
  | val :: rest => (val, { top := rest })

/-- Method `isEmpty`: `top == NULL`. -/
def isEmpty (s : StackLinkedList) : Bool := s.top.isEmpty

end StackLinkedList

/-! ## QueueLinkedList -/

/-- Class `QueueLinkedList`: the chain of `ListNode`s from `front` to `rear`. -/
structure QueueLinkedList where
  items : List Int
  deriving DecidableEq, Repr

namespace QueueLinkedList

/-- Constructor `QueueLinkedList() : front(NULL), rear(NULL)`. -/
def init : QueueLinkedList := { items := [] }

/-- Method `enqueue`: a new node linked behind `rear`. -/
def enqueue (q : QueueLinkedList) (val : Int) : QueueLinkedList := { items := q.items ++ [val] }

/-- Method `dequeue`: `-1` when `front == NULL`, else unlink and return the first node. -/
def dequeue (q : QueueLinkedList) : Int × QueueLinkedList :=
  match q.items with
  | [] => (-1, q)
  | val :: rest => (val, { items := rest })

/-- Method `isEmpty`: `front == NULL`. -/
def isEmpty (q : QueueLinkedList) : Bool := q.items.isEmpty

end QueueLinkedList

/-! ## HashMap (the coordinate index) -/

/-- Struct `HashMap::Entry` without its `next` link. -/
structure Entry where
  row : Int
  col : Int
  nodeId : Int
  deriving DecidableEq, Repr

def TABLE_SIZE : Int := 1009

/-- Class `HashMap`: `Entry* table[TABLE_SIZE]`, each bucket the chain it heads. -/
structure HashMap where
  table : Int → List Entry

namespace HashMap

/-- Method `hash`: `(row * 1000 + col) % TABLE_SIZE` with C++ truncating `%`. -/
def hash (row col : Int) : Int := Int.tmod (row * 1000 + col) TABLE_SIZE

/-- Constructor: every bucket `NULL`. -/
def init : HashMap := { table := fun _ => [] }

/-- Method `insert`: a new entry in front of the chain of bucket `hash(row, col)`. -/
def insert (h : HashMap) (row col nodeId : Int) : Except Fault HashMap :=
  let idx := hash row col
  if 0 ≤ idx ∧ idx < TABLE_SIZE then
    .ok { table := store h.table idx ({ row := row, col := col, nodeId := nodeId } :: h.table idx) }
  else .error .outOfBounds

/-- The `while (curr != NULL)` walk of `get` along one chain. -/
def find : List Entry → Int → Int → Int
  | [], _, _ => -1
  | curr :: next, row, col =>
    if curr.row = row ∧ curr.col = col then curr.nodeId else find next row col

/-- Method `get`: the node id of the first matching entry of the bucket, `-1` if none. -/
def get (h : HashMap) (row col : Int) : Except Fault Int :=
  let idx := hash row col
  if 0 ≤ idx ∧ idx < TABLE_SIZE then .ok (find (h.table idx) row col)
  else .error .outOfBounds

/-- A sequence of `insert(row, col, nodeId)` calls, executed left to right. -/
def insertAll : HashMap → List Entry → Except Fault HashMap
  | h, [] => .ok h
  | h, e :: rest =>
    match h.insert e.row e.col e.nodeId with
    | .ok h' => insertAll h' rest
    | .error f => .error f

end HashMap


/-! ## Graph -/

/-- Struct `AdjListNode` without its `next` link: one outgoing edge. -/
structure AdjListNode where
  dest : Int
  weight : Int
  deriving DecidableEq, Repr

/-- Class `Graph`: `adjList[MAX_NODES]`, `nodeCount`, `nodeRows[MAX_NODES]`,
`nodeCols[MAX_NODES]`; each adjacency list is the chain its head points to. -/
structure Graph where
  adjList : Int → List AdjListNode
  nodeCount : Int
  nodeRows : Int → Int
  nodeCols : Int → Int

namespace Graph

/-- Constructor `Graph() : nodeCount(0)`: every adjacency list `NULL`; the two
coordinate arrays are left uninitialised. -/
def init (rows0 cols0 : Int → Int) : Graph :=
  { adjList := fun _ => [], nodeCount := 0, nodeRows := rows0, nodeCols := cols0 }

/-- Method `addNode`: `id = nodeCount; nodeRows[id] = row; nodeCols[id] = col;
nodeCount++; return id;`.  The source has no capacity test: with
`nodeCount = MAX_NODES` the two stores land outside the arrays. -/
def addNode (g : Graph) (row col : Int) : Except Fault (Int × Graph) :=
  let id := g.nodeCount
  if 0 ≤ id ∧ id < MAX_NODES then
    .ok (id, { g with nodeRows := store g.nodeRows id row, nodeCols := store g.nodeCols id col,
                      nodeCount := g.nodeCount + 1 })
  else .error .outOfBounds

/-- Method `addEdge`: a new `AdjListNode(dest, weight)` in front of `adjList[src]`. -/
def addEdge (g : Graph) (src dest weight : Int) : Except Fault Graph :=
  if 0 ≤ src ∧ src < MAX_NODES then
    .ok { g with adjList := store g.adjList src ({ dest := dest, weight := weight } :: g.adjList src) }
  else .error .outOfBounds

/-- Method `getNodeCount`. -/
def getNodeCount (g : Graph) : Int := g.nodeCount

/-- Method `getAdjList`: `adjList[node]`. -/
def getAdjList (g : Graph) (node : Int) : Except Fault (List AdjListNode) :=
  if 0 ≤ node ∧ node < MAX_NODES then .ok (g.adjList node) else .error .outOfBounds

/-- Method `getNodeCoords`: `row = nodeRows[node]; col = nodeCols[node];`. -/
def getNodeCoords (g : Graph) (node : Int) : Except Fault (Int × Int) :=
  if 0 ≤ node ∧ node < MAX_NODES then .ok (g.nodeRows node, g.nodeCols node)
  else .error .outOfBounds

end Graph

/-! ## Maze -/

/-- Class `Maze`, the part the solver reads: `grid[MAX_ROWS][MAX_COLS]`, `rows`,
`cols`.  The grid is whatever the loader left in the array. -/
structure Maze where
  grid : Int → Int → Char
  rows : Int
  cols : Int

/-- Method `Maze::getCell`: the stored character inside `rows x cols`, `'#'` outside. -/
def Maze.getCell (m : Maze) (r c : Int) : Char :=
  if r ≥ 0 ∧ r < m.rows ∧ c ≥ 0 ∧ c < m.cols then m.grid r c else '#'

/-- The maze whose grid holds the text lines `lines`, each `cols` characters long. -/
def Maze.ofLines (lines : List (List Char)) (cols : Nat) : Maze :=
  { grid := fun r c => (lines.getD r.toNat []).getD c.toNat '#',
    rows := lines.length, cols := cols }

/-! ## MazeSolver: graph construction -/

/-- Class `MazeSolver`: the maze, the graph and coordinate index built from it, and
the ids of the start and end nodes. -/
structure MazeSolver where
  maze : Maze
  graph : Graph
  coordMap : HashMap
  startNode : Int
  endNode : Int

/-- What the source leaves uninitialised before `buildGraph` runs: the coordinate
arrays of the new `Graph` and the members `startNode`, `endNode`. -/
structure Uninit where
  nodeRows : Int → Int
  nodeCols : Int → Int
  startNode : Int
  endNode : Int

/-- The index pairs `(i, j)` in the order the nested loops
`for (i = 0; i < rows; i++) for (j = 0; j < cols; j++)` visit them. -/
def scanOrder (rows cols : Int) : List (Int × Int) :=
  (List.range rows.toNat).flatMap fun (i : Nat) =>
    (List.range cols.toNat).map fun (j : Nat) => ((i : Int), (j : Int))

namespace MazeSolver

/-- Body of the first loop nest of `buildGraph` at cell `(i, j)`. -/
def nodeStep (s : MazeSolver) (i j : Int) : Except Fault MazeSolver :=
  let cell := s.maze.getCell i j
  if cell = ' ' ∨ cell = 'S' ∨ cell = 'E' then
    match s.graph.addNode i j with
    | .error f => .error f
    | .ok (nodeId, g) =>
      match s.coordMap.insert i j nodeId with
      | .error f => .error f
      | .ok cm =>
        .ok { s with graph := g, coordMap := cm,
                     startNode := if cell = 'S' then nodeId else s.startNode,
                     endNode := if cell = 'E' then nodeId else s.endNode }
  else .ok s

/-- First loop nest of `buildGraph` over the cells still to visit. -/
def nodeLoop : MazeSolver → List (Int × Int) → Except Fault MazeSolver
  | s, [] => .ok s
  | s, (i, j) :: rest =>
    match nodeStep s i j with
    | .error f => .error f
    | .ok s' => nodeLoop s' rest

/-- Arrays `dr = {-1, 1, 0, 0}` and `dc = {0, 0, -1, 1}`, paired by index `d`. -/
def directions : List (Int × Int) := [(-1, 0), (1, 0), (0, -1), (0, 1)]

/-- Loop `for (d = 0; d < 4; d++)` of `buildGraph` for the node `nodeId` at `(i, j)`,
over the directions still to probe. -/
def probeLoop (cm : HashMap) (nodeId i j : Int) : Graph → List (Int × Int) → Except Fault Graph
  | g, [] => .ok g
  | g, (di, dj) :: rest =>
    match cm.get (i + di) (j + dj) with
    | .error f => .error f
    | .ok neighborId =>
      if neighborId ≠ -1 then
        match g.addEdge nodeId neighborId 1 with
        | .error f => .error f
        | .ok g' => probeLoop cm nodeId i j g' rest
      else probeLoop cm nodeId i j g rest

/-- Body of the second loop nest of `buildGraph` at cell `(i, j)`. -/
def edgeStep (s : MazeSolver) (i j : Int) : Except Fault MazeSolver :=
  match s.coordMap.get i j with
  | .error f => .error f
  | .ok nodeId =>
    if nodeId = -1 then .ok s
    else
      match probeLoop s.coordMap nodeId i j s.graph directions with
      | .error f => .error f
      | .ok g => .ok { s with graph := g }

/-- Second loop nest of `buildGraph` over the cells still to visit. -/
def edgeLoop : MazeSolver → List (Int × Int) → Except Fault MazeSolver
  | s, [] => .ok s
  | s, (i, j) :: rest =>
    match edgeStep s i j with
    | .error f => .error f
    | .ok s' => edgeLoop s' rest

/-- State of a fresh `MazeSolver` on entry to the loops of `buildGraph`:
`new Graph()`, `new HashMap()`. -/
def fresh (m : Maze) (u : Uninit) : MazeSolver :=
  { maze := m, graph := Graph.init u.nodeRows u.nodeCols, coordMap := HashMap.init,
    startNode := u.startNode, endNode := u.endNode }

/-- The node pass of `buildGraph` (first loop nest). -/
def buildNodes (m : Maze) (u : Uninit) : Except Fault MazeSolver :=
  nodeLoop (fresh m u) (scanOrder m.rows m.cols)

/-- Method `buildGraph`, as run by the constructor `MazeSolver(Maze* m)`. -/
def buildGraph (m : Maze) (u : Uninit) : Except Fault MazeSolver :=
  match buildNodes m u with
  | .error f => .error f
  | .ok s => edgeLoop s (scanOrder m.rows m.cols)

end MazeSolver

/-! ## MazeSolver: path reconstruction and the three solvers -/

/-- What a solver hands back: its `bool` result and the out-parameters `path`,
`pathLen`, `nodesVisited`. -/
structure SolveResult where
  found : Bool
  path : Int → Int
  pathLen : Int
  nodesVisited : Int

/-- The local arrays `visited`, `parent` of a solver and its counter. -/
structure Marks where
  visited : Int → Bool
  parent : Int → Int
  nodesVisited : Int

/-- Initialisation `for (i = 0; i < nodeCount; i++) parent[i] = -1;` of the locally
declared `parent` array, whose other entries keep what was in memory. -/
def initParent (parent0 : Int → Int) (nodeCount : Int) : Int → Int :=
  fun i => if 0 ≤ i ∧ i < nodeCount then -1 else parent0 i

namespace MazeSolver

/-- First loop of `reconstructPath`:
`while (curr != -1) { pathStack.push(curr); curr = parent[curr]; }`. -/
def chainLoop (parent : Int → Int) : Nat → Int → StackArray → Except Fault StackArray
  | 0, _, _ => .error .outOfFuel
  | fuel + 1, curr, pathStack =>
    if curr ≠ -1 then
      if 0 ≤ curr ∧ curr < MAX_NODES then chainLoop parent fuel (parent curr) (pathStack.push curr)
      else .error .outOfBounds
    else .ok pathStack

/-- Second loop of `reconstructPath`: `while (!pathStack.isEmpty()) { node = pop();
getNodeCoords(node, r, c); path[pathLen++] = r * MAX_COLS + c; }`. -/
def emitLoop (g : Graph) : Nat → StackArray → (Int → Int) → Int → Except Fault ((Int → Int) × Int)
  | 0, _, _, _ => .error .outOfFuel
  | fuel + 1, pathStack, path, pathLen =>
    if pathStack.isEmpty then .ok (path, pathLen)
    else
      match g.getNodeCoords pathStack.pop.1 with
      | .error f => .error f
      | .ok (r, c) => emitLoop g fuel pathStack.pop.2 (store path pathLen (r * MAX_COLS + c)) (pathLen + 1)

/-- Method `reconstructPath`: returns the filled `path` and `pathLen`.  `stack0` is
the uninitialised storage of the local `StackArray`. -/
def reconstructPath (s : MazeSolver) (stack0 : Int → Int) (fuel : Nat) (parent : Int → Int)
    (path : Int → Int) : Except Fault ((Int → Int) × Int) :=
  match chainLoop parent fuel s.endNode (StackArray.init stack0) with
  | .error f => .error f
  | .ok pathStack => emitLoop s.graph fuel pathStack path 0

/-- Inner loop of `solveBFS` over the adjacency list of `curr`. -/
def bfsScan (curr : Int) : List AdjListNode → Marks → QueueLinkedList →
    Except Fault (Marks × QueueLinkedList)
  | [], ms, q => .ok (ms, q)
  | adj :: next, ms, q =>
    if 0 ≤ adj.dest ∧ adj.dest < MAX_NODES then
      if ms.visited adj.dest = false then
        bfsScan curr next
          { ms with visited := store ms.visited adj.dest true,
                    parent := store ms.parent adj.dest curr }
          (q.enqueue adj.dest)
      else bfsScan curr next ms q
    else .error .outOfBounds

/-- Main loop `while (!q.isEmpty())` of `solveBFS`. -/
def bfsLoop (s : MazeSolver) (stack0 : Int → Int) (path : Int → Int) (rfuel : Nat) :
    Nat → Marks → QueueLinkedList → Except Fault SolveResult
  | 0, _, _ => .error .outOfFuel
  | fuel + 1, ms, q =>
    if q.isEmpty then
      .ok { found := false, path := path, pathLen := 0, nodesVisited := ms.nodesVisited }
    else
      let curr := q.dequeue.1
      let ms1 : Marks := { ms with nodesVisited := ms.nodesVisited + 1 }
      if curr = s.endNode then
        match reconstructPath s stack0 rfuel ms1.parent path with
        | .error f => .error f
        | .ok (path', pathLen) =>
          .ok { found := true, path := path', pathLen := pathLen, nodesVisited := ms1.nodesVisited }
      else
        match s.graph.getAdjList curr with
        | .error f => .error f
        | .ok adj =>
          match bfsScan curr adj ms1 q.dequeue.2 with
          | .error f => .error f
          | .ok (ms2, q2) => bfsLoop s stack0 path rfuel fuel ms2 q2

/-- The declarations at the head of each solver: `visited` all `false`, `parent`
set to `-1` on `0 .. nodeCount - 1`, `nodesVisited = 0`. -/
def initMarks (s : MazeSolver) (parent0 : Int → Int) : Marks :=
  { visited := fun _ => false, parent := initParent parent0 s.graph.getNodeCount,
    nodesVisited := 0 }

/-- Method `solveBFS`.  `parent0`, `stack0` stand for the uninitialised local
storage, `path` for the caller's array; `fuel` bounds each loop. -/
def solveBFS (s : MazeSolver) (parent0 stack0 path : Int → Int) (fuel : Nat) :
    Except Fault SolveResult :=
  if s.graph.getNodeCount ≤ MAX_NODES then
    if 0 ≤ s.startNode ∧ s.startNode < MAX_NODES then
      let ms := initMarks s parent0
      bfsLoop s stack0 path fuel fuel { ms with visited := store ms.visited s.startNode true }
        (QueueLinkedList.init.enqueue s.startNode)
    else .error .outOfBounds
  else .error .outOfBounds

/-- Inner loop of `solveDFSStack` over the adjacency list of `curr`. -/
def dfsPush (curr : Int) : List AdjListNode → Marks → StackLinkedList →
    Except Fault (Marks × StackLinkedList)
  | [], ms, st => .ok (ms, st)
  | adj :: next, ms, st =>
    if 0 ≤ adj.dest ∧ adj.dest < MAX_NODES then
      if ms.visited adj.dest = false then
        dfsPush curr next { ms with parent := store ms.parent adj.dest curr } (st.push adj.dest)
      else dfsPush curr next ms st
    else .error .outOfBounds

/-- Main loop `while (!s.isEmpty())` of `solveDFSStack`. -/
def dfsStackLoop (s : MazeSolver) (stack0 : Int → Int) (path : Int → Int) (rfuel : Nat) :
    Nat → Marks → StackLinkedList → Except Fault SolveResult
  | 0, _, _ => .error .outOfFuel
  | fuel + 1, ms, st =>
    if st.isEmpty then
      .ok { found := false, path := path, pathLen := 0, nodesVisited := ms.nodesVisited }
    else
      let curr := st.pop.1
      if 0 ≤ curr ∧ curr < MAX_NODES then
        if ms.visited curr then dfsStackLoop s stack0 path rfuel fuel ms st.pop.2
        else
          let ms1 : Marks :=
            { ms with visited := store ms.visited curr true, nodesVisited := ms.nodesVisited + 1 }
          if curr = s.endNode then
            match reconstructPath s stack0 rfuel ms1.parent path with
            | .error f => .error f
            | .ok (path', pathLen) =>
              .ok { found := true, path := path', pathLen := pathLen,
                    nodesVisited := ms1.nodesVisited }
          else
            match s.graph.getAdjList curr with
            | .error f => .error f
            | .ok adj =>
              match dfsPush curr adj ms1 st.pop.2 with
              | .error f => .error f
              | .ok (ms2, st2) => dfsStackLoop s stack0 path rfuel fuel ms2 st2
      else .error .outOfBounds

/-- Method `solveDFSStack`. -/
def solveDFSStack (s : MazeSolver) (parent0 stack0 path : Int → Int) (fuel : Nat) :
    Except Fault SolveResult :=
  if s.graph.getNodeCount ≤ MAX_NODES then
    dfsStackLoop s stack0 path fuel fuel (initMarks s parent0)
      (StackLinkedList.init.push s.startNode)
  else .error .outOfBounds

/-- Loop of `dfsRecursiveHelper` over the adjacency list of `curr`; `call` is the
recursive call `dfsRecursiveHelper(neighbor, ...)`. -/
def dfsRecursiveScan (call : Int → Marks → Except Fault (Bool × Marks)) (curr : Int) :
    List AdjListNode → Marks → Except Fault (Bool × Marks)
  | [], ms => .ok (false, ms)
  | adj :: next, ms =>
    if 0 ≤ adj.dest ∧ adj.dest < MAX_NODES then
      if ms.visited adj.dest = false then
        match call adj.dest { ms with parent := store ms.parent adj.dest curr } with
        | .error f => .error f
        | .ok (true, ms') => .ok (true, ms')
        | .ok (false, ms') => dfsRecursiveScan call curr next ms'
      else dfsRecursiveScan call curr next ms
    else .error .outOfBounds

/-- Method `dfsRecursiveHelper`; the fuel bounds the depth of the recursion. -/
def dfsRecursiveHelper (s : MazeSolver) : Nat → Int → Marks → Except Fault (Bool × Marks)
  | 0, _, _ => .error .outOfFuel
  | fuel + 1, curr, ms =>
    if 0 ≤ curr ∧ curr < MAX_NODES then
      let ms1 : Marks :=
        { ms with visited := store ms.visited curr true, nodesVisited := ms.nodesVisited + 1 }
      if curr = s.endNode then .ok (true, ms1)
      else
        match s.graph.getAdjList curr with
        | .error f => .error f
        | .ok adj => dfsRecursiveScan (dfsRecursiveHelper s fuel) curr adj ms1
    else .error .outOfBounds

/-- Method `solveDFSRecursive`. -/
def solveDFSRecursive (s : MazeSolver) (parent0 stack0 path : Int → Int) (fuel : Nat) :
    Except Fault SolveResult :=
  if s.graph.getNodeCount ≤ MAX_NODES then
    match dfsRecursiveHelper s fuel s.startNode (initMarks s parent0) with
    | .error f => .error f
    | .ok (true, ms) =>
      match reconstructPath s stack0 fuel ms.parent path with
      | .error f => .error f
      | .ok (path', pathLen) =>
        .ok { found := true, path := path', pathLen := pathLen, nodesVisited := ms.nodesVisited }
    | .ok (false, ms) =>
      .ok { found := false, path := path, pathLen := 0, nodesVisited := ms.nodesVisited }
  else .error .outOfBounds

end MazeSolver

/-! ## Notions used to state the claims -/

/-- The answer `get(r, c)` has to give after the insertions `es` on top of a map
that answered `d`: the id of the last entry of `es` at `(r, c)`, else `d`. -/
def HashMap.lastId (r c : Int) : List Entry → Int → Int
  | [], d => d
  | e :: rest, d => HashMap.lastId r c rest (if e.row = r ∧ e.col = c then e.nodeId else d)


/-- A cell is passable when it is open, the start or the end. -/
def Maze.passable (m : Maze) (p : Int × Int) : Prop :=
  m.getCell p.1 p.2 = ' ' ∨ m.getCell p.1 p.2 = 'S' ∨ m.getCell p.1 p.2 = 'E'

instance Maze.decidablePassable (m : Maze) (p : Int × Int) : Decidable (m.passable p) := by
  unfold Maze.passable
  infer_instance

/-- The passable cells of the grid in row-major scan order. -/
def Maze.passableCells (m : Maze) : List (Int × Int) :=
  (scanOrder m.rows m.cols).filter fun p => decide (m.passable p)

/-- The cells `L` (in this order) are the nodes `0, 1, ...` of `s`: node `k` carries
the coordinates of `L[k]`, the coordinate index sends `L[k]` to `k` and every other
coordinate to `-1`, and `startNode` / `endNode` are the ids of the last `'S'` / `'E'`
cell of `L`. -/
structure NodesIndexed (s : MazeSolver) (L : List (Int × Int)) : Prop where
  count : s.graph.nodeCount = L.length
  coords : ∀ (k : Nat) (p : Int × Int), L[k]? = some p →
    s.graph.nodeRows k = p.1 ∧ s.graph.nodeCols k = p.2
  index : ∀ (k : Nat) (p : Int × Int), L[k]? = some p →
    HashMap.find (s.coordMap.table (HashMap.hash p.1 p.2)) p.1 p.2 = k
  miss : ∀ r c : Int, (r, c) ∉ L →
    HashMap.find (s.coordMap.table (HashMap.hash r c)) r c = -1
  startId : ∀ (k : Nat) (p : Int × Int), L[k]? = some p → s.maze.getCell p.1 p.2 = 'S' →
    (∀ (k' : Nat) (p' : Int × Int), L[k']? = some p' → s.maze.getCell p'.1 p'.2 = 'S' → k' ≤ k) →
    s.startNode = k
  endId : ∀ (k : Nat) (p : Int × Int), L[k]? = some p → s.maze.getCell p.1 p.2 = 'E' →
    (∀ (k' : Nat) (p' : Int × Int), L[k']? = some p' → s.maze.getCell p'.1 p'.2 = 'E' → k' ≤ k) →
    s.endNode = k

/-- The edges the probe loop of `buildGraph` adds for the cell `(i, j)`, in probe
order: one edge of weight 1 for every probed coordinate the index knows. -/
def probeEdges (cm : HashMap) (i j : Int) : List (Int × Int) → List AdjListNode
  | [] => []
  | (di, dj) :: rest =>
    if HashMap.find (cm.table (HashMap.hash (i + di) (j + dj))) (i + di) (j + dj) ≠ -1 then
      { dest := HashMap.find (cm.table (HashMap.hash (i + di) (j + dj))) (i + di) (j + dj),
        weight := 1 } :: probeEdges cm i j rest
    else probeEdges cm i j rest

/-- The adjacency list the second loop nest builds for node `n` out of the cells
`cells`: the edges of the cells indexed as `n`, later cells in front, each cell's
edges in reverse probe order. -/
def cellEdges (cm : HashMap) (n : Int) : List (Int × Int) → List AdjListNode
  | [] => []
  | (i, j) :: rest =>
    cellEdges cm n rest ++
      (if HashMap.find (cm.table (HashMap.hash i j)) i j = n ∧ n ≠ -1 then
        (probeEdges cm i j MazeSolver.directions).reverse
      else [])

/-- Two cells are 4-adjacent: they differ by exactly 1 in the row or in the column,
and not in the other coordinate. -/
def adjacent4 (p q : Int × Int) : Prop :=
  (p.1 = q.1 ∧ (p.2 = q.2 + 1 ∨ q.2 = p.2 + 1)) ∨ (p.2 = q.2 ∧ (p.1 = q.1 + 1 ∨ q.1 = p.1 + 1))

instance adjacent4.decidable (p q : Int × Int) : Decidable (adjacent4 p q) := by
  unfold adjacent4
  infer_instance

/-- The solver state `s` is what `buildGraph` makes of the maze `m`: the passable
cells in scan order are its nodes, and the adjacency list of the node of cell `p`
holds the edges found by probing around `p`, last probe first. -/
structure Built (m : Maze) (s : MazeSolver) : Prop where
  maze : s.maze = m
  nodes : NodesIndexed s m.passableCells
  adj : ∀ (k : Nat) (p : Int × Int), m.passableCells[k]? = some p →
    s.graph.adjList k = (probeEdges s.coordMap p.1 p.2 MazeSolver.directions).reverse
  noAdj : ∀ n : Int, (n < 0 ∨ (m.passableCells.length : Int) ≤ n) → s.graph.adjList n = []

/-- Node `a` has an edge to node `b`: some entry of `adjList[a]` has destination `b`. -/
def MazeSolver.Edge (s : MazeSolver) (a b : Int) : Prop :=
  ∃ e ∈ s.graph.adjList a, e.dest = b

/-- The nodes of `s` are exactly the passable cells of `m`, numbered in row-major
scan order: the `k`-th passable cell is node `k` (`getNodeCoords`) and is mapped to
`k` by the coordinate index, every passable cell is a node and every node a passable
cell, in-grid walls are mapped to `-1`, and `startNode` / `endNode` are the ids of
the `'S'` / `'E'` cell. -/
def NodesMatchGrid (m : Maze) (s : MazeSolver) : Prop :=
  s.graph.getNodeCount = (m.passableCells.length : Int) ∧
  (∀ (k : Nat) (p : Int × Int), m.passableCells[k]? = some p →
    s.graph.getNodeCoords k = .ok p ∧ s.coordMap.get p.1 p.2 = .ok (k : Int)) ∧
  (∀ p : Int × Int, m.passable p ↔
    ∃ k : Nat, (k : Int) < s.graph.getNodeCount ∧ s.graph.getNodeCoords k = .ok p) ∧
  (∀ r c : Int, 0 ≤ r → r < m.rows → 0 ≤ c → c < m.cols → ¬ m.passable (r, c) →
    s.coordMap.get r c = .ok (-1)) ∧
  (∀ p : Int × Int, m.getCell p.1 p.2 = 'S' → (∀ q : Int × Int, m.getCell q.1 q.2 = 'S' → q = p) →
    s.coordMap.get p.1 p.2 = .ok s.startNode) ∧
  (∀ p : Int × Int, m.getCell p.1 p.2 = 'E' → (∀ q : Int × Int, m.getCell q.1 q.2 = 'E' → q = p) →
    s.coordMap.get p.1 p.2 = .ok s.endNode)

/-- A 3 x 3 maze with the open corridor `S`, ` `, `E` in its middle row. -/
def corridorMaze : Maze :=
  Maze.ofLines [['#', '#', '#', '#', '#'], ['#', 'S', ' ', 'E', '#'], ['#', '#', '#', '#', '#']] 5

/-- Zero-filled storage for the uninitialised members. -/
def zeroUninit : Uninit := { nodeRows := fun _ => 0, nodeCols := fun _ => 0, startNode := 0, endNode := 0 }

/-- A walk of `n` edges of the graph from node `a` to node `b`. -/
inductive MazeSolver.Walk (s : MazeSolver) : Int → Nat → Int → Prop where
  | refl (a : Int) : MazeSolver.Walk s a 0 a
  | step {a b c : Int} {n : Nat} : MazeSolver.Walk s a n b → s.Edge b c → MazeSolver.Walk s a (n + 1) c

/-- Node `b` can be reached from node `a` along edges. -/
def MazeSolver.Reachable (s : MazeSolver) (a b : Int) : Prop := ∃ n, s.Walk a n b

/-- The graph the solvers expect: at most `MAX_NODES` nodes, every edge destination
a node id, and `startNode`, `endNode` node ids. -/
structure MazeSolver.WellFormed (s : MazeSolver) : Prop where
  countLe : s.graph.nodeCount ≤ MAX_NODES
  destValid : ∀ (a : Int) (e : AdjListNode), e ∈ s.graph.adjList a →
    0 ≤ e.dest ∧ e.dest < s.graph.nodeCount
  startValid : 0 ≤ s.startNode ∧ s.startNode < s.graph.nodeCount
  endValid : 0 ≤ s.endNode ∧ s.endNode < s.graph.nodeCount

/-- The linearised coordinate `r * MAX_COLS + c` that `reconstructPath` emits for a node. -/
def MazeSolver.linear (s : MazeSolver) (v : Int) : Int :=
  s.graph.nodeRows v * MAX_COLS + s.graph.nodeCols v

/-- The out-parameters `path`, `pathLen` of the result `r` hold the nodes `nodes`:
`pathLen` is their number and `path[i]` the linearised coordinate of the `i`-th. -/
def PathOf (s : MazeSolver) (r : SolveResult) (nodes : List Int) : Prop :=
  r.pathLen = (nodes.length : Int) ∧
  ∀ (i : Nat) (v : Int), nodes[i]? = some v → r.path i = s.linear v

/-- The chain `v, parent[v], parent[parent[v]], ...` up to the node whose parent is
the root sentinel `-1`. -/
inductive ParentChain (parent : Int → Int) : Int → List Int → Prop where
  | root {v : Int} : v ≠ -1 → parent v = -1 → ParentChain parent v [v]
  | step {v : Int} {l : List Int} : v ≠ -1 → parent v ≠ -1 → ParentChain parent (parent v) l →
      ParentChain parent v (v :: l)

/-- The parent pointers of the visited nodes form a tree rooted at `startNode`: the
root has parent `-1`, every other visited node `v` has a visited parent with an edge
to `v`, one level above it (`d` is the depth), and is reached from the root by a walk
of `d v` edges.  Visited nodes are node ids. -/
structure TreeInv (s : MazeSolver) (ms : Marks) (d : Int → Nat) : Prop where
  valid : ∀ v, ms.visited v = true → 0 ≤ v ∧ v < s.graph.nodeCount
  rootParent : ms.parent s.startNode = -1
  rootDepth : d s.startNode = 0
  step : ∀ v, ms.visited v = true → v ≠ s.startNode →
    ms.visited (ms.parent v) = true ∧ s.Edge (ms.parent v) v ∧ d v = d (ms.parent v) + 1
  walk : ∀ v, ms.visited v = true → s.Walk s.startNode (d v) v

/-- The node list `nodes` is a path of the graph from `startNode` to `endNode`
without repeated nodes. -/
def MazeSolver.IsPath (s : MazeSolver) (nodes : List Int) : Prop :=
  nodes.head? = some s.startNode ∧ nodes.getLast? = some s.endNode ∧
    List.Chain' s.Edge nodes ∧ nodes.Nodup

/-- Invariant of `solveBFS`.  `cur` holds the node being expanded (or nothing),
`items` the queue, `done` the nodes already expanded, `d` the BFS level of each
visited node.  The visited nodes are `done`, `cur` and `items`; levels along the
frontier `cur ++ items` are non-decreasing and span at most two consecutive values;
every neighbour of an expanded node is visited; the level of a visited node is the
length of a shortest walk from `startNode`. -/
structure BFSInv (s : MazeSolver) (ms : Marks) (cur items : List Int) (d : Int → Nat)
    (done : List Int) : Prop where
  tree : TreeInv s ms d
  startV : ms.visited s.startNode = true
  minimal : ∀ v, ms.visited v = true → ∀ n, s.Walk s.startNode n v → d v ≤ n
  frontV : ∀ x ∈ cur ++ items, ms.visited x = true
  frontND : (cur ++ items).Nodup
  sorted : (cur ++ items).Pairwise (fun a b => d a ≤ d b)
  level : ∀ x ∈ cur ++ items, ∀ y ∈ cur ++ items, d y ≤ d x + 1
  doneND : done.Nodup
  doneIff : ∀ v, v ∈ done ↔ (ms.visited v = true ∧ v ∉ cur ++ items)
  closed : ∀ u ∈ done, ∀ w, s.Edge u w → ms.visited w = true
  notEnd : ∀ u ∈ done, u ≠ s.endNode
  count : ms.nodesVisited = (done.length : Int) + (cur.length : Int)

/-- What a solver may return on a graph: with `found = true` the out-parameters
hold a path from `startNode` to `endNode`; with `found = false` the path is left
as it was, `pathLen` is 0, `endNode` is not reachable from `startNode`, and
`nodesVisited` is the number of nodes reachable from `startNode`. -/
def SolverPost (s : MazeSolver) (path : Int → Int) (r : SolveResult) : Prop :=
  (r.found = true → ∃ nodes, PathOf s r nodes ∧ s.IsPath nodes ∧
    (∀ x ∈ nodes, 0 ≤ x ∧ x < s.graph.nodeCount)) ∧
  (r.found = false → r.pathLen = 0 ∧ r.path = path ∧ ¬ s.Reachable s.startNode s.endNode ∧
    ∃ L : List Int, L.Nodup ∧ (∀ v, v ∈ L ↔ s.Reachable s.startNode v) ∧
      r.nodesVisited = (L.length : Int))

/-- Invariant of `solveDFSStack`.  `st` is the stack, `cur` the node being expanded
(or nothing), `done` the visited nodes, `d` the depth of each visited node in the
parent tree.  A stacked node that is not yet visited has a visited parent with an
edge to it; every neighbour of a visited node (other than `cur`) is visited or on
the stack; `endNode` is not visited. -/
structure DFSInv (s : MazeSolver) (ms : Marks) (st : List Int) (d : Int → Nat)
    (done cur : List Int) : Prop where
  tree : TreeInv s ms d
  stackValid : ∀ x ∈ st, 0 ≤ x ∧ x < s.graph.nodeCount
  pending : ∀ w ∈ st, ms.visited w = false → w ≠ s.startNode →
    ms.visited (ms.parent w) = true ∧ s.Edge (ms.parent w) w
  frontier : ∀ u, ms.visited u = true → u ∉ cur → ∀ w, s.Edge u w → ms.visited w = true ∨ w ∈ st
  startIn : ms.visited s.startNode = true ∨
    (cur = [] ∧ st = [s.startNode] ∧ ∀ v, ms.visited v = false)
  notEnd : ∀ v, ms.visited v = true → v ≠ s.endNode
  doneND : done.Nodup
  doneIff : ∀ v, v ∈ done ↔ ms.visited v = true
  count : ms.nodesVisited = (done.length : Int)

/-- Invariant of `solveDFSRecursive`: the parent tree of the visited nodes, and the
list `done` of the visited nodes that `nodesVisited` counts. -/
structure RecInv (s : MazeSolver) (ms : Marks) (d : Int → Nat) (done : List Int) : Prop where
  tree : TreeInv s ms d
  doneND : done.Nodup
  doneIff : ∀ v, v ∈ done ↔ ms.visited v = true
  count : ms.nodesVisited = (done.length : Int)

/-- What a call of `dfsRecursiveHelper` (or the rest of its loop) that started in
`ms` with `n` counted nodes and returned `(b, ms')` has achieved: nothing is
unvisited again; with `b = true` the end node is visited; with `b = false` it is
not, and every node visited during the call has all its neighbours visited. -/
def RecPost (s : MazeSolver) (ms : Marks) (n : Nat) (b : Bool) (ms' : Marks) : Prop :=
  ∃ (d' : Int → Nat) (done' : List Int), RecInv s ms' d' done' ∧
    (∀ v, ms.visited v = true → ms'.visited v = true) ∧ n ≤ done'.length ∧
    (b = true → ms'.visited s.endNode = true) ∧
    (b = false → (∀ v, ms'.visited v = true → v ≠ s.endNode) ∧
      ∀ u, ms'.visited u = true → ms.visited u = false → ∀ w, s.Edge u w → ms'.visited w = true)

/-- The contract of a call `dfsRecursiveHelper(curr, ...)` with `k` levels of
recursion available: from a state with a parent tree in which the end node is not
visited, entered at an unvisited node id `curr` that is the start node or has a
visited parent with an edge to it, the call returns and satisfies `RecPost`. -/
def HelperSpec (s : MazeSolver) (k : Nat)
    (call : Int → Marks → Except Fault (Bool × Marks)) : Prop :=
  ∀ (curr : Int) (ms : Marks) (d : Int → Nat) (done : List Int), RecInv s ms d done →
    (∀ v, ms.visited v = true → v ≠ s.endNode) → (0 ≤ curr ∧ curr < s.graph.nodeCount) →
    ms.visited curr = false →
    (curr ≠ s.startNode → ms.visited (ms.parent curr) = true ∧ s.Edge (ms.parent curr) curr) →
    (curr ≠ s.startNode → ms.visited s.startNode = true) →
    s.graph.nodeCount ≤ (k : Int) + done.length →
    ∃ b ms', call curr ms = .ok (b, ms') ∧ ms'.visited curr = true ∧ RecPost s ms done.length b ms'

/-- A route of `n` steps through 4-adjacent passable cells of the grid. -/
inductive Maze.Route (m : Maze) : Int × Int → Nat → Int × Int → Prop where
  | refl (p : Int × Int) : m.passable p → Maze.Route m p 0 p
  | step {p q r : Int × Int} {n : Nat} : Maze.Route m p n q → adjacent4 q r → m.passable r →
      Maze.Route m p (n + 1) r

/-- Decoding of a path entry as in `Maze::displayWithPath`:
`r = path[i] / MAX_COLS`, `c = path[i] % MAX_COLS`. -/
def decode (x : Int) : Int × Int := (Int.tdiv x MAX_COLS, Int.tmod x MAX_COLS)

/-- The path a solver returned is a route of the grid: every entry decodes to a
passable cell, and consecutive entries decode to 4-adjacent cells. -/
def ValidGridPath (m : Maze) (r : SolveResult) : Prop :=
  (∀ i : Int, 0 ≤ i → i < r.pathLen → m.passable (decode (r.path i))) ∧
  (∀ i : Int, 0 ≤ i → i + 1 < r.pathLen → adjacent4 (decode (r.path i)) (decode (r.path (i + 1))))

/-- The path a solver returned runs from the cell `sp` to the cell `ep`. -/
def StartToEnd (sp ep : Int × Int) (r : SolveResult) : Prop :=
  1 ≤ r.pathLen ∧ r.path 0 = sp.1 * MAX_COLS + sp.2 ∧
    r.path (r.pathLen - 1) = ep.1 * MAX_COLS + ep.2

/-- A maze whose start and end are walled off from each other. -/
def blockedMaze : Maze :=
  Maze.ofLines [['#', '#', '#', '#', '#'], ['#', 'S', '#', 'E', '#'], ['#', '#', '#', '#', '#']] 5

/-- A maze with two routes of different length from start to end. -/
def roomMaze : Maze :=
  Maze.ofLines [['#', '#', '#', '#', '#'], ['#', 'S', ' ', ' ', '#'], ['#', ' ', ' ', 'E', '#'],
    ['#', '#', '#', '#', '#']] 5

/-- Zero-filled storage for the uninitialised local arrays and the caller's `path`. -/
def zeros : Int → Int := fun _ => 0

/-- The caller-visible part of a result: `found`, `pathLen`, `nodesVisited` and the
entries `path[0 .. pathLen)`. -/
def SolveResult.observe (r : SolveResult) : Bool × Int × Int × List Int :=
  (r.found, r.pathLen, r.nodesVisited, (List.range r.pathLen.toNat).map fun (i : Nat) => r.path i)

/-- Build the graph of `m` and run `solveBFS` on it, from zero-filled storage. -/
def runBFS (m : Maze) (fuel : Nat) : Except Fault (Bool × Int × Int × List Int) :=
  match MazeSolver.buildGraph m zeroUninit with
  | .error f => .error f
  | .ok s => (s.solveBFS zeros zeros zeros fuel).map SolveResult.observe

/-- Build the graph of `m` and run `solveDFSStack` on it, from zero-filled storage. -/
def runDFSStack (m : Maze) (fuel : Nat) : Except Fault (Bool × Int × Int × List Int) :=
  match MazeSolver.buildGraph m zeroUninit with
  | .error f => .error f
  | .ok s => (s.solveDFSStack zeros zeros zeros fuel).map SolveResult.observe

/-- Build the graph of `m` and run `solveDFSRecursive` on it, from zero-filled storage. -/
def runDFSRecursive (m : Maze) (fuel : Nat) : Except Fault (Bool × Int × Int × List Int) :=
  match MazeSolver.buildGraph m zeroUninit with
  | .error f => .error f
  | .ok s => (s.solveDFSRecursive zeros zeros zeros fuel).map SolveResult.observe

/-- The fully formed "no path" result: `found = false`, `pathLen = 0`, the caller's
`path` untouched, and `nodesVisited` the (non-negative) number of nodes reachable
from `startNode`, the start node included. -/
def NotFoundResult (s : MazeSolver) (path : Int → Int) (r : SolveResult) : Prop :=
  r.found = false ∧ r.pathLen = 0 ∧ r.path = path ∧ 0 ≤ r.nodesVisited ∧
    ∃ L : List Int, L.Nodup ∧ (∀ v, v ∈ L ↔ s.Reachable s.startNode v) ∧
      r.nodesVisited = (L.length : Int)

/-- Repeated `addNode(row, col)` on a graph, `n` times. -/
def Graph.addNodes (g : Graph) (row col : Int) : Nat → Except Fault Graph
  | 0 => .ok g
  | n + 1 =>
    match g.addNode row col with
    | .error f => .error f
    | .ok (_, g') => Graph.addNodes g' row col n

/-- A one-row maze `S E`: its passable cells lie in row 0. -/
def topRowMaze : Maze := Maze.ofLines [['S', ' ', 'E']] 3

/-- The sample maze written by `main` when no input file is found. -/
def sampleMaze : Maze :=
  Maze.ofLines
    ["##########".toList, "#S   #   #".toList, "# ## # # #".toList, "#    #   #".toList,
     "#### ### #".toList, "#      E #".toList, "##########".toList] 10

/-! ## QueueArray -/

/-- Class `QueueArray`: `int arr[MAX_NODES]; int front, rear, size;` -- a circular
buffer. -/
structure QueueArray where
  arr : Int → Int
  front : Int
  rear : Int
  size : Int

namespace QueueArray

/-- Constructor `QueueArray() : front(0), rear(-1), size(0)`; `arr` is left
uninitialised. -/
def init (arr0 : Int → Int) : QueueArray := { arr := arr0, front := 0, rear := -1, size := 0 }

/-- Method `enqueue`: `if (size < MAX_NODES) { rear = (rear + 1) % MAX_NODES;
arr[rear] = val; size++; }`. -/
def enqueue (q : QueueArray) (val : Int) : QueueArray :=
  if q.size < MAX_NODES then
    { arr := store q.arr (Int.tmod (q.rear + 1) MAX_NODES) val, front := q.front,
      rear := Int.tmod (q.rear + 1) MAX_NODES, size := q.size + 1 }
  else q

/-- Method `dequeue`: `if (size == 0) return -1; val = arr[front];
front = (front + 1) % MAX_NODES; size--; return val;`. -/
def dequeue (q : QueueArray) : Int × QueueArray :=
  if q.size = 0 then (-1, q)
  else (q.arr q.front, { q with front := Int.tmod (q.front + 1) MAX_NODES, size := q.size - 1 })

/-- Method `isEmpty`: `size == 0`. -/
def isEmpty (q : QueueArray) : Bool := decide (q.size = 0)

/-- The stored elements `arr[front], arr[front + 1], ...` (indices modulo
`MAX_NODES`), oldest first. -/
def toList (q : QueueArray) : List Int :=
  (List.range q.size.toNat).map fun (i : Nat) => q.arr (Int.tmod (q.front + (i : Int)) MAX_NODES)

/-- The states of the circular buffer: `front` and `rear` index into `arr` (`rear` is
`-1` before the first `enqueue`), `size` is between 0 and `MAX_NODES`, and `rear` is
`size` slots behind the slot before `front`, modulo `MAX_NODES`. -/
structure Valid (q : QueueArray) : Prop where
  frontLo : 0 ≤ q.front
  frontHi : q.front < MAX_NODES
  rearLo : -1 ≤ q.rear
  rearHi : q.rear < MAX_NODES
  sizeLo : 0 ≤ q.size
  sizeHi : q.size ≤ MAX_NODES
  wrap : (q.rear + 1) % MAX_NODES = (q.front + q.size) % MAX_NODES

end QueueArray

/-! ## Sequences of container calls -/

/-- What a container call hands back: nothing (`void`), an `int` or a `bool`. -/
inductive Answer
  | done
  | value (v : Int)
  | flag (b : Bool)
  deriving DecidableEq, Repr

/-- A call of a stack method. -/
inductive StackOp
  | push (val : Int)
  | pop
  | isEmpty
  deriving DecidableEq, Repr

/-- A call of a queue method. -/
inductive QueueOp
  | enqueue (val : Int)
  | dequeue
  | isEmpty
  deriving DecidableEq, Repr

/-- Run the calls `ops` one after the other from state `s`: the answers in call order
and the final state. -/
def runOps {σ ο : Type} (call : σ → ο → Answer × σ) : σ → List ο → List Answer × σ
  | s, [] => ([], s)
  | s, op :: ops => ((call s op).1 :: (runOps call (call s op).2 ops).1,
      (runOps call (call s op).2 ops).2)

/-- One method call on a `StackArray`. -/
def StackArray.call (s : StackArray) : StackOp → Answer × StackArray
  | .push val => (.done, s.push val)
  | .pop => (.value s.pop.1, s.pop.2)
  | .isEmpty => (.flag s.isEmpty, s)

/-- One method call on a `StackLinkedList`. -/
def StackLinkedList.call (s : StackLinkedList) : StackOp → Answer × StackLinkedList
  | .push val => (.done, s.push val)
  | .pop => (.value s.pop.1, s.pop.2)
  | .isEmpty => (.flag s.isEmpty, s)

/-- One method call on a `QueueArray`. -/
def QueueArray.call (q : QueueArray) : QueueOp → Answer × QueueArray
  | .enqueue val => (.done, q.enqueue val)
  | .dequeue => (.value q.dequeue.1, q.dequeue.2)
  | .isEmpty => (.flag q.isEmpty, q)

/-- One method call on a `QueueLinkedList`. -/
def QueueLinkedList.call (q : QueueLinkedList) : QueueOp → Answer × QueueLinkedList
  | .enqueue val => (.done, q.enqueue val)
  | .dequeue => (.value q.dequeue.1, q.dequeue.2)
  | .isEmpty => (.flag q.isEmpty, q)

/-- The FIFO list of the claim, holding `stored` (oldest first): `enqueue` adds at
the end, `dequeue` hands back and removes the oldest element, or hands back `-1` when
nothing is stored, and `isEmpty` is true exactly when nothing is stored. -/
def fifoCall (stored : List Int) : QueueOp → Answer × List Int
  | .enqueue val => (.done, stored ++ [val])
  | .dequeue =>
    match stored with
    | [] => (.value (-1), [])
    | oldest :: rest => (.value oldest, rest)
  | .isEmpty => (.flag (decide (stored.length = 0)), stored)

/-- The calls `ops`, issued to a queue that holds `n` elements, never make the
number of stored elements exceed `MAX_NODES`. -/
def QueueOp.fits : Nat → List QueueOp → Bool
  | _, [] => true
  | n, .enqueue _ :: ops => decide (((n : Int) + 1) ≤ MAX_NODES) && QueueOp.fits (n + 1) ops
  | n, .dequeue :: ops => QueueOp.fits (n - 1) ops
  | n, .isEmpty :: ops => QueueOp.fits n ops

/-- The calls `ops`, issued to a stack that holds `n` elements, never make the
number of stored elements exceed `MAX_NODES`. -/
def StackOp.fits : Nat → List StackOp → Bool
  | _, [] => true
  | n, .push _ :: ops => decide (((n : Int) + 1) ≤ MAX_NODES) && StackOp.fits (n + 1) ops
  | n, .pop :: ops => StackOp.fits (n - 1) ops
  | n, .isEmpty :: ops => StackOp.fits n ops

/-- A circular buffer whose `front` is the last slot of the array: the next two
`enqueue`s store at the indices 2499 and 0. -/
def wrappedQueue : QueueArray := { arr := zeros, front := 2499, rear := 2498, size := 0 }

/-! ## The solvers with a log of their queue, stack and call traffic

The functions below are the loops of the three solvers again, with one more
component that the source does not have: a log.  `bfsLoopLog` appends the node
returned by every `q.dequeue()`, `dfsStackLoopLog` counts the calls of `s.push`, and
`dfsRecursiveHelperLog` appends `curr` each time the helper is entered.  Dropping the
log gives back the solver (`bfsLoopLog_fst` and its siblings). -/

namespace MazeSolver

/-- Loop `bfsLoop`, logging the node returned by each `q.dequeue()`. -/
def bfsLoopLog (s : MazeSolver) (stack0 : Int → Int) (path : Int → Int) (rfuel : Nat) :
    Nat → Marks → QueueLinkedList → List Int → Except Fault (SolveResult × List Int)
  | 0, _, _, _ => .error .outOfFuel
  | fuel + 1, ms, q, log =>
    if q.isEmpty then
      .ok ({ found := false, path := path, pathLen := 0, nodesVisited := ms.nodesVisited }, log)
    else
      let curr := q.dequeue.1
      let ms1 : Marks := { ms with nodesVisited := ms.nodesVisited + 1 }
      if curr = s.endNode then
        match reconstructPath s stack0 rfuel ms1.parent path with
        | .error f => .error f
        | .ok (path', pathLen) =>
          .ok ({ found := true, path := path', pathLen := pathLen,
                 nodesVisited := ms1.nodesVisited }, log ++ [curr])
      else
        match s.graph.getAdjList curr with
        | .error f => .error f
        | .ok adj =>
          match bfsScan curr adj ms1 q.dequeue.2 with
          | .error f => .error f
          | .ok (ms2, q2) => bfsLoopLog s stack0 path rfuel fuel ms2 q2 (log ++ [curr])

/-- Method `solveBFS`, with the log of the dequeued nodes. -/
def solveBFSLog (s : MazeSolver) (parent0 stack0 path : Int → Int) (fuel : Nat) :
    Except Fault (SolveResult × List Int) :=
  if s.graph.getNodeCount ≤ MAX_NODES then
    if 0 ≤ s.startNode ∧ s.startNode < MAX_NODES then
      let ms := initMarks s parent0
      bfsLoopLog s stack0 path fuel fuel { ms with visited := store ms.visited s.startNode true }
        (QueueLinkedList.init.enqueue s.startNode) []
    else .error .outOfBounds
  else .error .outOfBounds

/-- Loop `dfsPush`, counting the calls of `s.push`. -/
def dfsPushLog (curr : Int) : List AdjListNode → Marks → StackLinkedList → Nat →
    Except Fault (Marks × StackLinkedList × Nat)
  | [], ms, st, pushes => .ok (ms, st, pushes)
  | adj :: next, ms, st, pushes =>
    if 0 ≤ adj.dest ∧ adj.dest < MAX_NODES then
      if ms.visited adj.dest = false then
        dfsPushLog curr next { ms with parent := store ms.parent adj.dest curr }
          (st.push adj.dest) (pushes + 1)
      else dfsPushLog curr next ms st pushes
    else .error .outOfBounds

/-- Loop `dfsStackLoop`, counting the calls of `s.push`. -/
def dfsStackLoopLog (s : MazeSolver) (stack0 : Int → Int) (path : Int → Int) (rfuel : Nat) :
    Nat → Marks → StackLinkedList → Nat → Except Fault (SolveResult × Nat)
  | 0, _, _, _ => .error .outOfFuel
  | fuel + 1, ms, st, pushes =>
    if st.isEmpty then
      .ok ({ found := false, path := path, pathLen := 0, nodesVisited := ms.nodesVisited },
        pushes)
    else
      let curr := st.pop.1
      if 0 ≤ curr ∧ curr < MAX_NODES then
        if ms.visited curr then dfsStackLoopLog s stack0 path rfuel fuel ms st.pop.2 pushes
        else
          let ms1 : Marks :=
            { ms with visited := store ms.visited curr true, nodesVisited := ms.nodesVisited + 1 }
          if curr = s.endNode then
            match reconstructPath s stack0 rfuel ms1.parent path with
            | .error f => .error f
            | .ok (path', pathLen) =>
              .ok ({ found := true, path := path', pathLen := pathLen,
                     nodesVisited := ms1.nodesVisited }, pushes)
          else
            match s.graph.getAdjList curr with
            | .error f => .error f
            | .ok adj =>
              match dfsPushLog curr adj ms1 st.pop.2 pushes with
              | .error f => .error f
              | .ok (ms2, st2, pushes2) => dfsStackLoopLog s stack0 path rfuel fuel ms2 st2 pushes2
      else .error .outOfBounds

/-- Method `solveDFSStack`, with the number of calls of `s.push` (the first one is
`s.push(startNode)`). -/
def solveDFSStackLog (s : MazeSolver) (parent0 stack0 path : Int → Int) (fuel : Nat) :
    Except Fault (SolveResult × Nat) :=
  if s.graph.getNodeCount ≤ MAX_NODES then
    dfsStackLoopLog s stack0 path fuel fuel (initMarks s parent0)
      (StackLinkedList.init.push s.startNode) 1
  else .error .outOfBounds

/-- Loop `dfsRecursiveScan`, threading the log of the calls through. -/
def dfsRecursiveScanLog (call : Int → Marks → List Int → Except Fault (Bool × Marks × List Int))
    (curr : Int) : List AdjListNode → Marks → List Int → Except Fault (Bool × Marks × List Int)
  | [], ms, log => .ok (false, ms, log)
  | adj :: next, ms, log =>
    if 0 ≤ adj.dest ∧ adj.dest < MAX_NODES then
      if ms.visited adj.dest = false then
        match call adj.dest { ms with parent := store ms.parent adj.dest curr } log with
        | .error f => .error f
        | .ok (true, ms', log') => .ok (true, ms', log')
        | .ok (false, ms', log') => dfsRecursiveScanLog call curr next ms' log'
      else dfsRecursiveScanLog call curr next ms log
    else .error .outOfBounds

/-- Method `dfsRecursiveHelper`, logging `curr` on entry. -/
def dfsRecursiveHelperLog (s : MazeSolver) :
    Nat → Int → Marks → List Int → Except Fault (Bool × Marks × List Int)
  | 0, _, _, _ => .error .outOfFuel
  | fuel + 1, curr, ms, log =>
    if 0 ≤ curr ∧ curr < MAX_NODES then
      let ms1 : Marks :=
        { ms with visited := store ms.visited curr true, nodesVisited := ms.nodesVisited + 1 }
      if curr = s.endNode then .ok (true, ms1, log ++ [curr])
      else
        match s.graph.getAdjList curr with
        | .error f => .error f
        | .ok adj => dfsRecursiveScanLog (dfsRecursiveHelperLog s fuel) curr adj ms1 (log ++ [curr])
    else .error .outOfBounds

/-- Method `solveDFSRecursive`, with the log of the nodes `dfsRecursiveHelper` was
entered at. -/
def solveDFSRecursiveLog (s : MazeSolver) (parent0 stack0 path : Int → Int) (fuel : Nat) :
    Except Fault (SolveResult × List Int) :=
  if s.graph.getNodeCount ≤ MAX_NODES then
    match dfsRecursiveHelperLog s fuel s.startNode (initMarks s parent0) [] with
    | .error f => .error f
    | .ok (true, ms, log) =>
      match reconstructPath s stack0 fuel ms.parent path with
      | .error f => .error f
      | .ok (path', pathLen) =>
        .ok ({ found := true, path := path', pathLen := pathLen,
               nodesVisited := ms.nodesVisited }, log)
    | .ok (false, ms, log) =>
      .ok ({ found := false, path := path, pathLen := 0, nodesVisited := ms.nodesVisited }, log)
  else .error .outOfBounds

/-- The number of directed edges: the lengths of the adjacency lists of the nodes
`0 .. nodeCount - 1`, added up. -/
def edgeCount (s : MazeSolver) : Nat :=
  ((List.range s.graph.nodeCount.toNat).map fun (v : Nat) =>
    (s.graph.adjList (v : Int)).length).sum

end MazeSolver

/-- The nodes of `X` are pairwise distinct, visited, and valid node ids. -/
def Marked (s : MazeSolver) (ms : Marks) (X : List Int) : Prop :=
  X.Nodup ∧ ∀ x ∈ X, ms.visited x = true ∧ 0 ≤ x ∧ x < s.graph.nodeCount

/-- The lengths of the adjacency lists of the nodes in `E`, added up. -/
def MazeSolver.sumDeg (s : MazeSolver) (E : List Int) : Nat :=
  (E.map fun v => (s.graph.adjList v).length).sum

/-- Two states of the local arrays `visited`, `parent` and of the counter that differ
at most in `parent` entries outside the node ids `0 .. nodeCount - 1`. -/
def MarksAgree (s : MazeSolver) (ms ms' : Marks) : Prop :=
  ms'.visited = ms.visited ∧ ms'.nodesVisited = ms.nodesVisited ∧
    ∀ i, 0 ≤ i → i < s.graph.nodeCount → ms'.parent i = ms.parent i

/-- Two results are the same to the caller: equal `found`, `pathLen` and
`nodesVisited`, and equal entries `path[0 .. pathLen)`. -/
def SolveResult.Agree (r r' : SolveResult) : Prop :=
  r'.found = r.found ∧ r'.pathLen = r.pathLen ∧ r'.nodesVisited = r.nodesVisited ∧
    ∀ i, 0 ≤ i → i < r.pathLen → r'.path i = r.path i

/-- The four neighbours of the cell `p` in the order right, left, below, above: the
probe order up, down, left, right of `buildGraph` reversed. -/
def neighboursReversed (p : Int × Int) : List (Int × Int) :=
  [(p.1, p.2 + 1), (p.1, p.2 - 1), (p.1 + 1, p.2), (p.1 - 1, p.2)]

/-! ## The solvers with their local arrays and counted nodes at the return

Once more the loops of the solvers, this time handing back, next to the result, the
local arrays `visited`, `parent` as they are at the `return`, and the list of the
nodes at which `nodesVisited++` was executed, in order.  Dropping both gives back the
solver (`bfsLoopTrace_fst` and its siblings). -/

namespace MazeSolver

/-- Loop `bfsLoop` with the local arrays at the return and the counted nodes. -/
def bfsLoopTrace (s : MazeSolver) (stack0 : Int → Int) (path : Int → Int) (rfuel : Nat) :
    Nat → Marks → QueueLinkedList → List Int → Except Fault (SolveResult × Marks × List Int)
  | 0, _, _, _ => .error .outOfFuel
  | fuel + 1, ms, q, counted =>
    if q.isEmpty then
      .ok ({ found := false, path := path, pathLen := 0, nodesVisited := ms.nodesVisited },
        ms, counted)
    else
      let curr := q.dequeue.1
      let ms1 : Marks := { ms with nodesVisited := ms.nodesVisited + 1 }
      if curr = s.endNode then
        match reconstructPath s stack0 rfuel ms1.parent path with
        | .error f => .error f
        | .ok (path', pathLen) =>
          .ok ({ found := true, path := path', pathLen := pathLen,
                 nodesVisited := ms1.nodesVisited }, ms1, counted ++ [curr])
      else
        match s.graph.getAdjList curr with
        | .error f => .error f
        | .ok adj =>
          match bfsScan curr adj ms1 q.dequeue.2 with
          | .error f => .error f
          | .ok (ms2, q2) => bfsLoopTrace s stack0 path rfuel fuel ms2 q2 (counted ++ [curr])

/-- Method `solveBFS` with the local arrays at the return and the counted nodes. -/
def solveBFSTrace (s : MazeSolver) (parent0 stack0 path : Int → Int) (fuel : Nat) :
    Except Fault (SolveResult × Marks × List Int) :=
  if s.graph.getNodeCount ≤ MAX_NODES then
    if 0 ≤ s.startNode ∧ s.startNode < MAX_NODES then
      let ms := initMarks s parent0
      bfsLoopTrace s stack0 path fuel fuel
        { ms with visited := store ms.visited s.startNode true }
        (QueueLinkedList.init.enqueue s.startNode) []
    else .error .outOfBounds
  else .error .outOfBounds

/-- Loop `dfsStackLoop` with the local arrays at the return and the counted nodes. -/
def dfsStackLoopTrace (s : MazeSolver) (stack0 : Int → Int) (path : Int → Int) (rfuel : Nat) :
    Nat → Marks → StackLinkedList → List Int → Except Fault (SolveResult × Marks × List Int)
  | 0, _, _, _ => .error .outOfFuel
  | fuel + 1, ms, st, counted =>
    if st.isEmpty then
      .ok ({ found := false, path := path, pathLen := 0, nodesVisited := ms.nodesVisited },
        ms, counted)
    else
      let curr := st.pop.1
      if 0 ≤ curr ∧ curr < MAX_NODES then
        if ms.visited curr then dfsStackLoopTrace s stack0 path rfuel fuel ms st.pop.2 counted
        else
          let ms1 : Marks :=
            { ms with visited := store ms.visited curr true, nodesVisited := ms.nodesVisited + 1 }
          if curr = s.endNode then
            match reconstructPath s stack0 rfuel ms1.parent path with
            | .error f => .error f
            | .ok (path', pathLen) =>
              .ok ({ found := true, path := path', pathLen := pathLen,
                     nodesVisited := ms1.nodesVisited }, ms1, counted ++ [curr])
          else
            match s.graph.getAdjList curr with
            | .error f => .error f
            | .ok adj =>
              match dfsPush curr adj ms1 st.pop.2 with
              | .error f => .error f
              | .ok (ms2, st2) =>
                dfsStackLoopTrace s stack0 path rfuel fuel ms2 st2 (counted ++ [curr])
      else .error .outOfBounds

/-- Method `solveDFSStack` with the local arrays at the return and the counted nodes. -/
def solveDFSStackTrace (s : MazeSolver) (parent0 stack0 path : Int → Int) (fuel : Nat) :
    Except Fault (SolveResult × Marks × List Int) :=
  if s.graph.getNodeCount ≤ MAX_NODES then
    dfsStackLoopTrace s stack0 path fuel fuel (initMarks s parent0)
      (StackLinkedList.init.push s.startNode) []
  else .error .outOfBounds

/-- Method `solveDFSRecursive` with the local arrays at the return and the counted
nodes: the log of `dfsRecursiveHelperLog`, which holds `curr` for every entry of the
helper, where `nodesVisited++` is executed. -/
def solveDFSRecursiveTrace (s : MazeSolver) (parent0 stack0 path : Int → Int) (fuel : Nat) :
    Except Fault (SolveResult × Marks × List Int) :=
  if s.graph.getNodeCount ≤ MAX_NODES then
    match dfsRecursiveHelperLog s fuel s.startNode (initMarks s parent0) [] with
    | .error f => .error f
    | .ok (true, ms, counted) =>
      match reconstructPath s stack0 fuel ms.parent path with
      | .error f => .error f
      | .ok (path', pathLen) =>
        .ok ({ found := true, path := path', pathLen := pathLen,
               nodesVisited := ms.nodesVisited }, ms, counted)
    | .ok (false, ms, counted) =>
      .ok ({ found := false, path := path, pathLen := 0, nodesVisited := ms.nodesVisited },
        ms, counted)
  else .error .outOfBounds

end MazeSolver

/-- What holds when a solver, reconstructing with the stack storage `stack0`, the
caller's `path` and fuel `rfuel`, returns the result `r` with the local arrays `ms`
and the counted nodes `counted`: the visited nodes form a parent tree with depths `d`;
the counted nodes are pairwise distinct, visited, and `nodesVisited` in number; the
start node is counted; and with `found = true` the end node is visited, it and every
visited node above it in the tree are counted, and `path`, `pathLen` are what
`reconstructPath` made of `parent`. -/
structure Returned (s : MazeSolver) (stack0 path : Int → Int) (rfuel : Nat) (r : SolveResult)
    (ms : Marks) (counted : List Int) (d : Int → Nat) : Prop where
  tree : TreeInv s ms d
  nodup : counted.Nodup
  visited : ∀ v ∈ counted, ms.visited v = true
  count : r.nodesVisited = (counted.length : Int)
  start : s.startNode ∈ counted
  endV : r.found = true → ms.visited s.endNode = true
  above : r.found = true → ∀ v, ms.visited v = true → (v = s.endNode ∨ d v < d s.endNode) →
    v ∈ counted
  recon : r.found = true →
    s.reconstructPath stack0 rfuel ms.parent path = .ok (r.path, r.pathLen)

/-- The list `log` holds exactly the visited nodes, each once, and `nodesVisited` is
their number. -/
def CountedExact (ms : Marks) (log : List Int) : Prop :=
  log.Nodup ∧ (∀ v, v ∈ log ↔ ms.visited v = true) ∧ ms.nodesVisited = (log.length : Int)

/-- The parent chain at a successful return.  `l` is the chain
`endNode, parent[endNode], ...` followed through the local array `ms.parent`: it holds
no node twice, ends in `startNode`, whose parent is `-1`, and every other node on it
has as parent a node with an edge to it; it has at most `nodeCount` nodes, all of them
counted; the first loop of `reconstructPath` leaves exactly these nodes on its array
stack; and the `path`, `pathLen` of the result `r` hold the chain reversed. -/
structure ChainFacts (s : MazeSolver) (ms : Marks) (counted : List Int) (r : SolveResult)
    (l : List Int) : Prop where
  chain : ParentChain ms.parent s.endNode l
  nodup : l.Nodup
  last : l.getLast? = some s.startNode
  root : ms.parent s.startNode = -1
  edges : ∀ v ∈ l, v ≠ s.startNode → s.Edge (ms.parent v) v
  valid : ∀ v ∈ l, 0 ≤ v ∧ v < s.graph.nodeCount
  counted : ∀ v ∈ l, v ∈ counted
  steps : (l.length : Int) - 1 ≤ s.graph.nodeCount - 1
  stack : ∀ (stack0 : Int → Int) (fuel : Nat), l.length + 1 ≤ fuel →
    ∃ st, MazeSolver.chainLoop ms.parent fuel s.endNode (StackArray.init stack0) = .ok st ∧
      st.toList = l.reverse ∧ st.top + 1 = (l.length : Int)
  path : PathOf s r l.reverse

/-- The count of a returned solver.  `counted` lists the nodes at which
`nodesVisited++` was executed: no node occurs twice, all are node ids, `nodesVisited`
is their number and lies between 1 and `nodeCount`; with `found = true` the nodes of
the returned path are among them, so `pathLen <= nodesVisited`. -/
structure CountFacts (s : MazeSolver) (r : SolveResult) (counted : List Int) : Prop where
  nodup : counted.Nodup
  valid : ∀ v ∈ counted, 0 ≤ v ∧ v < s.graph.nodeCount
  count : r.nodesVisited = (counted.length : Int)
  atLeastOne : 1 ≤ r.nodesVisited
  atMostAll : r.nodesVisited ≤ s.graph.nodeCount
  pathCounted : r.found = true → ∃ nodes, PathOf s r nodes ∧ ∀ v ∈ nodes, v ∈ counted
  pathLenLe : r.found = true → r.pathLen ≤ r.nodesVisited

/-! ## Container lemmas -/

theorem store_same {α : Type} (a : Int → α) (i : Int) (v : α) : store a i v i = v := by
  simp [store]

theorem store_other {α : Type} (a : Int → α) (i j : Int) (v : α) (h : j ≠ i) :
    store a i v j = a j := by
  simp [store, h]

theorem StackArray.toList_eq_of_agree (s t : StackArray) (htop : s.top = t.top)
    (h : ∀ i : Int, 0 ≤ i → i ≤ s.top → s.arr i = t.arr i) : s.toList = t.toList := by
  unfold StackArray.toList
  rw [← htop]
  congr 1
  apply List.map_congr_left
  intro i hi
  have hi' := List.mem_range.mp hi
  apply h
  · omega
  · omega

theorem StackArray.push_pop (s : StackArray) (v : Int) (hlo : -1 ≤ s.top)
    (hcap : s.top + 1 < MAX_NODES) :
    ((s.push v).pop).1 = v ∧ ((s.push v).pop).2.top = s.top ∧
      ((s.push v).pop).2.toList = s.toList := by
  have h1 : s.top < MAX_NODES - 1 := by omega
  have h2 : s.top + 1 ≥ 0 := by omega
  refine ⟨?_, ?_, ?_⟩
  · simp [StackArray.push, StackArray.pop, h1, h2, store]
  · simp [StackArray.push, StackArray.pop, h1, h2]
  · apply StackArray.toList_eq_of_agree
    · simp [StackArray.push, StackArray.pop, h1, h2]
    · intro i _ hi
      have hi' : i ≤ s.top := by
        simpa [StackArray.push, StackArray.pop, h1, h2] using hi
      have hne : i ≠ s.top + 1 := by omega
      simp [StackArray.push, StackArray.pop, h1, h2, store, hne]

/-- The class invariant `-1 <= top < MAX_NODES` of `StackArray`: it holds after the
constructor and is kept by `push` and `pop`. -/
theorem StackArray.top_bounds (arr0 : Int → Int) (s : StackArray) (v : Int)
    (h : -1 ≤ s.top ∧ s.top < MAX_NODES) :
    (-1 ≤ (StackArray.init arr0).top ∧ (StackArray.init arr0).top < MAX_NODES) ∧
      (-1 ≤ (s.push v).top ∧ (s.push v).top < MAX_NODES) ∧
      (-1 ≤ s.pop.2.top ∧ s.pop.2.top < MAX_NODES) := by
  refine ⟨?_, ?_, ?_⟩
  · simp only [StackArray.init, MAX_NODES]
    omega
  · unfold StackArray.push
    split
    · simp only
      omega
    · exact h
  · unfold StackArray.pop
    split
    · simp only
      omega
    · exact h

theorem StackArray.toList_eq_nil_iff (s : StackArray) (hlo : -1 ≤ s.top) :
    s.toList = [] ↔ s.top = -1 := by
  unfold StackArray.toList
  simp only [List.reverse_eq_nil_iff, List.map_eq_nil_iff, List.range_eq_nil]
  omega

theorem StackArray.toList_of_nonneg (s : StackArray) (h : 0 ≤ s.top) :
    s.toList = s.arr s.top :: ({ s with top := s.top - 1 } : StackArray).toList := by
  obtain ⟨arr, top⟩ := s
  simp only at h
  obtain ⟨n, rfl⟩ := Int.eq_ofNat_of_zero_le h
  have e1 : ((n : Int) + 1).toNat = n + 1 := by omega
  have e2 : ((n : Int) - 1 + 1).toNat = n := by omega
  simp only [StackArray.toList, e1, e2, List.range_succ, List.map_append, List.map_cons,
    List.map_nil, List.reverse_append, List.reverse_cons, List.reverse_nil, List.nil_append,
    List.singleton_append]

/-! ## Claim C10 -/

/-- C10: both stacks are LIFO lists.  For `StackLinkedList` always, and for a
`StackArray` that holds fewer than `MAX_NODES` elements, `push v` followed by `pop`
returns `v` and restores the contents; `pop` on an empty stack returns `-1` and
leaves it as it is; `isEmpty` holds exactly when nothing is stored; `peek` is the
value the next `pop` returns. -/
theorem C10_stacks_lifo (s : StackArray) (l : StackLinkedList) (v : Int)
    (hlo : -1 ≤ s.top) (hcap : s.top + 1 < MAX_NODES) :
    (((s.push v).pop).1 = v ∧ ((s.push v).pop).2.toList = s.toList ∧
        ((s.push v).pop).2.top = s.top) ∧
      (((l.push v).pop).1 = v ∧ ((l.push v).pop).2 = l) ∧
      (s.toList = [] → s.pop = (-1, s)) ∧
      (l.top = [] → l.pop = (-1, l)) ∧
      (s.isEmpty = true ↔ s.toList = []) ∧
      (l.isEmpty = true ↔ l.top = []) ∧
      s.peek = s.pop.1 ∧
      (s.toList ≠ [] → s.toList = s.pop.1 :: s.pop.2.toList) ∧
      (l.top ≠ [] → l.top = l.pop.1 :: l.pop.2.top) := by
  obtain ⟨a, b, c⟩ := StackArray.push_pop s v hlo hcap
  refine ⟨⟨a, c, b⟩, ⟨rfl, rfl⟩, ?_, ?_, ?_, ?_, ?_, ?_, ?_⟩
  · intro h
    have ht := (StackArray.toList_eq_nil_iff s hlo).mp h
    simp [StackArray.pop, ht]
  · intro h
    simp [StackLinkedList.pop, h]
  · rw [StackArray.toList_eq_nil_iff s hlo]
    simp [StackArray.isEmpty]
  · simp [StackLinkedList.isEmpty]
  · simp only [StackArray.peek, StackArray.pop]
    split <;> rfl
  · intro h
    have ht : 0 ≤ s.top := by
      by_contra hneg
      exact h ((StackArray.toList_eq_nil_iff s hlo).mpr (by omega))
    have hge : s.top ≥ 0 := ht
    simp only [StackArray.pop, hge, if_true]
    exact StackArray.toList_of_nonneg s ht
  · intro h
    cases hl : l.top with
    | nil => exact absurd hl h
    | cons x xs => simp [StackLinkedList.pop, hl]

/-- C10 at a concrete pair of stacks holding `[7, 5]`, pushing `9`. -/
theorem C10_stacks_lifo_witness :
    ((((StackArray.init (fun _ => 0)).push 5).push 7).push 9).pop.1 = 9 ∧
      (((StackLinkedList.init.push 5).push 7).push 9).pop =
        (9, (StackLinkedList.init.push 5).push 7) ∧
      (((StackArray.init (fun _ => 0)).push 5).push 7).peek = 7 := by
  have h := C10_stacks_lifo (((StackArray.init (fun _ => 0)).push 5).push 7)
    ((StackLinkedList.init.push 5).push 7) 9 (by decide) (by decide)
  exact ⟨h.1.1, by decide, by decide⟩

/-! ## HashMap lemmas -/

theorem HashMap.hash_inBounds (row col : Int) (hr : 0 ≤ row) (hc : 0 ≤ col) :
    0 ≤ HashMap.hash row col ∧ HashMap.hash row col < TABLE_SIZE := by
  unfold HashMap.hash TABLE_SIZE
  have h0 : (0 : Int) ≤ row * 1000 + col := by nlinarith
  constructor
  · exact Int.tmod_nonneg _ h0
  · exact Int.tmod_lt_of_pos _ (by decide)

theorem HashMap.insert_ok (h : HashMap) (row col nodeId : Int)
    (hb : 0 ≤ HashMap.hash row col ∧ HashMap.hash row col < TABLE_SIZE) :
    h.insert row col nodeId = .ok (HashMap.mk (store h.table (HashMap.hash row col)
      ({ row := row, col := col, nodeId := nodeId } :: h.table (HashMap.hash row col)))) := by
  simp [HashMap.insert, hb]

theorem HashMap.get_ok (h : HashMap) (row col : Int)
    (hb : 0 ≤ HashMap.hash row col ∧ HashMap.hash row col < TABLE_SIZE) :
    h.get row col = .ok (HashMap.find (h.table (HashMap.hash row col)) row col) := by
  simp [HashMap.get, hb]

/-- Lookup after one insertion: the new id at the inserted coordinate, the old
answer at every other coordinate, whether or not the two share a bucket. -/
theorem HashMap.find_insert (h h' : HashMap) (row col nodeId r c : Int)
    (hi : h.insert row col nodeId = .ok h') :
    HashMap.find (h'.table (HashMap.hash r c)) r c =
      if row = r ∧ col = c then nodeId else HashMap.find (h.table (HashMap.hash r c)) r c := by
  unfold HashMap.insert at hi
  simp only at hi
  split at hi
  · injection hi with hi
    subst hi
    by_cases hk : row = r ∧ col = c
    · obtain ⟨rfl, rfl⟩ := hk
      simp [store, HashMap.find]
    · by_cases hidx : HashMap.hash r c = HashMap.hash row col
      · simp only [store, hidx, if_true, HashMap.find, hk, if_false]
      · simp only [store, hidx, if_false, hk]
  · cases hi

theorem HashMap.insertAll_find (r c : Int) (es : List Entry)
    (hes : ∀ e ∈ es, 0 ≤ e.row ∧ 0 ≤ e.col) (h : HashMap) :
    ∃ h', HashMap.insertAll h es = .ok h' ∧
      HashMap.find (h'.table (HashMap.hash r c)) r c =
        HashMap.lastId r c es (HashMap.find (h.table (HashMap.hash r c)) r c) := by
  induction es generalizing h with
  | nil => exact ⟨h, rfl, rfl⟩
  | cons e rest ih =>
    have he := hes e (List.mem_cons_self _ _)
    have hb := HashMap.hash_inBounds e.row e.col he.1 he.2
    have hins := HashMap.insert_ok h e.row e.col e.nodeId hb
    obtain ⟨h', h1, h2⟩ := ih (fun x hx => hes x (List.mem_cons_of_mem _ hx))
      (HashMap.mk (store h.table (HashMap.hash e.row e.col)
          ({ row := e.row, col := e.col, nodeId := e.nodeId } :: h.table (HashMap.hash e.row e.col))))
    refine ⟨h', ?_, ?_⟩
    · simp only [HashMap.insertAll, hins]
      exact h1
    · rw [h2, HashMap.find_insert h _ e.row e.col e.nodeId r c hins]
      rfl

theorem HashMap.lastId_of_not_mem (r c : Int) (es : List Entry) (d : Int)
    (hno : ∀ e ∈ es, ¬ (e.row = r ∧ e.col = c)) : HashMap.lastId r c es d = d := by
  induction es generalizing d with
  | nil => rfl
  | cons e rest ih =>
    have h1 := hno e (List.mem_cons_self _ _)
    simp only [HashMap.lastId, h1, if_false]
    exact ih d (fun x hx => hno x (List.mem_cons_of_mem _ hx))

theorem HashMap.lastId_append (r c : Int) (pre post : List Entry) (d : Int) :
    HashMap.lastId r c (pre ++ post) d = HashMap.lastId r c post (HashMap.lastId r c pre d) := by
  induction pre generalizing d with
  | nil => rfl
  | cons e rest ih =>
    show HashMap.lastId r c (rest ++ post) _ = _
    exact ih _

/-! ## Claim C7 -/

/-- C7: after any sequence `es` of `insert` calls on non-negative coordinates
(with `row * 1000 + col` inside the `int` range) into a fresh `HashMap`, `get(r, c)`
at such a coordinate returns `-1` when `(r, c)` was never inserted, and otherwise
the node id of the most recent insertion of `(r, c)`, whatever else was inserted
before or after it, colliding or not. -/
theorem C7_hashmap_get_insert (es : List Entry) (r c : Int)
    (hes : ∀ e ∈ es, 0 ≤ e.row ∧ 0 ≤ e.col ∧ e.row * 1000 + e.col < 2 ^ 31)
    (hr : 0 ≤ r) (hc : 0 ≤ c) (_hov : r * 1000 + c < 2 ^ 31) :
    ∃ h, HashMap.insertAll HashMap.init es = .ok h ∧
      ((∀ e ∈ es, ¬ (e.row = r ∧ e.col = c)) → h.get r c = .ok (-1)) ∧
      (∀ pre post id, es = pre ++ { row := r, col := c, nodeId := id } :: post →
        (∀ e ∈ post, ¬ (e.row = r ∧ e.col = c)) → h.get r c = .ok id) := by
  obtain ⟨h, h1, h2⟩ := HashMap.insertAll_find r c es
    (fun e he => ⟨(hes e he).1, (hes e he).2.1⟩) HashMap.init
  have hb := HashMap.hash_inBounds r c hr hc
  refine ⟨h, h1, ?_, ?_⟩
  · intro hno
    rw [HashMap.get_ok h r c hb, h2, HashMap.lastId_of_not_mem r c es _ hno]
    rfl
  · intro pre post id hsplit hpost
    rw [HashMap.get_ok h r c hb, h2, hsplit, HashMap.lastId_append]
    simp only [HashMap.lastId, and_self, if_true]
    rw [HashMap.lastId_of_not_mem r c post _ hpost]

/-- C7 on three insertions into one bucket: `(0, 9)`, `(1, 18)` and `(0, 1018)` all
hash to bucket 9, and `(0, 9)` is inserted twice. -/
theorem C7_hashmap_get_insert_witness :
    HashMap.hash 0 9 = 9 ∧ HashMap.hash 1 18 = 9 ∧
    ∃ h, HashMap.insertAll HashMap.init
        [⟨0, 9, 4⟩, ⟨1, 18, 5⟩, ⟨0, 9, 6⟩, ⟨0, 1018, 7⟩] = .ok h ∧
      h.get 0 9 = .ok 6 ∧ h.get 2 27 = .ok (-1) := by
  refine ⟨by decide, by decide, ?_⟩
  obtain ⟨h, h1, _, h3⟩ := C7_hashmap_get_insert
    [⟨0, 9, 4⟩, ⟨1, 18, 5⟩, ⟨0, 9, 6⟩, ⟨0, 1018, 7⟩] 0 9 (by decide) (by decide) (by decide)
    (by decide)
  obtain ⟨h', h1', h2', _⟩ := C7_hashmap_get_insert
    [⟨0, 9, 4⟩, ⟨1, 18, 5⟩, ⟨0, 9, 6⟩, ⟨0, 1018, 7⟩] 2 27 (by decide) (by decide) (by decide)
    (by decide)
  have hh : h' = h := by
    have := h1'.symm.trans h1
    injection this
  subst hh
  exact ⟨h', h1, h3 [⟨0, 9, 4⟩, ⟨1, 18, 5⟩] [⟨0, 1018, 7⟩] 6 rfl (by decide), h2' (by decide)⟩

/-! ## Graph construction: the node pass -/


theorem mem_scanOrder (rows cols r c : Int) :
    (r, c) ∈ scanOrder rows cols ↔ (0 ≤ r ∧ r < rows) ∧ (0 ≤ c ∧ c < cols) := by
  unfold scanOrder
  simp only [List.mem_flatMap, List.mem_range, List.mem_map, Prod.mk.injEq]
  constructor
  · rintro ⟨i, hi, j, hj, rfl, rfl⟩
    omega
  · rintro ⟨⟨h1, h2⟩, h3, h4⟩
    exact ⟨r.toNat, by omega, c.toNat, by omega, by omega, by omega⟩

theorem nodup_scanOrder (rows cols : Int) : (scanOrder rows cols).Nodup := by
  unfold scanOrder
  rw [List.nodup_flatMap]
  constructor
  · intro i _
    apply List.Nodup.map _ (List.nodup_range _)
    intro a b h
    simpa using h
  · apply List.Pairwise.imp _ (List.nodup_range _)
    intro a b hab
    simp only [Function.onFun, List.disjoint_left, List.mem_map, List.mem_range]
    rintro p ⟨j, _, rfl⟩ ⟨j', _, h⟩
    simp only [Prod.mk.injEq] at h
    omega

theorem length_scanOrder (rows cols : Int) :
    (scanOrder rows cols).length = rows.toNat * cols.toNat := by
  unfold scanOrder
  simp [List.length_flatMap, Function.comp_def]


theorem HashMap.hash_inBounds_of_nonneg (row col : Int) (h0 : 0 ≤ row * 1000 + col) :
    0 ≤ HashMap.hash row col ∧ HashMap.hash row col < TABLE_SIZE := by
  unfold HashMap.hash TABLE_SIZE
  exact ⟨Int.tmod_nonneg _ h0, Int.tmod_lt_of_pos _ (by decide)⟩

theorem getElem?_snoc_cases {α : Type} (L : List α) (x : α) (k : Nat) (p : α)
    (h : (L ++ [x])[k]? = some p) : L[k]? = some p ∨ (k = L.length ∧ p = x) := by
  by_cases hk : k < L.length
  · left
    rw [List.getElem?_append_left hk] at h
    exact h
  · right
    have hk' : L.length ≤ k := by omega
    rw [List.getElem?_append_right hk'] at h
    have : k - L.length = 0 := by
      by_contra hne
      have : (([x] : List α)[k - L.length]?) = none := by
        apply List.getElem?_eq_none
        simp
        omega
      rw [this] at h
      cases h
    rw [this] at h
    simp at h
    exact ⟨by omega, h.symm⟩

theorem MazeSolver.nodeStep_skip (s : MazeSolver) (i j : Int) (h : ¬ s.maze.passable (i, j)) :
    s.nodeStep i j = .ok s := by
  have h' : ¬ (s.maze.getCell i j = ' ' ∨ s.maze.getCell i j = 'S' ∨ s.maze.getCell i j = 'E') := h
  unfold MazeSolver.nodeStep
  simp only
  rw [if_neg h']

theorem MazeSolver.nodeStep_add (s : MazeSolver) (L : List (Int × Int)) (i j : Int)
    (inv : NodesIndexed s L) (hp : s.maze.passable (i, j)) (hi : 0 ≤ i) (hj : 0 ≤ j)
    (hnew : (i, j) ∉ L) (hcap : (L.length : Int) < MAX_NODES) :
    ∃ s', s.nodeStep i j = .ok s' ∧ s'.maze = s.maze ∧ s'.graph.adjList = s.graph.adjList ∧
      NodesIndexed s' (L ++ [(i, j)]) := by
  have hb := HashMap.hash_inBounds i j hi hj
  have hcnt := inv.count
  have hadd : s.graph.addNode i j = .ok (s.graph.nodeCount,
      { s.graph with nodeRows := store s.graph.nodeRows s.graph.nodeCount i,
                     nodeCols := store s.graph.nodeCols s.graph.nodeCount j,
                     nodeCount := s.graph.nodeCount + 1 }) := by
    unfold Graph.addNode
    simp only
    rw [if_pos]
    rw [hcnt]
    exact ⟨by omega, hcap⟩
  have hins := HashMap.insert_ok s.coordMap i j s.graph.nodeCount hb
  have hp' : s.maze.getCell i j = ' ' ∨ s.maze.getCell i j = 'S' ∨ s.maze.getCell i j = 'E' := hp
  refine ⟨{ s with
      graph := { s.graph with nodeRows := store s.graph.nodeRows s.graph.nodeCount i,
                              nodeCols := store s.graph.nodeCols s.graph.nodeCount j,
                              nodeCount := s.graph.nodeCount + 1 },
      coordMap := HashMap.mk (store s.coordMap.table (HashMap.hash i j)
        ({ row := i, col := j, nodeId := s.graph.nodeCount } :: s.coordMap.table (HashMap.hash i j))),
      startNode := if s.maze.getCell i j = 'S' then s.graph.nodeCount else s.startNode,
      endNode := if s.maze.getCell i j = 'E' then s.graph.nodeCount else s.endNode }, ?_, ?_, ?_, ?_⟩
  · unfold MazeSolver.nodeStep
    simp only
    rw [if_pos hp', hadd]
    simp only
    rw [hins]
  · rfl
  · rfl
  · constructor
    · simp only [List.length_append, List.length_singleton, hcnt]
      push_cast
      rfl
    · intro k p hk
      rcases getElem?_snoc_cases L _ k p hk with h | ⟨h1, h2⟩
      · have hlt : k < L.length := by
          by_contra hge
          rw [List.getElem?_eq_none (by omega)] at h
          cases h
        have hne : (k : Int) ≠ s.graph.nodeCount := by rw [hcnt]; omega
        simp only [store, hne, if_false]
        exact inv.coords k p h
      · subst h1 h2
        simp only [store, hcnt, if_true]
        exact ⟨trivial, trivial⟩
    · intro k p hk
      rw [HashMap.find_insert s.coordMap _ i j s.graph.nodeCount p.1 p.2 hins]
      rcases getElem?_snoc_cases L _ k p hk with h | ⟨h1, h2⟩
      · have hmem : p ∈ L := List.getElem?_mem h
        have hne : ¬ (i = p.1 ∧ j = p.2) := by
          rintro ⟨rfl, rfl⟩
          exact hnew hmem
        rw [if_neg hne]
        exact inv.index k p h
      · subst h1 h2
        simp only [and_self, if_true, hcnt]
    · intro r c hrc
      rw [HashMap.find_insert s.coordMap _ i j s.graph.nodeCount r c hins]
      have h1 : (r, c) ∉ L := fun h => hrc (List.mem_append_left _ h)
      have hne : ¬ (i = r ∧ j = c) := by
        rintro ⟨rfl, rfl⟩
        exact hrc (List.mem_append_right _ (List.mem_singleton_self _))
      rw [if_neg hne]
      exact inv.miss r c h1
    · intro k p hk hS hlast
      rcases getElem?_snoc_cases L _ k p hk with h | ⟨h1, h2⟩
      · have hlt : k < L.length := by
          by_contra hge
          rw [List.getElem?_eq_none (by omega)] at h
          cases h
        have hx : ¬ s.maze.getCell i j = 'S' := by
          intro hxS
          have := hlast L.length (i, j) (by simp) hxS
          omega
        simp only [hx, if_false]
        apply inv.startId k p h hS
        intro k' p' hk' hS'
        apply hlast k' p' _ hS'
        have hlt' : k' < L.length := by
          by_contra hge
          rw [List.getElem?_eq_none (by omega)] at hk'
          cases hk'
        rw [List.getElem?_append_left hlt']
        exact hk'
      · subst h1 h2
        have hS' : s.maze.getCell i j = 'S' := hS
        simp only [hS', if_true, hcnt]
    · intro k p hk hS hlast
      rcases getElem?_snoc_cases L _ k p hk with h | ⟨h1, h2⟩
      · have hlt : k < L.length := by
          by_contra hge
          rw [List.getElem?_eq_none (by omega)] at h
          cases h
        have hx : ¬ s.maze.getCell i j = 'E' := by
          intro hxS
          have := hlast L.length (i, j) (by simp) hxS
          omega
        simp only [hx, if_false]
        apply inv.endId k p h hS
        intro k' p' hk' hS'
        apply hlast k' p' _ hS'
        have hlt' : k' < L.length := by
          by_contra hge
          rw [List.getElem?_eq_none (by omega)] at hk'
          cases hk'
        rw [List.getElem?_append_left hlt']
        exact hk'
      · subst h1 h2
        have hS' : s.maze.getCell i j = 'E' := hS
        simp only [hS', if_true, hcnt]

theorem MazeSolver.nodeLoop_spec (rest : List (Int × Int)) :
    ∀ (s : MazeSolver) (L : List (Int × Int)), NodesIndexed s L →
      (∀ p ∈ rest, 0 ≤ p.1 ∧ 0 ≤ p.2) → (L ++ rest).Nodup →
      ((L ++ rest.filter fun p => decide (s.maze.passable p)).length : Int) ≤ MAX_NODES →
      ∃ s', MazeSolver.nodeLoop s rest = .ok s' ∧ s'.maze = s.maze ∧
        s'.graph.adjList = s.graph.adjList ∧
        NodesIndexed s' (L ++ rest.filter fun p => decide (s.maze.passable p)) := by
  induction rest with
  | nil =>
    intro s L inv _ _ _
    exact ⟨s, rfl, rfl, rfl, by simpa using inv⟩
  | cons x rest ih =>
    intro s L inv hnn hnd hcap
    obtain ⟨i, j⟩ := x
    have hij := hnn (i, j) (List.mem_cons_self _ _)
    have hnn' : ∀ p ∈ rest, 0 ≤ p.1 ∧ 0 ≤ p.2 := fun p hp => hnn p (List.mem_cons_of_mem _ hp)
    have hnew : (i, j) ∉ L := by
      intro hmem
      have := (List.nodup_append.mp hnd).2.2
      exact this hmem (List.mem_cons_self _ _)
    by_cases hp : s.maze.passable (i, j)
    · have hfil : (((i, j) :: rest).filter fun p => decide (s.maze.passable p)) =
          (i, j) :: rest.filter fun p => decide (s.maze.passable p) := by
        simp [List.filter_cons, hp]
      rw [hfil] at hcap ⊢
      have hcap1 : (L.length : Int) < MAX_NODES := by
        simp only [List.length_append, List.length_cons] at hcap
        push_cast at hcap
        omega
      obtain ⟨s1, h1, hm1, ha1, inv1⟩ := MazeSolver.nodeStep_add s L i j inv hp hij.1 hij.2 hnew hcap1
      have hnd1 : ((L ++ [(i, j)]) ++ rest).Nodup := by simpa using hnd
      have hcap2 : (((L ++ [(i, j)]) ++ rest.filter fun p => decide (s1.maze.passable p)).length : Int)
          ≤ MAX_NODES := by
        rw [hm1]
        simpa using hcap
      obtain ⟨s2, h2, hm2, ha2, inv2⟩ := ih s1 (L ++ [(i, j)]) inv1 hnn' hnd1 hcap2
      refine ⟨s2, ?_, hm2.trans hm1, ha2.trans ha1, ?_⟩
      · simp only [MazeSolver.nodeLoop, h1]
        exact h2
      · rw [hm1] at inv2
        simpa using inv2
    · have hfil : (((i, j) :: rest).filter fun p => decide (s.maze.passable p)) =
          rest.filter fun p => decide (s.maze.passable p) := by
        simp [List.filter_cons, hp]
      rw [hfil] at hcap ⊢
      have h1 := MazeSolver.nodeStep_skip s i j hp
      have hnd1 : (L ++ rest).Nodup := by
        have := List.nodup_append.mp hnd
        refine List.nodup_append.mpr ⟨this.1, (List.nodup_cons.mp this.2.1).2, ?_⟩
        intro a ha hb
        exact this.2.2 ha (List.mem_cons_of_mem _ hb)
      obtain ⟨s2, h2, hm2, ha2, inv2⟩ := ih s L inv hnn' hnd1 hcap
      refine ⟨s2, ?_, hm2, ha2, inv2⟩
      simp only [MazeSolver.nodeLoop, h1]
      exact h2

theorem Maze.length_passableCells_le (m : Maze) (hr : m.rows ≤ MAX_ROWS) (hc : m.cols ≤ MAX_COLS) :
    (m.passableCells.length : Int) ≤ MAX_NODES := by
  have h1 : m.passableCells.length ≤ (scanOrder m.rows m.cols).length := List.length_filter_le _ _
  rw [length_scanOrder] at h1
  unfold MAX_ROWS at hr
  unfold MAX_COLS at hc
  unfold MAX_NODES
  have h2 : m.rows.toNat ≤ 50 := by omega
  have h3 : m.cols.toNat ≤ 50 := by omega
  have h4 : m.rows.toNat * m.cols.toNat ≤ 50 * 50 := Nat.mul_le_mul h2 h3
  omega

theorem MazeSolver.buildNodes_spec (m : Maze) (u : Uninit) (hr : m.rows ≤ MAX_ROWS)
    (hc : m.cols ≤ MAX_COLS) :
    ∃ s, MazeSolver.buildNodes m u = .ok s ∧ s.maze = m ∧ (∀ k, s.graph.adjList k = []) ∧
      NodesIndexed s m.passableCells := by
  have inv0 : NodesIndexed (MazeSolver.fresh m u) [] := by
    constructor
    · rfl
    · intro k p h
      simp at h
    · intro k p h
      simp at h
    · intro r c _
      rfl
    · intro k p h
      simp at h
    · intro k p h
      simp at h
  have hnn : ∀ p ∈ scanOrder m.rows m.cols, 0 ≤ p.1 ∧ 0 ≤ p.2 := by
    rintro ⟨r, c⟩ hp
    have := (mem_scanOrder m.rows m.cols r c).mp hp
    exact ⟨this.1.1, this.2.1⟩
  obtain ⟨s, h1, h2, h3, h4⟩ := MazeSolver.nodeLoop_spec (scanOrder m.rows m.cols)
    (MazeSolver.fresh m u) [] inv0 hnn (by simpa using nodup_scanOrder m.rows m.cols)
    (by simpa using Maze.length_passableCells_le m hr hc)
  refine ⟨s, h1, h2, ?_, by simpa using h4⟩
  intro k
  rw [h3]
  rfl

/-! ## Graph construction: the edge pass -/

theorem HashMap.get_eq_ok (h : HashMap) (row col v : Int) (hg : h.get row col = .ok v) :
    (0 ≤ HashMap.hash row col ∧ HashMap.hash row col < TABLE_SIZE) ∧
      v = HashMap.find (h.table (HashMap.hash row col)) row col := by
  unfold HashMap.get at hg
  simp only at hg
  split at hg
  · rename_i hb
    injection hg with hg
    exact ⟨hb, hg.symm⟩
  · cases hg

theorem Graph.addEdge_eq_ok (g g' : Graph) (src dest weight : Int)
    (h : g.addEdge src dest weight = .ok g') :
    g'.nodeCount = g.nodeCount ∧ g'.nodeRows = g.nodeRows ∧ g'.nodeCols = g.nodeCols ∧
      g'.adjList src = { dest := dest, weight := weight } :: g.adjList src ∧
      ∀ n, n ≠ src → g'.adjList n = g.adjList n := by
  unfold Graph.addEdge at h
  split at h
  · injection h with h
    subst h
    refine ⟨rfl, rfl, rfl, by simp [store], ?_⟩
    intro n hn
    simp [store, hn]
  · cases h

theorem MazeSolver.probeLoop_spec (cm : HashMap) (k i j : Int) (dirs : List (Int × Int)) :
    ∀ g g', MazeSolver.probeLoop cm k i j g dirs = .ok g' →
      g'.nodeCount = g.nodeCount ∧ g'.nodeRows = g.nodeRows ∧ g'.nodeCols = g.nodeCols ∧
      g'.adjList k = (probeEdges cm i j dirs).reverse ++ g.adjList k ∧
      ∀ n, n ≠ k → g'.adjList n = g.adjList n := by
  induction dirs with
  | nil =>
    intro g g' h
    injection h with h
    subst h
    exact ⟨rfl, rfl, rfl, rfl, fun _ _ => rfl⟩
  | cons d rest ih =>
    intro g g' h
    obtain ⟨di, dj⟩ := d
    simp only [MazeSolver.probeLoop] at h
    cases hget : cm.get (i + di) (j + dj) with
    | error f => rw [hget] at h; cases h
    | ok id =>
      rw [hget] at h
      simp only at h
      obtain ⟨_, hid⟩ := HashMap.get_eq_ok cm _ _ _ hget
      by_cases hne : id ≠ -1
      · rw [if_pos hne] at h
        cases hadd : g.addEdge k id 1 with
        | error f => rw [hadd] at h; cases h
        | ok g1 =>
          rw [hadd] at h
          simp only at h
          obtain ⟨a1, a2, a3, a4, a5⟩ := Graph.addEdge_eq_ok g g1 k id 1 hadd
          obtain ⟨b1, b2, b3, b4, b5⟩ := ih g1 g' h
          refine ⟨b1.trans a1, b2.trans a2, b3.trans a3, ?_, fun n hn => (b5 n hn).trans (a5 n hn)⟩
          rw [b4, a4]
          subst hid
          simp only [probeEdges, hne, ne_eq, not_false_eq_true, if_true, List.reverse_cons,
            List.append_assoc, List.singleton_append]
      · rw [if_neg hne] at h
        obtain ⟨b1, b2, b3, b4, b5⟩ := ih g g' h
        refine ⟨b1, b2, b3, ?_, b5⟩
        rw [b4]
        subst hid
        simp only [probeEdges, hne, if_false]

theorem MazeSolver.probeLoop_exists (cm : HashMap) (k i j : Int) (hk : 0 ≤ k ∧ k < MAX_NODES)
    (dirs : List (Int × Int))
    (hb : ∀ d ∈ dirs, 0 ≤ HashMap.hash (i + d.1) (j + d.2) ∧
      HashMap.hash (i + d.1) (j + d.2) < TABLE_SIZE) :
    ∀ g, ∃ g', MazeSolver.probeLoop cm k i j g dirs = .ok g' := by
  induction dirs with
  | nil => intro g; exact ⟨g, rfl⟩
  | cons d rest ih =>
    intro g
    obtain ⟨di, dj⟩ := d
    have hd := hb (di, dj) (List.mem_cons_self _ _)
    have ih' := ih (fun d hd => hb d (List.mem_cons_of_mem _ hd))
    simp only [MazeSolver.probeLoop, HashMap.get_ok cm _ _ hd]
    split
    · obtain ⟨g1, hg1⟩ : ∃ g1, g.addEdge k
          (HashMap.find (cm.table (HashMap.hash (i + di) (j + dj))) (i + di) (j + dj)) 1 = .ok g1 := by
        unfold Graph.addEdge
        rw [if_pos hk]
        exact ⟨_, rfl⟩
      rw [hg1]
      exact ih' _
    · exact ih' _

theorem MazeSolver.edgeStep_spec (s s' : MazeSolver) (i j : Int)
    (h : s.edgeStep i j = .ok s') :
    s'.maze = s.maze ∧ s'.coordMap = s.coordMap ∧ s'.startNode = s.startNode ∧
      s'.endNode = s.endNode ∧ s'.graph.nodeCount = s.graph.nodeCount ∧
      s'.graph.nodeRows = s.graph.nodeRows ∧ s'.graph.nodeCols = s.graph.nodeCols ∧
      ∀ n, s'.graph.adjList n = cellEdges s.coordMap n [(i, j)] ++ s.graph.adjList n := by
  unfold MazeSolver.edgeStep at h
  cases hget : s.coordMap.get i j with
  | error f => rw [hget] at h; cases h
  | ok id =>
    rw [hget] at h
    simp only at h
    obtain ⟨_, hid⟩ := HashMap.get_eq_ok _ _ _ _ hget
    by_cases hm : id = -1
    · rw [if_pos hm] at h
      injection h with h
      subst h
      refine ⟨rfl, rfl, rfl, rfl, rfl, rfl, rfl, ?_⟩
      intro n
      have : ¬ (HashMap.find (s.coordMap.table (HashMap.hash i j)) i j = n ∧ n ≠ -1) := by
        rw [← hid, hm]
        rintro ⟨h1, h2⟩
        exact h2 h1.symm
      simp [cellEdges, this]
    · rw [if_neg hm] at h
      cases hp : MazeSolver.probeLoop s.coordMap id i j s.graph MazeSolver.directions with
      | error f => rw [hp] at h; cases h
      | ok g =>
        rw [hp] at h
        injection h with h
        subst h
        obtain ⟨b1, b2, b3, b4, b5⟩ := MazeSolver.probeLoop_spec _ _ _ _ _ _ _ hp
        refine ⟨rfl, rfl, rfl, rfl, b1, b2, b3, ?_⟩
        intro n
        by_cases hn : n = id
        · subst hn
          have : HashMap.find (s.coordMap.table (HashMap.hash i j)) i j = n ∧ n ≠ -1 :=
            ⟨hid.symm, hm⟩
          simp only [cellEdges, List.nil_append]
          rw [if_pos this]
          exact b4
        · have : ¬ (HashMap.find (s.coordMap.table (HashMap.hash i j)) i j = n ∧ n ≠ -1) := by
            rw [← hid]
            rintro ⟨h1, _⟩
            exact hn h1.symm
          simp only [cellEdges, List.nil_append]
          rw [if_neg this]
          exact b5 n hn

theorem MazeSolver.edgeLoop_spec (cells : List (Int × Int)) :
    ∀ (s s' : MazeSolver), MazeSolver.edgeLoop s cells = .ok s' →
      s'.maze = s.maze ∧ s'.coordMap = s.coordMap ∧ s'.startNode = s.startNode ∧
      s'.endNode = s.endNode ∧ s'.graph.nodeCount = s.graph.nodeCount ∧
      s'.graph.nodeRows = s.graph.nodeRows ∧ s'.graph.nodeCols = s.graph.nodeCols ∧
      ∀ n, s'.graph.adjList n = cellEdges s.coordMap n cells ++ s.graph.adjList n := by
  induction cells with
  | nil =>
    intro s s' h
    injection h with h
    subst h
    exact ⟨rfl, rfl, rfl, rfl, rfl, rfl, rfl, fun _ => rfl⟩
  | cons x rest ih =>
    intro s s' h
    obtain ⟨i, j⟩ := x
    simp only [MazeSolver.edgeLoop] at h
    cases hstep : s.edgeStep i j with
    | error f => rw [hstep] at h; cases h
    | ok s1 =>
      rw [hstep] at h
      simp only at h
      obtain ⟨a1, a2, a3, a4, a5, a6, a7, a8⟩ := MazeSolver.edgeStep_spec s s1 i j hstep
      obtain ⟨b1, b2, b3, b4, b5, b6, b7, b8⟩ := ih s1 s' h
      refine ⟨b1.trans a1, b2.trans a2, b3.trans a3, b4.trans a4, b5.trans a5, b6.trans a6,
        b7.trans a7, ?_⟩
      intro n
      rw [b8 n, a8 n, a2]
      simp only [cellEdges, List.nil_append, List.append_assoc]

theorem cellEdges_nil (cm : HashMap) (n : Int) (cells : List (Int × Int))
    (h : ∀ x ∈ cells, ¬ (HashMap.find (cm.table (HashMap.hash x.1 x.2)) x.1 x.2 = n ∧ n ≠ -1)) :
    cellEdges cm n cells = [] := by
  induction cells with
  | nil => rfl
  | cons x rest ih =>
    obtain ⟨i, j⟩ := x
    have hx := h (i, j) (List.mem_cons_self _ _)
    simp only [cellEdges]
    rw [if_neg hx, ih (fun y hy => h y (List.mem_cons_of_mem _ hy))]
    rfl

theorem cellEdges_single (cm : HashMap) (n : Int) (p : Int × Int) (cells : List (Int × Int))
    (hnd : cells.Nodup) (hp : p ∈ cells)
    (hfind : HashMap.find (cm.table (HashMap.hash p.1 p.2)) p.1 p.2 = n ∧ n ≠ -1)
    (huniq : ∀ x ∈ cells, HashMap.find (cm.table (HashMap.hash x.1 x.2)) x.1 x.2 = n → x = p) :
    cellEdges cm n cells = (probeEdges cm p.1 p.2 MazeSolver.directions).reverse := by
  induction cells with
  | nil => cases hp
  | cons x rest ih =>
    obtain ⟨i, j⟩ := x
    have hnd' := List.nodup_cons.mp hnd
    simp only [cellEdges]
    by_cases hxp : (i, j) = p
    · subst hxp
      rw [if_pos hfind, cellEdges_nil]
      · rfl
      · rintro y hy ⟨h1, _⟩
        have := huniq y (List.mem_cons_of_mem _ hy) h1
        subst this
        exact hnd'.1 hy
    · have hx : ¬ (HashMap.find (cm.table (HashMap.hash i j)) i j = n ∧ n ≠ -1) := by
        rintro ⟨h1, _⟩
        exact hxp (huniq (i, j) (List.mem_cons_self _ _) h1)
      rw [if_neg hx, List.append_nil]
      have hp' : p ∈ rest := by
        rcases List.mem_cons.mp hp with h | h
        · exact absurd h.symm hxp
        · exact h
      exact ih hnd'.2 hp' (fun y hy => huniq y (List.mem_cons_of_mem _ hy))

theorem Maze.nodup_passableCells (m : Maze) : m.passableCells.Nodup :=
  List.Nodup.filter _ (nodup_scanOrder _ _)

theorem Maze.mem_passableCells (m : Maze) (p : Int × Int) :
    p ∈ m.passableCells ↔ m.passable p := by
  unfold Maze.passableCells
  rw [List.mem_filter]
  simp only [decide_eq_true_eq, and_iff_right_iff_imp]
  intro hp
  obtain ⟨r, c⟩ := p
  rw [mem_scanOrder]
  unfold Maze.passable Maze.getCell at hp
  simp only at hp
  by_contra hout
  have : ¬ (r ≥ 0 ∧ r < m.rows ∧ c ≥ 0 ∧ c < m.cols) := by
    intro h
    exact hout ⟨⟨h.1, h.2.1⟩, h.2.2.1, h.2.2.2⟩
  rw [if_neg this] at hp
  revert hp
  decide

theorem Maze.passableCells_inGrid (m : Maze) (p : Int × Int) (hp : p ∈ m.passableCells) :
    (0 ≤ p.1 ∧ p.1 < m.rows) ∧ (0 ≤ p.2 ∧ p.2 < m.cols) := by
  have := (List.mem_filter.mp hp).1
  exact (mem_scanOrder _ _ _ _).mp this

/-- What the index answers at any coordinate once the nodes are indexed. -/
theorem NodesIndexed.find_eq (s : MazeSolver) (L : List (Int × Int)) (inv : NodesIndexed s L)
    (r c : Int) :
    ((r, c) ∉ L ∧ HashMap.find (s.coordMap.table (HashMap.hash r c)) r c = -1) ∨
      ∃ k : Nat, L[k]? = some (r, c) ∧
        HashMap.find (s.coordMap.table (HashMap.hash r c)) r c = k := by
  by_cases h : (r, c) ∈ L
  · right
    obtain ⟨k, hk⟩ := List.getElem?_of_mem h
    exact ⟨k, hk, inv.index k (r, c) hk⟩
  · left
    exact ⟨h, inv.miss r c h⟩

theorem getElem?_inj_of_nodup {α : Type} (L : List α) (hnd : L.Nodup) (k k' : Nat) (p : α)
    (h : L[k]? = some p) (h' : L[k']? = some p) : k = k' := by
  have hk : k < L.length := by
    by_contra hge
    rw [List.getElem?_eq_none (by omega)] at h
    cases h
  have hk' : k' < L.length := by
    by_contra hge
    rw [List.getElem?_eq_none (by omega)] at h'
    cases h'
  rw [List.getElem?_eq_getElem hk] at h
  rw [List.getElem?_eq_getElem hk'] at h'
  injection h with h
  injection h' with h'
  exact (List.Nodup.getElem_inj_iff hnd).mp (h.trans h'.symm)

theorem MazeSolver.buildGraph_built (m : Maze) (u : Uninit) (s : MazeSolver)
    (hr : m.rows ≤ MAX_ROWS) (hc : m.cols ≤ MAX_COLS) (h : MazeSolver.buildGraph m u = .ok s) :
    Built m s := by
  obtain ⟨s0, h0, hm0, hadj0, inv0⟩ := MazeSolver.buildNodes_spec m u hr hc
  unfold MazeSolver.buildGraph at h
  rw [h0] at h
  simp only at h
  obtain ⟨b1, b2, b3, b4, b5, b6, b7, b8⟩ := MazeSolver.edgeLoop_spec _ _ _ h
  have inv : NodesIndexed s m.passableCells := by
    constructor
    · rw [b5]; exact inv0.count
    · rw [b6, b7]; exact inv0.coords
    · rw [b2]; exact inv0.index
    · rw [b2]; exact inv0.miss
    · rw [b1, b3]; exact inv0.startId
    · rw [b1, b4]; exact inv0.endId
  refine ⟨b1.trans hm0, inv, ?_, ?_⟩
  · intro k p hk
    rw [b8, hadj0, List.append_nil, b2]
    have hmem : p ∈ m.passableCells := List.getElem?_mem hk
    apply cellEdges_single _ _ _ _ (nodup_scanOrder _ _) (List.mem_filter.mp hmem).1
    · refine ⟨inv0.index k p hk, ?_⟩
      omega
    · rintro ⟨r, c⟩ _ hx
      rcases NodesIndexed.find_eq s0 _ inv0 r c with ⟨_, h1⟩ | ⟨k', h1, h2⟩
      · simp only at hx
        rw [h1] at hx
        omega
      · simp only at hx
        rw [h2] at hx
        have hkk : k' = k := by exact_mod_cast hx
        subst hkk
        rw [h1] at hk
        injection hk
  · intro n hn
    rw [b8, hadj0, List.append_nil]
    apply cellEdges_nil
    rintro ⟨r, c⟩ _ ⟨hx, hne⟩
    rcases NodesIndexed.find_eq s0 _ inv0 r c with ⟨_, h1⟩ | ⟨k', h1, h2⟩
    · simp only at hx
      rw [h1] at hx
      exact hne hx.symm
    · simp only at hx
      rw [h2] at hx
      have hk' : k' < m.passableCells.length := by
        by_contra hge
        rw [List.getElem?_eq_none (by omega)] at h1
        cases h1
      omega

theorem getElem?_lt {α : Type} (L : List α) (k : Nat) (p : α) (h : L[k]? = some p) :
    k < L.length := by
  by_contra hge
  rw [List.getElem?_eq_none (by omega)] at h
  cases h

theorem MazeSolver.edgeStep_exists (s : MazeSolver) (i j : Int) (hi : 0 ≤ i) (hj : 0 ≤ j)
    (hid : HashMap.find (s.coordMap.table (HashMap.hash i j)) i j ≠ -1 →
      (0 ≤ HashMap.find (s.coordMap.table (HashMap.hash i j)) i j ∧
        HashMap.find (s.coordMap.table (HashMap.hash i j)) i j < MAX_NODES) ∧ 1 ≤ i) :
    ∃ s', s.edgeStep i j = .ok s' := by
  unfold MazeSolver.edgeStep
  rw [HashMap.get_ok _ _ _ (HashMap.hash_inBounds i j hi hj)]
  simp only
  split
  · exact ⟨s, rfl⟩
  · rename_i hne
    obtain ⟨hk, h1⟩ := hid hne
    have hb : ∀ d ∈ MazeSolver.directions, 0 ≤ HashMap.hash (i + d.1) (j + d.2) ∧
        HashMap.hash (i + d.1) (j + d.2) < TABLE_SIZE := by
      intro d hd
      apply HashMap.hash_inBounds_of_nonneg
      simp only [MazeSolver.directions, List.mem_cons, List.mem_singleton, List.not_mem_nil,
        or_false] at hd
      rcases hd with rfl | rfl | rfl | rfl <;> simp only <;> omega
    obtain ⟨g, hg⟩ := MazeSolver.probeLoop_exists s.coordMap _ i j hk _ hb s.graph
    rw [hg]
    exact ⟨_, rfl⟩

theorem MazeSolver.edgeLoop_exists (cells : List (Int × Int)) :
    ∀ (s : MazeSolver), (∀ x ∈ cells, 0 ≤ x.1 ∧ 0 ≤ x.2) →
      (∀ x ∈ cells, HashMap.find (s.coordMap.table (HashMap.hash x.1 x.2)) x.1 x.2 ≠ -1 →
        (0 ≤ HashMap.find (s.coordMap.table (HashMap.hash x.1 x.2)) x.1 x.2 ∧
          HashMap.find (s.coordMap.table (HashMap.hash x.1 x.2)) x.1 x.2 < MAX_NODES) ∧ 1 ≤ x.1) →
      ∃ s', MazeSolver.edgeLoop s cells = .ok s' := by
  induction cells with
  | nil => intro s _ _; exact ⟨s, rfl⟩
  | cons x rest ih =>
    intro s hnn hid
    obtain ⟨i, j⟩ := x
    have hx := hnn (i, j) (List.mem_cons_self _ _)
    obtain ⟨s1, h1⟩ := MazeSolver.edgeStep_exists s i j hx.1 hx.2 (hid (i, j) (List.mem_cons_self _ _))
    have hcm := (MazeSolver.edgeStep_spec s s1 i j h1).2.1
    obtain ⟨s2, h2⟩ := ih s1 (fun y hy => hnn y (List.mem_cons_of_mem _ hy))
      (by rw [hcm]; exact fun y hy => hid y (List.mem_cons_of_mem _ hy))
    refine ⟨s2, ?_⟩
    simp only [MazeSolver.edgeLoop, h1]
    exact h2

/-- The second loop nest runs to completion when no passable cell lies in row 0
(the only cells whose upward probe `(-1, j)` hashes to a negative bucket index). -/
theorem MazeSolver.buildGraph_exists (m : Maze) (u : Uninit) (hr : m.rows ≤ MAX_ROWS)
    (hc : m.cols ≤ MAX_COLS) (hrow0 : ∀ c : Int, ¬ m.passable (0, c)) :
    ∃ s, MazeSolver.buildGraph m u = .ok s := by
  obtain ⟨s0, h0, hm0, hadj0, inv0⟩ := MazeSolver.buildNodes_spec m u hr hc
  unfold MazeSolver.buildGraph
  rw [h0]
  simp only
  apply MazeSolver.edgeLoop_exists
  · rintro ⟨r, c⟩ hx
    have := (mem_scanOrder _ _ _ _).mp hx
    exact ⟨this.1.1, this.2.1⟩
  · rintro ⟨r, c⟩ hx hne
    simp only at hne ⊢
    rcases NodesIndexed.find_eq s0 _ inv0 r c with ⟨_, h1⟩ | ⟨k, h1, h2⟩
    · exact absurd h1 hne
    · rw [h2]
      have hk := getElem?_lt _ _ _ h1
      have hcap := Maze.length_passableCells_le m hr hc
      have hpass := (Maze.mem_passableCells m (r, c)).mp (List.getElem?_mem h1)
      have hr0 := ((mem_scanOrder _ _ _ _).mp hx).1.1
      refine ⟨⟨by omega, by omega⟩, ?_⟩
      by_contra hlt
      have : r = 0 := by omega
      subst this
      exact hrow0 c hpass

theorem Built.nodesMatchGrid (m : Maze) (s : MazeSolver) (hr : m.rows ≤ MAX_ROWS)
    (hc : m.cols ≤ MAX_COLS) (hm : s.maze = m) (inv : NodesIndexed s m.passableCells) :
    NodesMatchGrid m s := by
  have hcap := Maze.length_passableCells_le m hr hc
  have hcoords : ∀ (k : Nat) (p : Int × Int), m.passableCells[k]? = some p →
      s.graph.getNodeCoords k = .ok p ∧ s.coordMap.get p.1 p.2 = .ok (k : Int) := by
    intro k p hk
    have hlt := getElem?_lt _ _ _ hk
    have hin := Maze.passableCells_inGrid m p (List.getElem?_mem hk)
    constructor
    · unfold Graph.getNodeCoords
      rw [if_pos ⟨by omega, by omega⟩]
      rw [(inv.coords k p hk).1, (inv.coords k p hk).2]
    · rw [HashMap.get_ok _ _ _ (HashMap.hash_inBounds _ _ hin.1.1 hin.2.1), inv.index k p hk]
  refine ⟨inv.count, hcoords, ?_, ?_, ?_, ?_⟩
  · intro p
    constructor
    · intro hp
      obtain ⟨k, hk⟩ := List.getElem?_of_mem ((Maze.mem_passableCells m p).mpr hp)
      refine ⟨k, ?_, (hcoords k p hk).1⟩
      have hlt := getElem?_lt _ _ _ hk
      unfold Graph.getNodeCount
      rw [inv.count]
      omega
    · rintro ⟨k, hk, hco⟩
      unfold Graph.getNodeCount at hk
      rw [inv.count] at hk
      have hlt : k < m.passableCells.length := by omega
      have hget : m.passableCells[k]? = some m.passableCells[k] := List.getElem?_eq_getElem hlt
      have := (hcoords k _ hget).1
      rw [this] at hco
      injection hco with hco
      rw [← hco]
      exact (Maze.mem_passableCells m _).mp (List.getElem?_mem hget)
  · intro r c h1 _ h2 _ hnp
    rw [HashMap.get_ok _ _ _ (HashMap.hash_inBounds _ _ h1 h2)]
    rw [inv.miss r c (fun hmem => hnp ((Maze.mem_passableCells m _).mp hmem))]
  · intro p hS huniq
    have hp : m.passable p := Or.inr (Or.inl hS)
    obtain ⟨k, hk⟩ := List.getElem?_of_mem ((Maze.mem_passableCells m p).mpr hp)
    rw [(hcoords k p hk).2]
    congr 1
    symm
    apply inv.startId k p hk (by rw [hm]; exact hS)
    intro k' p' hk' hS'
    rw [hm] at hS'
    have := huniq p' hS'
    subst this
    exact le_of_eq (getElem?_inj_of_nodup _ (Maze.nodup_passableCells m) _ _ _ hk' hk)
  · intro p hS huniq
    have hp : m.passable p := Or.inr (Or.inr hS)
    obtain ⟨k, hk⟩ := List.getElem?_of_mem ((Maze.mem_passableCells m p).mpr hp)
    rw [(hcoords k p hk).2]
    congr 1
    symm
    apply inv.endId k p hk (by rw [hm]; exact hS)
    intro k' p' hk' hS'
    rw [hm] at hS'
    have := huniq p' hS'
    subst this
    exact le_of_eq (getElem?_inj_of_nodup _ (Maze.nodup_passableCells m) _ _ _ hk' hk)

/-! ## Claim C8 -/

/-- C8: on every grid of at most 50 x 50 cells the node pass of `buildGraph` runs
to completion and leaves the passable cells (`' '`, `'S'`, `'E'`) as the nodes
`0 .. N-1` in row-major scan order: the `k`-th passable cell is node `k`,
`getNodeCoords k` is its `(row, col)`, the coordinate index maps it to `k` and
every in-grid wall to `-1`, and `startNode` / `endNode` are the ids of the `'S'` /
`'E'` cell.  The edge pass changes none of this: the same holds of every state
`buildGraph` returns. -/
theorem C8_nodes_are_passable_cells (m : Maze) (u : Uninit) (hr : m.rows ≤ MAX_ROWS)
    (hc : m.cols ≤ MAX_COLS) :
    ∃ s0, MazeSolver.buildNodes m u = .ok s0 ∧ NodesMatchGrid m s0 ∧
      ∀ s, MazeSolver.buildGraph m u = .ok s → NodesMatchGrid m s := by
  obtain ⟨s0, h0, hm0, _, inv0⟩ := MazeSolver.buildNodes_spec m u hr hc
  refine ⟨s0, h0, Built.nodesMatchGrid m s0 hr hc hm0 inv0, ?_⟩
  intro s hs
  have hb := MazeSolver.buildGraph_built m u s hr hc hs
  exact Built.nodesMatchGrid m s hr hc hb.maze hb.nodes

/-- C8 on the corridor maze `#S E#`: its three passable cells become nodes. -/
theorem C8_nodes_are_passable_cells_witness :
    corridorMaze.passableCells = [(1, 1), (1, 2), (1, 3)] ∧
    ∃ s0, MazeSolver.buildNodes corridorMaze zeroUninit = .ok s0 ∧ NodesMatchGrid corridorMaze s0 ∧
      ∀ s, MazeSolver.buildGraph corridorMaze zeroUninit = .ok s → NodesMatchGrid corridorMaze s :=
  ⟨by decide, C8_nodes_are_passable_cells corridorMaze zeroUninit (by decide) (by decide)⟩

/-! ## Edges of the built graph -/

theorem mem_probeEdges (cm : HashMap) (i j : Int) (dirs : List (Int × Int)) (e : AdjListNode) :
    e ∈ probeEdges cm i j dirs ↔ ∃ d ∈ dirs,
      HashMap.find (cm.table (HashMap.hash (i + d.1) (j + d.2))) (i + d.1) (j + d.2) ≠ -1 ∧
      e = { dest := HashMap.find (cm.table (HashMap.hash (i + d.1) (j + d.2))) (i + d.1) (j + d.2),
            weight := 1 } := by
  induction dirs with
  | nil => simp [probeEdges]
  | cons d rest ih =>
    obtain ⟨di, dj⟩ := d
    simp only [probeEdges]
    split
    · rename_i hne
      simp only [List.mem_cons, ih, exists_eq_or_imp]
      constructor
      · rintro (h | h)
        · exact Or.inl ⟨hne, h⟩
        · exact Or.inr h
      · rintro (⟨_, h⟩ | h)
        · exact Or.inl h
        · exact Or.inr h
    · rename_i hne
      simp only [List.mem_cons, ih, exists_eq_or_imp]
      constructor
      · intro h
        exact Or.inr h
      · rintro (⟨h, _⟩ | h)
        · exact absurd h hne
        · exact h

theorem adjacent4_iff_direction (p q : Int × Int) :
    adjacent4 p q ↔ ∃ d ∈ MazeSolver.directions, q = (p.1 + d.1, p.2 + d.2) := by
  obtain ⟨p1, p2⟩ := p
  obtain ⟨q1, q2⟩ := q
  simp only [adjacent4, MazeSolver.directions, List.mem_cons, List.mem_singleton,
    List.not_mem_nil, or_false, exists_eq_or_imp, exists_eq_left, Prod.mk.injEq]
  constructor
  · rintro (⟨h1, h2 | h2⟩ | ⟨h1, h2 | h2⟩) <;> omega
  · rintro (⟨h1, h2⟩ | ⟨h1, h2⟩ | ⟨h1, h2⟩ | ⟨h1, h2⟩) <;> omega

theorem adjacent4_symm (p q : Int × Int) (h : adjacent4 p q) : adjacent4 q p := by
  unfold adjacent4 at h ⊢
  omega

/-- Every entry of an adjacency list of a built graph: weight 1, from the node of a
passable cell to the node of a 4-adjacent passable cell. -/
theorem Built.edge_props (m : Maze) (s : MazeSolver) (hb : Built m s) (a : Int) (e : AdjListNode)
    (he : e ∈ s.graph.adjList a) :
    e.weight = 1 ∧ ∃ (k k' : Nat) (p q : Int × Int), a = k ∧ e.dest = k' ∧
      m.passableCells[k]? = some p ∧ m.passableCells[k']? = some q ∧ adjacent4 p q := by
  by_cases hout : a < 0 ∨ (m.passableCells.length : Int) ≤ a
  · rw [hb.noAdj a hout] at he
    cases he
  · have ha : 0 ≤ a ∧ a < m.passableCells.length := by omega
    obtain ⟨k, rfl⟩ := Int.eq_ofNat_of_zero_le ha.1
    have hk : k < m.passableCells.length := by omega
    have hget : m.passableCells[k]? = some m.passableCells[k] := List.getElem?_eq_getElem hk
    rw [hb.adj k _ hget, List.mem_reverse, mem_probeEdges] at he
    obtain ⟨d, hd, hne, rfl⟩ := he
    refine ⟨rfl, ?_⟩
    rcases NodesIndexed.find_eq s _ hb.nodes (m.passableCells[k].1 + d.1) (m.passableCells[k].2 + d.2)
      with ⟨_, h1⟩ | ⟨k', h1, h2⟩
    · exact absurd h1 hne
    · exact ⟨k, k', _, _, rfl, h2, hget, h1, (adjacent4_iff_direction _ _).mpr ⟨d, hd, rfl⟩⟩

theorem Built.edge_of_adjacent (m : Maze) (s : MazeSolver) (hb : Built m s) (k k' : Nat)
    (p q : Int × Int) (hk : m.passableCells[k]? = some p) (hk' : m.passableCells[k']? = some q)
    (hadj : adjacent4 p q) : s.Edge k k' := by
  obtain ⟨d, hd, rfl⟩ := (adjacent4_iff_direction _ _).mp hadj
  have hfind := hb.nodes.index k' _ hk'
  simp only at hfind
  refine ⟨{ dest := k', weight := 1 }, ?_, rfl⟩
  rw [hb.adj k p hk, List.mem_reverse, mem_probeEdges]
  refine ⟨d, hd, ?_, ?_⟩
  · rw [hfind]
    omega
  · rw [hfind]

theorem Built.edge_iff (m : Maze) (s : MazeSolver) (hb : Built m s) (k k' : Nat)
    (p q : Int × Int) (hk : m.passableCells[k]? = some p) (hk' : m.passableCells[k']? = some q) :
    s.Edge k k' ↔ adjacent4 p q := by
  constructor
  · rintro ⟨e, he, hdest⟩
    obtain ⟨_, k1, k2, p1, q1, h1, h2, h3, h4, h5⟩ := Built.edge_props m s hb _ e he
    have e1 : k1 = k := by exact_mod_cast h1.symm
    have e2 : k2 = k' := by
      rw [hdest] at h2
      exact_mod_cast h2.symm
    subst e1 e2
    rw [hk] at h3
    rw [hk'] at h4
    injection h3 with h3
    injection h4 with h4
    subst h3 h4
    exact h5
  · exact Built.edge_of_adjacent m s hb k k' p q hk hk'

/-! ## Claim C9 -/

/-- C9: in every state `buildGraph` returns for a grid of at most 50 x 50 cells,
node `a` has an edge to node `b` exactly when their cells are 4-adjacent; every
stored edge has weight 1, starts at a node and ends at a valid node id, both being
passable cells (never walls); and the edge relation is symmetric. -/
theorem C9_edges_iff_adjacent (m : Maze) (u : Uninit) (s : MazeSolver) (hr : m.rows ≤ MAX_ROWS)
    (hc : m.cols ≤ MAX_COLS) (h : MazeSolver.buildGraph m u = .ok s) :
    (∀ (a b : Int) (p q : Int × Int), 0 ≤ a → a < s.graph.getNodeCount → 0 ≤ b →
      b < s.graph.getNodeCount → s.graph.getNodeCoords a = .ok p →
      s.graph.getNodeCoords b = .ok q → (s.Edge a b ↔ adjacent4 p q)) ∧
    (∀ (a : Int) (e : AdjListNode), e ∈ s.graph.adjList a →
      e.weight = 1 ∧ (0 ≤ e.dest ∧ e.dest < s.graph.getNodeCount) ∧
      (0 ≤ a ∧ a < s.graph.getNodeCount) ∧
      ∃ p q : Int × Int, s.graph.getNodeCoords a = .ok p ∧ s.graph.getNodeCoords e.dest = .ok q ∧
        m.passable p ∧ m.passable q) ∧
    (∀ a b : Int, s.Edge a b ↔ s.Edge b a) := by
  have hb := MazeSolver.buildGraph_built m u s hr hc h
  have hng := Built.nodesMatchGrid m s hr hc hb.maze hb.nodes
  obtain ⟨hcount, hcoords, _, _, _, _⟩ := hng
  have hsymm : ∀ a b : Int, s.Edge a b → s.Edge b a := by
    rintro a b ⟨e, he, hdest⟩
    obtain ⟨_, k, k', p, q, h1, h2, h3, h4, h5⟩ := Built.edge_props m s hb a e he
    rw [hdest] at h2
    subst h1 h2
    exact Built.edge_of_adjacent m s hb k' k q p h4 h3 (adjacent4_symm _ _ h5)
  refine ⟨?_, ?_, fun a b => ⟨hsymm a b, hsymm b a⟩⟩
  · intro a b p q ha0 ha hb0 hb' hpa hqb
    rw [hcount] at ha hb'
    obtain ⟨k, rfl⟩ := Int.eq_ofNat_of_zero_le ha0
    obtain ⟨k', rfl⟩ := Int.eq_ofNat_of_zero_le hb0
    have hk : k < m.passableCells.length := by omega
    have hk' : k' < m.passableCells.length := by omega
    have hget : m.passableCells[k]? = some m.passableCells[k] := List.getElem?_eq_getElem hk
    have hget' : m.passableCells[k']? = some m.passableCells[k'] := List.getElem?_eq_getElem hk'
    rw [(hcoords k _ hget).1] at hpa
    rw [(hcoords k' _ hget').1] at hqb
    injection hpa with hpa
    injection hqb with hqb
    rw [← hpa, ← hqb]
    exact Built.edge_iff m s hb k k' _ _ hget hget'
  · intro a e he
    obtain ⟨hw, k, k', p, q, h1, h2, h3, h4, _⟩ := Built.edge_props m s hb a e he
    have hk := getElem?_lt _ _ _ h3
    have hk' := getElem?_lt _ _ _ h4
    rw [hcount, h1, h2]
    refine ⟨hw, ⟨by omega, by omega⟩, ⟨by omega, by omega⟩, p, q, (hcoords k p h3).1,
      (hcoords k' q h4).1, ?_, ?_⟩
    · exact (Maze.mem_passableCells m p).mp (List.getElem?_mem h3)
    · exact (Maze.mem_passableCells m q).mp (List.getElem?_mem h4)

theorem Except.exists_of_isOk {ε α : Type} (x : Except ε α) (h : x.isOk = true) :
    ∃ a, x = .ok a := by
  cases x with
  | error e => cases h
  | ok a => exact ⟨a, rfl⟩

theorem corridorMaze_builds : ∃ s, MazeSolver.buildGraph corridorMaze zeroUninit = .ok s :=
  Except.exists_of_isOk _ (by decide)

/-- C9 on the corridor maze `#S E#`: node 0 (the `S` cell) has an edge to node 1 and
none to node 2. -/
theorem C9_edges_iff_adjacent_witness :
    ∃ s, MazeSolver.buildGraph corridorMaze zeroUninit = .ok s ∧ s.Edge 0 1 ∧ ¬ s.Edge 0 2 := by
  obtain ⟨s, hs⟩ := corridorMaze_builds
  have hb := MazeSolver.buildGraph_built corridorMaze zeroUninit s (by decide) (by decide) hs
  obtain ⟨hcount, hcoords, _⟩ := Built.nodesMatchGrid corridorMaze s (by decide) (by decide)
    hb.maze hb.nodes
  have hn : s.graph.getNodeCount = 3 := by rw [hcount]; decide
  have h0 := (hcoords 0 (1, 1) (by decide)).1
  have h1 := (hcoords 1 (1, 2) (by decide)).1
  have h2 := (hcoords 2 (1, 3) (by decide)).1
  have key := (C9_edges_iff_adjacent corridorMaze zeroUninit s (by decide) (by decide) hs).1
  refine ⟨s, hs, ?_, ?_⟩
  · exact (key 0 1 (1, 1) (1, 2) (by decide) (by rw [hn]; decide) (by decide) (by rw [hn]; decide)
      h0 h1).mpr (by decide)
  · intro he
    exact absurd ((key 0 2 (1, 1) (1, 3) (by decide) (by rw [hn]; decide) (by decide)
      (by rw [hn]; decide) h0 h2).mp he) (by decide)

/-! ## Path reconstruction -/

theorem StackArray.toList_push (s : StackArray) (v : Int) (hlo : -1 ≤ s.top)
    (hcap : s.top + 1 < MAX_NODES) :
    (s.push v).toList = v :: s.toList ∧ (s.push v).top = s.top + 1 := by
  have h1 : s.top < MAX_NODES - 1 := by omega
  have htop : (s.push v).top = s.top + 1 := by simp [StackArray.push, h1]
  refine ⟨?_, htop⟩
  rw [StackArray.toList_of_nonneg (s.push v) (by omega)]
  congr 1
  · simp [StackArray.push, h1, store]
  · apply StackArray.toList_eq_of_agree
    · simp [StackArray.push, h1]
    · intro i _ hi
      have hi' : i ≤ s.top := by
        simpa [StackArray.push, h1] using hi
      have hne : i ≠ s.top + 1 := by omega
      simp [StackArray.push, h1, store, hne]

theorem MazeSolver.chainLoop_spec (parent : Int → Int) (v : Int) (l : List Int)
    (hc : ParentChain parent v l) :
    ∀ (fuel : Nat) (st : StackArray), (∀ x ∈ l, 0 ≤ x ∧ x < MAX_NODES) → l.length + 1 ≤ fuel →
      -1 ≤ st.top → st.top + 1 + l.length ≤ MAX_NODES →
      ∃ st', MazeSolver.chainLoop parent fuel v st = .ok st' ∧
        st'.toList = l.reverse ++ st.toList ∧ st'.top = st.top + l.length := by
  induction hc with
  | @root v hv hp =>
    intro fuel st hb hf hlo hcap
    obtain ⟨f1, rfl⟩ : ∃ f1, fuel = f1 + 1 := ⟨fuel - 1, by simp at hf; omega⟩
    obtain ⟨f2, rfl⟩ : ∃ f2, f1 = f2 + 1 := ⟨f1 - 1, by simp at hf; omega⟩
    have hbv := hb v (List.mem_singleton_self v)
    simp only [List.length_singleton, Nat.cast_one] at hcap
    obtain ⟨h1, h2⟩ := StackArray.toList_push st v hlo (by omega)
    refine ⟨st.push v, ?_, ?_, ?_⟩
    · simp only [MazeSolver.chainLoop, hv, ne_eq, not_false_eq_true, if_true, hbv, and_self, hp,
        not_true_eq_false, if_false]
    · simp [h1]
    · simp [h2]
  | @step v l hv hp _ ih =>
    intro fuel st hb hf hlo hcap
    obtain ⟨f1, rfl⟩ : ∃ f1, fuel = f1 + 1 := ⟨fuel - 1, by simp at hf; omega⟩
    have hbv := hb v (List.mem_cons_self _ _)
    simp only [List.length_cons, Nat.cast_add, Nat.cast_one] at hcap
    obtain ⟨h1, h2⟩ := StackArray.toList_push st v hlo (by omega)
    obtain ⟨st', e1, e2, e3⟩ := ih f1 (st.push v) (fun x hx => hb x (List.mem_cons_of_mem _ hx))
      (by simp at hf ⊢; omega) (by omega) (by omega)
    refine ⟨st', ?_, ?_, ?_⟩
    · simp only [MazeSolver.chainLoop, hv, ne_eq, not_false_eq_true, if_true, hbv, and_self]
      exact e1
    · rw [e2, h1]
      simp
    · rw [e3, h2]
      simp only [List.length_cons, Nat.cast_add, Nat.cast_one]
      omega

theorem MazeSolver.emitLoop_spec (g : Graph) (l : List Int) :
    ∀ (fuel : Nat) (st : StackArray) (path : Int → Int) (pathLen : Int),
      st.toList = l → -1 ≤ st.top → (∀ x ∈ l, 0 ≤ x ∧ x < MAX_NODES) → l.length + 1 ≤ fuel →
      ∃ path', MazeSolver.emitLoop g fuel st path pathLen = .ok (path', pathLen + l.length) ∧
        (∀ (i : Nat) (v : Int), l[i]? = some v →
          path' (pathLen + i) = g.nodeRows v * MAX_COLS + g.nodeCols v) ∧
        (∀ j : Int, j < pathLen → path' j = path j) := by
  induction l with
  | nil =>
    intro fuel st path pathLen hl hlo _ hf
    obtain ⟨f1, rfl⟩ : ∃ f1, fuel = f1 + 1 := ⟨fuel - 1, by simp at hf; omega⟩
    have hempty : st.isEmpty = true := by
      simp only [StackArray.isEmpty, decide_eq_true_eq]
      exact (StackArray.toList_eq_nil_iff st hlo).mp hl
    refine ⟨path, ?_, ?_, fun _ _ => rfl⟩
    · simp [MazeSolver.emitLoop, hempty]
    · intro i v h
      simp at h
  | cons x rest ih =>
    intro fuel st path pathLen hl hlo hb hf
    obtain ⟨f1, rfl⟩ : ∃ f1, fuel = f1 + 1 := ⟨fuel - 1, by simp at hf; omega⟩
    have hne : st.top ≠ -1 := by
      intro h
      rw [(StackArray.toList_eq_nil_iff st hlo).mpr h] at hl
      cases hl
    have hge : st.top ≥ 0 := by omega
    have hempty : st.isEmpty = false := by
      simp only [StackArray.isEmpty, decide_eq_false_iff_not]
      exact hne
    have hpop := StackArray.toList_of_nonneg st hge
    rw [hl] at hpop
    injection hpop with hx hrest
    have hpop1 : st.pop.1 = x := by
      simp only [StackArray.pop, hge, if_true]
      exact hx.symm
    have hpop2 : st.pop.2 = { st with top := st.top - 1 } := by
      simp only [StackArray.pop, hge, if_true]
    have hbx := hb x (List.mem_cons_self _ _)
    obtain ⟨path', e1, e2, e3⟩ := ih f1 st.pop.2
      (store path pathLen (g.nodeRows x * MAX_COLS + g.nodeCols x)) (pathLen + 1)
      (by rw [hpop2]; exact hrest.symm) (by rw [hpop2]; simp only; omega)
      (fun y hy => hb y (List.mem_cons_of_mem _ hy)) (by simp at hf ⊢; omega)
    refine ⟨path', ?_, ?_, ?_⟩
    · simp only [MazeSolver.emitLoop, hempty, Bool.false_eq_true, if_false, hpop1,
        Graph.getNodeCoords, hbx, and_self, if_true]
      rw [e1]
      simp only [List.length_cons, Nat.cast_add, Nat.cast_one]
      congr 2
      omega
    · intro i v hi
      cases i with
      | zero =>
        simp only [List.getElem?_cons_zero, Option.some.injEq] at hi
        subst hi
        simp only [Nat.cast_zero, add_zero]
        rw [e3 pathLen (by omega)]
        simp [store]
      | succ i =>
        simp only [List.getElem?_cons_succ] at hi
        have := e2 i v hi
        simp only [Nat.cast_add, Nat.cast_one]
        rw [← this]
        congr 1
        omega
    · intro j hj
      rw [e3 j (by omega)]
      have : j ≠ pathLen := by omega
      simp [store, this]

/-- On a parent chain `l` that starts at `endNode`, `reconstructPath` returns
`l.length` and fills `path` with the linearised coordinates of `l` reversed. -/
theorem MazeSolver.reconstructPath_spec (s : MazeSolver) (stack0 parent path : Int → Int)
    (fuel : Nat) (l : List Int) (hc : ParentChain parent s.endNode l)
    (hb : ∀ x ∈ l, 0 ≤ x ∧ x < MAX_NODES) (hlen : (l.length : Int) ≤ MAX_NODES)
    (hf : l.length + 1 ≤ fuel) :
    ∃ path', s.reconstructPath stack0 fuel parent path = .ok (path', l.length) ∧
      ∀ (i : Nat) (v : Int), l.reverse[i]? = some v → path' i = s.linear v := by
  obtain ⟨st, e1, e2, e3⟩ := MazeSolver.chainLoop_spec parent s.endNode l hc fuel
    (StackArray.init stack0) hb hf (by simp [StackArray.init])
    (by simp only [StackArray.init]; omega)
  have hnil : (StackArray.init stack0).toList = [] := by
    simp [StackArray.toList, StackArray.init]
  rw [hnil, List.append_nil] at e2
  obtain ⟨path', f1, f2, _⟩ := MazeSolver.emitLoop_spec s.graph l.reverse fuel st path 0 e2
    (by rw [e3]; simp only [StackArray.init]; omega)
    (fun x hx => hb x (List.mem_reverse.mp hx)) (by simpa using hf)
  refine ⟨path', ?_, ?_⟩
  · unfold MazeSolver.reconstructPath
    rw [e1]
    simp only
    rw [f1]
    simp
  · intro i v hi
    have := f2 i v hi
    simpa [MazeSolver.linear] using this

/-! ## Parent trees -/

theorem length_le_of_nodup_valid (l : List Int) (n : Int) (hn : 0 ≤ n) (hnd : l.Nodup)
    (hv : ∀ x ∈ l, 0 ≤ x ∧ x < n) : (l.length : Int) ≤ n := by
  have h1 : (l.map Int.toNat).Nodup := by
    apply List.Nodup.map_on _ hnd
    intro a ha b hb hab
    have := hv a ha
    have := hv b hb
    omega
  have h2 : l.map Int.toNat ⊆ List.range n.toNat := by
    intro x hx
    obtain ⟨a, ha, rfl⟩ := List.mem_map.mp hx
    have := hv a ha
    exact List.mem_range.mpr (by omega)
  have h3 := (List.Nodup.subperm h1 h2).length_le
  simp only [List.length_map, List.length_range] at h3
  omega

theorem TreeInv.chain (s : MazeSolver) (ms : Marks) (d : Int → Nat) (inv : TreeInv s ms d) :
    ∀ (n : Nat) (v : Int), ms.visited v = true → d v = n →
      ∃ l, ParentChain ms.parent v l ∧ l.length = n + 1 ∧ (∀ x ∈ l, ms.visited x = true) ∧
        l.head? = some v ∧ l.getLast? = some s.startNode ∧
        List.Chain' (fun a b => s.Edge b a) l ∧ (∀ x ∈ l, d x ≤ n) ∧
        List.Pairwise (fun a b => d b < d a) l := by
  intro n
  induction n with
  | zero =>
    intro v hv hd
    have hvs : v = s.startNode := by
      by_contra hne
      have := (inv.step v hv hne).2.2
      omega
    subst hvs
    refine ⟨[s.startNode], ParentChain.root ?_ inv.rootParent, rfl, ?_, rfl, rfl,
      List.chain'_singleton _, ?_, List.pairwise_singleton _ _⟩
    · have := (inv.valid _ hv).1
      omega
    · intro x hx
      rw [List.mem_singleton.mp hx]
      exact hv
    · intro x hx
      rw [List.mem_singleton.mp hx]
      omega
  | succ n ih =>
    intro v hv hd
    have hne : v ≠ s.startNode := by
      rintro rfl
      have := inv.rootDepth
      omega
    obtain ⟨hpv, hedge, hdep⟩ := inv.step v hv hne
    obtain ⟨l, c1, c2, c3, c4, c5, c6, c7, c8⟩ := ih (ms.parent v) hpv (by omega)
    have hvalid := inv.valid v hv
    have hpvalid := inv.valid _ hpv
    refine ⟨v :: l, ParentChain.step (by omega) (by omega) c1, by simp [c2], ?_, rfl, ?_, ?_, ?_, ?_⟩
    · intro x hx
      rcases List.mem_cons.mp hx with rfl | hx
      · exact hv
      · exact c3 x hx
    · cases l with
      | nil => simp at c2
      | cons y l' => simpa using c5
    · apply List.Chain'.cons' c6
      intro y hy
      rw [c4] at hy
      cases hy
      exact hedge
    · intro x hx
      rcases List.mem_cons.mp hx with rfl | hx
      · omega
      · have := c7 x hx
        omega
    · apply List.Pairwise.cons _ c8
      intro x hx
      have := c7 x hx
      omega

/-- With a parent tree in which `endNode` is visited, `reconstructPath` returns a
path from `startNode` to `endNode` of `d endNode` edges. -/
theorem TreeInv.reconstruct (s : MazeSolver) (ms : Marks) (d : Int → Nat)
    (inv : TreeInv s ms d) (hcount : s.graph.nodeCount ≤ MAX_NODES)
    (hend : ms.visited s.endNode = true) (stack0 path : Int → Int) (fuel : Nat)
    (hf : s.graph.nodeCount + 1 ≤ fuel) :
    ∃ path' nodes, s.reconstructPath stack0 fuel ms.parent path = .ok (path', (nodes.length : Int)) ∧
      (∀ (i : Nat) (v : Int), nodes[i]? = some v → path' i = s.linear v) ∧
      s.IsPath nodes ∧ nodes.length = d s.endNode + 1 ∧
      (∀ x ∈ nodes, 0 ≤ x ∧ x < s.graph.nodeCount) := by
  obtain ⟨l, c1, c2, c3, c4, c5, c6, _, c8⟩ := TreeInv.chain s ms d inv _ s.endNode hend rfl
  have hvalid : ∀ x ∈ l, 0 ≤ x ∧ x < s.graph.nodeCount := fun x hx => inv.valid x (c3 x hx)
  have hnd : l.Nodup := by
    apply List.Pairwise.imp _ c8
    intro a b hab heq
    rw [heq] at hab
    exact lt_irrefl _ hab
  have hlen := length_le_of_nodup_valid l _ (by have := inv.valid _ hend; omega) hnd hvalid
  obtain ⟨path', e1, e2⟩ := MazeSolver.reconstructPath_spec s stack0 ms.parent path fuel l c1
    (fun x hx => ⟨(hvalid x hx).1, by have := (hvalid x hx).2; omega⟩) (by omega) (by omega)
  refine ⟨path', l.reverse, by simpa using e1, e2, ⟨?_, ?_, ?_, ?_⟩, by simp [c2], ?_⟩
  · simpa using c5
  · simpa using c4
  · rw [List.chain'_reverse]
    exact c6
  · exact List.nodup_reverse.mpr hnd
  · intro x hx
    exact hvalid x (List.mem_reverse.mp hx)

/-! ## Breadth-first search -/

/-- While `curr` is being expanded, every node within `d curr` steps of the start is
already visited. -/
theorem BFSInv.near_visited (s : MazeSolver) (ms : Marks) (curr : Int) (items : List Int)
    (d : Int → Nat) (done : List Int) (inv : BFSInv s ms [curr] items d done) :
    ∀ (n : Nat) (x : Int), s.Walk s.startNode n x → n ≤ d curr → ms.visited x = true := by
  intro n x hw
  induction hw with
  | refl => intro _; exact inv.startV
  | @step b x n hw hedge ih =>
    intro hn
    have hb := ih (by omega)
    have hdb := inv.minimal b hb n hw
    have hnotF : b ∉ [curr] ++ items := by
      intro hmem
      have hs := inv.sorted
      simp only [List.singleton_append, List.pairwise_cons] at hs
      rcases List.mem_cons.mp hmem with rfl | hmem
      · omega
      · have := hs.1 b hmem
        omega
    have hdone : b ∈ done := (inv.doneIff b).mpr ⟨hb, hnotF⟩
    exact inv.closed b hdone x hedge

/-- One newly discovered neighbour `w` of `curr` keeps the invariant. -/
theorem BFSInv.discover (s : MazeSolver) (wf : s.WellFormed) (ms : Marks) (curr : Int)
    (items : List Int) (d : Int → Nat) (done : List Int)
    (inv : BFSInv s ms [curr] items d done) (w : Int) (hedge : s.Edge curr w)
    (hw : ms.visited w = false) :
    BFSInv s { ms with visited := store ms.visited w true, parent := store ms.parent w curr }
      [curr] (items ++ [w]) (fun v => if v = w then d curr + 1 else d v) done := by
  have hcv : ms.visited curr = true := inv.frontV curr (by simp)
  have hcw : curr ≠ w := by
    rintro rfl
    rw [hw] at hcv
    cases hcv
  have hsw : s.startNode ≠ w := by
    intro h
    have := inv.startV
    rw [h, hw] at this
    cases this
  have hvis : ∀ v, store ms.visited w true v = true ↔ (v = w ∨ ms.visited v = true) := by
    intro v
    by_cases hv : v = w
    · simp [store, hv]
    · simp [store, hv]
  have hFw : ∀ x ∈ [curr] ++ items, x ≠ w := by
    intro x hx hxw
    have := inv.frontV x hx
    rw [hxw, hw] at this
    cases this
  have hlo : ∀ x ∈ [curr] ++ items, d curr ≤ d x := by
    intro x hx
    have hs := inv.sorted
    simp only [List.singleton_append, List.pairwise_cons] at hs
    rcases List.mem_cons.mp hx with rfl | hx
    · exact le_refl _
    · exact hs.1 x hx
  have hhi : ∀ x ∈ [curr] ++ items, d x ≤ d curr + 1 :=
    fun x hx => inv.level curr (by simp) x hx
  have hedge' := hedge
  obtain ⟨e, he, hdest⟩ := hedge'
  have hwvalid : 0 ≤ w ∧ w < s.graph.nodeCount := by
    rw [← hdest]
    exact wf.destValid curr e he
  constructor
  · constructor
    · intro v hv
      rcases (hvis v).mp hv with rfl | hv
      · exact hwvalid
      · exact inv.tree.valid v hv
    · show store ms.parent w curr s.startNode = -1
      rw [store_other _ _ _ _ hsw]
      exact inv.tree.rootParent
    · show (if s.startNode = w then d curr + 1 else d s.startNode) = 0
      rw [if_neg hsw]
      exact inv.tree.rootDepth
    · intro v hv hvs
      show store ms.visited w true (store ms.parent w curr v) = true ∧
        s.Edge (store ms.parent w curr v) v ∧
        (if v = w then d curr + 1 else d v) =
          (if store ms.parent w curr v = w then d curr + 1 else d (store ms.parent w curr v)) + 1
      rcases (hvis v).mp hv with rfl | hv'
      · rw [store_same, if_pos rfl, if_neg hcw]
        exact ⟨(hvis curr).mpr (Or.inr hcv), hedge, rfl⟩
      · have hvw : v ≠ w := by
          rintro rfl
          rw [hw] at hv'
          cases hv'
        obtain ⟨h1, h2, h3⟩ := inv.tree.step v hv' hvs
        have hpw : ms.parent v ≠ w := by
          intro h
          rw [h, hw] at h1
          cases h1
        rw [store_other _ _ _ _ hvw, if_neg hvw, if_neg hpw]
        exact ⟨(hvis _).mpr (Or.inr h1), h2, h3⟩
    · intro v hv
      show s.Walk s.startNode (if v = w then d curr + 1 else d v) v
      rcases (hvis v).mp hv with rfl | hv'
      · rw [if_pos rfl]
        exact MazeSolver.Walk.step (inv.tree.walk curr hcv) hedge
      · have hvw : v ≠ w := by
          rintro rfl
          rw [hw] at hv'
          cases hv'
        rw [if_neg hvw]
        exact inv.tree.walk v hv'
  · exact (hvis _).mpr (Or.inr inv.startV)
  · intro v hv n hwalk
    show (if v = w then d curr + 1 else d v) ≤ n
    rcases (hvis v).mp hv with rfl | hv'
    · rw [if_pos rfl]
      by_contra hlt
      have := BFSInv.near_visited s ms curr items d done inv n v hwalk (by omega)
      rw [hw] at this
      cases this
    · have hvw : v ≠ w := by
        rintro rfl
        rw [hw] at hv'
        cases hv'
      rw [if_neg hvw]
      exact inv.minimal v hv' n hwalk
  · intro x hx
    rw [← List.append_assoc] at hx
    rcases List.mem_append.mp hx with hx | hx
    · exact (hvis x).mpr (Or.inr (inv.frontV x hx))
    · exact (hvis x).mpr (Or.inl (List.mem_singleton.mp hx))
  · rw [← List.append_assoc]
    apply List.Nodup.append inv.frontND (List.nodup_singleton w)
    intro x hx hxw
    exact hFw x hx (List.mem_singleton.mp hxw)
  · rw [← List.append_assoc, List.pairwise_append]
    refine ⟨?_, List.pairwise_singleton _ _, ?_⟩
    · apply List.Pairwise.imp_of_mem _ inv.sorted
      intro a b ha hb hab
      show (if a = w then d curr + 1 else d a) ≤ (if b = w then d curr + 1 else d b)
      rw [if_neg (hFw a ha), if_neg (hFw b hb)]
      exact hab
    · intro a ha b hb
      rw [List.mem_singleton.mp hb]
      show (if a = w then d curr + 1 else d a) ≤ (if w = w then d curr + 1 else d w)
      rw [if_neg (hFw a ha), if_pos rfl]
      exact hhi a ha
  · have hrange : ∀ x ∈ [curr] ++ (items ++ [w]),
        d curr ≤ (if x = w then d curr + 1 else d x) ∧
          (if x = w then d curr + 1 else d x) ≤ d curr + 1 := by
      intro x hx
      rw [← List.append_assoc] at hx
      rcases List.mem_append.mp hx with hx | hx
      · rw [if_neg (hFw x hx)]
        exact ⟨hlo x hx, hhi x hx⟩
      · rw [if_pos (List.mem_singleton.mp hx)]
        omega
    intro x hx y hy
    have h1 := hrange x hx
    have h2 := hrange y hy
    show (if y = w then d curr + 1 else d y) ≤ (if x = w then d curr + 1 else d x) + 1
    omega
  · exact inv.doneND
  · intro v
    rw [inv.doneIff v, ← List.append_assoc]
    constructor
    · rintro ⟨h1, h2⟩
      have hvw : v ≠ w := by
        rintro rfl
        rw [hw] at h1
        cases h1
      refine ⟨(hvis v).mpr (Or.inr h1), ?_⟩
      intro hmem
      rcases List.mem_append.mp hmem with h | h
      · exact h2 h
      · exact hvw (List.mem_singleton.mp h)
    · rintro ⟨h1, h2⟩
      have hvw : v ≠ w := by
        rintro rfl
        exact h2 (List.mem_append_right _ (List.mem_singleton_self _))
      rcases (hvis v).mp h1 with h | h
      · exact absurd h hvw
      · exact ⟨h, fun hmem => h2 (List.mem_append_left _ hmem)⟩
  · intro u hu x hux
    exact (hvis x).mpr (Or.inr (inv.closed u hu x hux))
  · exact inv.notEnd
  · exact inv.count

theorem BFSInv.scan (s : MazeSolver) (wf : s.WellFormed) (curr : Int) (done : List Int)
    (adj : List AdjListNode) :
    ∀ (ms : Marks) (items : List Int) (d : Int → Nat), BFSInv s ms [curr] items d done →
      (∀ e ∈ adj, e ∈ s.graph.adjList curr) →
      ∃ ms' items' d', MazeSolver.bfsScan curr adj ms { items := items } = .ok (ms', { items := items' }) ∧
        BFSInv s ms' [curr] items' d' done ∧
        (∀ v, ms.visited v = true → ms'.visited v = true) ∧
        (∀ e ∈ adj, ms'.visited e.dest = true) := by
  induction adj with
  | nil =>
    intro ms items d inv _
    exact ⟨ms, items, d, rfl, inv, fun _ h => h, fun _ h => by cases h⟩
  | cons e rest ih =>
    intro ms items d inv hsub
    have he := hsub e (List.mem_cons_self _ _)
    have hsub' : ∀ x ∈ rest, x ∈ s.graph.adjList curr :=
      fun x hx => hsub x (List.mem_cons_of_mem _ hx)
    have hvalid := wf.destValid curr e he
    have hb : 0 ≤ e.dest ∧ e.dest < MAX_NODES := ⟨hvalid.1, by have := wf.countLe; omega⟩
    by_cases hv : ms.visited e.dest = false
    · have inv1 := BFSInv.discover s wf ms curr items d done inv e.dest ⟨e, he, rfl⟩ hv
      obtain ⟨ms', items', d', h1, h2, h3, h4⟩ := ih _ _ _ inv1 hsub'
      refine ⟨ms', items', d', ?_, h2, ?_, ?_⟩
      · simp only [MazeSolver.bfsScan, hb, and_self, if_true, hv]
        exact h1
      · intro v hvis
        apply h3
        show store ms.visited e.dest true v = true
        by_cases hve : v = e.dest
        · simp [store, hve]
        · simp [store, hve, hvis]
      · intro x hx
        rcases List.mem_cons.mp hx with rfl | hx
        · apply h3
          show store ms.visited x.dest true x.dest = true
          simp [store]
        · exact h4 x hx
    · obtain ⟨ms', items', d', h1, h2, h3, h4⟩ := ih ms items d inv hsub'
      have hv' : ms.visited e.dest = true := by
        cases hvis : ms.visited e.dest with
        | false => exact absurd hvis hv
        | true => rfl
      refine ⟨ms', items', d', ?_, h2, h3, ?_⟩
      · simp only [MazeSolver.bfsScan, hb, and_self, if_true, hv', Bool.true_eq_false, if_false]
        exact h1
      · intro x hx
        rcases List.mem_cons.mp hx with rfl | hx
        · exact h3 _ hv'
        · exact h4 x hx

theorem TreeInv.congr (s : MazeSolver) (ms ms' : Marks) (d : Int → Nat) (inv : TreeInv s ms d)
    (hv : ms'.visited = ms.visited) (hp : ms'.parent = ms.parent) : TreeInv s ms' d := by
  constructor
  · rw [hv]; exact inv.valid
  · rw [hp]; exact inv.rootParent
  · exact inv.rootDepth
  · rw [hv, hp]; exact inv.step
  · rw [hv]; exact inv.walk

theorem BFSInv.dequeue (s : MazeSolver) (ms : Marks) (curr : Int) (rest : List Int)
    (d : Int → Nat) (done : List Int) (inv : BFSInv s ms [] (curr :: rest) d done) :
    BFSInv s { ms with nodesVisited := ms.nodesVisited + 1 } [curr] rest d done := by
  constructor
  · exact TreeInv.congr s ms _ d inv.tree rfl rfl
  · exact inv.startV
  · exact inv.minimal
  · exact inv.frontV
  · exact inv.frontND
  · exact inv.sorted
  · exact inv.level
  · exact inv.doneND
  · exact inv.doneIff
  · exact inv.closed
  · exact inv.notEnd
  · show ms.nodesVisited + 1 = _
    rw [inv.count]
    simp

theorem BFSInv.finish (s : MazeSolver) (ms : Marks) (curr : Int) (items : List Int)
    (d : Int → Nat) (done : List Int) (inv : BFSInv s ms [curr] items d done)
    (hclosed : ∀ w, s.Edge curr w → ms.visited w = true) (hne : curr ≠ s.endNode) :
    BFSInv s ms [] items d (done ++ [curr]) := by
  have hnd := inv.frontND
  simp only [List.singleton_append, List.nodup_cons] at hnd
  have hcd : curr ∉ done := fun h => ((inv.doneIff curr).mp h).2 (by simp)
  constructor
  · exact inv.tree
  · exact inv.startV
  · exact inv.minimal
  · intro x hx
    exact inv.frontV x (by simp at hx ⊢; exact Or.inr hx)
  · simpa using hnd.2
  · have := inv.sorted
    simp only [List.singleton_append, List.pairwise_cons] at this
    simpa using this.2
  · intro x hx y hy
    exact inv.level x (by simp at hx ⊢; exact Or.inr hx) y (by simp at hy ⊢; exact Or.inr hy)
  · apply List.Nodup.append inv.doneND (List.nodup_singleton _)
    intro x hx hxc
    rw [List.mem_singleton.mp hxc] at hx
    exact hcd hx
  · intro v
    simp only [List.mem_append, List.mem_singleton, List.nil_append]
    rw [inv.doneIff v]
    simp only [List.singleton_append, List.mem_cons, not_or]
    constructor
    · rintro (⟨h1, h2, h3⟩ | rfl)
      · exact ⟨h1, h3⟩
      · exact ⟨inv.frontV v (by simp), hnd.1⟩
    · rintro ⟨h1, h2⟩
      by_cases hvc : v = curr
      · exact Or.inr hvc
      · exact Or.inl ⟨h1, hvc, h2⟩
  · intro u hu w huw
    rcases List.mem_append.mp hu with hu | hu
    · exact inv.closed u hu w huw
    · rw [List.mem_singleton.mp hu] at huw
      exact hclosed w huw
  · intro u hu
    rcases List.mem_append.mp hu with hu | hu
    · exact inv.notEnd u hu
    · rw [List.mem_singleton.mp hu]
      exact hne
  · rw [inv.count]
    simp

/-- Once the queue is empty, the expanded nodes are the nodes reachable from the start. -/
theorem BFSInv.queue_empty_done_iff (s : MazeSolver) (ms : Marks) (d : Int → Nat) (done : List Int)
    (inv : BFSInv s ms [] [] d done) (v : Int) : v ∈ done ↔ s.Reachable s.startNode v := by
  constructor
  · intro hv
    exact ⟨d v, inv.tree.walk v ((inv.doneIff v).mp hv).1⟩
  · rintro ⟨n, hw⟩
    induction hw with
    | refl => exact (inv.doneIff _).mpr ⟨inv.startV, by simp⟩
    | step _ hedge ih => exact (inv.doneIff _).mpr ⟨inv.closed _ ih _ hedge, by simp⟩

theorem MazeSolver.bfsLoop_spec (s : MazeSolver) (wf : s.WellFormed) (stack0 path : Int → Int)
    (rfuel : Nat) (hrf : s.graph.nodeCount + 1 ≤ rfuel) (fuel : Nat) :
    ∀ (ms : Marks) (items : List Int) (d : Int → Nat) (done : List Int),
      BFSInv s ms [] items d done → s.graph.nodeCount + 1 ≤ (fuel : Int) + done.length →
      ∃ r, MazeSolver.bfsLoop s stack0 path rfuel fuel ms { items := items } = .ok r ∧
        SolverPost s path r ∧
        (r.found = true → ∀ n, s.Walk s.startNode n s.endNode → r.pathLen ≤ (n : Int) + 1) := by
  induction fuel with
  | zero =>
    intro ms items d done inv hf
    exfalso
    have hvalid : ∀ x ∈ done, 0 ≤ x ∧ x < s.graph.nodeCount :=
      fun x hx => inv.tree.valid x ((inv.doneIff x).mp hx).1
    have := length_le_of_nodup_valid done _ (by have := wf.startValid; omega) inv.doneND hvalid
    simp only [Nat.cast_zero, zero_add] at hf
    omega
  | succ fuel ih =>
    intro ms items d done inv hf
    cases items with
    | nil =>
      refine ⟨{ found := false, path := path, pathLen := 0, nodesVisited := ms.nodesVisited },
        rfl, ?_, fun h => by cases h⟩
      unfold SolverPost
      constructor
      · intro h
        cases h
      intro _
      refine ⟨rfl, rfl, ?_, done, inv.doneND, ?_, ?_⟩
      · intro hreach
        have := (BFSInv.queue_empty_done_iff s ms d done inv _).mpr hreach
        exact inv.notEnd _ this rfl
      · exact BFSInv.queue_empty_done_iff s ms d done inv
      · show ms.nodesVisited = _
        rw [inv.count]
        simp
    | cons curr rest =>
      have inv1 := BFSInv.dequeue s ms curr rest d done inv
      have hcv : ms.visited curr = true := inv.frontV curr (by simp)
      have hcvalid := inv.tree.valid curr hcv
      by_cases hce : curr = s.endNode
      · obtain ⟨path', nodes, e1, e2, e3, e4, e5⟩ := TreeInv.reconstruct s _ d inv1.tree wf.countLe
          (by rw [← hce]; exact hcv) stack0 path rfuel (by exact_mod_cast hrf)
        refine ⟨{ found := true, path := path', pathLen := nodes.length,
                  nodesVisited := ms.nodesVisited + 1 }, ?_, ?_, ?_⟩
        · simp only [MazeSolver.bfsLoop, QueueLinkedList.isEmpty, List.isEmpty_cons,
            Bool.false_eq_true, if_false, QueueLinkedList.dequeue, hce, if_true]
          simp only at e1
          rw [e1]
        · unfold SolverPost
          exact ⟨fun _ => ⟨nodes, ⟨rfl, e2⟩, e3, e5⟩, fun h => by cases h⟩
        · intro _ n hwalk
          have := inv.minimal s.endNode (by rw [← hce]; exact hcv) n hwalk
          show ((nodes.length : Nat) : Int) ≤ n + 1
          rw [e4]
          push_cast
          omega
      · have hb : 0 ≤ curr ∧ curr < MAX_NODES := ⟨hcvalid.1, by have := wf.countLe; omega⟩
        obtain ⟨ms2, items2, d2, h1, inv2, _, h4⟩ := BFSInv.scan s wf curr done
          (s.graph.adjList curr) _ rest d inv1 (fun _ h => h)
        have inv3 := BFSInv.finish s ms2 curr items2 d2 done inv2
          (by rintro w ⟨e, he, rfl⟩; exact h4 e he) hce
        obtain ⟨r, hr, hpost⟩ := ih ms2 items2 d2 (done ++ [curr]) inv3
          (by simp only [List.length_append, List.length_singleton]; push_cast at hf ⊢; omega)
        refine ⟨r, ?_, hpost⟩
        simp only [MazeSolver.bfsLoop, QueueLinkedList.isEmpty, List.isEmpty_cons,
          Bool.false_eq_true, if_false, QueueLinkedList.dequeue, hce, Graph.getAdjList, hb,
          and_self, if_true]
        rw [h1]
        exact hr

theorem MazeSolver.initParent_of_valid (parent0 : Int → Int) (n v : Int) (hv : 0 ≤ v ∧ v < n) :
    initParent parent0 n v = -1 := by
  simp [initParent, hv]

/-- Specification of `solveBFS` on a well-formed graph. -/
theorem MazeSolver.solveBFS_spec (s : MazeSolver) (wf : s.WellFormed)
    (parent0 stack0 path : Int → Int) (fuel : Nat) (hf : s.graph.nodeCount + 1 ≤ fuel) :
    ∃ r, s.solveBFS parent0 stack0 path fuel = .ok r ∧ SolverPost s path r ∧
      (r.found = true → ∀ n, s.Walk s.startNode n s.endNode → r.pathLen ≤ (n : Int) + 1) := by
  have hsb : 0 ≤ s.startNode ∧ s.startNode < MAX_NODES :=
    ⟨wf.startValid.1, by have := wf.countLe; have := wf.startValid.2; omega⟩
  have hvis : ∀ v, store (fun _ : Int => false) s.startNode true v = true ↔ v = s.startNode := by
    intro v
    by_cases h : v = s.startNode
    · simp [store, h]
    · simp [store, h]
  have inv0 : BFSInv s { (s.initMarks parent0) with
      visited := store (s.initMarks parent0).visited s.startNode true } [] [s.startNode]
      (fun _ => 0) [] := by
    constructor
    · constructor
      · intro v hv
        rw [(hvis v).mp hv]
        exact wf.startValid
      · exact MazeSolver.initParent_of_valid _ _ _ wf.startValid
      · rfl
      · intro v hv hne
        exact absurd ((hvis v).mp hv) hne
      · intro v hv
        rw [(hvis v).mp hv]
        exact MazeSolver.Walk.refl _
    · exact (hvis _).mpr rfl
    · intro v _ n _
      exact Nat.zero_le n
    · intro x hx
      simp only [List.nil_append, List.mem_singleton] at hx
      exact (hvis x).mpr hx
    · simp
    · simp
    · intro x _ y _
      exact Nat.zero_le _
    · exact List.nodup_nil
    · intro v
      simp only [List.not_mem_nil, List.nil_append, List.mem_singleton, false_iff, not_and,
        not_not]
      intro hv
      exact (hvis v).mp hv
    · intro u hu
      cases hu
    · intro u hu
      cases hu
    · rfl
  obtain ⟨r, hr, hpost⟩ := MazeSolver.bfsLoop_spec s wf stack0 path fuel hf fuel _ _ _ _ inv0
    (by simpa using hf)
  refine ⟨r, ?_, hpost⟩
  unfold MazeSolver.solveBFS Graph.getNodeCount
  rw [if_pos wf.countLe, if_pos hsb]
  exact hr

/-! ## Depth-first search with an explicit stack -/

theorem Bool.eq_true_of_ne_false' (b : Bool) (h : ¬ b = false) : b = true := by
  cases b with
  | false => exact absurd rfl h
  | true => rfl

theorem store_true_iff (vis : Int → Bool) (c v : Int) :
    store vis c true v = true ↔ (v = c ∨ vis v = true) := by
  by_cases h : v = c
  · simp [store, h]
  · simp [store, h]

/-- Marking the unvisited node `curr` as visited keeps the parent tree, when `curr`
is the start node or has a visited parent with an edge to it. -/
theorem TreeInv.visit (s : MazeSolver) (ms : Marks) (d : Int → Nat) (inv : TreeInv s ms d)
    (curr : Int) (hvalid : 0 ≤ curr ∧ curr < s.graph.nodeCount) (hunv : ms.visited curr = false)
    (hentry : curr ≠ s.startNode →
      ms.visited (ms.parent curr) = true ∧ s.Edge (ms.parent curr) curr) (nv : Int) :
    TreeInv s { ms with visited := store ms.visited curr true, nodesVisited := nv }
      (fun v => if v = curr then (if curr = s.startNode then 0 else d (ms.parent curr) + 1)
        else d v) := by
  have hne : ∀ v, ms.visited v = true → v ≠ curr := by
    rintro v hv rfl
    rw [hunv] at hv
    cases hv
  constructor
  · intro v hv
    rcases (store_true_iff _ _ _).mp hv with rfl | hv
    · exact hvalid
    · exact inv.valid v hv
  · exact inv.rootParent
  · show (if s.startNode = curr then (if curr = s.startNode then 0 else d (ms.parent curr) + 1)
        else d s.startNode) = 0
    by_cases h : s.startNode = curr
    · rw [if_pos h, if_pos h.symm]
    · rw [if_neg h]
      exact inv.rootDepth
  · intro v hv hvs
    show store ms.visited curr true (ms.parent v) = true ∧ s.Edge (ms.parent v) v ∧
      (if v = curr then (if curr = s.startNode then 0 else d (ms.parent curr) + 1) else d v) =
        (if ms.parent v = curr then (if curr = s.startNode then 0 else d (ms.parent curr) + 1)
          else d (ms.parent v)) + 1
    rcases (store_true_iff _ _ _).mp hv with rfl | hv'
    · obtain ⟨h1, h2⟩ := hentry hvs
      rw [if_pos rfl, if_neg hvs, if_neg (hne _ h1)]
      exact ⟨(store_true_iff _ _ _).mpr (Or.inr h1), h2, rfl⟩
    · obtain ⟨h1, h2, h3⟩ := inv.step v hv' hvs
      rw [if_neg (hne _ hv'), if_neg (hne _ h1)]
      exact ⟨(store_true_iff _ _ _).mpr (Or.inr h1), h2, h3⟩
  · intro v hv
    show s.Walk s.startNode
      (if v = curr then (if curr = s.startNode then 0 else d (ms.parent curr) + 1) else d v) v
    rcases (store_true_iff _ _ _).mp hv with rfl | hv'
    · rw [if_pos rfl]
      by_cases hvs : v = s.startNode
      · rw [if_pos hvs, hvs]
        exact MazeSolver.Walk.refl _
      · rw [if_neg hvs]
        obtain ⟨h1, h2⟩ := hentry hvs
        exact MazeSolver.Walk.step (inv.walk _ h1) h2
    · rw [if_neg (hne _ hv')]
      exact inv.walk v hv'

/-- Recording a parent for a node that is neither visited nor the start node keeps
the parent tree. -/
theorem TreeInv.setParent (s : MazeSolver) (ms : Marks) (d : Int → Nat) (inv : TreeInv s ms d)
    (w c : Int) (hunv : ms.visited w = false) (hws : w ≠ s.startNode) :
    TreeInv s { ms with parent := store ms.parent w c } d := by
  have hne : ∀ v, ms.visited v = true → v ≠ w := by
    rintro v hv rfl
    rw [hunv] at hv
    cases hv
  constructor
  · exact inv.valid
  · show store ms.parent w c s.startNode = -1
    rw [store_other _ _ _ _ (Ne.symm hws)]
    exact inv.rootParent
  · exact inv.rootDepth
  · intro v hv hvs
    show ms.visited (store ms.parent w c v) = true ∧ s.Edge (store ms.parent w c v) v ∧
      d v = d (store ms.parent w c v) + 1
    rw [store_other _ _ _ _ (hne v hv)]
    exact inv.step v hv hvs
  · exact inv.walk

theorem DFSInv.push (s : MazeSolver) (wf : s.WellFormed) (curr : Int) (d : Int → Nat)
    (done : List Int) (adj : List AdjListNode) :
    ∀ (ms : Marks) (st : List Int), DFSInv s ms st d done [curr] → ms.visited curr = true →
      ms.visited s.startNode = true → (∀ e ∈ adj, e ∈ s.graph.adjList curr) →
      ∃ ms' st', MazeSolver.dfsPush curr adj ms { top := st } = .ok (ms', { top := st' }) ∧
        DFSInv s ms' st' d done [curr] ∧ ms'.visited = ms.visited ∧
        (∀ e ∈ adj, ms'.visited e.dest = true ∨ e.dest ∈ st') ∧ (∀ x ∈ st, x ∈ st') ∧
        st'.length ≤ st.length + adj.length := by
  induction adj with
  | nil =>
    intro ms st inv _ _ _
    refine ⟨ms, st, rfl, inv, rfl, ?_, fun _ h => h, le_refl _⟩
    intro e he
    cases he
  | cons e rest ih =>
    intro ms st inv hcv hsv hsub
    have he := hsub e (List.mem_cons_self _ _)
    have hsub' : ∀ x ∈ rest, x ∈ s.graph.adjList curr :=
      fun x hx => hsub x (List.mem_cons_of_mem _ hx)
    have hvalid := wf.destValid curr e he
    have hb : 0 ≤ e.dest ∧ e.dest < MAX_NODES := ⟨hvalid.1, by have := wf.countLe; omega⟩
    by_cases hv : ms.visited e.dest = false
    · have hws : e.dest ≠ s.startNode := by
        intro h
        rw [h, hsv] at hv
        cases hv
      have inv1 : DFSInv s { ms with parent := store ms.parent e.dest curr } (e.dest :: st) d done
          [curr] := by
        constructor
        · exact TreeInv.setParent s ms d inv.tree e.dest curr hv hws
        · intro x hx
          rcases List.mem_cons.mp hx with rfl | hx
          · exact hvalid
          · exact inv.stackValid x hx
        · intro w hw hwu hwst
          show ms.visited (store ms.parent e.dest curr w) = true ∧
            s.Edge (store ms.parent e.dest curr w) w
          by_cases hwe : w = e.dest
          · rw [hwe, store_same]
            exact ⟨hcv, e, he, rfl⟩
          · rw [store_other _ _ _ _ hwe]
            rcases List.mem_cons.mp hw with h | h
            · exact absurd h hwe
            · exact inv.pending w h hwu hwst
        · intro u hu huc w huw
          rcases inv.frontier u hu huc w huw with h | h
          · exact Or.inl h
          · exact Or.inr (List.mem_cons_of_mem _ h)
        · exact Or.inl hsv
        · exact inv.notEnd
        · exact inv.doneND
        · exact inv.doneIff
        · exact inv.count
      obtain ⟨ms', st', h1, h2, h3, h4, h5, h6⟩ := ih _ _ inv1 hcv hsv hsub'
      refine ⟨ms', st', ?_, h2, h3, ?_, ?_, ?_⟩
      · simp only [MazeSolver.dfsPush, hb, and_self, if_true, hv, StackLinkedList.push]
        exact h1
      · intro x hx
        rcases List.mem_cons.mp hx with rfl | hx
        · exact Or.inr (h5 _ (List.mem_cons_self _ _))
        · exact h4 x hx
      · intro x hx
        exact h5 x (List.mem_cons_of_mem _ hx)
      · simp only [List.length_cons] at h6 ⊢
        omega
    · have hv' := Bool.eq_true_of_ne_false' _ hv
      obtain ⟨ms', st', h1, h2, h3, h4, h5, h6⟩ := ih ms st inv hcv hsv hsub'
      refine ⟨ms', st', ?_, h2, h3, ?_, h5, ?_⟩
      · simp only [MazeSolver.dfsPush, hb, and_self, if_true, hv', Bool.true_eq_false, if_false]
        exact h1
      · intro x hx
        rcases List.mem_cons.mp hx with rfl | hx
        · left
          rw [h3]
          exact hv'
        · exact h4 x hx
      · simp only [List.length_cons]
        omega

theorem DFSInv.done_length_le (s : MazeSolver) (wf : s.WellFormed) (ms : Marks) (st : List Int)
    (d : Int → Nat) (done cur : List Int) (inv : DFSInv s ms st d done cur) :
    (done.length : Int) ≤ s.graph.nodeCount :=
  length_le_of_nodup_valid done _ (by have := wf.startValid; omega) inv.doneND
    (fun x hx => inv.tree.valid x ((inv.doneIff x).mp hx))

/-- Once the stack is empty, the visited nodes are the nodes reachable from the start. -/
theorem DFSInv.stack_empty_done_iff (s : MazeSolver) (ms : Marks) (d : Int → Nat) (done : List Int)
    (inv : DFSInv s ms [] d done []) (v : Int) : v ∈ done ↔ s.Reachable s.startNode v := by
  have hsv : ms.visited s.startNode = true := by
    rcases inv.startIn with h | ⟨_, h, _⟩
    · exact h
    · cases h
  constructor
  · intro hv
    exact ⟨d v, inv.tree.walk v ((inv.doneIff v).mp hv)⟩
  · rintro ⟨n, hw⟩
    rw [inv.doneIff]
    induction hw with
    | refl => exact hsv
    | step _ hedge ih =>
      rcases inv.frontier _ ih (by simp) _ hedge with h | h
      · exact h
      · cases h

theorem MazeSolver.dfsStackLoop_spec (s : MazeSolver) (wf : s.WellFormed)
    (stack0 path : Int → Int) (rfuel : Nat) (hrf : s.graph.nodeCount + 1 ≤ rfuel) (D : Nat)
    (hdeg : ∀ a, (s.graph.adjList a).length ≤ D) (fuel : Nat) :
    ∀ (ms : Marks) (st : List Int) (d : Int → Nat) (done : List Int),
      DFSInv s ms st d done [] →
      (st.length : Int) + D * (s.graph.nodeCount - done.length) + 1 ≤ fuel →
      ∃ r, MazeSolver.dfsStackLoop s stack0 path rfuel fuel ms { top := st } = .ok r ∧
        SolverPost s path r := by
  induction fuel with
  | zero =>
    intro ms st d done inv hf
    exfalso
    have h1 := DFSInv.done_length_le s wf ms st d done [] inv
    have h2 : (0 : Int) ≤ D * (s.graph.nodeCount - done.length) :=
      mul_nonneg (by omega) (by omega)
    simp only [Nat.cast_zero] at hf
    omega
  | succ fuel ih =>
    intro ms st d done inv hf
    have hdl := DFSInv.done_length_le s wf ms st d done [] inv
    cases st with
    | nil =>
      refine ⟨{ found := false, path := path, pathLen := 0, nodesVisited := ms.nodesVisited },
        rfl, ?_⟩
      unfold SolverPost
      constructor
      · intro h
        cases h
      intro _
      refine ⟨rfl, rfl, ?_, done, inv.doneND, DFSInv.stack_empty_done_iff s ms d done inv, inv.count⟩
      intro hreach
      have := (DFSInv.stack_empty_done_iff s ms d done inv _).mpr hreach
      exact inv.notEnd _ ((inv.doneIff _).mp this) rfl
    | cons curr rest =>
      have hcvalid := inv.stackValid curr (List.mem_cons_self _ _)
      have hb : 0 ≤ curr ∧ curr < MAX_NODES := ⟨hcvalid.1, by have := wf.countLe; omega⟩
      by_cases hcv : ms.visited curr = true
      · have inv1 : DFSInv s ms rest d done [] := by
          constructor
          · exact inv.tree
          · exact fun x hx => inv.stackValid x (List.mem_cons_of_mem _ hx)
          · exact fun w hw => inv.pending w (List.mem_cons_of_mem _ hw)
          · intro u hu huc w huw
            rcases inv.frontier u hu huc w huw with h | h
            · exact Or.inl h
            · rcases List.mem_cons.mp h with rfl | h
              · exact Or.inl hcv
              · exact Or.inr h
          · rcases inv.startIn with h | ⟨_, _, h⟩
            · exact Or.inl h
            · rw [h curr] at hcv
              cases hcv
          · exact inv.notEnd
          · exact inv.doneND
          · exact inv.doneIff
          · exact inv.count
        obtain ⟨r, hr, hpost⟩ := ih ms rest d done inv1
          (by simp only [List.length_cons] at hf; push_cast at hf ⊢; omega)
        refine ⟨r, ?_, hpost⟩
        simp only [MazeSolver.dfsStackLoop, StackLinkedList.isEmpty, List.isEmpty_cons,
          Bool.false_eq_true, if_false, StackLinkedList.pop, hb, and_self, if_true, hcv]
        exact hr
      · have hcu : ms.visited curr = false := by
          cases h : ms.visited curr with
          | false => rfl
          | true => exact absurd h hcv
        have hentry : curr ≠ s.startNode →
            ms.visited (ms.parent curr) = true ∧ s.Edge (ms.parent curr) curr :=
          fun h => inv.pending curr (List.mem_cons_self _ _) hcu h
        obtain ⟨d1, tree1⟩ : ∃ d1, TreeInv s
            { ms with visited := store ms.visited curr true, nodesVisited := ms.nodesVisited + 1 }
            d1 :=
          ⟨_, TreeInv.visit s ms d inv.tree curr hcvalid hcu hentry (ms.nodesVisited + 1)⟩
        have hcd : curr ∉ done := by
          intro h
          have := (inv.doneIff curr).mp h
          rw [hcu] at this
          cases this
        have hsv1 : store ms.visited curr true s.startNode = true := by
          rcases inv.startIn with h | ⟨_, h, _⟩
          · exact (store_true_iff _ _ _).mpr (Or.inr h)
          · injection h with h _
            rw [h]
            exact (store_true_iff _ _ _).mpr (Or.inl rfl)
        by_cases hce : curr = s.endNode
        · obtain ⟨path', nodes, e1, e2, e3, _, e5⟩ := TreeInv.reconstruct s _ _ tree1 wf.countLe
            (by rw [← hce]; exact (store_true_iff _ _ _).mpr (Or.inl rfl)) stack0 path rfuel
            (by exact_mod_cast hrf)
          refine ⟨{ found := true, path := path', pathLen := nodes.length,
                    nodesVisited := ms.nodesVisited + 1 }, ?_, ?_⟩
          · have hb' := hb
            have hcu' := hcu
            rw [hce] at hb' hcu'
            simp only [MazeSolver.dfsStackLoop, StackLinkedList.isEmpty, List.isEmpty_cons,
              Bool.false_eq_true, if_false, StackLinkedList.pop, hce, hb', and_self, if_true, hcu']
            simp only [hce] at e1
            rw [e1]
          · unfold SolverPost
            exact ⟨fun _ => ⟨nodes, ⟨rfl, e2⟩, e3, e5⟩, fun h => by cases h⟩
        · have inv1 : DFSInv s
              { ms with visited := store ms.visited curr true, nodesVisited := ms.nodesVisited + 1 }
              rest d1 (done ++ [curr]) [curr] := by
            constructor
            · exact tree1
            · exact fun x hx => inv.stackValid x (List.mem_cons_of_mem _ hx)
            · intro w hw hwu0 hws
              have hwu : store ms.visited curr true w = false := hwu0
              have hwu' : ms.visited w = false := by
                cases h : ms.visited w with
                | false => rfl
                | true =>
                  have : store ms.visited curr true w = true :=
                    (store_true_iff _ _ _).mpr (Or.inr h)
                  rw [this] at hwu
                  cases hwu
              obtain ⟨h1, h2⟩ := inv.pending w (List.mem_cons_of_mem _ hw) hwu' hws
              exact ⟨(store_true_iff _ _ _).mpr (Or.inr h1), h2⟩
            · intro u hu huc w huw
              have huc' : u ≠ curr := by simpa using huc
              rcases (store_true_iff _ _ _).mp hu with h | h
              · exact absurd h huc'
              · rcases inv.frontier u h (by simp) w huw with h' | h'
                · exact Or.inl ((store_true_iff _ _ _).mpr (Or.inr h'))
                · rcases List.mem_cons.mp h' with rfl | h'
                  · exact Or.inl ((store_true_iff _ _ _).mpr (Or.inl rfl))
                  · exact Or.inr h'
            · exact Or.inl hsv1
            · intro v hv
              rcases (store_true_iff _ _ _).mp hv with rfl | h
              · exact hce
              · exact inv.notEnd v h
            · apply List.Nodup.append inv.doneND (List.nodup_singleton _)
              intro x hx hxc
              rw [List.mem_singleton.mp hxc] at hx
              exact hcd hx
            · intro v
              simp only [List.mem_append, List.mem_singleton]
              rw [inv.doneIff v]
              show _ ↔ store ms.visited curr true v = true
              rw [store_true_iff]
              exact Or.comm
            · show ms.nodesVisited + 1 = _
              rw [inv.count]
              simp
          obtain ⟨ms2, st2, h1, inv2, h3, h4, h5, h6⟩ := DFSInv.push s wf curr _ _
            (s.graph.adjList curr) _ rest inv1 ((store_true_iff _ _ _).mpr (Or.inl rfl)) hsv1
            (fun _ h => h)
          have hmsv : ms2.visited curr = true := by
            rw [h3]
            exact (store_true_iff _ _ _).mpr (Or.inl rfl)
          have inv3 : DFSInv s ms2 st2 d1 (done ++ [curr]) [] := by
            constructor
            · exact inv2.tree
            · exact inv2.stackValid
            · exact inv2.pending
            · intro u hu _ w huw
              by_cases huc : u = curr
              · subst huc
                obtain ⟨e, he, rfl⟩ := huw
                exact h4 e he
              · exact inv2.frontier u hu (by simpa using huc) w huw
            · left
              rw [h3]
              exact hsv1
            · exact inv2.notEnd
            · exact inv2.doneND
            · exact inv2.doneIff
            · exact inv2.count
          have hdeg' := hdeg curr
          have harith : (D : Int) * (s.graph.nodeCount - ((done ++ [curr]).length : Int)) =
              D * (s.graph.nodeCount - done.length) - D := by
            simp only [List.length_append, List.length_singleton]
            push_cast
            ring
          obtain ⟨r, hr, hpost⟩ := ih ms2 st2 _ (done ++ [curr]) inv3
            (by
              rw [harith]
              simp only [List.length_cons] at hf
              push_cast at hf
              have : (st2.length : Int) ≤ rest.length + (s.graph.adjList curr).length := by
                exact_mod_cast h6
              have : ((s.graph.adjList curr).length : Int) ≤ D := by exact_mod_cast hdeg'
              omega)
          refine ⟨r, ?_, hpost⟩
          simp only [MazeSolver.dfsStackLoop, StackLinkedList.isEmpty, List.isEmpty_cons,
            Bool.false_eq_true, if_false, StackLinkedList.pop, hb, and_self, if_true, hcu, hce,
            Graph.getAdjList]
          rw [h1]
          exact hr

/-- Specification of `solveDFSStack` on a well-formed graph whose adjacency lists
hold at most `D` entries each. -/
theorem MazeSolver.solveDFSStack_spec (s : MazeSolver) (wf : s.WellFormed)
    (parent0 stack0 path : Int → Int) (D : Nat) (hdeg : ∀ a, (s.graph.adjList a).length ≤ D)
    (fuel : Nat) (hf : D * s.graph.nodeCount + 2 ≤ fuel) (hf' : s.graph.nodeCount + 1 ≤ fuel) :
    ∃ r, s.solveDFSStack parent0 stack0 path fuel = .ok r ∧ SolverPost s path r := by
  have inv0 : DFSInv s (s.initMarks parent0) [s.startNode] (fun _ => 0) [] [] := by
    constructor
    · constructor
      · intro v hv
        cases hv
      · exact MazeSolver.initParent_of_valid _ _ _ wf.startValid
      · rfl
      · intro v hv
        cases hv
      · intro v hv
        cases hv
    · intro x hx
      rw [List.mem_singleton.mp hx]
      exact wf.startValid
    · intro w hw _ hws
      exact absurd (List.mem_singleton.mp hw) hws
    · intro u hu
      cases hu
    · exact Or.inr ⟨rfl, rfl, fun _ => rfl⟩
    · intro v hv
      cases hv
    · exact List.nodup_nil
    · intro v
      constructor
      · intro h
        cases h
      · intro h
        cases h
    · rfl
  obtain ⟨r, hr, hpost⟩ := MazeSolver.dfsStackLoop_spec s wf stack0 path fuel hf' D hdeg fuel
    _ _ _ _ inv0
    (by simp only [List.length_singleton, List.length_nil, Nat.cast_zero, Nat.cast_one, sub_zero]
        omega)
  refine ⟨r, ?_, hpost⟩
  unfold MazeSolver.solveDFSStack Graph.getNodeCount
  rw [if_pos wf.countLe]
  exact hr

/-! ## Recursive depth-first search -/

theorem Bool.eq_false_of_ne_true' (b : Bool) (h : ¬ b = true) : b = false := by
  cases b with
  | false => rfl
  | true => exact absurd rfl h

theorem MazeSolver.dfsRecursiveScan_spec (s : MazeSolver) (wf : s.WellFormed) (k : Nat)
    (call : Int → Marks → Except Fault (Bool × Marks)) (hcall : HelperSpec s k call)
    (curr : Int) (adj : List AdjListNode) :
    ∀ (ms : Marks) (d : Int → Nat) (done : List Int), RecInv s ms d done →
      (∀ v, ms.visited v = true → v ≠ s.endNode) → ms.visited curr = true →
      ms.visited s.startNode = true → (∀ e ∈ adj, e ∈ s.graph.adjList curr) →
      s.graph.nodeCount ≤ (k : Int) + done.length →
      ∃ b ms', MazeSolver.dfsRecursiveScan call curr adj ms = .ok (b, ms') ∧
        RecPost s ms done.length b ms' ∧ (b = false → ∀ e ∈ adj, ms'.visited e.dest = true) := by
  induction adj with
  | nil =>
    intro ms d done inv hne _ _ _ _
    refine ⟨false, ms, rfl, ⟨d, done, inv, fun _ h => h, le_refl _, (fun h => by cases h), ?_⟩, ?_⟩
    · intro _
      refine ⟨hne, ?_⟩
      intro u hu hu'
      rw [hu] at hu'
      cases hu'
    · intro _ e he
      cases he
  | cons e rest ih =>
    intro ms d done inv hne hcv hsv hsub hk
    have he := hsub e (List.mem_cons_self _ _)
    have hsub' : ∀ x ∈ rest, x ∈ s.graph.adjList curr :=
      fun x hx => hsub x (List.mem_cons_of_mem _ hx)
    have hvalid := wf.destValid curr e he
    have hb : 0 ≤ e.dest ∧ e.dest < MAX_NODES := ⟨hvalid.1, by have := wf.countLe; omega⟩
    by_cases hv : ms.visited e.dest = false
    · have hws : e.dest ≠ s.startNode := by
        intro h
        rw [h, hsv] at hv
        cases hv
      have inv1 : RecInv s { ms with parent := store ms.parent e.dest curr } d done :=
        ⟨TreeInv.setParent s ms d inv.tree e.dest curr hv hws, inv.doneND, inv.doneIff, inv.count⟩
      obtain ⟨b, ms2, hc, hvis2, d2, done2, inv2, mono2, len2, ht2, hf2⟩ :=
        hcall e.dest _ d done inv1 hne hvalid hv
          (fun _ => by
            show ms.visited (store ms.parent e.dest curr e.dest) = true ∧
              s.Edge (store ms.parent e.dest curr e.dest) e.dest
            rw [store_same]
            exact ⟨hcv, e, he, rfl⟩)
          (fun _ => hsv) hk
      cases b with
      | true =>
        refine ⟨true, ms2, ?_, ⟨d2, done2, inv2, mono2, len2, ht2, fun h => by cases h⟩,
          fun h => by cases h⟩
        simp only [MazeSolver.dfsRecursiveScan, hb, and_self, if_true, hv]
        rw [hc]
      | false =>
        obtain ⟨hne2, hcl2⟩ := hf2 rfl
        obtain ⟨b3, ms3, hc3, ⟨d3, done3, inv3, mono3, len3, ht3, hf3⟩, hall3⟩ :=
          ih ms2 d2 done2 inv2 hne2 (mono2 _ hcv) (mono2 _ hsv) hsub' (by omega)
        refine ⟨b3, ms3, ?_, ⟨d3, done3, inv3, fun v h => mono3 v (mono2 v h), by omega, ht3, ?_⟩,
          ?_⟩
        · simp only [MazeSolver.dfsRecursiveScan, hb, and_self, if_true, hv]
          rw [hc]
          exact hc3
        · intro hb3
          obtain ⟨hne3, hcl3⟩ := hf3 hb3
          refine ⟨hne3, ?_⟩
          intro u hu hu0 w huw
          by_cases hu2 : ms2.visited u = true
          · exact mono3 w (hcl2 u hu2 hu0 w huw)
          · exact hcl3 u hu (Bool.eq_false_of_ne_true' _ hu2) w huw
        · intro hb3 x hx
          rcases List.mem_cons.mp hx with rfl | hx
          · exact mono3 _ hvis2
          · exact hall3 hb3 x hx
    · have hv' := Bool.eq_true_of_ne_false' _ hv
      obtain ⟨b3, ms3, hc3, hpost3, hall3⟩ := ih ms d done inv hne hcv hsv hsub' hk
      refine ⟨b3, ms3, ?_, hpost3, ?_⟩
      · simp only [MazeSolver.dfsRecursiveScan, hb, and_self, if_true, hv', Bool.true_eq_false,
          if_false]
        exact hc3
      · intro hb3 x hx
        obtain ⟨_, _, _, mono3, _⟩ := hpost3
        rcases List.mem_cons.mp hx with rfl | hx
        · exact mono3 _ hv'
        · exact hall3 hb3 x hx

theorem MazeSolver.dfsRecursiveHelper_spec (s : MazeSolver) (wf : s.WellFormed) (k : Nat) :
    HelperSpec s k (MazeSolver.dfsRecursiveHelper s k) := by
  induction k with
  | zero =>
    intro curr ms d done inv _ hvalid hcu _ _ hk
    exfalso
    have hcd : curr ∉ done := by
      intro h
      have := (inv.doneIff curr).mp h
      rw [hcu] at this
      cases this
    have hnd : (curr :: done).Nodup := List.nodup_cons.mpr ⟨hcd, inv.doneND⟩
    have := length_le_of_nodup_valid (curr :: done) s.graph.nodeCount (by omega) hnd (by
      intro x hx
      rcases List.mem_cons.mp hx with rfl | hx
      · exact hvalid
      · exact inv.tree.valid x ((inv.doneIff x).mp hx))
    simp only [List.length_cons, Nat.cast_add, Nat.cast_one, Nat.cast_zero, zero_add] at this hk
    omega
  | succ k ih =>
    intro curr ms d done inv hne hvalid hcu hentry hstart hk
    have hb : 0 ≤ curr ∧ curr < MAX_NODES := ⟨hvalid.1, by have := wf.countLe; omega⟩
    obtain ⟨d1, tree1⟩ : ∃ d1, TreeInv s
        { ms with visited := store ms.visited curr true, nodesVisited := ms.nodesVisited + 1 }
        d1 :=
      ⟨_, TreeInv.visit s ms d inv.tree curr hvalid hcu hentry (ms.nodesVisited + 1)⟩
    have hcd : curr ∉ done := by
      intro h
      have := (inv.doneIff curr).mp h
      rw [hcu] at this
      cases this
    have hcv1 : store ms.visited curr true curr = true := (store_true_iff _ _ _).mpr (Or.inl rfl)
    have mono1 : ∀ v, ms.visited v = true → store ms.visited curr true v = true :=
      fun v h => (store_true_iff _ _ _).mpr (Or.inr h)
    have inv1 : RecInv s
        { ms with visited := store ms.visited curr true, nodesVisited := ms.nodesVisited + 1 }
        d1 (done ++ [curr]) := by
      refine ⟨tree1, ?_, ?_, ?_⟩
      · apply List.Nodup.append inv.doneND (List.nodup_singleton _)
        intro x hx hxc
        rw [List.mem_singleton.mp hxc] at hx
        exact hcd hx
      · intro v
        simp only [List.mem_append, List.mem_singleton]
        rw [inv.doneIff v]
        show _ ↔ store ms.visited curr true v = true
        rw [store_true_iff]
        exact Or.comm
      · show ms.nodesVisited + 1 = _
        rw [inv.count]
        simp
    by_cases hce : curr = s.endNode
    · refine ⟨true, _, ?_, hcv1, d1, done ++ [curr], inv1, mono1, (by simp), ?_,
        fun h => by cases h⟩
      · simp only [MazeSolver.dfsRecursiveHelper, hb, and_self, if_true, hce]
        rw [if_pos (by rw [← hce]; exact hb)]
      · intro _
        rw [← hce]
        exact hcv1
    · have hsv1 : store ms.visited curr true s.startNode = true := by
        by_cases hcs : curr = s.startNode
        · rw [← hcs]
          exact hcv1
        · exact mono1 _ (hstart hcs)
      have hne1 : ∀ v, store ms.visited curr true v = true → v ≠ s.endNode := by
        intro v hv
        rcases (store_true_iff _ _ _).mp hv with rfl | h
        · exact hce
        · exact hne v h
      obtain ⟨b, ms2, hc, ⟨d2, done2, inv2, mono2, len2, ht2, hf2⟩, hall⟩ :=
        MazeSolver.dfsRecursiveScan_spec s wf k _ ih curr (s.graph.adjList curr) _ d1
          (done ++ [curr]) inv1 hne1 hcv1 hsv1 (fun _ h => h)
          (by simp only [List.length_append, List.length_singleton]; push_cast at hk ⊢; omega)
      refine ⟨b, ms2, ?_, mono2 _ hcv1, d2, done2, inv2, fun v h => mono2 v (mono1 v h), ?_, ht2,
        ?_⟩
      · simp only [MazeSolver.dfsRecursiveHelper, hb, and_self, if_true, hce, if_false,
          Graph.getAdjList]
        exact hc
      · simp only [List.length_append, List.length_singleton] at len2
        omega
      · intro hb2
        obtain ⟨hne2, hcl2⟩ := hf2 hb2
        refine ⟨hne2, ?_⟩
        intro u hu hu0 w huw
        by_cases huc : u = curr
        · subst huc
          obtain ⟨e, he, rfl⟩ := huw
          exact hall hb2 e he
        · have hu1 : store ms.visited curr true u = false := by
            simp [store, huc, hu0]
          exact hcl2 u hu hu1 w huw

/-- Specification of `solveDFSRecursive` on a well-formed graph. -/
theorem MazeSolver.solveDFSRecursive_spec (s : MazeSolver) (wf : s.WellFormed)
    (parent0 stack0 path : Int → Int) (fuel : Nat) (hf : s.graph.nodeCount + 1 ≤ fuel) :
    ∃ r, s.solveDFSRecursive parent0 stack0 path fuel = .ok r ∧ SolverPost s path r := by
  have inv0 : RecInv s (s.initMarks parent0) (fun _ => 0) [] := by
    refine ⟨⟨?_, ?_, rfl, ?_, ?_⟩, List.nodup_nil, ?_, rfl⟩
    · intro v hv
      cases hv
    · exact MazeSolver.initParent_of_valid _ _ _ wf.startValid
    · intro v hv
      cases hv
    · intro v hv
      cases hv
    · intro v
      constructor
      · intro h
        cases h
      · intro h
        cases h
  obtain ⟨b, ms', hc, hsv, d', done', inv', _, _, ht, hfalse⟩ :=
    MazeSolver.dfsRecursiveHelper_spec s wf fuel s.startNode _ _ _ inv0
      (fun v hv => by cases hv) wf.startValid rfl (fun h => absurd rfl h)
      (fun h => absurd rfl h) (by simp only [List.length_nil, Nat.cast_zero, add_zero]; omega)
  cases b with
  | true =>
    obtain ⟨path', nodes, e1, e2, e3, _, e5⟩ := TreeInv.reconstruct s ms' d' inv'.tree wf.countLe
      (ht rfl) stack0 path fuel hf
    refine ⟨{ found := true, path := path', pathLen := nodes.length,
              nodesVisited := ms'.nodesVisited }, ?_, ?_⟩
    · unfold MazeSolver.solveDFSRecursive Graph.getNodeCount
      rw [if_pos wf.countLe, hc]
      simp only
      rw [e1]
    · unfold SolverPost
      exact ⟨fun _ => ⟨nodes, ⟨rfl, e2⟩, e3, e5⟩, fun h => by cases h⟩
  | false =>
    obtain ⟨hne, hcl⟩ := hfalse rfl
    have hreach : ∀ v, v ∈ done' ↔ s.Reachable s.startNode v := by
      intro v
      rw [inv'.doneIff]
      constructor
      · intro hv
        exact ⟨d' v, inv'.tree.walk v hv⟩
      · rintro ⟨n, hw⟩
        induction hw with
        | refl => exact hsv
        | step _ hedge ih => exact hcl _ ih rfl _ hedge
    refine ⟨{ found := false, path := path, pathLen := 0, nodesVisited := ms'.nodesVisited },
      ?_, ?_⟩
    · unfold MazeSolver.solveDFSRecursive Graph.getNodeCount
      rw [if_pos wf.countLe, hc]
    · unfold SolverPost
      constructor
      · intro h
        cases h
      intro _
      refine ⟨rfl, rfl, ?_, done', inv'.doneND, hreach, inv'.count⟩
      intro hr
      exact hne _ ((inv'.doneIff _).mp ((hreach _).mpr hr)) rfl

/-! ## From the grid to the graph the solvers run on -/

theorem length_probeEdges_le (cm : HashMap) (i j : Int) (dirs : List (Int × Int)) :
    (probeEdges cm i j dirs).length ≤ dirs.length := by
  induction dirs with
  | nil => simp [probeEdges]
  | cons d rest ih =>
    obtain ⟨di, dj⟩ := d
    simp only [probeEdges]
    split
    · simp only [List.length_cons]
      omega
    · simp only [List.length_cons]
      omega

theorem Built.degree_le (m : Maze) (s : MazeSolver) (hb : Built m s) (a : Int) :
    (s.graph.adjList a).length ≤ 4 := by
  by_cases hout : a < 0 ∨ (m.passableCells.length : Int) ≤ a
  · rw [hb.noAdj a hout]
    simp
  · have ha : 0 ≤ a ∧ a < m.passableCells.length := by omega
    obtain ⟨k, rfl⟩ := Int.eq_ofNat_of_zero_le ha.1
    have hk : k < m.passableCells.length := by omega
    rw [hb.adj k _ (List.getElem?_eq_getElem hk), List.length_reverse]
    exact length_probeEdges_le _ _ _ _

/-- The node of a cell that is the only one of its kind (`'S'` or `'E'`). -/
theorem Built.startNode_eq (m : Maze) (s : MazeSolver) (hb : Built m s) (sp : Int × Int)
    (hS : m.getCell sp.1 sp.2 = 'S') (hSu : ∀ q : Int × Int, m.getCell q.1 q.2 = 'S' → q = sp) :
    ∃ k : Nat, m.passableCells[k]? = some sp ∧ s.startNode = k := by
  have hp : m.passable sp := Or.inr (Or.inl hS)
  obtain ⟨k, hk⟩ := List.getElem?_of_mem ((Maze.mem_passableCells m sp).mpr hp)
  refine ⟨k, hk, hb.nodes.startId k sp hk (by rw [hb.maze]; exact hS) ?_⟩
  intro k' p' hk' hS'
  rw [hb.maze] at hS'
  have := hSu p' hS'
  subst this
  exact le_of_eq (getElem?_inj_of_nodup _ (Maze.nodup_passableCells m) _ _ _ hk' hk)

theorem Built.endNode_eq (m : Maze) (s : MazeSolver) (hb : Built m s) (ep : Int × Int)
    (hE : m.getCell ep.1 ep.2 = 'E') (hEu : ∀ q : Int × Int, m.getCell q.1 q.2 = 'E' → q = ep) :
    ∃ k : Nat, m.passableCells[k]? = some ep ∧ s.endNode = k := by
  have hp : m.passable ep := Or.inr (Or.inr hE)
  obtain ⟨k, hk⟩ := List.getElem?_of_mem ((Maze.mem_passableCells m ep).mpr hp)
  refine ⟨k, hk, hb.nodes.endId k ep hk (by rw [hb.maze]; exact hE) ?_⟩
  intro k' p' hk' hS'
  rw [hb.maze] at hS'
  have := hEu p' hS'
  subst this
  exact le_of_eq (getElem?_inj_of_nodup _ (Maze.nodup_passableCells m) _ _ _ hk' hk)

/-- A built graph of a grid of at most 50 x 50 cells with one start and one end
cell is a graph the solvers expect. -/
theorem Built.wellFormed (m : Maze) (s : MazeSolver) (hb : Built m s) (hr : m.rows ≤ MAX_ROWS)
    (hc : m.cols ≤ MAX_COLS) (sp ep : Int × Int)
    (hS : m.getCell sp.1 sp.2 = 'S') (hSu : ∀ q : Int × Int, m.getCell q.1 q.2 = 'S' → q = sp)
    (hE : m.getCell ep.1 ep.2 = 'E') (hEu : ∀ q : Int × Int, m.getCell q.1 q.2 = 'E' → q = ep) :
    s.WellFormed := by
  have hcnt := hb.nodes.count
  obtain ⟨ks, hks, hs⟩ := Built.startNode_eq m s hb sp hS hSu
  obtain ⟨ke, hke, he⟩ := Built.endNode_eq m s hb ep hE hEu
  have h1 := getElem?_lt _ _ _ hks
  have h2 := getElem?_lt _ _ _ hke
  constructor
  · rw [hcnt]
    exact Maze.length_passableCells_le m hr hc
  · intro a e hmem
    obtain ⟨_, k, k', p, q, _, h2, _, h4, _⟩ := Built.edge_props m s hb a e hmem
    have := getElem?_lt _ _ _ h4
    rw [h2, hcnt]
    omega
  · rw [hs, hcnt]
    omega
  · rw [he, hcnt]
    omega

/-- Walks of the built graph are the routes of the grid. -/
theorem Built.walk_iff_route (m : Maze) (s : MazeSolver) (hb : Built m s) (k : Nat)
    (p : Int × Int) (hk : m.passableCells[k]? = some p) (n : Nat) (b : Int) :
    s.Walk k n b ↔ ∃ (k' : Nat) (q : Int × Int), b = k' ∧ m.passableCells[k']? = some q ∧
      m.Route p n q := by
  constructor
  · intro hw
    induction hw with
    | refl =>
      exact ⟨k, p, rfl, hk, Maze.Route.refl p ((Maze.mem_passableCells m p).mp
        (List.getElem?_mem hk))⟩
    | @step b c n _ hedge ih =>
      obtain ⟨k', q, rfl, hk', hroute⟩ := ih
      obtain ⟨e, he, hdest⟩ := hedge
      obtain ⟨_, k1, k2, p1, q1, h1, h2, h3, h4, h5⟩ := Built.edge_props m s hb _ e he
      have e1 : k1 = k' := by exact_mod_cast h1.symm
      subst e1
      rw [hk'] at h3
      injection h3 with h3
      subst h3
      refine ⟨k2, q1, by rw [← hdest, h2], h4, Maze.Route.step hroute h5 ?_⟩
      exact (Maze.mem_passableCells m q1).mp (List.getElem?_mem h4)
  · rintro ⟨k', q, rfl, hk', hroute⟩
    induction hroute generalizing k' with
    | refl _ =>
      have := getElem?_inj_of_nodup _ (Maze.nodup_passableCells m) _ _ _ hk hk'
      subst this
      exact MazeSolver.Walk.refl _
    | @step q r n hroute hadj hpass ih =>
      obtain ⟨kq, hkq⟩ := List.getElem?_of_mem ((Maze.mem_passableCells m q).mpr (by
        cases hroute with
        | refl h => exact h
        | step _ _ h => exact h))
      exact MazeSolver.Walk.step (ih kq hkq) (Built.edge_of_adjacent m s hb kq k' q r hkq hk' hadj)

theorem MazeSolver.walk_of_chain (s : MazeSolver) (l : List Int) (a : Int)
    (hc : List.Chain' s.Edge (a :: l)) :
    ∀ b, (a :: l).getLast? = some b → s.Walk a l.length b := by
  induction l using List.reverseRecOn with
  | nil =>
    intro b hb
    simp only [List.getLast?_singleton, Option.some.injEq] at hb
    subst hb
    exact MazeSolver.Walk.refl _
  | append_singleton l x ih =>
    intro b hb
    rw [← List.cons_append, List.getLast?_concat] at hb
    injection hb with hb
    subst hb
    rw [← List.cons_append, List.chain'_append] at hc
    obtain ⟨h1, _, h3⟩ := hc
    obtain ⟨y, hy⟩ : ∃ y, (a :: l).getLast? = some y := by
      cases hl : (a :: l).getLast? with
      | none => simp at hl
      | some y => exact ⟨y, rfl⟩
    have hw := ih h1 y hy
    have hedge : s.Edge y x := h3 y hy x (by simp)
    simp only [List.length_append, List.length_singleton]
    exact MazeSolver.Walk.step hw hedge

/-- A path of the graph is a walk of one edge less than it has nodes. -/
theorem MazeSolver.IsPath.walk (s : MazeSolver) (nodes : List Int) (hp : s.IsPath nodes) :
    1 ≤ nodes.length ∧ s.Walk s.startNode (nodes.length - 1) s.endNode := by
  obtain ⟨h1, h2, h3, _⟩ := hp
  cases nodes with
  | nil => simp at h1
  | cons a l =>
    simp only [List.head?_cons, Option.some.injEq] at h1
    subst h1
    refine ⟨by simp, ?_⟩
    simpa using MazeSolver.walk_of_chain s l _ h3 _ h2

/-! ## When `buildGraph` runs to completion -/

/-- The probe above a cell of row 0 hashes to a negative bucket index. -/
theorem HashMap.hash_row_above (c : Int) (h0 : 0 ≤ c) (h1 : c < 1000) :
    HashMap.hash (0 + -1) (c + 0) = c - 1000 := by
  unfold HashMap.hash TABLE_SIZE
  obtain ⟨n, hn⟩ : ∃ n : Nat, 1000 - c = (n : Int) + 1 := ⟨(999 - c).toNat, by omega⟩
  have e : (0 + -1 : Int) * 1000 + (c + 0) = Int.negSucc n := by
    rw [Int.negSucc_eq]
    omega
  have hmod : (n + 1) % 1009 = n + 1 := Nat.mod_eq_of_lt (by omega)
  rw [e]
  show -((((n + 1) % 1009 : Nat) : Int)) = c - 1000
  rw [hmod]
  push_cast
  omega

theorem MazeSolver.edgeStep_fault_row0 (s : MazeSolver) (c : Int) (h0 : 0 ≤ c) (h1 : c < 1000)
    (hid : HashMap.find (s.coordMap.table (HashMap.hash 0 c)) 0 c ≠ -1) :
    s.edgeStep 0 c = .error .outOfBounds := by
  have hget : s.coordMap.get (0 + -1) (c + 0) = .error .outOfBounds := by
    unfold HashMap.get
    simp only
    rw [HashMap.hash_row_above c h0 h1, if_neg (by omega)]
  unfold MazeSolver.edgeStep
  rw [HashMap.get_ok _ _ _ (HashMap.hash_inBounds 0 c (le_refl _) h0)]
  simp only
  rw [if_neg hid]
  simp only [MazeSolver.directions, MazeSolver.probeLoop, hget]

theorem MazeSolver.edgeLoop_fault_row0 (c : Int) (h0 : 0 ≤ c) (h1 : c < 1000)
    (cells : List (Int × Int)) :
    ∀ (s s' : MazeSolver), (0, c) ∈ cells →
      HashMap.find (s.coordMap.table (HashMap.hash 0 c)) 0 c ≠ -1 →
      MazeSolver.edgeLoop s cells ≠ .ok s' := by
  induction cells with
  | nil =>
    intro s s' hmem
    cases hmem
  | cons x rest ih =>
    intro s s' hmem hid hok
    obtain ⟨i, j⟩ := x
    simp only [MazeSolver.edgeLoop] at hok
    cases hstep : s.edgeStep i j with
    | error f =>
      rw [hstep] at hok
      cases hok
    | ok s1 =>
      rw [hstep] at hok
      simp only at hok
      rcases List.mem_cons.mp hmem with h | h
      · injection h with hi hj
        subst hi hj
        rw [MazeSolver.edgeStep_fault_row0 s _ h0 h1 hid] at hstep
        cases hstep
      · have hcm := (MazeSolver.edgeStep_spec s s1 i j hstep).2.1
        exact ih s1 s' h (by rw [hcm]; exact hid) hok

/-- On a grid of at most 50 x 50 cells `buildGraph` runs to completion exactly when
no passable cell lies in row 0: for such a cell the probe of the neighbour above
indexes the bucket table at a negative position. -/
theorem MazeSolver.buildGraph_ok_iff (m : Maze) (u : Uninit) (hr : m.rows ≤ MAX_ROWS)
    (hc : m.cols ≤ MAX_COLS) :
    (∃ s, MazeSolver.buildGraph m u = .ok s) ↔ ∀ c : Int, ¬ m.passable (0, c) := by
  constructor
  · rintro ⟨s, hs⟩ c hp
    obtain ⟨s0, h0, hm0, _, inv0⟩ := MazeSolver.buildNodes_spec m u hr hc
    unfold MazeSolver.buildGraph at hs
    rw [h0] at hs
    simp only at hs
    have hmem := (Maze.mem_passableCells m (0, c)).mpr hp
    have hin := Maze.passableCells_inGrid m (0, c) hmem
    obtain ⟨k, hk⟩ := List.getElem?_of_mem hmem
    have hfind := inv0.index k (0, c) hk
    simp only at hfind
    refine MazeSolver.edgeLoop_fault_row0 c hin.2.1 (by unfold MAX_COLS at hc; omega) _ s0 s
      (List.mem_filter.mp hmem).1 ?_ hs
    rw [hfind]
    omega
  · exact MazeSolver.buildGraph_exists m u hr hc

/-- A list with an element satisfying `P` has a last such element. -/
theorem exists_last_index {α : Type} (P : α → Prop) (L : List α) (h : ∃ p ∈ L, P p) :
    ∃ (k : Nat) (p : α), L[k]? = some p ∧ P p ∧
      ∀ (k' : Nat) (p' : α), L[k']? = some p' → P p' → k' ≤ k := by
  induction L using List.reverseRecOn with
  | nil =>
    obtain ⟨p, hp, _⟩ := h
    cases hp
  | append_singleton l x ih =>
    by_cases hx : P x
    · refine ⟨l.length, x, by simp, hx, ?_⟩
      intro k' p' hk' _
      have := getElem?_lt _ _ _ hk'
      simp only [List.length_append, List.length_singleton] at this
      omega
    · have h' : ∃ p ∈ l, P p := by
        obtain ⟨p, hp, hP⟩ := h
        rcases List.mem_append.mp hp with hp | hp
        · exact ⟨p, hp, hP⟩
        · rw [List.mem_singleton.mp hp] at hP
          exact absurd hP hx
      obtain ⟨k, p, hk, hP, hlast⟩ := ih h'
      have hkl := getElem?_lt _ _ _ hk
      refine ⟨k, p, by rw [List.getElem?_append_left hkl]; exact hk, hP, ?_⟩
      intro k' p' hk' hP'
      rcases getElem?_snoc_cases l x k' p' hk' with h1 | ⟨_, h2⟩
      · exact hlast k' p' h1 hP'
      · rw [h2] at hP'
        exact absurd hP' hx

/-- A built graph of a grid of at most 50 x 50 cells that has a start and an end
cell is a graph the solvers expect. -/
theorem Built.wellFormed_of_exists (m : Maze) (s : MazeSolver) (hb : Built m s)
    (hr : m.rows ≤ MAX_ROWS) (hc : m.cols ≤ MAX_COLS)
    (hS : ∃ p : Int × Int, m.getCell p.1 p.2 = 'S')
    (hE : ∃ p : Int × Int, m.getCell p.1 p.2 = 'E') : s.WellFormed := by
  have hcnt := hb.nodes.count
  obtain ⟨ks, ps, hks, hSs, hlasts⟩ := exists_last_index (fun p => m.getCell p.1 p.2 = 'S')
    m.passableCells (by
      obtain ⟨p, hp⟩ := hS
      exact ⟨p, (Maze.mem_passableCells m p).mpr (Or.inr (Or.inl hp)), hp⟩)
  obtain ⟨ke, pe, hke, hEe, hlaste⟩ := exists_last_index (fun p => m.getCell p.1 p.2 = 'E')
    m.passableCells (by
      obtain ⟨p, hp⟩ := hE
      exact ⟨p, (Maze.mem_passableCells m p).mpr (Or.inr (Or.inr hp)), hp⟩)
  have hs := hb.nodes.startId ks ps hks (by rw [hb.maze]; exact hSs)
    (fun k' p' hk' hS' => hlasts k' p' hk' (by rw [hb.maze] at hS'; exact hS'))
  have he := hb.nodes.endId ke pe hke (by rw [hb.maze]; exact hEe)
    (fun k' p' hk' hE' => hlaste k' p' hk' (by rw [hb.maze] at hE'; exact hE'))
  have h1 := getElem?_lt _ _ _ hks
  have h2 := getElem?_lt _ _ _ hke
  constructor
  · rw [hcnt]
    exact Maze.length_passableCells_le m hr hc
  · intro a e hmem
    obtain ⟨_, k, k', p, q, _, h2, _, h4, _⟩ := Built.edge_props m s hb a e hmem
    have := getElem?_lt _ _ _ h4
    rw [h2, hcnt]
    omega
  · rw [hs, hcnt]
    omega
  · rw [he, hcnt]
    omega

/-! ## Results of the solvers on a built graph -/

theorem decode_linear (r c : Int) (hr : 0 ≤ r) (hc : 0 ≤ c) (hc' : c < MAX_COLS) :
    decode (r * MAX_COLS + c) = (r, c) := by
  unfold decode MAX_COLS at *
  have h0 : (0 : Int) ≤ r * 50 + c := by omega
  rw [Int.tdiv_eq_ediv h0 (by decide), Int.tmod_eq_emod h0 (by decide)]
  congr 1 <;> omega

/-- The linearised coordinate of a node of a built graph, and its decoding. -/
theorem Built.linear_eq (m : Maze) (s : MazeSolver) (hb : Built m s) (hc : m.cols ≤ MAX_COLS)
    (k : Nat) (p : Int × Int) (hk : m.passableCells[k]? = some p) :
    s.linear k = p.1 * MAX_COLS + p.2 ∧ decode (s.linear k) = p := by
  have hco := hb.nodes.coords k p hk
  have hin := Maze.passableCells_inGrid m p (List.getElem?_mem hk)
  have h1 : s.linear k = p.1 * MAX_COLS + p.2 := by
    unfold MazeSolver.linear
    rw [hco.1, hco.2]
  refine ⟨h1, ?_⟩
  rw [h1]
  exact decode_linear p.1 p.2 hin.1.1 hin.2.1 (by omega)

theorem Built.validGridPath (m : Maze) (s : MazeSolver) (hb : Built m s) (hc : m.cols ≤ MAX_COLS)
    (r : SolveResult) (nodes : List Int) (hpath : PathOf s r nodes) (hp : s.IsPath nodes)
    (hvalid : ∀ x ∈ nodes, 0 ≤ x ∧ x < s.graph.nodeCount) : ValidGridPath m r := by
  obtain ⟨hlen, hent⟩ := hpath
  have hcell : ∀ (j : Nat) (hj : j < nodes.length), ∃ (k : Nat) (p : Int × Int),
      nodes[j] = k ∧ m.passableCells[k]? = some p ∧ decode (r.path j) = p := by
    intro j hj
    have hv := hvalid nodes[j] (List.getElem_mem _)
    rw [hb.nodes.count] at hv
    obtain ⟨k, hk⟩ := Int.eq_ofNat_of_zero_le hv.1
    have hkl : k < m.passableCells.length := by omega
    refine ⟨k, m.passableCells[k], hk, List.getElem?_eq_getElem hkl, ?_⟩
    rw [hent j nodes[j] (List.getElem?_eq_getElem hj), hk]
    exact (Built.linear_eq m s hb hc k _ (List.getElem?_eq_getElem hkl)).2
  constructor
  · intro i hi0 hi
    obtain ⟨j, rfl⟩ := Int.eq_ofNat_of_zero_le hi0
    have hj : j < nodes.length := by omega
    obtain ⟨k, p, _, hk, hd⟩ := hcell j hj
    rw [hd]
    exact (Maze.mem_passableCells m p).mp (List.getElem?_mem hk)
  · intro i hi0 hi
    obtain ⟨j, rfl⟩ := Int.eq_ofNat_of_zero_le hi0
    have hj : j + 1 < nodes.length := by omega
    obtain ⟨k, p, hn, hk, hd⟩ := hcell j (by omega)
    obtain ⟨k', p', hn', hk', hd'⟩ := hcell (j + 1) hj
    have hedge : s.Edge nodes[j] nodes[j + 1] := by
      have := List.chain'_iff_get.mp hp.2.2.1 j (by omega)
      simpa using this
    rw [hn, hn'] at hedge
    have hadj := (Built.edge_iff m s hb k k' p p' hk hk').mp hedge
    rw [hd]
    have : ((j : Int) + 1) = ((j + 1 : Nat) : Int) := by push_cast; rfl
    rw [this, hd']
    exact hadj

theorem Built.startToEnd (m : Maze) (s : MazeSolver) (hb : Built m s) (hc : m.cols ≤ MAX_COLS)
    (sp ep : Int × Int) (ks ke : Nat) (hks : m.passableCells[ks]? = some sp)
    (hs : s.startNode = ks) (hke : m.passableCells[ke]? = some ep) (he : s.endNode = ke)
    (r : SolveResult) (nodes : List Int) (hpath : PathOf s r nodes) (hp : s.IsPath nodes) :
    StartToEnd sp ep r := by
  obtain ⟨hlen, hent⟩ := hpath
  obtain ⟨h1, h2, _, _⟩ := hp
  have hne : 1 ≤ nodes.length := by
    cases nodes with
    | nil => simp at h1
    | cons a l => simp
  refine ⟨by omega, ?_, ?_⟩
  · rw [List.head?_eq_getElem?] at h1
    have := hent 0 _ h1
    simp only [Nat.cast_zero] at this
    rw [this, hs]
    exact (Built.linear_eq m s hb hc ks sp hks).1
  · rw [List.getLast?_eq_getElem?] at h2
    have := hent _ _ h2
    have hcast : ((nodes.length - 1 : Nat) : Int) = r.pathLen - 1 := by omega
    rw [hcast] at this
    rw [this, he]
    exact (Built.linear_eq m s hb hc ke ep hke).1

theorem Maze.unique_of_passableCells (m : Maze) (ch : Char) (hch : ch = 'S' ∨ ch = 'E')
    (sp : Int × Int) (h : ∀ q ∈ m.passableCells, m.getCell q.1 q.2 = ch → q = sp) :
    ∀ q : Int × Int, m.getCell q.1 q.2 = ch → q = sp := by
  intro q hq
  apply h q _ hq
  rw [Maze.mem_passableCells]
  rcases hch with rfl | rfl
  · exact Or.inr (Or.inl hq)
  · exact Or.inr (Or.inr hq)

/-- On a built graph, a route of the grid between the start and the end cell is a
walk of the same length between `startNode` and `endNode`, and conversely. -/
theorem Built.route_iff_walk (m : Maze) (s : MazeSolver) (hb : Built m s) (sp ep : Int × Int)
    (hS : m.getCell sp.1 sp.2 = 'S') (hSu : ∀ q : Int × Int, m.getCell q.1 q.2 = 'S' → q = sp)
    (hE : m.getCell ep.1 ep.2 = 'E') (hEu : ∀ q : Int × Int, m.getCell q.1 q.2 = 'E' → q = ep)
    (n : Nat) : m.Route sp n ep ↔ s.Walk s.startNode n s.endNode := by
  obtain ⟨ks, hks, hs⟩ := Built.startNode_eq m s hb sp hS hSu
  obtain ⟨ke, hke, he⟩ := Built.endNode_eq m s hb ep hE hEu
  rw [hs, he, Built.walk_iff_route m s hb ks sp hks n ke]
  constructor
  · intro h
    exact ⟨ke, ep, rfl, hke, h⟩
  · rintro ⟨k', q, h1, h2, h3⟩
    have : k' = ke := by exact_mod_cast h1.symm
    subst this
    rw [hke] at h2
    injection h2 with h2
    rw [h2]
    exact h3

theorem SolverPost.found_of_reachable (s : MazeSolver) (path : Int → Int) (r : SolveResult)
    (hpost : SolverPost s path r) (hreach : s.Reachable s.startNode s.endNode) :
    r.found = true := by
  cases hf : r.found with
  | true => rfl
  | false => exact absurd hreach (hpost.2 hf).2.2.1

theorem SolverPost.walk_of_found (s : MazeSolver) (path : Int → Int) (r : SolveResult)
    (hpost : SolverPost s path r) (hf : r.found = true) :
    1 ≤ r.pathLen ∧ s.Walk s.startNode (r.pathLen - 1).toNat s.endNode := by
  obtain ⟨nodes, ⟨hlen, _⟩, hp, _⟩ := hpost.1 hf
  obtain ⟨h1, h2⟩ := MazeSolver.IsPath.walk s nodes hp
  refine ⟨by omega, ?_⟩
  have : (r.pathLen - 1).toNat = nodes.length - 1 := by omega
  rw [this]
  exact h2

/-! ## Claim C1 -/

/-- C1: on the graph built from a maze of at most 50 x 50 cells with exactly one
start and one end cell, the end reachable from the start through 4-adjacent passable
cells, `solveBFS` (with fuel for `nodeCount + 1` iterations) returns `found = true`
and a path of `pathLen` nodes whose edge count `pathLen - 1` is the minimum number of
steps of any route from start to end -- equally the minimum edge count of any walk
from `startNode` to `endNode` in the graph. -/
theorem C1_bfs_shortest_path (m : Maze) (u : Uninit) (s : MazeSolver) (hr : m.rows ≤ MAX_ROWS)
    (hc : m.cols ≤ MAX_COLS) (hbuild : MazeSolver.buildGraph m u = .ok s) (sp ep : Int × Int)
    (hS : m.getCell sp.1 sp.2 = 'S') (hSu : ∀ q : Int × Int, m.getCell q.1 q.2 = 'S' → q = sp)
    (hE : m.getCell ep.1 ep.2 = 'E') (hEu : ∀ q : Int × Int, m.getCell q.1 q.2 = 'E' → q = ep)
    (hreach : ∃ n, m.Route sp n ep) (parent0 stack0 path : Int → Int) (fuel : Nat)
    (hfuel : s.graph.getNodeCount + 1 ≤ fuel) :
    ∃ r, s.solveBFS parent0 stack0 path fuel = .ok r ∧ r.found = true ∧
      (∃ nodes, PathOf s r nodes ∧ s.IsPath nodes) ∧ 1 ≤ r.pathLen ∧
      m.Route sp (r.pathLen - 1).toNat ep ∧ (∀ n, m.Route sp n ep → r.pathLen - 1 ≤ (n : Int)) ∧
      s.Walk s.startNode (r.pathLen - 1).toNat s.endNode ∧
      (∀ n, s.Walk s.startNode n s.endNode → r.pathLen - 1 ≤ (n : Int)) := by
  have hb := MazeSolver.buildGraph_built m u s hr hc hbuild
  have wf := Built.wellFormed m s hb hr hc sp ep hS hSu hE hEu
  have hrw := Built.route_iff_walk m s hb sp ep hS hSu hE hEu
  obtain ⟨r, hres, hpost, hmin⟩ := MazeSolver.solveBFS_spec s wf parent0 stack0 path fuel hfuel
  obtain ⟨n0, hn0⟩ := hreach
  have hfound := SolverPost.found_of_reachable s path r hpost ⟨n0, (hrw n0).mp hn0⟩
  obtain ⟨h1, hwalk⟩ := SolverPost.walk_of_found s path r hpost hfound
  obtain ⟨nodes, hpo, hp, _⟩ := hpost.1 hfound
  refine ⟨r, hres, hfound, ⟨nodes, hpo, hp⟩, h1, (hrw _).mpr hwalk, ?_, hwalk, ?_⟩
  · intro n hn
    have := hmin hfound n ((hrw n).mp hn)
    omega
  · intro n hn
    have := hmin hfound n hn
    omega

/-! ## The example mazes -/

theorem roomMaze_builds : ∃ s, MazeSolver.buildGraph roomMaze zeroUninit = .ok s :=
  Except.exists_of_isOk _ (by decide)

theorem roomMaze_start (q : Int × Int) (h : roomMaze.getCell q.1 q.2 = 'S') : q = (1, 1) :=
  Maze.unique_of_passableCells roomMaze 'S' (Or.inl rfl) (1, 1) (by decide) q h

theorem roomMaze_end (q : Int × Int) (h : roomMaze.getCell q.1 q.2 = 'E') : q = (2, 3) :=
  Maze.unique_of_passableCells roomMaze 'E' (Or.inr rfl) (2, 3) (by decide) q h

theorem roomMaze_route : roomMaze.Route (1, 1) 3 (2, 3) :=
  Maze.Route.step (Maze.Route.step (Maze.Route.step (Maze.Route.refl (1, 1) (by decide))
    (q := (1, 1)) (r := (1, 2)) (by decide) (by decide)) (r := (1, 3)) (by decide) (by decide))
    (r := (2, 3)) (by decide) (by decide)

theorem roomMaze_nodeCount (s : MazeSolver) (h : MazeSolver.buildGraph roomMaze zeroUninit = .ok s) :
    s.graph.getNodeCount = 6 := by
  have hb := MazeSolver.buildGraph_built roomMaze zeroUninit s (by decide) (by decide) h
  show s.graph.nodeCount = 6
  rw [hb.nodes.count]
  decide

/-- C1 on the room maze: the shortest route from `S` to `E` has 3 steps, and
`solveBFS` returns a path of 4 cells. -/
theorem C1_bfs_shortest_path_witness :
    runBFS roomMaze 30 = .ok (true, 4, 6, [51, 52, 53, 103]) ∧
    ∃ s r, MazeSolver.buildGraph roomMaze zeroUninit = .ok s ∧
      s.solveBFS zeros zeros zeros 30 = .ok r ∧ r.found = true ∧
      roomMaze.Route (1, 1) (r.pathLen - 1).toNat (2, 3) ∧
      ∀ n, roomMaze.Route (1, 1) n (2, 3) → r.pathLen - 1 ≤ (n : Int) := by
  refine ⟨by decide, ?_⟩
  obtain ⟨s, hs⟩ := roomMaze_builds
  obtain ⟨r, h1, h2, _, _, h5, h6, _⟩ := C1_bfs_shortest_path roomMaze zeroUninit s (by decide)
    (by decide) hs (1, 1) (2, 3) (by decide) roomMaze_start (by decide) roomMaze_end
    ⟨3, roomMaze_route⟩ zeros zeros zeros 30 (by rw [roomMaze_nodeCount s hs]; decide)
  exact ⟨s, r, hs, h1, h2, h5, h6⟩

/-- The three solvers on a built graph, at once: each returns a result that
satisfies `SolverPost`. -/
theorem Built.solvers (m : Maze) (s : MazeSolver) (hb : Built m s) (wf : s.WellFormed)
    (parent0 stack0 path : Int → Int) (fuel : Nat) (hfuel : 4 * s.graph.getNodeCount + 2 ≤ fuel) :
    (∃ r, s.solveBFS parent0 stack0 path fuel = .ok r ∧ SolverPost s path r ∧
      (r.found = true → ∀ n, s.Walk s.startNode n s.endNode → r.pathLen ≤ (n : Int) + 1)) ∧
    (∃ r, s.solveDFSStack parent0 stack0 path fuel = .ok r ∧ SolverPost s path r) ∧
    (∃ r, s.solveDFSRecursive parent0 stack0 path fuel = .ok r ∧ SolverPost s path r) := by
  have hn : 0 ≤ s.graph.nodeCount := by have := wf.startValid; omega
  have hfuel' : 4 * s.graph.nodeCount + 2 ≤ fuel := hfuel
  have h1 : s.graph.nodeCount + 1 ≤ fuel := by omega
  exact ⟨MazeSolver.solveBFS_spec s wf parent0 stack0 path fuel h1,
    MazeSolver.solveDFSStack_spec s wf parent0 stack0 path 4 (Built.degree_le m s hb) fuel
      (by push_cast; omega) h1,
    MazeSolver.solveDFSRecursive_spec s wf parent0 stack0 path fuel h1⟩

theorem SolverPost.path_validGridPath (m : Maze) (s : MazeSolver) (hb : Built m s)
    (hc : m.cols ≤ MAX_COLS) (path : Int → Int) (r : SolveResult) (hpost : SolverPost s path r)
    (hf : r.found = true) : ValidGridPath m r := by
  obtain ⟨nodes, hpo, hp, hv⟩ := hpost.1 hf
  exact Built.validGridPath m s hb hc r nodes hpo hp hv

/-! ## Claim C2 -/

/-- C2: on the graph built from a maze of at most 50 x 50 cells with one start and
one end cell, each of `solveBFS`, `solveDFSStack`, `solveDFSRecursive` returns, and
whenever it returns `found = true` every entry `path[i]`, `0 <= i < pathLen`, decodes
as `(path[i] / 50, path[i] % 50)` to a passable cell of the grid, and consecutive
entries decode to 4-adjacent cells. -/
theorem C2_path_cells_passable_adjacent (m : Maze) (u : Uninit) (s : MazeSolver)
    (hr : m.rows ≤ MAX_ROWS) (hc : m.cols ≤ MAX_COLS)
    (hbuild : MazeSolver.buildGraph m u = .ok s) (sp ep : Int × Int)
    (hS : m.getCell sp.1 sp.2 = 'S') (hSu : ∀ q : Int × Int, m.getCell q.1 q.2 = 'S' → q = sp)
    (hE : m.getCell ep.1 ep.2 = 'E') (hEu : ∀ q : Int × Int, m.getCell q.1 q.2 = 'E' → q = ep)
    (parent0 stack0 path : Int → Int) (fuel : Nat)
    (hfuel : 4 * s.graph.getNodeCount + 2 ≤ fuel) :
    (∃ r, s.solveBFS parent0 stack0 path fuel = .ok r ∧ (r.found = true → ValidGridPath m r)) ∧
    (∃ r, s.solveDFSStack parent0 stack0 path fuel = .ok r ∧
      (r.found = true → ValidGridPath m r)) ∧
    (∃ r, s.solveDFSRecursive parent0 stack0 path fuel = .ok r ∧
      (r.found = true → ValidGridPath m r)) := by
  have hb := MazeSolver.buildGraph_built m u s hr hc hbuild
  have wf := Built.wellFormed m s hb hr hc sp ep hS hSu hE hEu
  obtain ⟨⟨r1, h1, p1, _⟩, ⟨r2, h2, p2⟩, ⟨r3, h3, p3⟩⟩ :=
    Built.solvers m s hb wf parent0 stack0 path fuel hfuel
  exact ⟨⟨r1, h1, SolverPost.path_validGridPath m s hb hc path r1 p1⟩,
    ⟨r2, h2, SolverPost.path_validGridPath m s hb hc path r2 p2⟩,
    ⟨r3, h3, SolverPost.path_validGridPath m s hb hc path r3 p3⟩⟩

/-- C2 on the room maze, where `solveDFSStack` returns the path
`(1,1), (2,1), (2,2), (1,2), (1,3), (2,3)`. -/
theorem C2_path_cells_passable_adjacent_witness :
    runDFSStack roomMaze 30 = .ok (true, 6, 6, [51, 101, 102, 52, 53, 103]) ∧
    ∃ s, MazeSolver.buildGraph roomMaze zeroUninit = .ok s ∧
      (∃ r, s.solveBFS zeros zeros zeros 30 = .ok r ∧ (r.found = true → ValidGridPath roomMaze r)) ∧
      (∃ r, s.solveDFSStack zeros zeros zeros 30 = .ok r ∧
        (r.found = true → ValidGridPath roomMaze r)) ∧
      (∃ r, s.solveDFSRecursive zeros zeros zeros 30 = .ok r ∧
        (r.found = true → ValidGridPath roomMaze r)) := by
  refine ⟨by decide, ?_⟩
  obtain ⟨s, hs⟩ := roomMaze_builds
  exact ⟨s, hs, C2_path_cells_passable_adjacent roomMaze zeroUninit s (by decide) (by decide) hs
    (1, 1) (2, 3) (by decide) roomMaze_start (by decide) roomMaze_end zeros zeros zeros 30
    (by rw [roomMaze_nodeCount s hs]; decide)⟩

theorem SolverPost.path_startToEnd (m : Maze) (s : MazeSolver) (hb : Built m s)
    (hc : m.cols ≤ MAX_COLS) (sp ep : Int × Int)
    (hS : m.getCell sp.1 sp.2 = 'S') (hSu : ∀ q : Int × Int, m.getCell q.1 q.2 = 'S' → q = sp)
    (hE : m.getCell ep.1 ep.2 = 'E') (hEu : ∀ q : Int × Int, m.getCell q.1 q.2 = 'E' → q = ep)
    (path : Int → Int) (r : SolveResult) (hpost : SolverPost s path r) (hf : r.found = true) :
    StartToEnd sp ep r := by
  obtain ⟨ks, hks, hs⟩ := Built.startNode_eq m s hb sp hS hSu
  obtain ⟨ke, hke, he⟩ := Built.endNode_eq m s hb ep hE hEu
  obtain ⟨nodes, hpo, hp, _⟩ := hpost.1 hf
  exact Built.startToEnd m s hb hc sp ep ks ke hks hs hke he r nodes hpo hp

/-! ## Claim C3 -/

/-- C3: whenever one of the three solvers returns `found = true` on the graph built
from a maze of at most 50 x 50 cells with one start and one end cell, the path is in
start-to-end order: `pathLen >= 1`, `path[0]` is `row * 50 + col` of the `'S'` cell and
`path[pathLen - 1]` that of the `'E'` cell.  This is how `reconstructPath` works: for
every parent chain `l` walked back from `endNode` to a root it returns `l.length`
and writes the linearised coordinates of `l` reversed. -/
theorem C3_path_start_to_end (m : Maze) (u : Uninit) (s : MazeSolver)
    (hr : m.rows ≤ MAX_ROWS) (hc : m.cols ≤ MAX_COLS)
    (hbuild : MazeSolver.buildGraph m u = .ok s) (sp ep : Int × Int)
    (hS : m.getCell sp.1 sp.2 = 'S') (hSu : ∀ q : Int × Int, m.getCell q.1 q.2 = 'S' → q = sp)
    (hE : m.getCell ep.1 ep.2 = 'E') (hEu : ∀ q : Int × Int, m.getCell q.1 q.2 = 'E' → q = ep)
    (parent0 stack0 path : Int → Int) (fuel : Nat)
    (hfuel : 4 * s.graph.getNodeCount + 2 ≤ fuel) :
    (∃ r, s.solveBFS parent0 stack0 path fuel = .ok r ∧ (r.found = true → StartToEnd sp ep r)) ∧
    (∃ r, s.solveDFSStack parent0 stack0 path fuel = .ok r ∧
      (r.found = true → StartToEnd sp ep r)) ∧
    (∃ r, s.solveDFSRecursive parent0 stack0 path fuel = .ok r ∧
      (r.found = true → StartToEnd sp ep r)) ∧
    (∀ (parent : Int → Int) (l : List Int), ParentChain parent s.endNode l →
      (∀ x ∈ l, 0 ≤ x ∧ x < MAX_NODES) → (l.length : Int) ≤ MAX_NODES → l.length + 1 ≤ fuel →
      ∃ path', s.reconstructPath stack0 fuel parent path = .ok (path', l.length) ∧
        ∀ (i : Nat) (v : Int), l.reverse[i]? = some v → path' i = s.linear v) := by
  have hb := MazeSolver.buildGraph_built m u s hr hc hbuild
  have wf := Built.wellFormed m s hb hr hc sp ep hS hSu hE hEu
  obtain ⟨⟨r1, h1, p1, _⟩, ⟨r2, h2, p2⟩, ⟨r3, h3, p3⟩⟩ :=
    Built.solvers m s hb wf parent0 stack0 path fuel hfuel
  exact ⟨⟨r1, h1, SolverPost.path_startToEnd m s hb hc sp ep hS hSu hE hEu path r1 p1⟩,
    ⟨r2, h2, SolverPost.path_startToEnd m s hb hc sp ep hS hSu hE hEu path r2 p2⟩,
    ⟨r3, h3, SolverPost.path_startToEnd m s hb hc sp ep hS hSu hE hEu path r3 p3⟩,
    fun parent l hl hbd hlen hf =>
      MazeSolver.reconstructPath_spec s stack0 parent path fuel l hl hbd hlen hf⟩

/-- C3 on the room maze: the paths start at `51 = 1 * 50 + 1` and end at
`103 = 2 * 50 + 3`. -/
theorem C3_path_start_to_end_witness :
    runDFSRecursive roomMaze 30 = .ok (true, 4, 4, [51, 52, 53, 103]) ∧
    ∃ s, MazeSolver.buildGraph roomMaze zeroUninit = .ok s ∧
      (∃ r, s.solveBFS zeros zeros zeros 30 = .ok r ∧
        (r.found = true → StartToEnd (1, 1) (2, 3) r)) ∧
      (∃ r, s.solveDFSStack zeros zeros zeros 30 = .ok r ∧
        (r.found = true → StartToEnd (1, 1) (2, 3) r)) ∧
      (∃ r, s.solveDFSRecursive zeros zeros zeros 30 = .ok r ∧
        (r.found = true → StartToEnd (1, 1) (2, 3) r)) := by
  refine ⟨by decide, ?_⟩
  obtain ⟨s, hs⟩ := roomMaze_builds
  obtain ⟨h1, h2, h3, _⟩ := C3_path_start_to_end roomMaze zeroUninit s (by decide) (by decide) hs
    (1, 1) (2, 3) (by decide) roomMaze_start (by decide) roomMaze_end zeros zeros zeros 30
    (by rw [roomMaze_nodeCount s hs]; decide)
  exact ⟨s, hs, h1, h2, h3⟩

/-! ## Claim C4 -/

/-- C4: on every graph built from a maze of at most 50 x 50 cells that has a start
and an end cell, if `endNode` is reachable from `startNode` along edges then
`solveDFSStack` and `solveDFSRecursive` both return `found = true`: a path is found
whenever one exists. -/
theorem C4_dfs_finds_a_path (m : Maze) (u : Uninit) (s : MazeSolver)
    (hr : m.rows ≤ MAX_ROWS) (hc : m.cols ≤ MAX_COLS)
    (hbuild : MazeSolver.buildGraph m u = .ok s)
    (hS : ∃ p : Int × Int, m.getCell p.1 p.2 = 'S')
    (hE : ∃ p : Int × Int, m.getCell p.1 p.2 = 'E')
    (hreach : s.Reachable s.startNode s.endNode) (parent0 stack0 path : Int → Int) (fuel : Nat)
    (hfuel : 4 * s.graph.getNodeCount + 2 ≤ fuel) :
    (∃ r, s.solveDFSStack parent0 stack0 path fuel = .ok r ∧ r.found = true) ∧
    (∃ r, s.solveDFSRecursive parent0 stack0 path fuel = .ok r ∧ r.found = true) := by
  have hb := MazeSolver.buildGraph_built m u s hr hc hbuild
  have wf := Built.wellFormed_of_exists m s hb hr hc hS hE
  obtain ⟨_, ⟨r2, h2, p2⟩, ⟨r3, h3, p3⟩⟩ := Built.solvers m s hb wf parent0 stack0 path fuel hfuel
  exact ⟨⟨r2, h2, SolverPost.found_of_reachable s path r2 p2 hreach⟩,
    ⟨r3, h3, SolverPost.found_of_reachable s path r3 p3 hreach⟩⟩

/-- C4 on the room maze, where the two depth-first solvers find paths of 5 and of 3
edges. -/
theorem C4_dfs_finds_a_path_witness :
    runDFSStack roomMaze 30 = .ok (true, 6, 6, [51, 101, 102, 52, 53, 103]) ∧
    runDFSRecursive roomMaze 30 = .ok (true, 4, 4, [51, 52, 53, 103]) ∧
    ∃ s, MazeSolver.buildGraph roomMaze zeroUninit = .ok s ∧
      (∃ r, s.solveDFSStack zeros zeros zeros 30 = .ok r ∧ r.found = true) ∧
      (∃ r, s.solveDFSRecursive zeros zeros zeros 30 = .ok r ∧ r.found = true) := by
  refine ⟨by decide, by decide, ?_⟩
  obtain ⟨s, hs⟩ := roomMaze_builds
  have hb := MazeSolver.buildGraph_built roomMaze zeroUninit s (by decide) (by decide) hs
  have hreach : s.Reachable s.startNode s.endNode :=
    ⟨3, (Built.route_iff_walk roomMaze s hb (1, 1) (2, 3) (by decide) roomMaze_start (by decide)
      roomMaze_end 3).mp roomMaze_route⟩
  exact ⟨s, hs, C4_dfs_finds_a_path roomMaze zeroUninit s (by decide) (by decide) hs
    ⟨(1, 1), by decide⟩ ⟨(2, 3), by decide⟩ hreach zeros zeros zeros 30
    (by rw [roomMaze_nodeCount s hs]; decide)⟩

theorem SolverPost.notFound (s : MazeSolver) (path : Int → Int) (r : SolveResult)
    (hpost : SolverPost s path r) (hno : ¬ s.Reachable s.startNode s.endNode) :
    NotFoundResult s path r := by
  have hf : r.found = false := by
    cases h : r.found with
    | false => rfl
    | true =>
      obtain ⟨_, hw⟩ := SolverPost.walk_of_found s path r hpost h
      exact absurd ⟨_, hw⟩ hno
  obtain ⟨h1, h2, _, L, h4, h5, h6⟩ := hpost.2 hf
  exact ⟨hf, h1, h2, by rw [h6]; omega, L, h4, h5, h6⟩

/-! ## Claim C5 -/

/-- C5: on the graph built from a maze (at most 50 x 50 cells, one start, one end
cell) in which no route of 4-adjacent passable cells joins start and end, each of
the three solvers returns `found = false` with `pathLen = 0`, leaves `path` as it
was, and sets `nodesVisited` to the number of nodes reachable from `startNode`
(itself included), which is non-negative. -/
theorem C5_unreachable_not_found (m : Maze) (u : Uninit) (s : MazeSolver)
    (hr : m.rows ≤ MAX_ROWS) (hc : m.cols ≤ MAX_COLS)
    (hbuild : MazeSolver.buildGraph m u = .ok s) (sp ep : Int × Int)
    (hS : m.getCell sp.1 sp.2 = 'S') (hSu : ∀ q : Int × Int, m.getCell q.1 q.2 = 'S' → q = sp)
    (hE : m.getCell ep.1 ep.2 = 'E') (hEu : ∀ q : Int × Int, m.getCell q.1 q.2 = 'E' → q = ep)
    (hno : ¬ ∃ n, m.Route sp n ep) (parent0 stack0 path : Int → Int) (fuel : Nat)
    (hfuel : 4 * s.graph.getNodeCount + 2 ≤ fuel) :
    (∃ r, s.solveBFS parent0 stack0 path fuel = .ok r ∧ NotFoundResult s path r) ∧
    (∃ r, s.solveDFSStack parent0 stack0 path fuel = .ok r ∧ NotFoundResult s path r) ∧
    (∃ r, s.solveDFSRecursive parent0 stack0 path fuel = .ok r ∧ NotFoundResult s path r) := by
  have hb := MazeSolver.buildGraph_built m u s hr hc hbuild
  have wf := Built.wellFormed m s hb hr hc sp ep hS hSu hE hEu
  have hno' : ¬ s.Reachable s.startNode s.endNode := by
    rintro ⟨n, hw⟩
    exact hno ⟨n, (Built.route_iff_walk m s hb sp ep hS hSu hE hEu n).mpr hw⟩
  obtain ⟨⟨r1, h1, p1, _⟩, ⟨r2, h2, p2⟩, ⟨r3, h3, p3⟩⟩ :=
    Built.solvers m s hb wf parent0 stack0 path fuel hfuel
  exact ⟨⟨r1, h1, SolverPost.notFound s path r1 p1 hno'⟩,
    ⟨r2, h2, SolverPost.notFound s path r2 p2 hno'⟩,
    ⟨r3, h3, SolverPost.notFound s path r3 p3 hno'⟩⟩

theorem blockedMaze_builds : ∃ s, MazeSolver.buildGraph blockedMaze zeroUninit = .ok s :=
  Except.exists_of_isOk _ (by decide)

theorem blockedMaze_no_route : ¬ ∃ n, blockedMaze.Route (1, 1) n (1, 3) := by
  have key : ∀ n q, blockedMaze.Route (1, 1) n q → q = (1, 1) := by
    intro n q h
    induction h with
    | refl _ => rfl
    | @step q r n _ hadj hpass ih =>
      subst ih
      have hmem := (Maze.mem_passableCells blockedMaze r).mpr hpass
      have hall : ∀ x ∈ blockedMaze.passableCells, ¬ adjacent4 (1, 1) x := by decide
      exact absurd hadj (hall r hmem)
  rintro ⟨n, h⟩
  have := key n _ h
  revert this
  decide

/-- C5 on the blocked maze `#S#E#`: only the start node is reachable, and all three
solvers report `found = false`, `pathLen = 0`, `nodesVisited = 1`. -/
theorem C5_unreachable_not_found_witness :
    runBFS blockedMaze 30 = .ok (false, 0, 1, []) ∧
    runDFSStack blockedMaze 30 = .ok (false, 0, 1, []) ∧
    runDFSRecursive blockedMaze 30 = .ok (false, 0, 1, []) ∧
    ∃ s, MazeSolver.buildGraph blockedMaze zeroUninit = .ok s ∧
      (∃ r, s.solveBFS zeros zeros zeros 30 = .ok r ∧ NotFoundResult s zeros r) ∧
      (∃ r, s.solveDFSStack zeros zeros zeros 30 = .ok r ∧ NotFoundResult s zeros r) ∧
      (∃ r, s.solveDFSRecursive zeros zeros zeros 30 = .ok r ∧ NotFoundResult s zeros r) := by
  refine ⟨by decide, by decide, by decide, ?_⟩
  obtain ⟨s, hs⟩ := blockedMaze_builds
  have hb := MazeSolver.buildGraph_built blockedMaze zeroUninit s (by decide) (by decide) hs
  have hn : s.graph.getNodeCount = 2 := by
    show s.graph.nodeCount = 2
    rw [hb.nodes.count]
    decide
  exact ⟨s, hs, C5_unreachable_not_found blockedMaze zeroUninit s (by decide) (by decide) hs
    (1, 1) (1, 3) (by decide)
    (Maze.unique_of_passableCells blockedMaze 'S' (Or.inl rfl) (1, 1) (by decide))
    (by decide) (Maze.unique_of_passableCells blockedMaze 'E' (Or.inr rfl) (1, 3) (by decide))
    blockedMaze_no_route zeros zeros zeros 30 (by rw [hn]; decide)⟩

/-! ## Claim C6 -/

/-- C6: on the graph built from a maze (at most 50 x 50 cells, one start, one end
cell) whose start and end are joined by passable cells, all three solvers find a
path, and the edge count `pathLen - 1` of the `solveBFS` path is at most that of the
`solveDFSStack` path and at most that of the `solveDFSRecursive` path. -/
theorem C6_bfs_not_longer_than_dfs (m : Maze) (u : Uninit) (s : MazeSolver)
    (hr : m.rows ≤ MAX_ROWS) (hc : m.cols ≤ MAX_COLS)
    (hbuild : MazeSolver.buildGraph m u = .ok s) (sp ep : Int × Int)
    (hS : m.getCell sp.1 sp.2 = 'S') (hSu : ∀ q : Int × Int, m.getCell q.1 q.2 = 'S' → q = sp)
    (hE : m.getCell ep.1 ep.2 = 'E') (hEu : ∀ q : Int × Int, m.getCell q.1 q.2 = 'E' → q = ep)
    (hreach : ∃ n, m.Route sp n ep) (parent0 stack0 path : Int → Int) (fuel : Nat)
    (hfuel : 4 * s.graph.getNodeCount + 2 ≤ fuel) :
    ∃ rb rs rr, s.solveBFS parent0 stack0 path fuel = .ok rb ∧
      s.solveDFSStack parent0 stack0 path fuel = .ok rs ∧
      s.solveDFSRecursive parent0 stack0 path fuel = .ok rr ∧
      rb.found = true ∧ rs.found = true ∧ rr.found = true ∧
      rb.pathLen - 1 ≤ rs.pathLen - 1 ∧ rb.pathLen - 1 ≤ rr.pathLen - 1 := by
  have hb := MazeSolver.buildGraph_built m u s hr hc hbuild
  have wf := Built.wellFormed m s hb hr hc sp ep hS hSu hE hEu
  obtain ⟨n0, hn0⟩ := hreach
  have hreach' : s.Reachable s.startNode s.endNode :=
    ⟨n0, (Built.route_iff_walk m s hb sp ep hS hSu hE hEu n0).mp hn0⟩
  obtain ⟨⟨r1, h1, p1, hmin⟩, ⟨r2, h2, p2⟩, ⟨r3, h3, p3⟩⟩ :=
    Built.solvers m s hb wf parent0 stack0 path fuel hfuel
  have f1 := SolverPost.found_of_reachable s path r1 p1 hreach'
  have f2 := SolverPost.found_of_reachable s path r2 p2 hreach'
  have f3 := SolverPost.found_of_reachable s path r3 p3 hreach'
  obtain ⟨a2, w2⟩ := SolverPost.walk_of_found s path r2 p2 f2
  obtain ⟨a3, w3⟩ := SolverPost.walk_of_found s path r3 p3 f3
  have m2 := hmin f1 _ w2
  have m3 := hmin f1 _ w3
  refine ⟨r1, r2, r3, h1, h2, h3, f1, f2, f3, ?_, ?_⟩
  · omega
  · omega

/-- C6 on the room maze: the BFS path has 3 edges, the stack DFS path 5, the
recursive DFS path 3. -/
theorem C6_bfs_not_longer_than_dfs_witness :
    runBFS roomMaze 30 = .ok (true, 4, 6, [51, 52, 53, 103]) ∧
    runDFSStack roomMaze 30 = .ok (true, 6, 6, [51, 101, 102, 52, 53, 103]) ∧
    ∃ s rb rs rr, MazeSolver.buildGraph roomMaze zeroUninit = .ok s ∧
      s.solveBFS zeros zeros zeros 30 = .ok rb ∧ s.solveDFSStack zeros zeros zeros 30 = .ok rs ∧
      s.solveDFSRecursive zeros zeros zeros 30 = .ok rr ∧
      rb.pathLen - 1 ≤ rs.pathLen - 1 ∧ rb.pathLen - 1 ≤ rr.pathLen - 1 := by
  refine ⟨by decide, by decide, ?_⟩
  obtain ⟨s, hs⟩ := roomMaze_builds
  obtain ⟨rb, rs, rr, h1, h2, h3, _, _, _, h7, h8⟩ := C6_bfs_not_longer_than_dfs roomMaze
    zeroUninit s (by decide) (by decide) hs (1, 1) (2, 3) (by decide) roomMaze_start (by decide)
    roomMaze_end ⟨3, roomMaze_route⟩ zeros zeros zeros 30 (by rw [roomMaze_nodeCount s hs]; decide)
  exact ⟨s, rb, rs, rr, hs, h1, h2, h3, h7, h8⟩

/-! ## Graph: `addNode` and `addEdge` -/

theorem Graph.addNode_ok (g : Graph) (row col : Int) (h0 : 0 ≤ g.nodeCount)
    (hcap : g.nodeCount < MAX_NODES) :
    ∃ g', g.addNode row col = .ok (g.nodeCount, g') ∧ g'.nodeCount = g.nodeCount + 1 ∧
      g'.nodeRows = store g.nodeRows g.nodeCount row ∧
      g'.nodeCols = store g.nodeCols g.nodeCount col ∧ g'.adjList = g.adjList := by
  refine ⟨{ g with nodeRows := store g.nodeRows g.nodeCount row,
                    nodeCols := store g.nodeCols g.nodeCount col,
                    nodeCount := g.nodeCount + 1 }, ?_, rfl, rfl, rfl, rfl⟩
  unfold Graph.addNode
  simp only
  rw [if_pos ⟨h0, hcap⟩]

theorem Graph.addNode_full (g : Graph) (row col : Int) (hfull : g.nodeCount = MAX_NODES) :
    g.addNode row col = .error .outOfBounds := by
  unfold Graph.addNode
  simp only
  rw [if_neg (by rw [hfull]; omega)]

theorem Graph.addNodes_count (row col : Int) (n : Nat) :
    ∀ g : Graph, 0 ≤ g.nodeCount → g.nodeCount + n ≤ MAX_NODES →
      ∃ g', g.addNodes row col n = .ok g' ∧ g'.nodeCount = g.nodeCount + n := by
  induction n with
  | zero =>
    intro g _ _
    exact ⟨g, rfl, by simp⟩
  | succ n ih =>
    intro g h0 hcap
    obtain ⟨g1, h1, h2, _⟩ := Graph.addNode_ok g row col h0 (by push_cast at hcap; omega)
    obtain ⟨g2, h3, h4⟩ := ih g1 (by omega) (by push_cast at hcap; omega)
    refine ⟨g2, ?_, by rw [h4, h2]; push_cast; omega⟩
    simp only [Graph.addNodes, h1]
    exact h3

/-! ## Claim C13 -/

/-- C13 fails on the code: a graph filled by `MAX_NODES = 2500` calls of `addNode`
holds `nodeCount = 2500`, and one more `addNode(7, 8)` does not report a capacity
error -- the source has no capacity test, so the call runs into the stores
`nodeRows[2500] = 7; nodeCols[2500] = 8`, which lie outside the arrays (the fault
`outOfBounds` of the embedding). -/
theorem C13_addNode_full_graph_out_of_bounds :
    ∃ g, (Graph.init zeros zeros).addNodes 0 0 2500 = .ok g ∧ g.nodeCount = MAX_NODES ∧
      g.addNode 7 8 = .error .outOfBounds := by
  obtain ⟨g, h1, h2⟩ := Graph.addNodes_count 0 0 2500 (Graph.init zeros zeros) (by decide)
    (by decide)
  have h3 : g.nodeCount = MAX_NODES := by
    rw [h2]
    decide
  exact ⟨g, h1, h3, Graph.addNode_full g 7 8 h3⟩

/-! ## Claim C15 -/

/-- C15: on a graph with `nodeCount = n`, `0 <= n < MAX_NODES`, `addNode(row, col)`
returns `n` and raises `nodeCount` to `n + 1`; afterwards `getNodeCoords(n)` is
`(row, col)`, and the coordinates of the nodes `0 .. n-1` and all adjacency lists are
as before. -/
theorem C15_addNode_sequential_ids (g : Graph) (row col : Int) (h0 : 0 ≤ g.nodeCount)
    (hcap : g.nodeCount < MAX_NODES) :
    ∃ g', g.addNode row col = .ok (g.nodeCount, g') ∧
      g'.getNodeCount = g.getNodeCount + 1 ∧
      g'.getNodeCoords g.nodeCount = .ok (row, col) ∧
      (∀ k, 0 ≤ k → k < g.nodeCount → g'.getNodeCoords k = g.getNodeCoords k) ∧
      (∀ k, g'.getAdjList k = g.getAdjList k) := by
  obtain ⟨g', h1, h2, h3, h4, h5⟩ := Graph.addNode_ok g row col h0 hcap
  refine ⟨g', h1, h2, ?_, ?_, ?_⟩
  · unfold Graph.getNodeCoords
    rw [if_pos ⟨h0, hcap⟩, h3, h4, store_same, store_same]
  · intro k hk0 hk
    have hne : k ≠ g.nodeCount := by omega
    unfold Graph.getNodeCoords
    rw [h3, h4, store_other _ _ _ _ hne, store_other _ _ _ _ hne]
  · intro k
    unfold Graph.getAdjList
    rw [h5]

/-- C15 on a fresh graph: three calls return the ids 0, 1, 2 in this order. -/
theorem C15_addNode_sequential_ids_witness :
    ∃ g1 g2 g3, (Graph.init zeros zeros).addNode 4 5 = .ok (0, g1) ∧
      g1.addNode 6 7 = .ok (1, g2) ∧ g2.addNode 8 9 = .ok (2, g3) ∧
      g3.getNodeCoords 0 = .ok (4, 5) ∧ g3.getNodeCoords 2 = .ok (8, 9) := by
  obtain ⟨g1, a1, a2, a3, _, _⟩ := C15_addNode_sequential_ids (Graph.init zeros zeros) 4 5
    (by decide) (by decide)
  have c1 : g1.nodeCount = 1 := a2
  obtain ⟨g2, b1, b2, b3, b4, _⟩ := C15_addNode_sequential_ids g1 6 7 (by rw [c1]; decide)
    (by rw [c1]; decide)
  have c2 : g2.nodeCount = 2 := by
    have : g2.nodeCount = g1.nodeCount + 1 := b2
    rw [this, c1]
    rfl
  obtain ⟨g3, d1, _, d3, d4, _⟩ := C15_addNode_sequential_ids g2 8 9 (by rw [c2]; decide)
    (by rw [c2]; decide)
  rw [c1] at b1 b4
  rw [c2] at d1 d3 d4
  refine ⟨g1, g2, g3, a1, b1, d1, ?_, d3⟩
  rw [d4 0 (by decide) (by decide), b4 0 (by decide) (by decide)]
  exact a3

/-! ## Claim C16 -/

/-- C16: `addEdge(src, dest, weight)` with `src` inside the adjacency array puts the
edge `(dest, weight)` in front of the previous list of `src`, which follows unchanged;
the lists of all other nodes, `nodeCount` and the node coordinates stay as they
are.  Nothing is filtered: this holds for every `dest` and `weight`, so a self-edge or
an edge that is already present is stored again. -/
theorem C16_addEdge_prepends (g : Graph) (src dest weight : Int)
    (hsrc : 0 ≤ src ∧ src < MAX_NODES) :
    ∃ g', g.addEdge src dest weight = .ok g' ∧
      g'.getAdjList src = .ok ({ dest := dest, weight := weight } :: g.adjList src) ∧
      g.getAdjList src = .ok (g.adjList src) ∧
      (∀ n, n ≠ src → g'.getAdjList n = g.getAdjList n) ∧
      g'.getNodeCount = g.getNodeCount ∧ g'.nodeRows = g.nodeRows ∧ g'.nodeCols = g.nodeCols := by
  obtain ⟨g', hg'⟩ : ∃ g', g.addEdge src dest weight = .ok g' := by
    unfold Graph.addEdge
    rw [if_pos hsrc]
    exact ⟨_, rfl⟩
  obtain ⟨h1, h2, h3, h4, h5⟩ := Graph.addEdge_eq_ok g g' src dest weight hg'
  refine ⟨g', hg', ?_, ?_, ?_, h1, h2, h3⟩
  · unfold Graph.getAdjList
    rw [if_pos hsrc, h4]
  · unfold Graph.getAdjList
    rw [if_pos hsrc]
  · intro n hn
    unfold Graph.getAdjList
    rw [h5 n hn]

/-- C16 on a fresh graph: the self-edge `3 -> 3` added twice is stored twice. -/
theorem C16_addEdge_prepends_witness :
    ∃ g1 g2, (Graph.init zeros zeros).addEdge 3 3 1 = .ok g1 ∧ g1.addEdge 3 3 1 = .ok g2 ∧
      g2.getAdjList 3 = .ok [{ dest := 3, weight := 1 }, { dest := 3, weight := 1 }] := by
  obtain ⟨g1, a1, a2, _⟩ := C16_addEdge_prepends (Graph.init zeros zeros) 3 3 1 (by decide)
  obtain ⟨g2, b1, b2, _⟩ := C16_addEdge_prepends g1 3 3 1 (by decide)
  refine ⟨g1, g2, a1, b1, ?_⟩
  rw [b2]
  have : g1.adjList 3 = [{ dest := 3, weight := 1 }] := by
    unfold Graph.getAdjList at a2
    rw [if_pos (by decide)] at a2
    injection a2
  rw [this]

/-! ## Claim C14 -/

theorem Maze.length_passableCells_le_area (m : Maze) (h0r : 0 ≤ m.rows) (h0c : 0 ≤ m.cols) :
    (m.passableCells.length : Int) ≤ m.rows * m.cols := by
  have h1 : m.passableCells.length ≤ (scanOrder m.rows m.cols).length := List.length_filter_le _ _
  rw [length_scanOrder] at h1
  have h2 : ((m.rows.toNat * m.cols.toNat : Nat) : Int) = m.rows * m.cols := by
    push_cast
    rw [Int.toNat_of_nonneg h0r, Int.toNat_of_nonneg h0c]
  rw [← h2]
  exact_mod_cast h1

/-- C14: for a grid of at most `MAX_ROWS x MAX_COLS = 50 x 50` cells the node pass of
`buildGraph` runs through without leaving the node arrays, and the graph of
`buildGraph` has `nodeCount` = number of passable cells `<= rows * cols <= MAX_NODES`;
every edge destination is a node id below `nodeCount`, and when the grid holds an
`'S'` and an `'E'` cell so are `startNode` and `endNode`, and the three solvers run
to a result without an access outside the arrays. -/
theorem C14_nodeCount_within_capacity (m : Maze) (u : Uninit) (h0r : 0 ≤ m.rows)
    (hr : m.rows ≤ MAX_ROWS) (h0c : 0 ≤ m.cols) (hc : m.cols ≤ MAX_COLS) :
    (m.passableCells.length : Int) ≤ m.rows * m.cols ∧ m.rows * m.cols ≤ MAX_NODES ∧
    (∃ s0, MazeSolver.buildNodes m u = .ok s0 ∧
      s0.graph.getNodeCount = m.passableCells.length) ∧
    ∀ s, MazeSolver.buildGraph m u = .ok s →
      s.graph.getNodeCount = m.passableCells.length ∧ s.graph.getNodeCount ≤ MAX_NODES ∧
      (∀ (a : Int) (e : AdjListNode), e ∈ s.graph.adjList a →
        0 ≤ e.dest ∧ e.dest < s.graph.getNodeCount) ∧
      ((∃ p : Int × Int, m.getCell p.1 p.2 = 'S') → (∃ p : Int × Int, m.getCell p.1 p.2 = 'E') →
        (0 ≤ s.startNode ∧ s.startNode < s.graph.getNodeCount) ∧
        (0 ≤ s.endNode ∧ s.endNode < s.graph.getNodeCount) ∧
        ∀ (parent0 stack0 path : Int → Int) (fuel : Nat), 4 * s.graph.getNodeCount + 2 ≤ fuel →
          (∃ r, s.solveBFS parent0 stack0 path fuel = .ok r) ∧
          (∃ r, s.solveDFSStack parent0 stack0 path fuel = .ok r) ∧
          (∃ r, s.solveDFSRecursive parent0 stack0 path fuel = .ok r)) := by
  have harea : m.rows * m.cols ≤ MAX_NODES := by
    unfold MAX_ROWS at hr
    unfold MAX_COLS at hc
    unfold MAX_NODES
    nlinarith
  refine ⟨Maze.length_passableCells_le_area m h0r h0c, harea, ?_, ?_⟩
  · obtain ⟨s0, h0, _, _, inv0⟩ := MazeSolver.buildNodes_spec m u hr hc
    exact ⟨s0, h0, inv0.count⟩
  · intro s hs
    have hb := MazeSolver.buildGraph_built m u s hr hc hs
    have hcnt : s.graph.nodeCount = m.passableCells.length := hb.nodes.count
    refine ⟨hcnt, ?_, ?_, ?_⟩
    · show s.graph.nodeCount ≤ MAX_NODES
      rw [hcnt]
      exact Maze.length_passableCells_le m hr hc
    · intro a e hmem
      obtain ⟨_, k, k', p, q, _, h2, _, h4, _⟩ := Built.edge_props m s hb a e hmem
      have := getElem?_lt _ _ _ h4
      show 0 ≤ e.dest ∧ e.dest < s.graph.nodeCount
      rw [h2, hcnt]
      omega
    · intro hS hE
      have wf := Built.wellFormed_of_exists m s hb hr hc hS hE
      refine ⟨wf.startValid, wf.endValid, ?_⟩
      intro parent0 stack0 path fuel hfuel
      obtain ⟨⟨r1, h1, _⟩, ⟨r2, h2, _⟩, ⟨r3, h3, _⟩⟩ :=
        Built.solvers m s hb wf parent0 stack0 path fuel hfuel
      exact ⟨⟨r1, h1⟩, ⟨r2, h2⟩, ⟨r3, h3⟩⟩

/-- C14 on the room maze (4 x 5 cells, 6 of them passable): the built graph has 6
nodes. -/
theorem C14_nodeCount_within_capacity_witness :
    ∃ s, MazeSolver.buildGraph roomMaze zeroUninit = .ok s ∧ s.graph.getNodeCount = 6 ∧
      s.graph.getNodeCount ≤ MAX_NODES := by
  obtain ⟨s, hs⟩ := roomMaze_builds
  obtain ⟨_, _, _, h⟩ := C14_nodeCount_within_capacity roomMaze zeroUninit (by decide)
    (by decide) (by decide) (by decide)
  obtain ⟨h1, h2, _⟩ := h s hs
  refine ⟨s, hs, ?_, h2⟩
  rw [h1]
  decide

/-! ## Claim C20 -/

/-- C20 fails on the code: the one-row maze `S E` has the passable cell `(0, 0)`, whose
first neighbour probe is `get(-1, 0)`.  Its bucket index `(-1 * 1000 + 0) % 1009` is
`-1000` (the C++ remainder keeps the sign of the dividend), so the lookup reads
`table[-1000]`, outside `0 .. 1008`, on every coordinate index, and `buildGraph`
ends in this out-of-range access instead of a sentinel `-1`. -/
theorem C20_probe_above_row0_out_of_range :
    topRowMaze.rows = 1 ∧ topRowMaze.cols = 3 ∧ topRowMaze.passable (0, 0) ∧
      HashMap.hash (0 + -1) (0 + 0) = -1000 ∧
      (∀ h : HashMap, h.get (0 + -1) (0 + 0) = .error .outOfBounds) ∧
      MazeSolver.buildGraph topRowMaze zeroUninit = .error .outOfBounds := by
  refine ⟨by decide, by decide, by decide, by decide, ?_, ?_⟩
  · intro h
    rfl
  · rfl

/-! ## Claim C18 -/

theorem sampleMaze_builds : ∃ s, MazeSolver.buildGraph sampleMaze zeroUninit = .ok s :=
  Except.exists_of_isOk _ (by decide)

theorem sampleMaze_start (q : Int × Int) (h : sampleMaze.getCell q.1 q.2 = 'S') : q = (1, 1) :=
  Maze.unique_of_passableCells sampleMaze 'S' (Or.inl rfl) (1, 1) (by decide) q h

theorem sampleMaze_end (q : Int × Int) (h : sampleMaze.getCell q.1 q.2 = 'E') : q = (5, 7) :=
  Maze.unique_of_passableCells sampleMaze 'E' (Or.inr rfl) (5, 7) (by decide) q h

theorem sampleMaze_bfs :
    runBFS sampleMaze 30 = .ok (true, 11, 17, [51, 52, 53, 54, 104, 154, 204, 254, 255, 256, 257]) := by
  decide

/-- C18: on the sample maze of `main` (start `(1, 1)`, end `(5, 7)`, 28 open cells)
`solveBFS` returns `found = true`, `pathLen = 11` and the path
`51, 52, 53, 54, 104, 154, 204, 254, 255, 256, 257`; there is a route of 10 steps from
start to end through open cells and none shorter; `nodesVisited` is 17, at most 28. -/
theorem C18_sample_maze_bfs :
    sampleMaze.getCell 1 1 = 'S' ∧ sampleMaze.getCell 5 7 = 'E' ∧
      sampleMaze.passableCells.length = 28 ∧
      runBFS sampleMaze 30 =
        .ok (true, 11, 17, [51, 52, 53, 54, 104, 154, 204, 254, 255, 256, 257]) ∧
      (51 : Int) = 1 * MAX_COLS + 1 ∧ (257 : Int) = 5 * MAX_COLS + 7 ∧
      sampleMaze.Route (1, 1) 10 (5, 7) ∧
      (∀ n, sampleMaze.Route (1, 1) n (5, 7) → 10 ≤ n) ∧ (17 : Int) ≤ 28 := by
  have hrun := sampleMaze_bfs
  refine ⟨by decide, by decide, by decide, hrun, by decide, by decide, ?_, ?_, by decide⟩
  all_goals
    obtain ⟨s, hs⟩ := sampleMaze_builds
    have hb := MazeSolver.buildGraph_built sampleMaze zeroUninit s (by decide) (by decide) hs
    have wf := Built.wellFormed sampleMaze s hb (by decide) (by decide) (1, 1) (5, 7) (by decide)
      sampleMaze_start (by decide) sampleMaze_end
    have hrw := Built.route_iff_walk sampleMaze s hb (1, 1) (5, 7) (by decide) sampleMaze_start
      (by decide) sampleMaze_end
    have hcnt : s.graph.nodeCount = 28 := by
      rw [hb.nodes.count]
      decide
    obtain ⟨r, hres, hpost, hmin⟩ := MazeSolver.solveBFS_spec s wf zeros zeros zeros 30
      (by rw [hcnt]; decide)
    unfold runBFS at hrun
    rw [hs] at hrun
    simp only [hres, Except.map] at hrun
    injection hrun with hrun
    unfold SolveResult.observe at hrun
    have hfound : r.found = true := congrArg Prod.fst hrun
    have hlen : r.pathLen = 11 := congrArg (fun x => x.2.1) hrun
    obtain ⟨_, hwalk⟩ := SolverPost.walk_of_found s zeros r hpost hfound
  · have h := (hrw _).mpr hwalk
    rw [hlen] at h
    exact h
  · intro n hn
    have := hmin hfound n ((hrw n).mp hn)
    rw [hlen] at this
    omega

/-! ## QueueArray lemmas -/

theorem QueueArray.valid_init (arr0 : Int → Int) : (QueueArray.init arr0).Valid := by
  constructor <;> simp [QueueArray.init, MAX_NODES]

theorem QueueArray.length_toList (q : QueueArray) : q.toList.length = q.size.toNat := by
  simp [QueueArray.toList]

theorem QueueArray.enqueue_spec (q : QueueArray) (v : Int) (hv : q.Valid)
    (hcap : q.size < MAX_NODES) :
    (q.enqueue v).Valid ∧ (q.enqueue v).toList = q.toList ++ [v] ∧
      (q.enqueue v).size = q.size + 1 := by
  obtain ⟨h1, h2, h3, h4, h5, h6, h7⟩ := hv
  obtain ⟨arr, front, rear, size⟩ := q
  simp only [MAX_NODES] at h1 h2 h3 h4 h5 h6 h7 hcap
  have hr : Int.tmod (rear + 1) 2500 = (front + size) % 2500 := by
    rw [Int.tmod_eq_emod (by omega) (by omega)]
    exact h7
  simp only [QueueArray.enqueue, MAX_NODES, if_pos hcap, hr]
  refine ⟨?_, ?_, trivial⟩
  · constructor <;> simp only [MAX_NODES] <;> omega
  · simp only [QueueArray.toList, MAX_NODES]
    obtain ⟨n, rfl⟩ := Int.eq_ofNat_of_zero_le h5
    have e1 : ((n : Int) + 1).toNat = n + 1 := by omega
    rw [e1, Int.toNat_ofNat, List.range_succ, List.map_append, List.map_singleton]
    congr 1
    · apply List.map_congr_left
      intro i hi
      rw [List.mem_range] at hi
      rw [Int.tmod_eq_emod (by omega) (by omega)]
      exact store_other _ _ _ _ (by omega)
    · rw [Int.tmod_eq_emod (by omega) (by omega), store_same]

theorem QueueArray.dequeue_spec (q : QueueArray) (hv : q.Valid) (hpos : 0 < q.size) :
    q.toList = q.dequeue.1 :: q.dequeue.2.toList ∧ q.dequeue.2.Valid ∧
      q.dequeue.2.size = q.size - 1 := by
  obtain ⟨h1, h2, h3, h4, h5, h6, h7⟩ := hv
  obtain ⟨arr, front, rear, size⟩ := q
  simp only [MAX_NODES] at h1 h2 h3 h4 h5 h6 h7 hpos
  have hne : ¬ size = 0 := by omega
  simp only [QueueArray.dequeue, MAX_NODES, if_neg hne]
  refine ⟨?_, ?_, trivial⟩
  · simp only [QueueArray.toList, MAX_NODES]
    obtain ⟨n, hn⟩ : ∃ n : Nat, size = (n : Int) + 1 := ⟨(size - 1).toNat, by omega⟩
    subst hn
    have e1 : ((n : Int) + 1).toNat = n + 1 := by omega
    have e2 : ((n : Int) + 1 - 1).toNat = n := by omega
    rw [e1, e2, List.range_succ_eq_map, List.map_cons, List.map_map]
    congr 1
    · rw [Int.tmod_eq_emod (by omega) (by omega)]
      congr 1
      simp only [Nat.cast_zero]
      omega
    · apply List.map_congr_left
      intro i _
      simp only [Function.comp]
      have hf : Int.tmod (front + 1) 2500 = (front + 1) % 2500 :=
        Int.tmod_eq_emod (by omega) (by omega)
      rw [hf, Int.tmod_eq_emod (by omega) (by omega), Int.tmod_eq_emod (by omega) (by omega)]
      congr 1
      push_cast
      omega
  · rw [Int.tmod_eq_emod (by omega) (by omega)]
    constructor <;> simp only [MAX_NODES] <;> omega

theorem QueueArray.dequeue_empty (q : QueueArray) (h : q.size = 0) : q.dequeue = (-1, q) := by
  simp [QueueArray.dequeue, h]


/-! ## Runs of container calls -/

theorem runOps_append {σ ο : Type} (call : σ → ο → Answer × σ) (a b : List ο) :
    ∀ s : σ, runOps call s (a ++ b) =
      ((runOps call s a).1 ++ (runOps call (runOps call s a).2 b).1,
        (runOps call (runOps call s a).2 b).2) := by
  induction a with
  | nil =>
    intro s
    rfl
  | cons op rest ih =>
    intro s
    rw [List.cons_append]
    simp only [runOps]
    rw [ih]
    rfl

/-- The circular buffer follows the linked queue call by call as long as the stored
elements fit: same answers, and the final states hold the same elements. -/
theorem QueueArray.run_eq_linked (ops : List QueueOp) :
    ∀ (q : QueueArray) (l : QueueLinkedList), q.Valid → q.toList = l.items →
      QueueOp.fits q.size.toNat ops = true →
      (runOps QueueArray.call q ops).1 = (runOps QueueLinkedList.call l ops).1 ∧
        (runOps QueueArray.call q ops).2.Valid ∧
        (runOps QueueArray.call q ops).2.toList = (runOps QueueLinkedList.call l ops).2.items := by
  induction ops with
  | nil =>
    intro q l hv hl _
    exact ⟨rfl, hv, hl⟩
  | cons op rest ih =>
    intro q l hv hl hfit
    have hlen := QueueArray.length_toList q
    have hs0 := hv.sizeLo
    cases op with
    | enqueue v =>
      simp only [QueueOp.fits, Bool.and_eq_true, decide_eq_true_eq] at hfit
      have hcap : q.size < MAX_NODES := by
        have := hfit.1
        omega
      obtain ⟨hv', hl', hsz⟩ := QueueArray.enqueue_spec q v hv hcap
      have hfit' : QueueOp.fits (q.enqueue v).size.toNat rest = true := by
        have e : (q.enqueue v).size.toNat = q.size.toNat + 1 := by omega
        rw [e]
        exact hfit.2
      obtain ⟨a1, a2, a3⟩ := ih (q.enqueue v) (l.enqueue v) hv'
        (by rw [hl', hl]; rfl) hfit'
      simp only [runOps, QueueArray.call, QueueLinkedList.call]
      exact ⟨by rw [a1], a2, a3⟩
    | dequeue =>
      simp only [QueueOp.fits] at hfit
      by_cases h0 : q.size = 0
      · have hnil : l.items = [] := by
          rw [← hl]
          apply List.eq_nil_of_length_eq_zero
          rw [hlen, h0]
          rfl
        have hd : l.dequeue = (-1, l) := by
          unfold QueueLinkedList.dequeue
          rw [hnil]
        have hfit' : QueueOp.fits q.size.toNat rest = true := by
          rw [h0] at hfit ⊢
          exact hfit
        obtain ⟨a1, a2, a3⟩ := ih q l hv hl hfit'
        simp only [runOps, QueueArray.call, QueueLinkedList.call,
          QueueArray.dequeue_empty q h0, hd]
        exact ⟨by rw [a1], a2, a3⟩
      · obtain ⟨hl', hv', hsz⟩ := QueueArray.dequeue_spec q hv (by omega)
        have hd : l.dequeue = (q.dequeue.1, { items := q.dequeue.2.toList }) := by
          unfold QueueLinkedList.dequeue
          rw [← hl, hl']
        have hfit' : QueueOp.fits q.dequeue.2.size.toNat rest = true := by
          have e : q.dequeue.2.size.toNat = q.size.toNat - 1 := by omega
          rw [e]
          exact hfit
        obtain ⟨a1, a2, a3⟩ := ih q.dequeue.2 { items := q.dequeue.2.toList } hv' rfl hfit'
        simp only [runOps, QueueArray.call, QueueLinkedList.call, hd]
        exact ⟨by rw [a1], a2, a3⟩
    | isEmpty =>
      simp only [QueueOp.fits] at hfit
      obtain ⟨a1, a2, a3⟩ := ih q l hv hl hfit
      have he : q.isEmpty = l.isEmpty := by
        unfold QueueArray.isEmpty QueueLinkedList.isEmpty
        rw [← hl]
        cases hq : q.toList with
        | nil =>
          rw [hq] at hlen
          have hlen' : 0 = q.size.toNat := hlen
          have : q.size = 0 := by omega
          simp [this]
        | cons x xs =>
          rw [hq] at hlen
          have hlen' : xs.length + 1 = q.size.toNat := hlen
          have : q.size ≠ 0 := by omega
          simp [this]
      simp only [runOps, QueueArray.call, QueueLinkedList.call, he]
      exact ⟨by rw [a1], a2, a3⟩

/-- The linked queue is the FIFO list, call by call. -/
theorem QueueLinkedList.run_eq_fifo (ops : List QueueOp) :
    ∀ l : QueueLinkedList,
      (runOps QueueLinkedList.call l ops).1 = (runOps fifoCall l.items ops).1 ∧
        (runOps QueueLinkedList.call l ops).2.items = (runOps fifoCall l.items ops).2 := by
  induction ops with
  | nil =>
    intro l
    exact ⟨rfl, rfl⟩
  | cons op rest ih =>
    intro l
    obtain ⟨items⟩ := l
    cases op with
    | enqueue v =>
      obtain ⟨a1, a2⟩ := ih { items := items ++ [v] }
      simp only [runOps, QueueLinkedList.call, fifoCall, QueueLinkedList.enqueue]
      exact ⟨by rw [a1], a2⟩
    | dequeue =>
      cases items with
      | nil =>
        obtain ⟨a1, a2⟩ := ih { items := [] }
        simp only [runOps, QueueLinkedList.call, fifoCall, QueueLinkedList.dequeue]
        exact ⟨by rw [a1], a2⟩
      | cons x xs =>
        obtain ⟨a1, a2⟩ := ih { items := xs }
        simp only [runOps, QueueLinkedList.call, fifoCall, QueueLinkedList.dequeue]
        exact ⟨by rw [a1], a2⟩
    | isEmpty =>
      obtain ⟨a1, a2⟩ := ih { items := items }
      simp only [runOps, QueueLinkedList.call, fifoCall, QueueLinkedList.isEmpty]
      refine ⟨?_, a2⟩
      rw [a1]
      cases items <;> simp

/-! ## Claim C11 -/

/-- C11: both queues behave as the FIFO list `fifoCall`.  For every circular buffer
state `q` (any `front`, also after wrap-arounds) and every call sequence `ops` that
keeps the number of stored elements at most `MAX_NODES`, the answers of `QueueArray`
are those of the FIFO list holding `q`'s elements (each `dequeue` the oldest element
or `-1` when none is stored, `isEmpty` true exactly when none is stored), and the
final states hold the same elements; the freshly constructed buffer is such a state,
holding nothing.  The same holds for `QueueLinkedList`, for every call sequence. -/
theorem C11_queues_fifo (q : QueueArray) (l : QueueLinkedList) (ops : List QueueOp)
    (arr0 : Int → Int) (hv : q.Valid) (hfit : QueueOp.fits q.size.toNat ops = true) :
    ((runOps QueueArray.call q ops).1 = (runOps fifoCall q.toList ops).1 ∧
        (runOps QueueArray.call q ops).2.toList = (runOps fifoCall q.toList ops).2 ∧
        (runOps QueueArray.call q ops).2.Valid) ∧
      ((QueueArray.init arr0).Valid ∧ (QueueArray.init arr0).toList = []) ∧
      ((runOps QueueLinkedList.call l ops).1 = (runOps fifoCall l.items ops).1 ∧
        (runOps QueueLinkedList.call l ops).2.items = (runOps fifoCall l.items ops).2) := by
  obtain ⟨a1, a2, a3⟩ := QueueArray.run_eq_linked ops q { items := q.toList } hv rfl hfit
  obtain ⟨b1, b2⟩ := QueueLinkedList.run_eq_fifo ops { items := q.toList }
  exact ⟨⟨a1.trans b1, a3.trans b2, a2⟩, ⟨QueueArray.valid_init arr0, rfl⟩,
    QueueLinkedList.run_eq_fifo ops l⟩

/-- C11 on a buffer about to wrap: two elements stored at the indices 2499 and 0 come
back in the order they were enqueued, the third `dequeue` answers `-1`. -/
theorem C11_queues_fifo_witness :
    (runOps QueueArray.call wrappedQueue
        [.enqueue 5, .enqueue 7, .isEmpty, .dequeue, .dequeue, .dequeue, .isEmpty]).1 =
      [.done, .done, .flag false, .value 5, .value 7, .value (-1), .flag true] ∧
    (runOps QueueArray.call wrappedQueue [.enqueue 5, .enqueue 7]).2.rear = 0 ∧
    (runOps QueueLinkedList.call QueueLinkedList.init
        [.enqueue 5, .enqueue 7, .isEmpty, .dequeue, .dequeue, .dequeue, .isEmpty]).1 =
      [.done, .done, .flag false, .value 5, .value 7, .value (-1), .flag true] := by
  obtain ⟨⟨h1, _, _⟩, _, h3, _⟩ := C11_queues_fifo wrappedQueue QueueLinkedList.init
    [.enqueue 5, .enqueue 7, .isEmpty, .dequeue, .dequeue, .dequeue, .isEmpty] zeros
    (by constructor <;> decide) (by decide)
  refine ⟨?_, by decide, ?_⟩
  · rw [h1]
    decide
  · rw [h3]
    decide

/-! ## Array stack against linked stack -/

theorem StackArray.toList_length (s : StackArray) : s.toList.length = (s.top + 1).toNat := by
  simp [StackArray.toList]

/-- The array stack follows the linked stack call by call as long as the stored
elements fit: same answers, and the final states hold the same elements. -/
theorem StackArray.run_eq_linkedStack (ops : List StackOp) :
    ∀ (s : StackArray) (l : StackLinkedList), -1 ≤ s.top → s.top < MAX_NODES →
      s.toList = l.top → StackOp.fits (s.top + 1).toNat ops = true →
      (runOps StackArray.call s ops).1 = (runOps StackLinkedList.call l ops).1 ∧
        (-1 ≤ (runOps StackArray.call s ops).2.top ∧
          (runOps StackArray.call s ops).2.top < MAX_NODES) ∧
        (runOps StackArray.call s ops).2.toList = (runOps StackLinkedList.call l ops).2.top := by
  induction ops with
  | nil =>
    intro s l hlo hhi hl _
    exact ⟨rfl, ⟨hlo, hhi⟩, hl⟩
  | cons op rest ih =>
    intro s l hlo hhi hl hfit
    cases op with
    | push v =>
      simp only [StackOp.fits, Bool.and_eq_true, decide_eq_true_eq] at hfit
      have hcap : s.top + 1 < MAX_NODES := by
        have := hfit.1
        omega
      obtain ⟨h1, h2⟩ := StackArray.toList_push s v hlo hcap
      have hfit' : StackOp.fits ((s.push v).top + 1).toNat rest = true := by
        have e : ((s.push v).top + 1).toNat = (s.top + 1).toNat + 1 := by omega
        rw [e]
        exact hfit.2
      obtain ⟨a1, a2, a3⟩ := ih (s.push v) (l.push v) (by omega) (by omega)
        (by rw [h1, hl]; rfl) hfit'
      simp only [runOps, StackArray.call, StackLinkedList.call]
      exact ⟨by rw [a1], a2, a3⟩
    | pop =>
      simp only [StackOp.fits] at hfit
      by_cases h0 : 0 ≤ s.top
      · have hl' := StackArray.toList_of_nonneg s h0
        have hp : s.pop = (s.arr s.top, { s with top := s.top - 1 }) := by
          unfold StackArray.pop
          rw [if_pos h0]
        have hd : l.pop = (s.arr s.top,
            { top := ({ s with top := s.top - 1 } : StackArray).toList }) := by
          unfold StackLinkedList.pop
          rw [← hl, hl']
        have hfit' : StackOp.fits
            (({ s with top := s.top - 1 } : StackArray).top + 1).toNat rest = true := by
          have e : (({ s with top := s.top - 1 } : StackArray).top + 1).toNat =
              (s.top + 1).toNat - 1 := by
            show (s.top - 1 + 1).toNat = (s.top + 1).toNat - 1
            omega
          rw [e]
          exact hfit
        obtain ⟨a1, a2, a3⟩ := ih { s with top := s.top - 1 }
          { top := ({ s with top := s.top - 1 } : StackArray).toList }
          (by show -1 ≤ s.top - 1; omega) (by show s.top - 1 < MAX_NODES; omega) rfl hfit'
        simp only [runOps, StackArray.call, StackLinkedList.call, hp, hd]
        exact ⟨by rw [a1], a2, a3⟩
      · have ht : s.top = -1 := by omega
        have hnil : l.top = [] := by
          rw [← hl]
          exact (StackArray.toList_eq_nil_iff s hlo).mpr ht
        have hp : s.pop = (-1, s) := by
          unfold StackArray.pop
          rw [if_neg (by omega)]
        have hd : l.pop = (-1, l) := by
          unfold StackLinkedList.pop
          rw [hnil]
        have hfit' : StackOp.fits (s.top + 1).toNat rest = true := by
          rw [ht] at hfit ⊢
          exact hfit
        obtain ⟨a1, a2, a3⟩ := ih s l hlo hhi hl hfit'
        simp only [runOps, StackArray.call, StackLinkedList.call, hp, hd]
        exact ⟨by rw [a1], a2, a3⟩
    | isEmpty =>
      simp only [StackOp.fits] at hfit
      obtain ⟨a1, a2, a3⟩ := ih s l hlo hhi hl hfit
      have he : s.isEmpty = l.isEmpty := by
        unfold StackArray.isEmpty StackLinkedList.isEmpty
        have hiff := StackArray.toList_eq_nil_iff s hlo
        rw [← hl]
        cases hq : s.toList with
        | nil =>
          have : s.top = -1 := hiff.mp hq
          simp [this]
        | cons x xs =>
          have : s.top ≠ -1 := by
            intro h
            rw [hiff.mpr h] at hq
            cases hq
          simp [this]
      simp only [runOps, StackArray.call, StackLinkedList.call, he]
      exact ⟨by rw [a1], a2, a3⟩

theorem StackOp.fits_replicate_push (v : Int) (k : Nat) :
    ∀ n : Nat, (n : Int) + k ≤ MAX_NODES →
      StackOp.fits n (List.replicate k (StackOp.push v)) = true := by
  induction k with
  | zero =>
    intro n _
    rfl
  | succ k ih =>
    intro n h
    simp only [List.replicate_succ, StackOp.fits, Bool.and_eq_true, decide_eq_true_eq]
    push_cast at h
    exact ⟨by omega, ih (n + 1) (by push_cast; omega)⟩

theorem StackLinkedList.run_replicate_push (v : Int) (k : Nat) :
    ∀ l : StackLinkedList,
      (runOps StackLinkedList.call l (List.replicate k (StackOp.push v))).2.top =
        List.replicate k v ++ l.top := by
  induction k with
  | zero =>
    intro l
    rfl
  | succ k ih =>
    intro l
    simp only [List.replicate_succ, runOps, StackLinkedList.call]
    rw [ih]
    simp only [StackLinkedList.push]
    rw [← List.replicate_succ, List.replicate_succ', List.append_assoc]
    rfl

/-- The array stack after 2500 pushes of `0` is full (`top = 2499`, top element `0`). -/
theorem StackArray.full_after_pushes :
    (runOps StackArray.call (StackArray.init zeros) (List.replicate 2500 (StackOp.push 0))).1 =
        (runOps StackLinkedList.call StackLinkedList.init
          (List.replicate 2500 (StackOp.push 0))).1 ∧
      (runOps StackArray.call (StackArray.init zeros)
        (List.replicate 2500 (StackOp.push 0))).2.top = 2499 ∧
      (runOps StackArray.call (StackArray.init zeros)
        (List.replicate 2500 (StackOp.push 0))).2.arr 2499 = 0 := by
  obtain ⟨a1, ⟨a2, a2'⟩, a3⟩ := StackArray.run_eq_linkedStack (List.replicate 2500 (StackOp.push 0))
    (StackArray.init zeros) StackLinkedList.init (by decide) (by decide) rfl
    (StackOp.fits_replicate_push 0 2500 0 (by decide))
  rw [StackLinkedList.run_replicate_push] at a3
  have hlen := StackArray.toList_length
    (runOps StackArray.call (StackArray.init zeros) (List.replicate 2500 (StackOp.push 0))).2
  rw [a3] at hlen
  simp only [StackLinkedList.init, List.append_nil, List.length_replicate] at hlen
  have htop : (runOps StackArray.call (StackArray.init zeros)
      (List.replicate 2500 (StackOp.push 0))).2.top = 2499 := by omega
  refine ⟨a1, htop, ?_⟩
  have h := StackArray.toList_of_nonneg _ (by rw [htop]; decide : 0 ≤ (runOps StackArray.call
    (StackArray.init zeros) (List.replicate 2500 (StackOp.push 0))).2.top)
  have e : List.replicate 2500 (0 : Int) = 0 :: List.replicate 2499 0 :=
    List.replicate_succ 0 2499
  rw [a3, htop] at h
  simp only [StackLinkedList.init, List.append_nil] at h
  rw [e] at h
  exact (List.cons.inj h).1.symm

/-! ## Claim C12 -/

theorem StackArray.differ_after_full (pre : List StackOp) (s : StackArray)
    (l : StackLinkedList)
    (hans : (runOps StackArray.call s pre).1 = (runOps StackLinkedList.call l pre).1)
    (htop : (runOps StackArray.call s pre).2.top = 2499)
    (harr : (runOps StackArray.call s pre).2.arr 2499 = 0) :
    (runOps StackArray.call s (pre ++ [.push 1, .pop])).1 ≠
      (runOps StackLinkedList.call l (pre ++ [.push 1, .pop])).1 := by
  intro h
  rw [runOps_append, runOps_append, hans] at h
  have h' := List.append_cancel_left h
  generalize (runOps StackArray.call s pre).2 = sA at htop harr h'
  generalize (runOps StackLinkedList.call l pre).2 = sL at h'
  simp only [runOps, StackArray.call, StackLinkedList.call, StackLinkedList.push,
    StackLinkedList.pop, StackArray.push, StackArray.pop, htop, MAX_NODES] at h'
  simp only [show ¬ ((2499 : Int) < 2500 - 1) by decide, if_false, htop,
    show ((2499 : Int) ≥ 0) by decide, if_true, harr] at h'
  revert h'
  decide

/-- C12 as stated fails: after 2500 calls `push(0)` the array stack is full, so the
call `push(1)` is dropped by `StackArray` and kept by `StackLinkedList`; the next
`pop()` returns `0` from the array stack and `1` from the linked stack. -/
theorem C12_array_stack_drops_push_when_full :
    (runOps StackArray.call (StackArray.init zeros)
        (List.replicate 2500 (StackOp.push 0) ++ [.push 1, .pop])).1 ≠
      (runOps StackLinkedList.call StackLinkedList.init
        (List.replicate 2500 (StackOp.push 0) ++ [.push 1, .pop])).1 :=
  StackArray.differ_after_full (List.replicate 2500 (StackOp.push 0)) (StackArray.init zeros)
    StackLinkedList.init StackArray.full_after_pushes.1 StackArray.full_after_pushes.2.1
    StackArray.full_after_pushes.2.2

/-- C12, amended: for every sequence of push/pop/isEmpty calls that never stores more
than `MAX_NODES` elements, `StackArray` and `StackLinkedList` return the same results
at every step, and for every sequence of enqueue/dequeue/isEmpty calls that never
stores more than `MAX_NODES` elements, so do `QueueArray` and `QueueLinkedList`. -/
theorem C12_array_linked_agree_within_capacity (sops : List StackOp) (qops : List QueueOp)
    (arr0 arr1 : Int → Int) (hs : StackOp.fits 0 sops = true) (hq : QueueOp.fits 0 qops = true) :
    (runOps StackArray.call (StackArray.init arr0) sops).1 =
        (runOps StackLinkedList.call StackLinkedList.init sops).1 ∧
      (runOps QueueArray.call (QueueArray.init arr1) qops).1 =
        (runOps QueueLinkedList.call QueueLinkedList.init qops).1 :=
  ⟨(StackArray.run_eq_linkedStack sops (StackArray.init arr0) StackLinkedList.init
      (by simp [StackArray.init]) (by simp [StackArray.init, MAX_NODES])
      ((StackArray.toList_eq_nil_iff _ (by simp [StackArray.init])).mpr rfl) hs).1,
    (QueueArray.run_eq_linked qops (QueueArray.init arr1) QueueLinkedList.init
      (QueueArray.valid_init arr1) rfl hq).1⟩

/-- C12 (amended) on short call sequences: both stacks and both queues give the
listed answers. -/
theorem C12_array_linked_agree_within_capacity_witness :
    (runOps StackArray.call (StackArray.init zeros) [.push 5, .push 7, .pop, .isEmpty, .pop,
        .pop, .isEmpty]).1 =
      [.done, .done, .value 7, .flag false, .value 5, .value (-1), .flag true] ∧
    (runOps QueueArray.call (QueueArray.init zeros) [.enqueue 5, .enqueue 7, .dequeue,
        .isEmpty, .dequeue, .dequeue, .isEmpty]).1 =
      [.done, .done, .value 5, .flag false, .value 7, .value (-1), .flag true] := by
  obtain ⟨h1, h2⟩ := C12_array_linked_agree_within_capacity
    [.push 5, .push 7, .pop, .isEmpty, .pop, .pop, .isEmpty]
    [.enqueue 5, .enqueue 7, .dequeue, .isEmpty, .dequeue, .dequeue, .isEmpty] zeros zeros
    (by decide) (by decide)
  rw [h1, h2]
  exact ⟨by decide, by decide⟩

/-! ## Dropping the log gives back the solver -/

theorem MazeSolver.bfsLoopLog_fst (s : MazeSolver) (stack0 path : Int → Int) (rfuel fuel : Nat) :
    ∀ (ms : Marks) (q : QueueLinkedList) (log : List Int),
      (MazeSolver.bfsLoopLog s stack0 path rfuel fuel ms q log).map Prod.fst =
        MazeSolver.bfsLoop s stack0 path rfuel fuel ms q := by
  induction fuel with
  | zero =>
    intro ms q log
    rfl
  | succ fuel ih =>
    intro ms q log
    simp only [MazeSolver.bfsLoopLog, MazeSolver.bfsLoop]
    split
    · rfl
    · split
      · cases MazeSolver.reconstructPath s stack0 rfuel ms.parent path with
        | error f => rfl
        | ok p => rfl
      · cases s.graph.getAdjList q.dequeue.1 with
        | error f => rfl
        | ok adj =>
          simp only
          cases MazeSolver.bfsScan q.dequeue.1 adj
              { ms with nodesVisited := ms.nodesVisited + 1 } q.dequeue.2 with
          | error f => rfl
          | ok p => exact ih _ _ _

theorem MazeSolver.solveBFSLog_fst (s : MazeSolver) (parent0 stack0 path : Int → Int)
    (fuel : Nat) :
    (s.solveBFSLog parent0 stack0 path fuel).map Prod.fst = s.solveBFS parent0 stack0 path fuel := by
  unfold MazeSolver.solveBFSLog MazeSolver.solveBFS
  split
  · split
    · exact MazeSolver.bfsLoopLog_fst _ _ _ _ _ _ _ _
    · rfl
  · rfl

theorem MazeSolver.dfsPushLog_fst (curr : Int) (adj : List AdjListNode) :
    ∀ (ms : Marks) (st : StackLinkedList) (pushes : Nat),
      (MazeSolver.dfsPushLog curr adj ms st pushes).map (fun x => (x.1, x.2.1)) =
        MazeSolver.dfsPush curr adj ms st := by
  induction adj with
  | nil =>
    intro ms st pushes
    rfl
  | cons e rest ih =>
    intro ms st pushes
    simp only [MazeSolver.dfsPushLog, MazeSolver.dfsPush]
    split
    · split
      · exact ih _ _ _
      · exact ih _ _ _
    · rfl

theorem MazeSolver.dfsStackLoopLog_fst (s : MazeSolver) (stack0 path : Int → Int)
    (rfuel fuel : Nat) :
    ∀ (ms : Marks) (st : StackLinkedList) (pushes : Nat),
      (MazeSolver.dfsStackLoopLog s stack0 path rfuel fuel ms st pushes).map Prod.fst =
        MazeSolver.dfsStackLoop s stack0 path rfuel fuel ms st := by
  induction fuel with
  | zero =>
    intro ms st pushes
    rfl
  | succ fuel ih =>
    intro ms st pushes
    simp only [MazeSolver.dfsStackLoopLog, MazeSolver.dfsStackLoop]
    split
    · rfl
    · split
      · split
        · exact ih _ _ _
        · split
          · cases MazeSolver.reconstructPath s stack0 rfuel ms.parent path with
            | error f => rfl
            | ok p => rfl
          · cases s.graph.getAdjList st.pop.1 with
            | error f => rfl
            | ok adj =>
              simp only
              have hp := MazeSolver.dfsPushLog_fst st.pop.1 adj
                { ms with visited := store ms.visited st.pop.1 true,
                          nodesVisited := ms.nodesVisited + 1 } st.pop.2 pushes
              cases hl : MazeSolver.dfsPushLog st.pop.1 adj
                  { ms with visited := store ms.visited st.pop.1 true,
                            nodesVisited := ms.nodesVisited + 1 } st.pop.2 pushes with
              | error f =>
                rw [hl] at hp
                rw [← hp]
                rfl
              | ok p =>
                rw [hl] at hp
                rw [← hp]
                exact ih _ _ _
      · rfl

theorem MazeSolver.solveDFSStackLog_fst (s : MazeSolver) (parent0 stack0 path : Int → Int)
    (fuel : Nat) :
    (s.solveDFSStackLog parent0 stack0 path fuel).map Prod.fst =
      s.solveDFSStack parent0 stack0 path fuel := by
  unfold MazeSolver.solveDFSStackLog MazeSolver.solveDFSStack
  split
  · exact MazeSolver.dfsStackLoopLog_fst _ _ _ _ _ _ _ _
  · rfl

theorem MazeSolver.dfsRecursiveScanLog_fst
    (call : Int → Marks → Except Fault (Bool × Marks))
    (callLog : Int → Marks → List Int → Except Fault (Bool × Marks × List Int))
    (hcall : ∀ c ms log, (callLog c ms log).map (fun x => (x.1, x.2.1)) = call c ms)
    (curr : Int) (adj : List AdjListNode) :
    ∀ (ms : Marks) (log : List Int),
      (MazeSolver.dfsRecursiveScanLog callLog curr adj ms log).map (fun x => (x.1, x.2.1)) =
        MazeSolver.dfsRecursiveScan call curr adj ms := by
  induction adj with
  | nil =>
    intro ms log
    rfl
  | cons e rest ih =>
    intro ms log
    simp only [MazeSolver.dfsRecursiveScanLog, MazeSolver.dfsRecursiveScan]
    split
    · split
      · have hc := hcall e.dest { ms with parent := store ms.parent e.dest curr } log
        cases hl : callLog e.dest { ms with parent := store ms.parent e.dest curr } log with
        | error f =>
          rw [hl] at hc
          rw [← hc]
          rfl
        | ok p =>
          obtain ⟨b, ms', log'⟩ := p
          rw [hl] at hc
          rw [← hc]
          cases b with
          | true => rfl
          | false => exact ih _ _
      · exact ih _ _
    · rfl

theorem MazeSolver.dfsRecursiveHelperLog_fst (s : MazeSolver) (fuel : Nat) :
    ∀ (curr : Int) (ms : Marks) (log : List Int),
      (MazeSolver.dfsRecursiveHelperLog s fuel curr ms log).map (fun x => (x.1, x.2.1)) =
        MazeSolver.dfsRecursiveHelper s fuel curr ms := by
  induction fuel with
  | zero =>
    intro curr ms log
    rfl
  | succ fuel ih =>
    intro curr ms log
    simp only [MazeSolver.dfsRecursiveHelperLog, MazeSolver.dfsRecursiveHelper]
    split
    · split
      · rfl
      · cases s.graph.getAdjList curr with
        | error f => rfl
        | ok adj => exact MazeSolver.dfsRecursiveScanLog_fst _ _ ih _ _ _ _
    · rfl

theorem MazeSolver.solveDFSRecursiveLog_fst (s : MazeSolver) (parent0 stack0 path : Int → Int)
    (fuel : Nat) :
    (s.solveDFSRecursiveLog parent0 stack0 path fuel).map Prod.fst =
      s.solveDFSRecursive parent0 stack0 path fuel := by
  unfold MazeSolver.solveDFSRecursiveLog MazeSolver.solveDFSRecursive
  split
  · have hc := MazeSolver.dfsRecursiveHelperLog_fst s fuel s.startNode (s.initMarks parent0) []
    cases hl : MazeSolver.dfsRecursiveHelperLog s fuel s.startNode (s.initMarks parent0) [] with
    | error f =>
      rw [hl] at hc
      rw [← hc]
      rfl
    | ok p =>
      obtain ⟨b, ms', log'⟩ := p
      rw [hl] at hc
      rw [← hc]
      cases b with
      | true =>
        simp only [Except.map]
        cases MazeSolver.reconstructPath s stack0 fuel ms'.parent path with
        | error f => rfl
        | ok p => rfl
      | false => rfl
  · rfl

/-- A run that returns a result returns it together with some log. -/
theorem Except.exists_of_map_fst {α β : Type} (x : Except Fault (α × β)) (a : α)
    (h : x.map Prod.fst = .ok a) : ∃ b, x = .ok (a, b) := by
  cases x with
  | error f => cases h
  | ok p =>
    obtain ⟨a', b⟩ := p
    injection h with h
    exact ⟨b, by rw [← h]⟩

/-! ## The log of `solveBFS` -/

theorem Marked.snoc (s : MazeSolver) (ms : Marks) (X : List Int) (w : Int)
    (h : Marked s ms X) (hw : ms.visited w = false) (hv : 0 ≤ w ∧ w < s.graph.nodeCount) :
    Marked s { ms with visited := store ms.visited w true } (X ++ [w]) := by
  obtain ⟨hnd, hall⟩ := h
  have hwX : w ∉ X := by
    intro hmem
    have := (hall w hmem).1
    rw [hw] at this
    cases this
  constructor
  · apply List.Nodup.append hnd (List.nodup_singleton _)
    intro x hx hxw
    rw [List.mem_singleton.mp hxw] at hx
    exact hwX hx
  · intro x hx
    rcases List.mem_append.mp hx with hx | hx
    · exact ⟨(store_true_iff _ _ _).mpr (Or.inr (hall x hx).1), (hall x hx).2⟩
    · rw [List.mem_singleton.mp hx]
      exact ⟨(store_true_iff _ _ _).mpr (Or.inl rfl), hv⟩

theorem Marked.of_visited_eq (s : MazeSolver) (ms ms' : Marks) (X : List Int) (h : Marked s ms X)
    (hv : ms'.visited = ms.visited) : Marked s ms' X := by
  unfold Marked
  rw [hv]
  exact h

theorem MazeSolver.bfsScan_marked (s : MazeSolver) (curr : Int) (L : List Int)
    (adj : List AdjListNode) :
    ∀ (ms : Marks) (q : QueueLinkedList) (ms' : Marks) (q' : QueueLinkedList),
      MazeSolver.bfsScan curr adj ms q = .ok (ms', q') →
      (∀ e ∈ adj, 0 ≤ e.dest ∧ e.dest < s.graph.nodeCount) →
      Marked s ms (L ++ q.items) → Marked s ms' (L ++ q'.items) := by
  induction adj with
  | nil =>
    intro ms q ms' q' h _ hm
    simp only [MazeSolver.bfsScan] at h
    injection h with h
    injection h with h1 h2
    rw [← h1, ← h2]
    exact hm
  | cons e rest ih =>
    intro ms q ms' q' h hvalid hm
    have hrest : ∀ x ∈ rest, 0 ≤ x.dest ∧ x.dest < s.graph.nodeCount :=
      fun x hx => hvalid x (List.mem_cons_of_mem _ hx)
    simp only [MazeSolver.bfsScan] at h
    split at h
    · split at h
      · rename_i hv
        refine ih _ _ ms' q' h hrest ?_
        have := Marked.snoc s ms (L ++ q.items) e.dest hm hv (hvalid e (List.mem_cons_self _ _))
        rw [List.append_assoc] at this
        exact Marked.of_visited_eq s _ _ _ this rfl
      · exact ih ms q ms' q' h hrest hm
    · cases h

theorem Graph.getAdjList_eq_ok (g : Graph) (node : Int) (adj : List AdjListNode)
    (h : g.getAdjList node = .ok adj) : adj = g.adjList node := by
  unfold Graph.getAdjList at h
  split at h
  · injection h with h
    exact h.symm
  · cases h

/-- Every log `bfsLoopLog` returns holds pairwise distinct valid node ids. -/
theorem MazeSolver.bfsLoopLog_marked (s : MazeSolver) (wf : s.WellFormed)
    (stack0 path : Int → Int) (rfuel fuel : Nat) :
    ∀ (ms : Marks) (q : QueueLinkedList) (log : List Int) (r : SolveResult) (log' : List Int),
      MazeSolver.bfsLoopLog s stack0 path rfuel fuel ms q log = .ok (r, log') →
      Marked s ms (log ++ q.items) →
      log'.Nodup ∧ ∀ v ∈ log', 0 ≤ v ∧ v < s.graph.nodeCount := by
  induction fuel with
  | zero =>
    intro ms q log r log' h _
    cases h
  | succ fuel ih =>
    intro ms q log r log' h hm
    obtain ⟨items⟩ := q
    cases items with
    | nil =>
      simp only [MazeSolver.bfsLoopLog, QueueLinkedList.isEmpty, List.isEmpty, if_true] at h
      injection h with h
      injection h with _ h2
      rw [← h2]
      simp only [List.append_nil] at hm
      exact ⟨hm.1, fun v hv => (hm.2 v hv).2⟩
    | cons curr rest =>
      have hm1 : Marked s { ms with nodesVisited := ms.nodesVisited + 1 }
          ((log ++ [curr]) ++ rest) := by
        rw [List.append_assoc]
        exact Marked.of_visited_eq s ms _ _ hm rfl
      have hpre : (log ++ [curr]).Nodup ∧ ∀ v ∈ log ++ [curr], 0 ≤ v ∧ v < s.graph.nodeCount :=
        ⟨(List.nodup_append.mp hm1.1).1,
          fun v hv => (hm1.2 v (List.mem_append_left _ hv)).2⟩
      simp only [MazeSolver.bfsLoopLog, QueueLinkedList.isEmpty, List.isEmpty,
        Bool.false_eq_true, if_false, QueueLinkedList.dequeue] at h
      split at h
      · split at h
        · cases h
        · injection h with h
          injection h with _ h2
          rw [← h2]
          exact hpre
      · split at h
        · cases h
        · rename_i adj hadj
          split at h
          · cases h
          · rename_i ms2 q2 hscan
            have hadj' := Graph.getAdjList_eq_ok _ _ _ hadj
            refine ih ms2 q2 (log ++ [curr]) r log' h ?_
            refine MazeSolver.bfsScan_marked s curr (log ++ [curr]) adj _ _ ms2 q2 hscan ?_ hm1
            intro e he
            rw [hadj'] at he
            exact wf.destValid curr e he

theorem MazeSolver.solveBFSLog_marked (s : MazeSolver) (wf : s.WellFormed)
    (parent0 stack0 path : Int → Int) (fuel : Nat) (r : SolveResult) (log : List Int)
    (h : s.solveBFSLog parent0 stack0 path fuel = .ok (r, log)) :
    log.Nodup ∧ ∀ v ∈ log, 0 ≤ v ∧ v < s.graph.nodeCount := by
  unfold MazeSolver.solveBFSLog at h
  split at h
  · split at h
    · refine MazeSolver.bfsLoopLog_marked s wf stack0 path fuel fuel _ _ [] r log h ?_
      have h0 : Marked s (s.initMarks parent0) [] := ⟨List.nodup_nil, fun _ hx => by cases hx⟩
      exact Marked.snoc s (s.initMarks parent0) [] s.startNode h0 rfl wf.startValid
    · cases h
  · cases h

/-! ## The log of `solveDFSRecursive` -/

theorem MazeSolver.dfsRecursiveScanLog_marked (s : MazeSolver)
    (call : Int → Marks → List Int → Except Fault (Bool × Marks × List Int))
    (hcall : ∀ c ms log b ms' log', call c ms log = .ok (b, ms', log') → Marked s ms log →
      ms.visited c = false → (0 ≤ c ∧ c < s.graph.nodeCount) → Marked s ms' log')
    (curr : Int) (adj : List AdjListNode) :
    ∀ (ms : Marks) (log : List Int) (b : Bool) (ms' : Marks) (log' : List Int),
      MazeSolver.dfsRecursiveScanLog call curr adj ms log = .ok (b, ms', log') →
      (∀ e ∈ adj, 0 ≤ e.dest ∧ e.dest < s.graph.nodeCount) →
      Marked s ms log → Marked s ms' log' := by
  induction adj with
  | nil =>
    intro ms log b ms' log' h _ hm
    simp only [MazeSolver.dfsRecursiveScanLog] at h
    injection h with h
    injection h with _ h
    injection h with h1 h2
    rw [← h1, ← h2]
    exact hm
  | cons e rest ih =>
    intro ms log b ms' log' h hvalid hm
    have hrest : ∀ x ∈ rest, 0 ≤ x.dest ∧ x.dest < s.graph.nodeCount :=
      fun x hx => hvalid x (List.mem_cons_of_mem _ hx)
    simp only [MazeSolver.dfsRecursiveScanLog] at h
    split at h
    · split at h
      · rename_i hv
        split at h
        · cases h
        · rename_i ms1 log1 hc
          injection h with h
          injection h with _ h
          injection h with h1 h2
          rw [← h1, ← h2]
          exact hcall _ _ _ _ _ _ hc (Marked.of_visited_eq s ms _ _ hm rfl) hv
            (hvalid e (List.mem_cons_self _ _))
        · rename_i ms1 log1 hc
          exact ih ms1 log1 b ms' log' h hrest
            (hcall _ _ _ _ _ _ hc (Marked.of_visited_eq s ms _ _ hm rfl) hv
              (hvalid e (List.mem_cons_self _ _)))
      · exact ih ms log b ms' log' h hrest hm
    · cases h

/-- Every call of `dfsRecursiveHelperLog` at an unvisited node keeps the log a list of
pairwise distinct, visited, valid node ids. -/
theorem MazeSolver.dfsRecursiveHelperLog_marked (s : MazeSolver) (wf : s.WellFormed)
    (fuel : Nat) :
    ∀ (c : Int) (ms : Marks) (log : List Int) (b : Bool) (ms' : Marks) (log' : List Int),
      MazeSolver.dfsRecursiveHelperLog s fuel c ms log = .ok (b, ms', log') → Marked s ms log →
      ms.visited c = false → (0 ≤ c ∧ c < s.graph.nodeCount) → Marked s ms' log' := by
  induction fuel with
  | zero =>
    intro c ms log b ms' log' h _ _ _
    cases h
  | succ fuel ih =>
    intro c ms log b ms' log' h hm hv hc
    have hm1 : Marked s (Marks.mk (store ms.visited c true) ms.parent (ms.nodesVisited + 1))
        (log ++ [c]) :=
      Marked.of_visited_eq s _ _ _ (Marked.snoc s ms log c hm hv hc) rfl
    simp only [MazeSolver.dfsRecursiveHelperLog] at h
    split at h
    · split at h
      · injection h with h
        injection h with _ h
        injection h with h1 h2
        rw [← h1, ← h2]
        exact hm1
      · split at h
        · cases h
        · rename_i adj hadj
          have hadj' := Graph.getAdjList_eq_ok _ _ _ hadj
          refine MazeSolver.dfsRecursiveScanLog_marked s _ ih c adj _ _ b ms' log' h ?_ hm1
          intro e he
          rw [hadj'] at he
          exact wf.destValid c e he
    · cases h

theorem MazeSolver.solveDFSRecursiveLog_marked (s : MazeSolver) (wf : s.WellFormed)
    (parent0 stack0 path : Int → Int) (fuel : Nat) (r : SolveResult) (log : List Int)
    (h : s.solveDFSRecursiveLog parent0 stack0 path fuel = .ok (r, log)) :
    log.Nodup ∧ ∀ v ∈ log, 0 ≤ v ∧ v < s.graph.nodeCount := by
  have h0 : Marked s (s.initMarks parent0) [] := ⟨List.nodup_nil, fun _ hx => by cases hx⟩
  unfold MazeSolver.solveDFSRecursiveLog at h
  split at h
  · split at h
    · cases h
    · rename_i ms1 log1 hc
      have hm := MazeSolver.dfsRecursiveHelperLog_marked s wf fuel _ _ _ _ _ _ hc h0 rfl
        wf.startValid
      split at h
      · cases h
      · injection h with h
        injection h with _ h2
        rw [← h2]
        exact ⟨hm.1, fun v hv => (hm.2 v hv).2⟩
    · rename_i ms1 log1 hc
      have hm := MazeSolver.dfsRecursiveHelperLog_marked s wf fuel _ _ _ _ _ _ hc h0 rfl
        wf.startValid
      injection h with h
      injection h with _ h2
      rw [← h2]
      exact ⟨hm.1, fun v hv => (hm.2 v hv).2⟩
  · cases h

/-! ## The push count of `solveDFSStack` -/

theorem MazeSolver.sumDeg_le_edgeCount (s : MazeSolver) (E : List Int) (hnd : E.Nodup)
    (hv : ∀ x ∈ E, 0 ≤ x ∧ x < s.graph.nodeCount) : s.sumDeg E ≤ s.edgeCount := by
  have h1 : (E.map Int.toNat).Nodup := by
    apply List.Nodup.map_on _ hnd
    intro a ha b hb hab
    have := hv a ha
    have := hv b hb
    omega
  have h2 : E.map Int.toNat ⊆ List.range s.graph.nodeCount.toNat := by
    intro x hx
    obtain ⟨a, ha, rfl⟩ := List.mem_map.mp hx
    have := hv a ha
    exact List.mem_range.mpr (by omega)
  obtain ⟨l, hperm, hsub⟩ := List.Nodup.subperm h1 h2
  have e1 : s.sumDeg E =
      ((E.map Int.toNat).map fun (v : Nat) => (s.graph.adjList (v : Int)).length).sum := by
    unfold MazeSolver.sumDeg
    rw [List.map_map]
    congr 1
    apply List.map_congr_left
    intro a ha
    have := hv a ha
    simp only [Function.comp]
    rw [Int.toNat_of_nonneg this.1]
  rw [e1, ← (hperm.map _).sum_eq]
  unfold MazeSolver.edgeCount
  exact List.Sublist.sum_le_sum (hsub.map _) (fun _ _ => Nat.zero_le _)

theorem MazeSolver.sumDeg_snoc (s : MazeSolver) (E : List Int) (c : Int) :
    s.sumDeg (E ++ [c]) = s.sumDeg E + (s.graph.adjList c).length := by
  simp [MazeSolver.sumDeg]

theorem MazeSolver.dfsPushLog_count (s : MazeSolver) (curr : Int) (adj : List AdjListNode) :
    ∀ (ms : Marks) (st : StackLinkedList) (p : Nat) (ms' : Marks) (st' : StackLinkedList)
      (p' : Nat), MazeSolver.dfsPushLog curr adj ms st p = .ok (ms', st', p') →
      (∀ e ∈ adj, 0 ≤ e.dest ∧ e.dest < s.graph.nodeCount) →
      (∀ x ∈ st.top, 0 ≤ x ∧ x < s.graph.nodeCount) →
      ms'.visited = ms.visited ∧ (∀ x ∈ st'.top, 0 ≤ x ∧ x < s.graph.nodeCount) ∧
        p' ≤ p + adj.length := by
  induction adj with
  | nil =>
    intro ms st p ms' st' p' h _ hst
    simp only [MazeSolver.dfsPushLog] at h
    injection h with h
    injection h with h1 h
    injection h with h2 h3
    rw [← h1, ← h2, ← h3]
    exact ⟨rfl, hst, le_refl _⟩
  | cons e rest ih =>
    intro ms st p ms' st' p' h hvalid hst
    have hrest : ∀ x ∈ rest, 0 ≤ x.dest ∧ x.dest < s.graph.nodeCount :=
      fun x hx => hvalid x (List.mem_cons_of_mem _ hx)
    simp only [MazeSolver.dfsPushLog] at h
    split at h
    · split at h
      · obtain ⟨a1, a2, a3⟩ := ih _ _ _ ms' st' p' h hrest (by
          intro x hx
          rcases List.mem_cons.mp hx with rfl | hx
          · exact hvalid e (List.mem_cons_self _ _)
          · exact hst x hx)
        refine ⟨a1, a2, ?_⟩
        simp only [List.length_cons]
        omega
      · obtain ⟨a1, a2, a3⟩ := ih ms st p ms' st' p' h hrest hst
        refine ⟨a1, a2, ?_⟩
        simp only [List.length_cons]
        omega
    · cases h

/-- The number of pushes `dfsStackLoopLog` returns is at most one more than the
number of directed edges. -/
theorem MazeSolver.dfsStackLoopLog_count (s : MazeSolver) (wf : s.WellFormed)
    (stack0 path : Int → Int) (rfuel fuel : Nat) :
    ∀ (ms : Marks) (st : StackLinkedList) (p : Nat) (r : SolveResult) (p' : Nat) (E : List Int),
      MazeSolver.dfsStackLoopLog s stack0 path rfuel fuel ms st p = .ok (r, p') →
      Marked s ms E → (∀ x ∈ st.top, 0 ≤ x ∧ x < s.graph.nodeCount) → p ≤ 1 + s.sumDeg E →
      p' ≤ 1 + s.edgeCount := by
  induction fuel with
  | zero =>
    intro ms st p r p' E h _ _ _
    cases h
  | succ fuel ih =>
    intro ms st p r p' E h hm hst hp
    have hE := MazeSolver.sumDeg_le_edgeCount s E hm.1 (fun x hx => (hm.2 x hx).2)
    obtain ⟨top⟩ := st
    cases top with
    | nil =>
      simp only [MazeSolver.dfsStackLoopLog, StackLinkedList.isEmpty, List.isEmpty, if_true] at h
      injection h with h
      injection h with _ h2
      rw [← h2]
      omega
    | cons curr rest =>
      have hc : 0 ≤ curr ∧ curr < s.graph.nodeCount := hst curr (List.mem_cons_self _ _)
      have hrest : ∀ x ∈ rest, 0 ≤ x ∧ x < s.graph.nodeCount :=
        fun x hx => hst x (List.mem_cons_of_mem _ hx)
      simp only [MazeSolver.dfsStackLoopLog, StackLinkedList.isEmpty, List.isEmpty,
        Bool.false_eq_true, if_false, StackLinkedList.pop] at h
      split at h
      · split at h
        · exact ih ms { top := rest } p r p' E h hm hrest hp
        · rename_i hnv
          have hv : ms.visited curr = false := by
            cases hvis : ms.visited curr with
            | false => rfl
            | true => exact absurd hvis hnv
          have hm1 : Marked s (Marks.mk (store ms.visited curr true) ms.parent
              (ms.nodesVisited + 1)) (E ++ [curr]) :=
            Marked.of_visited_eq s _ _ _ (Marked.snoc s ms E curr hm hv hc) rfl
          have hE1 := MazeSolver.sumDeg_le_edgeCount s (E ++ [curr]) hm1.1
            (fun x hx => (hm1.2 x hx).2)
          rw [MazeSolver.sumDeg_snoc] at hE1
          split at h
          · split at h
            · cases h
            · injection h with h
              injection h with _ h2
              rw [← h2]
              omega
          · split at h
            · cases h
            · rename_i adj hadj
              have hadj' := Graph.getAdjList_eq_ok _ _ _ hadj
              split at h
              · cases h
              · rename_i ms2 st2 p2 hpush
                obtain ⟨a1, a2, a3⟩ := MazeSolver.dfsPushLog_count s curr adj _ _ _ ms2 st2 p2
                  hpush (by
                    intro e he
                    rw [hadj'] at he
                    exact wf.destValid curr e he) hrest
                refine ih ms2 st2 p2 r p' (E ++ [curr]) h (Marked.of_visited_eq s _ _ _ hm1 a1) a2 ?_
                rw [MazeSolver.sumDeg_snoc, ← hadj']
                omega
      · cases h

theorem MazeSolver.solveDFSStackLog_count (s : MazeSolver) (wf : s.WellFormed)
    (parent0 stack0 path : Int → Int) (fuel : Nat) (r : SolveResult) (pushes : Nat)
    (h : s.solveDFSStackLog parent0 stack0 path fuel = .ok (r, pushes)) :
    pushes ≤ 1 + s.edgeCount := by
  unfold MazeSolver.solveDFSStackLog at h
  split at h
  · refine MazeSolver.dfsStackLoopLog_count s wf stack0 path fuel fuel _ _ 1 r pushes [] h
      ⟨List.nodup_nil, fun _ hx => by cases hx⟩ ?_ (by omega)
    intro x hx
    simp only [StackLinkedList.push, StackLinkedList.init, List.mem_singleton] at hx
    rw [hx]
    exact wf.startValid
  · cases h

/-! ## Claim C17 -/

/-- C17: on a graph with `nodeCount <= MAX_NODES`, every edge destination a valid
node id, valid start and end nodes and adjacency lists of at most `D` entries, each
solver given fuel for `D * nodeCount + 2` loop iterations returns a result, whether or
not the end is reachable.  The nodes `solveBFS` dequeues are pairwise distinct node
ids (no node is dequeued twice), `solveDFSStack` calls `push` at most once per
directed edge plus once for the start, and the nodes `dfsRecursiveHelper` is entered
at are pairwise distinct node ids. -/
theorem C17_solvers_terminate_with_bounds (s : MazeSolver) (wf : s.WellFormed)
    (parent0 stack0 path : Int → Int) (D : Nat) (hdeg : ∀ a, (s.graph.adjList a).length ≤ D)
    (fuel : Nat) (hf : D * s.graph.nodeCount + 2 ≤ fuel) (hf' : s.graph.nodeCount + 1 ≤ fuel) :
    (∃ r log, s.solveBFS parent0 stack0 path fuel = .ok r ∧
        s.solveBFSLog parent0 stack0 path fuel = .ok (r, log) ∧ log.Nodup ∧
        (∀ v ∈ log, 0 ≤ v ∧ v < s.graph.nodeCount) ∧ (log.length : Int) ≤ s.graph.nodeCount) ∧
      (∃ r pushes, s.solveDFSStack parent0 stack0 path fuel = .ok r ∧
        s.solveDFSStackLog parent0 stack0 path fuel = .ok (r, pushes) ∧
        pushes ≤ s.edgeCount + 1) ∧
      (∃ r log, s.solveDFSRecursive parent0 stack0 path fuel = .ok r ∧
        s.solveDFSRecursiveLog parent0 stack0 path fuel = .ok (r, log) ∧ log.Nodup ∧
        (∀ v ∈ log, 0 ≤ v ∧ v < s.graph.nodeCount) ∧ (log.length : Int) ≤ s.graph.nodeCount) := by
  have hn : 0 ≤ s.graph.nodeCount := by
    have := wf.startValid
    omega
  obtain ⟨r1, h1, _⟩ := MazeSolver.solveBFS_spec s wf parent0 stack0 path fuel hf'
  obtain ⟨r2, h2, _⟩ := MazeSolver.solveDFSStack_spec s wf parent0 stack0 path D hdeg fuel hf hf'
  obtain ⟨r3, h3, _⟩ := MazeSolver.solveDFSRecursive_spec s wf parent0 stack0 path fuel hf'
  obtain ⟨log1, g1⟩ := Except.exists_of_map_fst _ r1
    ((MazeSolver.solveBFSLog_fst s parent0 stack0 path fuel).trans h1)
  obtain ⟨p2, g2⟩ := Except.exists_of_map_fst _ r2
    ((MazeSolver.solveDFSStackLog_fst s parent0 stack0 path fuel).trans h2)
  obtain ⟨log3, g3⟩ := Except.exists_of_map_fst _ r3
    ((MazeSolver.solveDFSRecursiveLog_fst s parent0 stack0 path fuel).trans h3)
  obtain ⟨a1, a2⟩ := MazeSolver.solveBFSLog_marked s wf parent0 stack0 path fuel r1 log1 g1
  have b1 := MazeSolver.solveDFSStackLog_count s wf parent0 stack0 path fuel r2 p2 g2
  obtain ⟨c1, c2⟩ := MazeSolver.solveDFSRecursiveLog_marked s wf parent0 stack0 path fuel r3 log3 g3
  exact ⟨⟨r1, log1, h1, g1, a1, a2, length_le_of_nodup_valid log1 _ hn a1 a2⟩,
    ⟨r2, p2, h2, g2, by omega⟩,
    ⟨r3, log3, h3, g3, c1, c2, length_le_of_nodup_valid log3 _ hn c1 c2⟩⟩

/-- C17 on the room maze (6 nodes, adjacency lists of at most 4 entries): the three
solvers return with fuel 30 and the bounds hold. -/
theorem C17_solvers_terminate_with_bounds_witness :
    ∃ s, MazeSolver.buildGraph roomMaze zeroUninit = .ok s ∧
      (∃ r log, s.solveBFSLog zeros zeros zeros 30 = .ok (r, log) ∧ log.Nodup) ∧
      (∃ r pushes, s.solveDFSStackLog zeros zeros zeros 30 = .ok (r, pushes) ∧
        pushes ≤ s.edgeCount + 1) ∧
      (∃ r log, s.solveDFSRecursiveLog zeros zeros zeros 30 = .ok (r, log) ∧ log.Nodup) := by
  obtain ⟨s, hs⟩ := roomMaze_builds
  have hb := MazeSolver.buildGraph_built roomMaze zeroUninit s (by decide) (by decide) hs
  have wf := Built.wellFormed roomMaze s hb (by decide) (by decide) (1, 1) (2, 3) (by decide)
    roomMaze_start (by decide) roomMaze_end
  have hcnt : s.graph.nodeCount = 6 := roomMaze_nodeCount s hs
  obtain ⟨⟨r1, l1, _, a1, a2, _⟩, ⟨r2, p2, _, b1, b2⟩, ⟨r3, l3, _, c1, c2, _⟩⟩ :=
    C17_solvers_terminate_with_bounds s wf zeros zeros zeros 4 (Built.degree_le roomMaze s hb) 30
      (by rw [hcnt]; decide) (by rw [hcnt]; decide)
  exact ⟨s, hs, ⟨r1, l1, a1, a2⟩, ⟨r2, p2, b1, b2⟩, ⟨r3, l3, c1, c2⟩⟩

/-! ## Two runs of a solver on the same graph -/

theorem ParentChain.of_parent_eq (parent parent' : Int → Int) (v : Int) (l : List Int)
    (hc : ParentChain parent v l) (h : ∀ x ∈ l, parent' x = parent x) :
    ParentChain parent' v l := by
  induction hc with
  | @root v hv hp =>
    exact ParentChain.root hv (by rw [h v (List.mem_singleton_self v)]; exact hp)
  | @step v l hv hp _ ih =>
    have hv' := h v (List.mem_cons_self _ _)
    refine ParentChain.step hv (by rw [hv']; exact hp) ?_
    rw [hv']
    exact ih (fun x hx => h x (List.mem_cons_of_mem _ hx))

/-- Path reconstruction from two parent arrays that agree on the node ids gives the
same `pathLen` and the same entries `path[0 .. pathLen)`, whatever the local stack
storage and the caller's `path` held before. -/
theorem TreeInv.reconstruct_agree (s : MazeSolver) (ms : Marks) (d : Int → Nat)
    (inv : TreeInv s ms d) (hcount : s.graph.nodeCount ≤ MAX_NODES)
    (hend : ms.visited s.endNode = true) (parent' : Int → Int)
    (hag : ∀ i, 0 ≤ i → i < s.graph.nodeCount → parent' i = ms.parent i)
    (stack0 path stack0' path' : Int → Int) (fuel fuel' : Nat)
    (hf : s.graph.nodeCount + 1 ≤ fuel) (hf' : s.graph.nodeCount + 1 ≤ fuel') :
    ∃ p1 p2 len, s.reconstructPath stack0 fuel ms.parent path = .ok (p1, len) ∧
      s.reconstructPath stack0' fuel' parent' path' = .ok (p2, len) ∧
      ∀ i, 0 ≤ i → i < len → p2 i = p1 i := by
  obtain ⟨l, c1, _, c3, _, _, _, _, c8⟩ := TreeInv.chain s ms d inv _ s.endNode hend rfl
  have hvalid : ∀ x ∈ l, 0 ≤ x ∧ x < s.graph.nodeCount := fun x hx => inv.valid x (c3 x hx)
  have hnd : l.Nodup := by
    apply List.Pairwise.imp _ c8
    intro a b hab heq
    rw [heq] at hab
    exact lt_irrefl _ hab
  have hlen := length_le_of_nodup_valid l _ (by have := inv.valid _ hend; omega) hnd hvalid
  have hb : ∀ x ∈ l, 0 ≤ x ∧ x < MAX_NODES :=
    fun x hx => ⟨(hvalid x hx).1, by have := (hvalid x hx).2; omega⟩
  have c1' : ParentChain parent' s.endNode l :=
    ParentChain.of_parent_eq ms.parent parent' _ l c1
      (fun x hx => hag x (hvalid x hx).1 (hvalid x hx).2)
  obtain ⟨p1, e1, e2⟩ := MazeSolver.reconstructPath_spec s stack0 ms.parent path fuel l c1 hb
    (by omega) (by omega)
  obtain ⟨p2, f1, f2⟩ := MazeSolver.reconstructPath_spec s stack0' parent' path' fuel' l c1' hb
    (by omega) (by omega)
  refine ⟨p1, p2, l.length, e1, f1, ?_⟩
  intro i hi0 hi
  obtain ⟨k, rfl⟩ := Int.eq_ofNat_of_zero_le hi0
  have hk : k < l.reverse.length := by
    rw [List.length_reverse]
    omega
  have hget : l.reverse[k]? = some l.reverse[k] := List.getElem?_eq_getElem hk
  show p2 (k : Int) = p1 (k : Int)
  rw [e2 k _ hget, f2 k _ hget]

theorem MarksAgree.initMarks_agree (s : MazeSolver) (parent0 parent0' : Int → Int) :
    MarksAgree s (s.initMarks parent0) (s.initMarks parent0') := by
  refine ⟨rfl, rfl, ?_⟩
  intro i h0 h1
  have hi : 0 ≤ i ∧ i < s.graph.getNodeCount := ⟨h0, h1⟩
  simp [MazeSolver.initMarks, initParent, hi]

theorem MazeSolver.bfsScan_agree (s : MazeSolver) (curr : Int) (adj : List AdjListNode) :
    ∀ (ms ms' : Marks) (q : QueueLinkedList) (ms2 : Marks) (q2 : QueueLinkedList),
      MazeSolver.bfsScan curr adj ms q = .ok (ms2, q2) → MarksAgree s ms ms' →
      ∃ ms2', MazeSolver.bfsScan curr adj ms' q = .ok (ms2', q2) ∧ MarksAgree s ms2 ms2' := by
  induction adj with
  | nil =>
    intro ms ms' q ms2 q2 h hag
    simp only [MazeSolver.bfsScan] at h
    injection h with h
    injection h with h1 h2
    exact ⟨ms', by rw [← h2]; rfl, by rw [← h1]; exact hag⟩
  | cons e rest ih =>
    intro ms ms' q ms2 q2 h hag
    obtain ⟨a1, a2, a3⟩ := hag
    simp only [MazeSolver.bfsScan] at h ⊢
    rw [a1]
    split at h
    · rename_i hb
      rw [if_pos hb]
      split at h
      · rename_i hv
        rw [if_pos hv]
        refine ih _ _ _ ms2 q2 h ⟨by simp only [a1], a2, ?_⟩
        intro i h0 h1
        show store ms'.parent e.dest curr i = store ms.parent e.dest curr i
        unfold store
        split
        · rfl
        · exact a3 i h0 h1
      · rename_i hv
        rw [if_neg hv]
        exact ih ms ms' q ms2 q2 h ⟨a1, a2, a3⟩
    · cases h

theorem BFSInv.bfs_init (s : MazeSolver) (wf : s.WellFormed) (parent0 : Int → Int) :
    BFSInv s (Marks.mk (store (s.initMarks parent0).visited s.startNode true)
      (s.initMarks parent0).parent (s.initMarks parent0).nodesVisited) [] [s.startNode]
      (fun _ => 0) [] := by
  have hvis : ∀ v, store (fun _ : Int => false) s.startNode true v = true ↔ v = s.startNode := by
    intro v
    by_cases h : v = s.startNode
    · simp [store, h]
    · simp [store, h]
  constructor
  · constructor
    · intro v hv
      rw [(hvis v).mp hv]
      exact wf.startValid
    · exact MazeSolver.initParent_of_valid _ _ _ wf.startValid
    · rfl
    · intro v hv hne
      exact absurd ((hvis v).mp hv) hne
    · intro v hv
      rw [(hvis v).mp hv]
      exact MazeSolver.Walk.refl _
  · exact (hvis _).mpr rfl
  · intro v _ n _
    exact Nat.zero_le n
  · intro x hx
    simp only [List.nil_append, List.mem_singleton] at hx
    exact (hvis x).mpr hx
  · simp
  · simp
  · intro x _ y _
    exact Nat.zero_le _
  · exact List.nodup_nil
  · intro v
    simp only [List.not_mem_nil, List.nil_append, List.mem_singleton, false_iff, not_and,
      not_not]
    intro hv
    exact (hvis v).mp hv
  · intro u hu
    cases hu
  · intro u hu
    cases hu
  · rfl

/-- Two runs of the main loop of `solveBFS` from agreeing states return results that
are the same to the caller. -/
theorem MazeSolver.bfsLoop_agree (s : MazeSolver) (wf : s.WellFormed)
    (stack0 path stack0' path' : Int → Int) (rfuel rfuel' : Nat)
    (hrf : s.graph.nodeCount + 1 ≤ rfuel) (hrf' : s.graph.nodeCount + 1 ≤ rfuel') (fuel : Nat) :
    ∀ (fuel' : Nat) (ms ms' : Marks) (items : List Int) (d : Int → Nat) (done : List Int),
      BFSInv s ms [] items d done → MarksAgree s ms ms' →
      s.graph.nodeCount + 1 ≤ (fuel : Int) + done.length →
      s.graph.nodeCount + 1 ≤ (fuel' : Int) + done.length →
      ∃ r r', MazeSolver.bfsLoop s stack0 path rfuel fuel ms { items := items } = .ok r ∧
        MazeSolver.bfsLoop s stack0' path' rfuel' fuel' ms' { items := items } = .ok r' ∧
        r.Agree r' := by
  induction fuel with
  | zero =>
    intro fuel' ms ms' items d done inv _ hf _
    exfalso
    have hvalid : ∀ x ∈ done, 0 ≤ x ∧ x < s.graph.nodeCount :=
      fun x hx => inv.tree.valid x ((inv.doneIff x).mp hx).1
    have := length_le_of_nodup_valid done _ (by have := wf.startValid; omega) inv.doneND hvalid
    simp only [Nat.cast_zero, zero_add] at hf
    omega
  | succ fuel ih =>
    intro fuel' ms ms' items d done inv hag hf hf'
    have hdone : (done.length : Int) ≤ s.graph.nodeCount :=
      length_le_of_nodup_valid done _ (by have := wf.startValid; omega) inv.doneND
        (fun x hx => inv.tree.valid x ((inv.doneIff x).mp hx).1)
    obtain ⟨f', rfl⟩ : ∃ f', fuel' = f' + 1 := ⟨fuel' - 1, by omega⟩
    obtain ⟨a1, a2, a3⟩ := hag
    cases items with
    | nil =>
      refine ⟨{ found := false, path := path, pathLen := 0, nodesVisited := ms.nodesVisited },
        { found := false, path := path', pathLen := 0, nodesVisited := ms'.nodesVisited },
        rfl, rfl, rfl, rfl, a2, ?_⟩
      intro i h0 h1
      exact absurd h1 (by show ¬ i < 0; omega)
    | cons curr rest =>
      have inv1 := BFSInv.dequeue s ms curr rest d done inv
      have hcv : ms.visited curr = true := inv.frontV curr (by simp)
      have hcvalid := inv.tree.valid curr hcv
      have hag1 : MarksAgree s (Marks.mk ms.visited ms.parent (ms.nodesVisited + 1))
          (Marks.mk ms'.visited ms'.parent (ms'.nodesVisited + 1)) :=
        ⟨a1, by show ms'.nodesVisited + 1 = ms.nodesVisited + 1; rw [a2], a3⟩
      by_cases hce : curr = s.endNode
      · obtain ⟨p1, p2, len, e1, e2, e3⟩ := TreeInv.reconstruct_agree s _ d inv1.tree wf.countLe
          (by rw [← hce]; exact hcv) ms'.parent a3 stack0 path stack0' path' rfuel rfuel'
          (by exact_mod_cast hrf) (by exact_mod_cast hrf')
        refine ⟨{ found := true, path := p1, pathLen := len, nodesVisited := ms.nodesVisited + 1 },
          { found := true, path := p2, pathLen := len, nodesVisited := ms'.nodesVisited + 1 },
          ?_, ?_, rfl, rfl, hag1.2.1, e3⟩
        · simp only [MazeSolver.bfsLoop, QueueLinkedList.isEmpty, List.isEmpty_cons,
            Bool.false_eq_true, if_false, QueueLinkedList.dequeue, hce, if_true]
          simp only at e1
          rw [e1]
        · simp only [MazeSolver.bfsLoop, QueueLinkedList.isEmpty, List.isEmpty_cons,
            Bool.false_eq_true, if_false, QueueLinkedList.dequeue, hce, if_true]
          rw [e2]
      · have hb : 0 ≤ curr ∧ curr < MAX_NODES := ⟨hcvalid.1, by have := wf.countLe; omega⟩
        obtain ⟨ms2, items2, d2, h1, inv2, _, h4⟩ := BFSInv.scan s wf curr done
          (s.graph.adjList curr) _ rest d inv1 (fun _ h => h)
        obtain ⟨ms2', h1', hag2⟩ := MazeSolver.bfsScan_agree s curr (s.graph.adjList curr) _ _ _
          _ _ h1 hag1
        have inv3 := BFSInv.finish s ms2 curr items2 d2 done inv2
          (by rintro w ⟨e, he, rfl⟩; exact h4 e he) hce
        obtain ⟨r, r', hr, hr', hres⟩ := ih f' ms2 ms2' items2 d2 (done ++ [curr]) inv3 hag2
          (by simp only [List.length_append, List.length_singleton]; push_cast at hf ⊢; omega)
          (by simp only [List.length_append, List.length_singleton]; push_cast at hf' ⊢; omega)
        refine ⟨r, r', ?_, ?_, hres⟩
        · simp only [MazeSolver.bfsLoop, QueueLinkedList.isEmpty, List.isEmpty_cons,
            Bool.false_eq_true, if_false, QueueLinkedList.dequeue, hce, Graph.getAdjList, hb,
            and_self, if_true]
          rw [h1]
          exact hr
        · simp only [MazeSolver.bfsLoop, QueueLinkedList.isEmpty, List.isEmpty_cons,
            Bool.false_eq_true, if_false, QueueLinkedList.dequeue, hce, Graph.getAdjList, hb,
            and_self, if_true]
          rw [h1']
          exact hr'

theorem MazeSolver.solveBFS_agree (s : MazeSolver) (wf : s.WellFormed)
    (parent0 stack0 path parent0' stack0' path' : Int → Int) (fuel fuel' : Nat)
    (hf : s.graph.nodeCount + 1 ≤ fuel) (hf' : s.graph.nodeCount + 1 ≤ fuel') :
    ∃ r r', s.solveBFS parent0 stack0 path fuel = .ok r ∧
      s.solveBFS parent0' stack0' path' fuel' = .ok r' ∧ r.Agree r' := by
  have hsb : 0 ≤ s.startNode ∧ s.startNode < MAX_NODES :=
    ⟨wf.startValid.1, by have := wf.countLe; have := wf.startValid.2; omega⟩
  obtain ⟨b1, b2, b3⟩ := MarksAgree.initMarks_agree s parent0 parent0'
  obtain ⟨r, r', hr, hr', hres⟩ := MazeSolver.bfsLoop_agree s wf stack0 path stack0' path' fuel
    fuel' hf hf' fuel fuel' _
    (Marks.mk (store (s.initMarks parent0').visited s.startNode true)
      (s.initMarks parent0').parent (s.initMarks parent0').nodesVisited)
    _ _ _ (BFSInv.bfs_init s wf parent0) ⟨by simp only [b1], b2, b3⟩
    (by simpa using hf) (by simpa using hf')
  refine ⟨r, r', ?_, ?_, hres⟩
  · unfold MazeSolver.solveBFS Graph.getNodeCount
    rw [if_pos wf.countLe, if_pos hsb]
    exact hr
  · unfold MazeSolver.solveBFS Graph.getNodeCount
    rw [if_pos wf.countLe, if_pos hsb]
    exact hr'

/-! ## Two runs of `solveDFSStack` -/

theorem MazeSolver.dfsPush_agree (s : MazeSolver) (curr : Int) (adj : List AdjListNode) :
    ∀ (ms ms' : Marks) (st : StackLinkedList) (ms2 : Marks) (st2 : StackLinkedList),
      MazeSolver.dfsPush curr adj ms st = .ok (ms2, st2) → MarksAgree s ms ms' →
      ∃ ms2', MazeSolver.dfsPush curr adj ms' st = .ok (ms2', st2) ∧ MarksAgree s ms2 ms2' := by
  induction adj with
  | nil =>
    intro ms ms' st ms2 st2 h hag
    simp only [MazeSolver.dfsPush] at h
    injection h with h
    injection h with h1 h2
    exact ⟨ms', by rw [← h2]; rfl, by rw [← h1]; exact hag⟩
  | cons e rest ih =>
    intro ms ms' st ms2 st2 h hag
    obtain ⟨a1, a2, a3⟩ := hag
    simp only [MazeSolver.dfsPush] at h ⊢
    rw [a1]
    split at h
    · rename_i hb
      rw [if_pos hb]
      split at h
      · rename_i hv
        rw [if_pos hv]
        refine ih _ _ _ ms2 st2 h ⟨rfl, a2, ?_⟩
        intro i h0 h1
        show store ms'.parent e.dest curr i = store ms.parent e.dest curr i
        unfold store
        split
        · rfl
        · exact a3 i h0 h1
      · rename_i hv
        rw [if_neg hv]
        exact ih ms ms' st ms2 st2 h ⟨a1, a2, a3⟩
    · cases h

/-- Popping a node that is already visited keeps the invariant. -/
theorem DFSInv.skip (s : MazeSolver) (ms : Marks) (curr : Int) (rest : List Int)
    (d : Int → Nat) (done : List Int) (inv : DFSInv s ms (curr :: rest) d done [])
    (hcv : ms.visited curr = true) : DFSInv s ms rest d done [] := by
  constructor
  · exact inv.tree
  · exact fun x hx => inv.stackValid x (List.mem_cons_of_mem _ hx)
  · exact fun w hw => inv.pending w (List.mem_cons_of_mem _ hw)
  · intro u hu huc w huw
    rcases inv.frontier u hu huc w huw with h | h
    · exact Or.inl h
    · rcases List.mem_cons.mp h with rfl | h
      · exact Or.inl hcv
      · exact Or.inr h
  · rcases inv.startIn with h | ⟨_, _, h⟩
    · exact Or.inl h
    · rw [h curr] at hcv
      cases hcv
  · exact inv.notEnd
  · exact inv.doneND
  · exact inv.doneIff
  · exact inv.count

/-- Popping an unvisited node `curr` (not the end node) and marking it visited. -/
theorem DFSInv.enter (s : MazeSolver) (ms : Marks) (curr : Int) (rest : List Int)
    (d : Int → Nat) (done : List Int) (inv : DFSInv s ms (curr :: rest) d done [])
    (hcu : ms.visited curr = false) :
    ∃ d1, TreeInv s (Marks.mk (store ms.visited curr true) ms.parent (ms.nodesVisited + 1)) d1 ∧
      store ms.visited curr true s.startNode = true ∧
      (curr ≠ s.endNode →
        DFSInv s (Marks.mk (store ms.visited curr true) ms.parent (ms.nodesVisited + 1))
          rest d1 (done ++ [curr]) [curr]) := by
  have hcvalid := inv.stackValid curr (List.mem_cons_self _ _)
  have hentry : curr ≠ s.startNode →
      ms.visited (ms.parent curr) = true ∧ s.Edge (ms.parent curr) curr :=
    fun h => inv.pending curr (List.mem_cons_self _ _) hcu h
  obtain ⟨d1, tree1⟩ : ∃ d1, TreeInv s
      (Marks.mk (store ms.visited curr true) ms.parent (ms.nodesVisited + 1)) d1 :=
    ⟨_, TreeInv.visit s ms d inv.tree curr hcvalid hcu hentry (ms.nodesVisited + 1)⟩
  have hcd : curr ∉ done := by
    intro h
    have := (inv.doneIff curr).mp h
    rw [hcu] at this
    cases this
  have hsv1 : store ms.visited curr true s.startNode = true := by
    rcases inv.startIn with h | ⟨_, h, _⟩
    · exact (store_true_iff _ _ _).mpr (Or.inr h)
    · injection h with h _
      rw [h]
      exact (store_true_iff _ _ _).mpr (Or.inl rfl)
  refine ⟨d1, tree1, hsv1, ?_⟩
  intro hce
  constructor
  · exact tree1
  · exact fun x hx => inv.stackValid x (List.mem_cons_of_mem _ hx)
  · intro w hw hwu0 hws
    have hwu : store ms.visited curr true w = false := hwu0
    have hwu' : ms.visited w = false := by
      cases h : ms.visited w with
      | false => rfl
      | true =>
        have : store ms.visited curr true w = true :=
          (store_true_iff _ _ _).mpr (Or.inr h)
        rw [this] at hwu
        cases hwu
    obtain ⟨h1, h2⟩ := inv.pending w (List.mem_cons_of_mem _ hw) hwu' hws
    exact ⟨(store_true_iff _ _ _).mpr (Or.inr h1), h2⟩
  · intro u hu huc w huw
    have huc' : u ≠ curr := by simpa using huc
    rcases (store_true_iff _ _ _).mp hu with h | h
    · exact absurd h huc'
    · rcases inv.frontier u h (by simp) w huw with h' | h'
      · exact Or.inl ((store_true_iff _ _ _).mpr (Or.inr h'))
      · rcases List.mem_cons.mp h' with rfl | h'
        · exact Or.inl ((store_true_iff _ _ _).mpr (Or.inl rfl))
        · exact Or.inr h'
  · exact Or.inl hsv1
  · intro v hv
    rcases (store_true_iff _ _ _).mp hv with rfl | h
    · exact hce
    · exact inv.notEnd v h
  · apply List.Nodup.append inv.doneND (List.nodup_singleton _)
    intro x hx hxc
    rw [List.mem_singleton.mp hxc] at hx
    exact hcd hx
  · intro v
    simp only [List.mem_append, List.mem_singleton]
    rw [inv.doneIff v]
    show _ ↔ store ms.visited curr true v = true
    rw [store_true_iff]
    exact Or.comm
  · show ms.nodesVisited + 1 = _
    rw [inv.count]
    simp

/-- After the neighbours of `curr` have been pushed, `curr` is expanded. -/
theorem DFSInv.leave (s : MazeSolver) (ms2 : Marks) (curr : Int) (st2 : List Int)
    (d1 : Int → Nat) (done1 : List Int) (inv2 : DFSInv s ms2 st2 d1 done1 [curr])
    (hsv : ms2.visited s.startNode = true)
    (h4 : ∀ e ∈ s.graph.adjList curr, ms2.visited e.dest = true ∨ e.dest ∈ st2) :
    DFSInv s ms2 st2 d1 done1 [] := by
  constructor
  · exact inv2.tree
  · exact inv2.stackValid
  · exact inv2.pending
  · intro u hu _ w huw
    by_cases huc : u = curr
    · subst huc
      obtain ⟨e, he, rfl⟩ := huw
      exact h4 e he
    · exact inv2.frontier u hu (by simpa using huc) w huw
  · exact Or.inl hsv
  · exact inv2.notEnd
  · exact inv2.doneND
  · exact inv2.doneIff
  · exact inv2.count

/-- Two runs of the main loop of `solveDFSStack` from agreeing states return results
that are the same to the caller. -/
theorem MazeSolver.dfsStackLoop_agree (s : MazeSolver) (wf : s.WellFormed)
    (stack0 path stack0' path' : Int → Int) (rfuel rfuel' : Nat)
    (hrf : s.graph.nodeCount + 1 ≤ rfuel) (hrf' : s.graph.nodeCount + 1 ≤ rfuel') (D : Nat)
    (hdeg : ∀ a, (s.graph.adjList a).length ≤ D) (fuel : Nat) :
    ∀ (fuel' : Nat) (ms ms' : Marks) (st : List Int) (d : Int → Nat) (done : List Int),
      DFSInv s ms st d done [] → MarksAgree s ms ms' →
      (st.length : Int) + D * (s.graph.nodeCount - done.length) + 1 ≤ fuel →
      (st.length : Int) + D * (s.graph.nodeCount - done.length) + 1 ≤ fuel' →
      ∃ r r', MazeSolver.dfsStackLoop s stack0 path rfuel fuel ms { top := st } = .ok r ∧
        MazeSolver.dfsStackLoop s stack0' path' rfuel' fuel' ms' { top := st } = .ok r' ∧
        r.Agree r' := by
  induction fuel with
  | zero =>
    intro fuel' ms ms' st d done inv _ hf _
    exfalso
    have h1 := DFSInv.done_length_le s wf ms st d done [] inv
    have h2 : (0 : Int) ≤ D * (s.graph.nodeCount - done.length) :=
      mul_nonneg (by omega) (by omega)
    simp only [Nat.cast_zero] at hf
    omega
  | succ fuel ih =>
    intro fuel' ms ms' st d done inv hag hf hf'
    have hdl := DFSInv.done_length_le s wf ms st d done [] inv
    have hD : (0 : Int) ≤ D * (s.graph.nodeCount - done.length) :=
      mul_nonneg (by omega) (by omega)
    obtain ⟨f', rfl⟩ : ∃ f', fuel' = f' + 1 := ⟨fuel' - 1, by omega⟩
    obtain ⟨a1, a2, a3⟩ := hag
    cases st with
    | nil =>
      refine ⟨{ found := false, path := path, pathLen := 0, nodesVisited := ms.nodesVisited },
        { found := false, path := path', pathLen := 0, nodesVisited := ms'.nodesVisited },
        rfl, rfl, rfl, rfl, a2, ?_⟩
      intro i h0 h1
      exact absurd h1 (by show ¬ i < 0; omega)
    | cons curr rest =>
      have hcvalid := inv.stackValid curr (List.mem_cons_self _ _)
      have hb : 0 ≤ curr ∧ curr < MAX_NODES := ⟨hcvalid.1, by have := wf.countLe; omega⟩
      by_cases hcv : ms.visited curr = true
      · have hcv' : ms'.visited curr = true := by rw [a1]; exact hcv
        obtain ⟨r, r', hr, hr', hres⟩ := ih f' ms ms' rest d done
          (DFSInv.skip s ms curr rest d done inv hcv) ⟨a1, a2, a3⟩
          (by simp only [List.length_cons] at hf; push_cast at hf ⊢; omega)
          (by simp only [List.length_cons] at hf'; push_cast at hf' ⊢; omega)
        refine ⟨r, r', ?_, ?_, hres⟩
        · simp only [MazeSolver.dfsStackLoop, StackLinkedList.isEmpty, List.isEmpty_cons,
            Bool.false_eq_true, if_false, StackLinkedList.pop, hb, and_self, if_true, hcv]
          exact hr
        · simp only [MazeSolver.dfsStackLoop, StackLinkedList.isEmpty, List.isEmpty_cons,
            Bool.false_eq_true, if_false, StackLinkedList.pop, hb, and_self, if_true, hcv']
          exact hr'
      · have hcu : ms.visited curr = false := by
          cases h : ms.visited curr with
          | false => rfl
          | true => exact absurd h hcv
        have hcu' : ms'.visited curr = false := by rw [a1]; exact hcu
        obtain ⟨d1, tree1, hsv1, hinv1⟩ := DFSInv.enter s ms curr rest d done inv hcu
        have hag1 : MarksAgree s
            (Marks.mk (store ms.visited curr true) ms.parent (ms.nodesVisited + 1))
            (Marks.mk (store ms'.visited curr true) ms'.parent (ms'.nodesVisited + 1)) :=
          ⟨by show store ms'.visited curr true = store ms.visited curr true; rw [a1],
            by show ms'.nodesVisited + 1 = ms.nodesVisited + 1; rw [a2], a3⟩
        by_cases hce : curr = s.endNode
        · obtain ⟨p1, p2, len, e1, e2, e3⟩ := TreeInv.reconstruct_agree s _ d1 tree1 wf.countLe
            (by rw [← hce]; exact (store_true_iff _ _ _).mpr (Or.inl rfl)) ms'.parent a3
            stack0 path stack0' path' rfuel rfuel' (by exact_mod_cast hrf)
            (by exact_mod_cast hrf')
          have hb' := hb
          have hcu1 := hcu
          have hcu1' := hcu'
          rw [hce] at hb' hcu1 hcu1'
          refine ⟨{ found := true, path := p1, pathLen := len,
                    nodesVisited := ms.nodesVisited + 1 },
            { found := true, path := p2, pathLen := len, nodesVisited := ms'.nodesVisited + 1 },
            ?_, ?_, rfl, rfl, hag1.2.1, e3⟩
          · simp only [MazeSolver.dfsStackLoop, StackLinkedList.isEmpty, List.isEmpty_cons,
              Bool.false_eq_true, if_false, StackLinkedList.pop, hce, hb', and_self, if_true, hcu1]
            simp only [hce] at e1
            rw [e1]
          · simp only [MazeSolver.dfsStackLoop, StackLinkedList.isEmpty, List.isEmpty_cons,
              Bool.false_eq_true, if_false, StackLinkedList.pop, hce, hb', and_self, if_true,
              hcu1']
            rw [e2]
        · have inv1 := hinv1 hce
          obtain ⟨ms2, st2, h1, inv2, h3, h4, h5, h6⟩ := DFSInv.push s wf curr _ _
            (s.graph.adjList curr) _ rest inv1 ((store_true_iff _ _ _).mpr (Or.inl rfl)) hsv1
            (fun _ h => h)
          obtain ⟨ms2', h1', hag2⟩ := MazeSolver.dfsPush_agree s curr (s.graph.adjList curr) _ _
            _ _ _ h1 hag1
          have inv3 := DFSInv.leave s ms2 curr st2 d1 (done ++ [curr]) inv2
            (by rw [h3]; exact hsv1) h4
          have hdeg' := hdeg curr
          have harith : (D : Int) * (s.graph.nodeCount - ((done ++ [curr]).length : Int)) =
              D * (s.graph.nodeCount - done.length) - D := by
            simp only [List.length_append, List.length_singleton]
            push_cast
            ring
          have hst2 : (st2.length : Int) ≤ rest.length + (s.graph.adjList curr).length := by
            exact_mod_cast h6
          have hdegD : ((s.graph.adjList curr).length : Int) ≤ D := by exact_mod_cast hdeg'
          obtain ⟨r, r', hr, hr', hres⟩ := ih f' ms2 ms2' st2 _ (done ++ [curr]) inv3 hag2
            (by
              rw [harith]
              simp only [List.length_cons] at hf
              push_cast at hf
              omega)
            (by
              rw [harith]
              simp only [List.length_cons] at hf'
              push_cast at hf'
              omega)
          refine ⟨r, r', ?_, ?_, hres⟩
          · simp only [MazeSolver.dfsStackLoop, StackLinkedList.isEmpty, List.isEmpty_cons,
              Bool.false_eq_true, if_false, StackLinkedList.pop, hb, and_self, if_true, hcu, hce,
              Graph.getAdjList]
            rw [h1]
            exact hr
          · simp only [MazeSolver.dfsStackLoop, StackLinkedList.isEmpty, List.isEmpty_cons,
              Bool.false_eq_true, if_false, StackLinkedList.pop, hb, and_self, if_true, hcu', hce,
              Graph.getAdjList]
            rw [h1']
            exact hr'

theorem DFSInv.dfs_init (s : MazeSolver) (wf : s.WellFormed) (parent0 : Int → Int) :
    DFSInv s (s.initMarks parent0) [s.startNode] (fun _ => 0) [] [] := by
  constructor
  · constructor
    · intro v hv
      cases hv
    · exact MazeSolver.initParent_of_valid _ _ _ wf.startValid
    · rfl
    · intro v hv
      cases hv
    · intro v hv
      cases hv
  · intro x hx
    rw [List.mem_singleton.mp hx]
    exact wf.startValid
  · intro w hw _ hws
    exact absurd (List.mem_singleton.mp hw) hws
  · intro u hu
    cases hu
  · exact Or.inr ⟨rfl, rfl, fun _ => rfl⟩
  · intro v hv
    cases hv
  · exact List.nodup_nil
  · intro v
    constructor
    · intro h
      cases h
    · intro h
      cases h
  · rfl

theorem MazeSolver.solveDFSStack_agree (s : MazeSolver) (wf : s.WellFormed)
    (parent0 stack0 path parent0' stack0' path' : Int → Int) (D : Nat)
    (hdeg : ∀ a, (s.graph.adjList a).length ≤ D) (fuel fuel' : Nat)
    (hf : D * s.graph.nodeCount + 2 ≤ fuel) (hf1 : s.graph.nodeCount + 1 ≤ fuel)
    (hf' : D * s.graph.nodeCount + 2 ≤ fuel') (hf1' : s.graph.nodeCount + 1 ≤ fuel') :
    ∃ r r', s.solveDFSStack parent0 stack0 path fuel = .ok r ∧
      s.solveDFSStack parent0' stack0' path' fuel' = .ok r' ∧ r.Agree r' := by
  obtain ⟨r, r', hr, hr', hres⟩ := MazeSolver.dfsStackLoop_agree s wf stack0 path stack0' path'
    fuel fuel' hf1 hf1' D hdeg fuel fuel' _ _ _ _ _ (DFSInv.dfs_init s wf parent0)
    (MarksAgree.initMarks_agree s parent0 parent0')
    (by simp only [List.length_singleton, List.length_nil, Nat.cast_zero, Nat.cast_one, sub_zero]
        omega)
    (by simp only [List.length_singleton, List.length_nil, Nat.cast_zero, Nat.cast_one, sub_zero]
        omega)
  refine ⟨r, r', ?_, ?_, hres⟩
  · unfold MazeSolver.solveDFSStack Graph.getNodeCount
    rw [if_pos wf.countLe]
    exact hr
  · unfold MazeSolver.solveDFSStack Graph.getNodeCount
    rw [if_pos wf.countLe]
    exact hr'

/-! ## Two runs of `solveDFSRecursive` -/

theorem MazeSolver.dfsRecursiveScan_agree (s : MazeSolver)
    (call call' : Int → Marks → Except Fault (Bool × Marks))
    (hcall : ∀ c ms ms' b ms2 b' ms2', call c ms = .ok (b, ms2) → call' c ms' = .ok (b', ms2') →
      MarksAgree s ms ms' → b' = b ∧ MarksAgree s ms2 ms2')
    (curr : Int) (adj : List AdjListNode) :
    ∀ (ms ms' : Marks) (b : Bool) (ms2 : Marks) (b' : Bool) (ms2' : Marks),
      MazeSolver.dfsRecursiveScan call curr adj ms = .ok (b, ms2) →
      MazeSolver.dfsRecursiveScan call' curr adj ms' = .ok (b', ms2') →
      MarksAgree s ms ms' → b' = b ∧ MarksAgree s ms2 ms2' := by
  induction adj with
  | nil =>
    intro ms ms' b ms2 b' ms2' h h' hag
    simp only [MazeSolver.dfsRecursiveScan] at h h'
    injection h with h
    injection h with h1 h2
    injection h' with h'
    injection h' with h1' h2'
    rw [← h1, ← h2, ← h1', ← h2']
    exact ⟨rfl, hag⟩
  | cons e rest ih =>
    intro ms ms' b ms2 b' ms2' h h' hag
    obtain ⟨a1, a2, a3⟩ := hag
    simp only [MazeSolver.dfsRecursiveScan] at h h'
    rw [a1] at h'
    split at h
    · rename_i hb
      rw [if_pos hb] at h'
      split at h
      · rename_i hv
        rw [if_pos hv] at h'
        have hag1 : MarksAgree s (Marks.mk ms.visited (store ms.parent e.dest curr) ms.nodesVisited)
            (Marks.mk ms.visited (store ms'.parent e.dest curr) ms'.nodesVisited) := by
          refine ⟨rfl, a2, ?_⟩
          intro i h0 h1
          show store ms'.parent e.dest curr i = store ms.parent e.dest curr i
          unfold store
          split
          · rfl
          · exact a3 i h0 h1
        split at h
        · cases h
        · rename_i m1 hc
          split at h'
          · cases h'
          · rename_i m1' hc'
            obtain ⟨_, c2⟩ := hcall _ _ _ _ _ _ _ hc hc' hag1
            injection h with h
            injection h with h1 h2
            injection h' with h'
            injection h' with h1' h2'
            rw [← h1, ← h2, ← h1', ← h2']
            exact ⟨rfl, c2⟩
          · rename_i m1' hc'
            obtain ⟨c1, _⟩ := hcall _ _ _ _ _ _ _ hc hc' hag1
            cases c1
        · rename_i m1 hc
          split at h'
          · cases h'
          · rename_i m1' hc'
            obtain ⟨c1, _⟩ := hcall _ _ _ _ _ _ _ hc hc' hag1
            cases c1
          · rename_i m1' hc'
            obtain ⟨_, c2⟩ := hcall _ _ _ _ _ _ _ hc hc' hag1
            exact ih m1 m1' b ms2 b' ms2' h h' c2
      · rename_i hv
        rw [if_neg hv] at h'
        exact ih ms ms' b ms2 b' ms2' h h' ⟨a1, a2, a3⟩
    · cases h

theorem MazeSolver.dfsRecursiveHelper_agree (s : MazeSolver) (fuel : Nat) :
    ∀ (fuel' : Nat) (c : Int) (ms ms' : Marks) (b : Bool) (ms2 : Marks) (b' : Bool)
      (ms2' : Marks), MazeSolver.dfsRecursiveHelper s fuel c ms = .ok (b, ms2) →
      MazeSolver.dfsRecursiveHelper s fuel' c ms' = .ok (b', ms2') →
      MarksAgree s ms ms' → b' = b ∧ MarksAgree s ms2 ms2' := by
  induction fuel with
  | zero =>
    intro fuel' c ms ms' b ms2 b' ms2' h _ _
    cases h
  | succ fuel ih =>
    intro fuel' c ms ms' b ms2 b' ms2' h h' hag
    cases fuel' with
    | zero => cases h'
    | succ f' =>
      obtain ⟨a1, a2, a3⟩ := hag
      have hag1 : MarksAgree s (Marks.mk (store ms.visited c true) ms.parent (ms.nodesVisited + 1))
          (Marks.mk (store ms'.visited c true) ms'.parent (ms'.nodesVisited + 1)) :=
        ⟨by show store ms'.visited c true = store ms.visited c true; rw [a1],
          by show ms'.nodesVisited + 1 = ms.nodesVisited + 1; rw [a2], a3⟩
      simp only [MazeSolver.dfsRecursiveHelper] at h h'
      split at h
      · rename_i hb
        rw [if_pos hb] at h'
        split at h
        · rename_i hce
          rw [if_pos hce] at h'
          injection h with h
          injection h with h1 h2
          injection h' with h'
          injection h' with h1' h2'
          rw [← h1, ← h2, ← h1', ← h2']
          exact ⟨rfl, hag1⟩
        · rename_i hce
          rw [if_neg hce] at h'
          split at h
          · cases h
          · rename_i adj hadj
            rw [hadj] at h'
            exact MazeSolver.dfsRecursiveScan_agree s _ _ (ih f') c adj _ _ b ms2 b' ms2' h h' hag1
      · cases h

theorem MazeSolver.solveDFSRecursive_agree (s : MazeSolver) (wf : s.WellFormed)
    (parent0 stack0 path parent0' stack0' path' : Int → Int) (fuel fuel' : Nat)
    (hf : s.graph.nodeCount + 1 ≤ fuel) (hf' : s.graph.nodeCount + 1 ≤ fuel') :
    ∃ r r', s.solveDFSRecursive parent0 stack0 path fuel = .ok r ∧
      s.solveDFSRecursive parent0' stack0' path' fuel' = .ok r' ∧ r.Agree r' := by
  have inv0 : ∀ p0, RecInv s (s.initMarks p0) (fun _ => 0) [] := by
    intro p0
    refine ⟨⟨?_, ?_, rfl, ?_, ?_⟩, List.nodup_nil, ?_, rfl⟩
    · intro v hv
      cases hv
    · exact MazeSolver.initParent_of_valid _ _ _ wf.startValid
    · intro v hv
      cases hv
    · intro v hv
      cases hv
    · intro v
      constructor
      · intro h
        cases h
      · intro h
        cases h
  obtain ⟨b, ms1, hc, _, d1, done1, inv1, _, _, ht, _⟩ :=
    MazeSolver.dfsRecursiveHelper_spec s wf fuel s.startNode _ _ _ (inv0 parent0)
      (fun v hv => by cases hv) wf.startValid rfl (fun h => absurd rfl h)
      (fun h => absurd rfl h) (by simp only [List.length_nil, Nat.cast_zero, add_zero]; omega)
  obtain ⟨b', ms1', hc', _⟩ :=
    MazeSolver.dfsRecursiveHelper_spec s wf fuel' s.startNode _ _ _ (inv0 parent0')
      (fun v hv => by cases hv) wf.startValid rfl (fun h => absurd rfl h)
      (fun h => absurd rfl h) (by simp only [List.length_nil, Nat.cast_zero, add_zero]; omega)
  obtain ⟨hbb, g1, g2, g3⟩ := MazeSolver.dfsRecursiveHelper_agree s fuel fuel' s.startNode _ _
    b ms1 b' ms1' hc hc' (MarksAgree.initMarks_agree s parent0 parent0')
  subst hbb
  cases b' with
  | true =>
    obtain ⟨p1, p2, len, e1, e2, e3⟩ := TreeInv.reconstruct_agree s ms1 d1 inv1.tree wf.countLe
      (ht rfl) ms1'.parent g3 stack0 path stack0' path' fuel fuel' hf hf'
    refine ⟨{ found := true, path := p1, pathLen := len, nodesVisited := ms1.nodesVisited },
      { found := true, path := p2, pathLen := len, nodesVisited := ms1'.nodesVisited },
      ?_, ?_, rfl, rfl, g2, e3⟩
    · unfold MazeSolver.solveDFSRecursive Graph.getNodeCount
      rw [if_pos wf.countLe, hc]
      simp only
      rw [e1]
    · unfold MazeSolver.solveDFSRecursive Graph.getNodeCount
      rw [if_pos wf.countLe, hc']
      simp only
      rw [e2]
  | false =>
    refine ⟨{ found := false, path := path, pathLen := 0, nodesVisited := ms1.nodesVisited },
      { found := false, path := path', pathLen := 0, nodesVisited := ms1'.nodesVisited },
      ?_, ?_, rfl, rfl, g2, ?_⟩
    · unfold MazeSolver.solveDFSRecursive Graph.getNodeCount
      rw [if_pos wf.countLe, hc]
    · unfold MazeSolver.solveDFSRecursive Graph.getNodeCount
      rw [if_pos wf.countLe, hc']
    · intro i h0 h1
      exact absurd h1 (by show ¬ i < 0; omega)

/-! ## Claim C19 -/

/-- C19: on a graph with `nodeCount <= MAX_NODES`, valid edge destinations, valid
start and end nodes and adjacency lists of at most `D` entries, each of `solveBFS`,
`solveDFSStack`, `solveDFSRecursive` returns a result `r`, and every further call on
the same graph -- whatever its uninitialised local storage `parent0'`, `stack0'` and
the caller's `path'` hold (in particular the `path` the first call left behind), and
with any sufficient fuel -- returns a result with the same `found`, `pathLen`,
`nodesVisited` and the same entries `path[0 .. pathLen)`.  The solvers take the graph,
the coordinate index, `startNode` and `endNode` as read-only input and hand back only
their result, so the second call runs on the unchanged `s`. -/
theorem C19_solving_is_idempotent (s : MazeSolver) (wf : s.WellFormed) (D : Nat)
    (hdeg : ∀ a, (s.graph.adjList a).length ≤ D) (parent0 stack0 path : Int → Int) (fuel : Nat)
    (hf : D * s.graph.nodeCount + 2 ≤ fuel) (hf1 : s.graph.nodeCount + 1 ≤ fuel) :
    (∃ r, s.solveBFS parent0 stack0 path fuel = .ok r ∧
      ∀ (parent0' stack0' path' : Int → Int) (fuel' : Nat), s.graph.nodeCount + 1 ≤ fuel' →
        ∃ r', s.solveBFS parent0' stack0' path' fuel' = .ok r' ∧ r.Agree r') ∧
    (∃ r, s.solveDFSStack parent0 stack0 path fuel = .ok r ∧
      ∀ (parent0' stack0' path' : Int → Int) (fuel' : Nat), D * s.graph.nodeCount + 2 ≤ fuel' →
        s.graph.nodeCount + 1 ≤ fuel' →
        ∃ r', s.solveDFSStack parent0' stack0' path' fuel' = .ok r' ∧ r.Agree r') ∧
    (∃ r, s.solveDFSRecursive parent0 stack0 path fuel = .ok r ∧
      ∀ (parent0' stack0' path' : Int → Int) (fuel' : Nat), s.graph.nodeCount + 1 ≤ fuel' →
        ∃ r', s.solveDFSRecursive parent0' stack0' path' fuel' = .ok r' ∧ r.Agree r') := by
  refine ⟨?_, ?_, ?_⟩
  · obtain ⟨r, _, hr, _, _⟩ := MazeSolver.solveBFS_agree s wf parent0 stack0 path parent0 stack0
      path fuel fuel hf1 hf1
    refine ⟨r, hr, ?_⟩
    intro parent0' stack0' path' fuel' hf'
    obtain ⟨r1, r', h1, h2, hag⟩ := MazeSolver.solveBFS_agree s wf parent0 stack0 path parent0'
      stack0' path' fuel fuel' hf1 hf'
    rw [hr] at h1
    injection h1 with h1
    rw [h1]
    exact ⟨r', h2, hag⟩
  · obtain ⟨r, _, hr, _, _⟩ := MazeSolver.solveDFSStack_agree s wf parent0 stack0 path parent0
      stack0 path D hdeg fuel fuel hf hf1 hf hf1
    refine ⟨r, hr, ?_⟩
    intro parent0' stack0' path' fuel' hf' hf1'
    obtain ⟨r1, r', h1, h2, hag⟩ := MazeSolver.solveDFSStack_agree s wf parent0 stack0 path
      parent0' stack0' path' D hdeg fuel fuel' hf hf1 hf' hf1'
    rw [hr] at h1
    injection h1 with h1
    rw [h1]
    exact ⟨r', h2, hag⟩
  · obtain ⟨r, _, hr, _, _⟩ := MazeSolver.solveDFSRecursive_agree s wf parent0 stack0 path
      parent0 stack0 path fuel fuel hf1 hf1
    refine ⟨r, hr, ?_⟩
    intro parent0' stack0' path' fuel' hf'
    obtain ⟨r1, r', h1, h2, hag⟩ := MazeSolver.solveDFSRecursive_agree s wf parent0 stack0 path
      parent0' stack0' path' fuel fuel' hf1 hf'
    rw [hr] at h1
    injection h1 with h1
    rw [h1]
    exact ⟨r', h2, hag⟩

/-- C19 on the room maze: a second call of each solver, run on the `path` the first
call filled and on different leftover storage, returns the same result. -/
theorem C19_solving_is_idempotent_witness :
    ∃ s, MazeSolver.buildGraph roomMaze zeroUninit = .ok s ∧
      (∃ r r', s.solveBFS zeros zeros zeros 30 = .ok r ∧
        s.solveBFS (fun _ => 7) (fun _ => 9) r.path 40 = .ok r' ∧ r.Agree r') ∧
      (∃ r r', s.solveDFSStack zeros zeros zeros 30 = .ok r ∧
        s.solveDFSStack (fun _ => 7) (fun _ => 9) r.path 40 = .ok r' ∧ r.Agree r') ∧
      (∃ r r', s.solveDFSRecursive zeros zeros zeros 30 = .ok r ∧
        s.solveDFSRecursive (fun _ => 7) (fun _ => 9) r.path 40 = .ok r' ∧ r.Agree r') := by
  obtain ⟨s, hs⟩ := roomMaze_builds
  have hb := MazeSolver.buildGraph_built roomMaze zeroUninit s (by decide) (by decide) hs
  have wf := Built.wellFormed roomMaze s hb (by decide) (by decide) (1, 1) (2, 3) (by decide)
    roomMaze_start (by decide) roomMaze_end
  have hcnt : s.graph.nodeCount = 6 := roomMaze_nodeCount s hs
  obtain ⟨⟨r1, a1, a2⟩, ⟨r2, b1, b2⟩, ⟨r3, c1, c2⟩⟩ :=
    C19_solving_is_idempotent s wf 4 (Built.degree_le roomMaze s hb) zeros zeros zeros 30
      (by rw [hcnt]; decide) (by rw [hcnt]; decide)
  obtain ⟨r1', a3, a4⟩ := a2 (fun _ => 7) (fun _ => 9) r1.path 40 (by rw [hcnt]; decide)
  obtain ⟨r2', b3, b4⟩ := b2 (fun _ => 7) (fun _ => 9) r2.path 40 (by rw [hcnt]; decide)
    (by rw [hcnt]; decide)
  obtain ⟨r3', c3, c4⟩ := c2 (fun _ => 7) (fun _ => 9) r3.path 40 (by rw [hcnt]; decide)
  exact ⟨s, hs, ⟨r1, r1', a1, a3, a4⟩, ⟨r2, r2', b1, b3, b4⟩, ⟨r3, r3', c1, c3, c4⟩⟩

/-! ## Claim C22 -/

/-- The coordinates of the destinations of the edges found by probing around `(i, j)`:
the passable cells among the probed ones, in probe order. -/
theorem Built.probeEdges_coords (m : Maze) (s : MazeSolver) (hb : Built m s)
    (hr : m.rows ≤ MAX_ROWS) (hc : m.cols ≤ MAX_COLS) (i j : Int) (dirs : List (Int × Int)) :
    (probeEdges s.coordMap i j dirs).map (fun e => s.graph.getNodeCoords e.dest) =
      ((dirs.map fun d => (i + d.1, j + d.2)).filter fun q => decide (m.passable q)).map
        Except.ok := by
  obtain ⟨_, hcoords, _⟩ := Built.nodesMatchGrid m s hr hc hb.maze hb.nodes
  induction dirs with
  | nil => rfl
  | cons d rest ih =>
    obtain ⟨di, dj⟩ := d
    simp only [probeEdges, List.map_cons, List.filter_cons]
    rcases NodesIndexed.find_eq s _ hb.nodes (i + di) (j + dj) with ⟨hnot, hfind⟩ | ⟨k, hk, hfind⟩
    · have hnp : ¬ m.passable (i + di, j + dj) :=
        fun h => hnot ((Maze.mem_passableCells m _).mpr h)
      rw [if_neg (by rw [hfind]; exact fun h => h rfl), if_neg (by simpa using hnp)]
      exact ih
    · have hp : m.passable (i + di, j + dj) :=
        (Maze.mem_passableCells m _).mp (List.getElem?_mem hk)
      rw [if_pos (by rw [hfind]; omega), if_pos (by simpa using hp)]
      simp only [List.map_cons, hfind, (hcoords k _ hk).1]
      rw [ih]

theorem neighboursReversed_nodup (p : Int × Int) : (neighboursReversed p).Nodup := by
  simp only [neighboursReversed, List.nodup_cons, List.mem_cons, List.mem_singleton,
    Prod.mk.injEq, List.not_mem_nil, not_false_eq_true, List.nodup_nil, and_true, not_or]
  omega

theorem not_mem_neighboursReversed (p : Int × Int) : p ∉ neighboursReversed p := by
  obtain ⟨i, j⟩ := p
  simp only [neighboursReversed, List.mem_cons, List.mem_singleton, Prod.mk.injEq,
    List.not_mem_nil, or_false, not_or]
  omega

/-- C22: in the graph `buildGraph` makes of a grid of at most 50 x 50 cells, the
adjacency list of the node of cell `p` lists, read through `getNodeCoords`, exactly the
passable cells among the right, left, lower and upper neighbour of `p`, in this
order (the probe order up, down, left, right reversed); every edge has weight 1, no
destination occurs twice, and none is the node itself. -/
theorem C22_adjacency_in_reverse_probe_order (m : Maze) (u : Uninit) (s : MazeSolver)
    (hr : m.rows ≤ MAX_ROWS) (hc : m.cols ≤ MAX_COLS)
    (h : MazeSolver.buildGraph m u = .ok s) (k : Nat) (p : Int × Int)
    (hk : (k : Int) < s.graph.getNodeCount) (hp : s.graph.getNodeCoords k = .ok p) :
    (s.graph.adjList k).map (fun e => s.graph.getNodeCoords e.dest) =
        ((neighboursReversed p).filter fun q => decide (m.passable q)).map Except.ok ∧
      (∀ e ∈ s.graph.adjList k, e.weight = 1) ∧
      ((s.graph.adjList k).map fun e => e.dest).Nodup ∧
      (∀ e ∈ s.graph.adjList k, e.dest ≠ k) := by
  have hb := MazeSolver.buildGraph_built m u s hr hc h
  obtain ⟨hcount, hcoords, _⟩ := Built.nodesMatchGrid m s hr hc hb.maze hb.nodes
  have hkl : k < m.passableCells.length := by
    rw [hcount] at hk
    exact_mod_cast hk
  have hget : m.passableCells[k]? = some m.passableCells[k] := List.getElem?_eq_getElem hkl
  have hpk : m.passableCells[k] = p := by
    have := (hcoords k _ hget).1
    rw [hp] at this
    exact (Except.ok.inj this).symm
  rw [hpk] at hget
  have hmain : (s.graph.adjList k).map (fun e => s.graph.getNodeCoords e.dest) =
      ((neighboursReversed p).filter fun q => decide (m.passable q)).map Except.ok := by
    rw [hb.adj k p hget, List.map_reverse, Built.probeEdges_coords m s hb hr hc,
      ← List.map_reverse, ← List.filter_reverse, ← List.map_reverse]
    simp only [MazeSolver.directions, neighboursReversed, List.reverse_cons, List.reverse_nil,
      List.nil_append, List.cons_append, List.map_cons, List.map_nil, add_zero]
    rfl
  have hnd : ((s.graph.adjList k).map (fun e => s.graph.getNodeCoords e.dest)).Nodup := by
    rw [hmain]
    exact ((neighboursReversed_nodup p).filter _).map (fun a b hab => by injection hab)
  refine ⟨hmain, ?_, ?_, ?_⟩
  · intro e he
    exact (Built.edge_props m s hb k e he).1
  · have : ((s.graph.adjList k).map (fun e => s.graph.getNodeCoords e.dest)) =
        ((s.graph.adjList k).map fun e => e.dest).map s.graph.getNodeCoords := by
      rw [List.map_map]
      rfl
    rw [this] at hnd
    exact List.Nodup.of_map _ hnd
  · intro e he hek
    have hmem : s.graph.getNodeCoords e.dest ∈
        (s.graph.adjList k).map (fun e => s.graph.getNodeCoords e.dest) :=
      List.mem_map.mpr ⟨e, he, rfl⟩
    rw [hmain, hek, hp] at hmem
    obtain ⟨q, hq, hqp⟩ := List.mem_map.mp hmem
    injection hqp with hqp
    rw [hqp] at hq
    exact not_mem_neighboursReversed p (List.mem_filter.mp hq).1

/-- C22 on the room maze: node 0 is the cell `(1, 1)`; its adjacency list holds the
right neighbour `(1, 2)` first, then the lower neighbour `(2, 1)`. -/
theorem C22_adjacency_in_reverse_probe_order_witness :
    ∃ s, MazeSolver.buildGraph roomMaze zeroUninit = .ok s ∧
      (s.graph.adjList 0).map (fun e => s.graph.getNodeCoords e.dest) =
        [.ok (1, 2), .ok (2, 1)] := by
  obtain ⟨s, hs⟩ := roomMaze_builds
  have hb := MazeSolver.buildGraph_built roomMaze zeroUninit s (by decide) (by decide) hs
  obtain ⟨_, hcoords, _⟩ := Built.nodesMatchGrid roomMaze s (by decide) (by decide) hb.maze
    hb.nodes
  have h0 : s.graph.getNodeCoords ((0 : Nat) : Int) = .ok (1, 1) :=
    (hcoords 0 (1, 1) (by decide)).1
  obtain ⟨h1, _⟩ := C22_adjacency_in_reverse_probe_order roomMaze zeroUninit s (by decide)
    (by decide) hs 0 (1, 1) (by rw [roomMaze_nodeCount s hs]; decide) h0
  refine ⟨s, hs, ?_⟩
  have e : (((0 : Nat) : Int)) = 0 := rfl
  rw [e] at h1
  rw [h1]
  decide

/-! ## Dropping the local arrays and the counted nodes gives back the solver -/

theorem MazeSolver.bfsLoopTrace_fst (s : MazeSolver) (stack0 path : Int → Int)
    (rfuel fuel : Nat) :
    ∀ (ms : Marks) (q : QueueLinkedList) (counted : List Int),
      (MazeSolver.bfsLoopTrace s stack0 path rfuel fuel ms q counted).map Prod.fst =
        MazeSolver.bfsLoop s stack0 path rfuel fuel ms q := by
  induction fuel with
  | zero =>
    intro ms q counted
    rfl
  | succ fuel ih =>
    intro ms q counted
    simp only [MazeSolver.bfsLoopTrace, MazeSolver.bfsLoop]
    split
    · rfl
    · split
      · cases MazeSolver.reconstructPath s stack0 rfuel ms.parent path with
        | error f => rfl
        | ok p => rfl
      · cases s.graph.getAdjList q.dequeue.1 with
        | error f => rfl
        | ok adj =>
          simp only
          cases MazeSolver.bfsScan q.dequeue.1 adj
              { ms with nodesVisited := ms.nodesVisited + 1 } q.dequeue.2 with
          | error f => rfl
          | ok p => exact ih _ _ _

theorem MazeSolver.solveBFSTrace_fst (s : MazeSolver) (parent0 stack0 path : Int → Int)
    (fuel : Nat) :
    (s.solveBFSTrace parent0 stack0 path fuel).map Prod.fst =
      s.solveBFS parent0 stack0 path fuel := by
  unfold MazeSolver.solveBFSTrace MazeSolver.solveBFS
  split
  · split
    · exact MazeSolver.bfsLoopTrace_fst _ _ _ _ _ _ _ _
    · rfl
  · rfl

theorem MazeSolver.dfsStackLoopTrace_fst (s : MazeSolver) (stack0 path : Int → Int)
    (rfuel fuel : Nat) :
    ∀ (ms : Marks) (st : StackLinkedList) (counted : List Int),
      (MazeSolver.dfsStackLoopTrace s stack0 path rfuel fuel ms st counted).map Prod.fst =
        MazeSolver.dfsStackLoop s stack0 path rfuel fuel ms st := by
  induction fuel with
  | zero =>
    intro ms st counted
    rfl
  | succ fuel ih =>
    intro ms st counted
    simp only [MazeSolver.dfsStackLoopTrace, MazeSolver.dfsStackLoop]
    split
    · rfl
    · split
      · split
        · exact ih _ _ _
        · split
          · cases MazeSolver.reconstructPath s stack0 rfuel ms.parent path with
            | error f => rfl
            | ok p => rfl
          · cases s.graph.getAdjList st.pop.1 with
            | error f => rfl
            | ok adj =>
              simp only
              cases MazeSolver.dfsPush st.pop.1 adj
                  { ms with visited := store ms.visited st.pop.1 true,
                            nodesVisited := ms.nodesVisited + 1 } st.pop.2 with
              | error f => rfl
              | ok p => exact ih _ _ _
      · rfl

theorem MazeSolver.solveDFSStackTrace_fst (s : MazeSolver) (parent0 stack0 path : Int → Int)
    (fuel : Nat) :
    (s.solveDFSStackTrace parent0 stack0 path fuel).map Prod.fst =
      s.solveDFSStack parent0 stack0 path fuel := by
  unfold MazeSolver.solveDFSStackTrace MazeSolver.solveDFSStack
  split
  · exact MazeSolver.dfsStackLoopTrace_fst _ _ _ _ _ _ _ _
  · rfl

theorem MazeSolver.solveDFSRecursiveTrace_fst (s : MazeSolver)
    (parent0 stack0 path : Int → Int) (fuel : Nat) :
    (s.solveDFSRecursiveTrace parent0 stack0 path fuel).map Prod.fst =
      s.solveDFSRecursive parent0 stack0 path fuel := by
  unfold MazeSolver.solveDFSRecursiveTrace MazeSolver.solveDFSRecursive
  split
  · have hc := MazeSolver.dfsRecursiveHelperLog_fst s fuel s.startNode (s.initMarks parent0) []
    cases hl : MazeSolver.dfsRecursiveHelperLog s fuel s.startNode (s.initMarks parent0) [] with
    | error f =>
      rw [hl] at hc
      rw [← hc]
      rfl
    | ok p =>
      obtain ⟨b, ms', log'⟩ := p
      rw [hl] at hc
      rw [← hc]
      cases b with
      | true =>
        simp only [Except.map]
        cases MazeSolver.reconstructPath s stack0 fuel ms'.parent path with
        | error f => rfl
        | ok p => rfl
      | false => rfl
  · rfl

/-! ## What holds at the return of `solveBFS` -/

theorem MazeSolver.bfsLoopTrace_spec (s : MazeSolver) (wf : s.WellFormed)
    (stack0 path : Int → Int) (rfuel : Nat) (hrf : s.graph.nodeCount + 1 ≤ rfuel) (fuel : Nat) :
    ∀ (ms : Marks) (items : List Int) (d : Int → Nat) (done : List Int),
      BFSInv s ms [] items d done → s.graph.nodeCount + 1 ≤ (fuel : Int) + done.length →
      ∃ r ms' counted d', MazeSolver.bfsLoopTrace s stack0 path rfuel fuel ms { items := items }
          done = .ok (r, ms', counted) ∧ Returned s stack0 path rfuel r ms' counted d' := by
  induction fuel with
  | zero =>
    intro ms items d done inv hf
    exfalso
    have hvalid : ∀ x ∈ done, 0 ≤ x ∧ x < s.graph.nodeCount :=
      fun x hx => inv.tree.valid x ((inv.doneIff x).mp hx).1
    have := length_le_of_nodup_valid done _ (by have := wf.startValid; omega) inv.doneND hvalid
    simp only [Nat.cast_zero, zero_add] at hf
    omega
  | succ fuel ih =>
    intro ms items d done inv hf
    cases items with
    | nil =>
      refine ⟨{ found := false, path := path, pathLen := 0, nodesVisited := ms.nodesVisited },
        ms, done, d, rfl, ?_⟩
      constructor
      · exact inv.tree
      · exact inv.doneND
      · exact fun v hv => ((inv.doneIff v).mp hv).1
      · show ms.nodesVisited = _
        rw [inv.count]
        simp
      · exact (inv.doneIff _).mpr ⟨inv.startV, by simp⟩
      · intro h
        cases h
      · intro h
        cases h
      · intro h
        cases h
    | cons curr rest =>
      have inv1 := BFSInv.dequeue s ms curr rest d done inv
      have hcv : ms.visited curr = true := inv.frontV curr (by simp)
      have hcvalid := inv.tree.valid curr hcv
      have hcd : curr ∉ done := fun h => ((inv.doneIff curr).mp h).2 (by simp)
      by_cases hce : curr = s.endNode
      · obtain ⟨path', nodes, e1, _⟩ := TreeInv.reconstruct s _ d inv1.tree wf.countLe
          (by rw [← hce]; exact hcv) stack0 path rfuel (by exact_mod_cast hrf)
        refine ⟨{ found := true, path := path', pathLen := nodes.length,
                  nodesVisited := ms.nodesVisited + 1 },
          { ms with nodesVisited := ms.nodesVisited + 1 }, done ++ [curr], d, ?_, ?_⟩
        · simp only [MazeSolver.bfsLoopTrace, QueueLinkedList.isEmpty, List.isEmpty_cons,
            Bool.false_eq_true, if_false, QueueLinkedList.dequeue, hce, if_true]
          simp only at e1
          rw [e1]
        · constructor
          · exact inv1.tree
          · apply List.Nodup.append inv.doneND (List.nodup_singleton _)
            intro x hx hxc
            rw [List.mem_singleton.mp hxc] at hx
            exact hcd hx
          · intro v hv
            rcases List.mem_append.mp hv with h | h
            · exact ((inv.doneIff v).mp h).1
            · rw [List.mem_singleton.mp h]
              exact hcv
          · show ms.nodesVisited + 1 = _
            rw [inv.count]
            simp
          · exact List.mem_append.mpr (by
              by_cases hs : s.startNode = curr
              · exact Or.inr (List.mem_singleton.mpr hs)
              · left
                refine (inv.doneIff _).mpr ⟨inv.startV, ?_⟩
                intro hmem
                have hsorted := inv.sorted
                simp only [List.nil_append, List.pairwise_cons] at hsorted
                rcases List.mem_cons.mp (by simpa using hmem) with h | h
                · exact hs h
                · have h1 := hsorted.1 _ h
                  have h2 := inv.tree.rootDepth
                  have h3 : d curr = 0 := by omega
                  have hne : curr ≠ s.startNode := fun h => hs h.symm
                  have := (inv.tree.step curr hcv hne).2.2
                  omega)
          · intro _
            rw [← hce]
            exact hcv
          · intro _ v hv hcase
            have hv' : ms.visited v = true := hv
            rcases hcase with h | h
            · exact List.mem_append.mpr (Or.inr (List.mem_singleton.mpr (h.trans hce.symm)))
            · rw [← hce] at h
              refine List.mem_append.mpr (Or.inl ((inv.doneIff v).mpr ⟨hv', ?_⟩))
              intro hmem
              have hsorted := inv.sorted
              simp only [List.nil_append, List.pairwise_cons] at hsorted
              rcases List.mem_cons.mp (by simpa using hmem) with h' | h'
              · rw [h'] at h
                exact lt_irrefl _ h
              · have := hsorted.1 _ h'
                omega
          · intro _
            exact e1
      · have hb : 0 ≤ curr ∧ curr < MAX_NODES := ⟨hcvalid.1, by have := wf.countLe; omega⟩
        obtain ⟨ms2, items2, d2, h1, inv2, _, h4⟩ := BFSInv.scan s wf curr done
          (s.graph.adjList curr) _ rest d inv1 (fun _ h => h)
        have inv3 := BFSInv.finish s ms2 curr items2 d2 done inv2
          (by rintro w ⟨e, he, rfl⟩; exact h4 e he) hce
        obtain ⟨r, ms', counted, d', hr, hret⟩ := ih ms2 items2 d2 (done ++ [curr]) inv3
          (by simp only [List.length_append, List.length_singleton]; push_cast at hf ⊢; omega)
        refine ⟨r, ms', counted, d', ?_, hret⟩
        simp only [MazeSolver.bfsLoopTrace, QueueLinkedList.isEmpty, List.isEmpty_cons,
          Bool.false_eq_true, if_false, QueueLinkedList.dequeue, hce, Graph.getAdjList, hb,
          and_self, if_true]
        rw [h1]
        exact hr

theorem MazeSolver.solveBFSTrace_spec (s : MazeSolver) (wf : s.WellFormed)
    (parent0 stack0 path : Int → Int) (fuel : Nat) (hf : s.graph.nodeCount + 1 ≤ fuel) :
    ∃ r ms counted d, s.solveBFSTrace parent0 stack0 path fuel = .ok (r, ms, counted) ∧
      Returned s stack0 path fuel r ms counted d := by
  have hsb : 0 ≤ s.startNode ∧ s.startNode < MAX_NODES :=
    ⟨wf.startValid.1, by have := wf.countLe; have := wf.startValid.2; omega⟩
  obtain ⟨r, ms, counted, d, hr, hret⟩ := MazeSolver.bfsLoopTrace_spec s wf stack0 path fuel hf
    fuel _ _ _ _ (BFSInv.bfs_init s wf parent0) (by simpa using hf)
  refine ⟨r, ms, counted, d, ?_, hret⟩
  unfold MazeSolver.solveBFSTrace Graph.getNodeCount
  rw [if_pos wf.countLe, if_pos hsb]
  exact hr

/-! ## What holds at the return of `solveDFSStack` -/

theorem MazeSolver.dfsStackLoopTrace_spec (s : MazeSolver) (wf : s.WellFormed)
    (stack0 path : Int → Int) (rfuel : Nat) (hrf : s.graph.nodeCount + 1 ≤ rfuel) (D : Nat)
    (hdeg : ∀ a, (s.graph.adjList a).length ≤ D) (fuel : Nat) :
    ∀ (ms : Marks) (st : List Int) (d : Int → Nat) (done : List Int),
      DFSInv s ms st d done [] →
      (st.length : Int) + D * (s.graph.nodeCount - done.length) + 1 ≤ fuel →
      ∃ r ms' counted d', MazeSolver.dfsStackLoopTrace s stack0 path rfuel fuel ms { top := st }
          done = .ok (r, ms', counted) ∧ Returned s stack0 path rfuel r ms' counted d' := by
  induction fuel with
  | zero =>
    intro ms st d done inv hf
    exfalso
    have h1 := DFSInv.done_length_le s wf ms st d done [] inv
    have h2 : (0 : Int) ≤ D * (s.graph.nodeCount - done.length) :=
      mul_nonneg (by omega) (by omega)
    simp only [Nat.cast_zero] at hf
    omega
  | succ fuel ih =>
    intro ms st d done inv hf
    have hdl := DFSInv.done_length_le s wf ms st d done [] inv
    cases st with
    | nil =>
      have hsv : ms.visited s.startNode = true := by
        rcases inv.startIn with h | ⟨_, h, _⟩
        · exact h
        · cases h
      refine ⟨{ found := false, path := path, pathLen := 0, nodesVisited := ms.nodesVisited },
        ms, done, d, rfl, ?_⟩
      constructor
      · exact inv.tree
      · exact inv.doneND
      · exact fun v hv => (inv.doneIff v).mp hv
      · exact inv.count
      · exact (inv.doneIff _).mpr hsv
      · intro h
        cases h
      · intro h
        cases h
      · intro h
        cases h
    | cons curr rest =>
      have hcvalid := inv.stackValid curr (List.mem_cons_self _ _)
      have hb : 0 ≤ curr ∧ curr < MAX_NODES := ⟨hcvalid.1, by have := wf.countLe; omega⟩
      by_cases hcv : ms.visited curr = true
      · obtain ⟨r, ms', counted, d', hr, hret⟩ := ih ms rest d done
          (DFSInv.skip s ms curr rest d done inv hcv)
          (by simp only [List.length_cons] at hf; push_cast at hf ⊢; omega)
        refine ⟨r, ms', counted, d', ?_, hret⟩
        simp only [MazeSolver.dfsStackLoopTrace, StackLinkedList.isEmpty, List.isEmpty_cons,
          Bool.false_eq_true, if_false, StackLinkedList.pop, hb, and_self, if_true, hcv]
        exact hr
      · have hcu : ms.visited curr = false := by
          cases h : ms.visited curr with
          | false => rfl
          | true => exact absurd h hcv
        obtain ⟨d1, tree1, hsv1, hinv1⟩ := DFSInv.enter s ms curr rest d done inv hcu
        have hcd : curr ∉ done := by
          intro h
          have := (inv.doneIff curr).mp h
          rw [hcu] at this
          cases this
        by_cases hce : curr = s.endNode
        · obtain ⟨path', nodes, e1, _⟩ := TreeInv.reconstruct s _ _ tree1 wf.countLe
            (by rw [← hce]; exact (store_true_iff _ _ _).mpr (Or.inl rfl)) stack0 path rfuel
            (by exact_mod_cast hrf)
          have hb' := hb
          have hcu1 := hcu
          rw [hce] at hb' hcu1
          have hmem : ∀ v, store ms.visited curr true v = true → v ∈ done ++ [curr] := by
            intro v hv
            rcases (store_true_iff _ _ _).mp hv with h | h
            · exact List.mem_append.mpr (Or.inr (List.mem_singleton.mpr h))
            · exact List.mem_append.mpr (Or.inl ((inv.doneIff v).mpr h))
          refine ⟨{ found := true, path := path', pathLen := nodes.length,
                    nodesVisited := ms.nodesVisited + 1 },
            Marks.mk (store ms.visited curr true) ms.parent (ms.nodesVisited + 1),
            done ++ [curr], d1, ?_, ?_⟩
          · simp only [MazeSolver.dfsStackLoopTrace, StackLinkedList.isEmpty, List.isEmpty_cons,
              Bool.false_eq_true, if_false, StackLinkedList.pop, hce, hb', and_self, if_true, hcu1]
            simp only [hce] at e1
            rw [e1]
          · constructor
            · exact tree1
            · apply List.Nodup.append inv.doneND (List.nodup_singleton _)
              intro x hx hxc
              rw [List.mem_singleton.mp hxc] at hx
              exact hcd hx
            · intro v hv
              rcases List.mem_append.mp hv with h | h
              · exact (store_true_iff _ _ _).mpr (Or.inr ((inv.doneIff v).mp h))
              · exact (store_true_iff _ _ _).mpr (Or.inl (List.mem_singleton.mp h))
            · show ms.nodesVisited + 1 = _
              rw [inv.count]
              simp
            · exact hmem _ hsv1
            · intro _
              rw [← hce]
              exact (store_true_iff _ _ _).mpr (Or.inl rfl)
            · intro _ v hv _
              exact hmem v hv
            · intro _
              exact e1
        · have inv1 := hinv1 hce
          obtain ⟨ms2, st2, h1, inv2, h3, h4, h5, h6⟩ := DFSInv.push s wf curr _ _
            (s.graph.adjList curr) _ rest inv1 ((store_true_iff _ _ _).mpr (Or.inl rfl)) hsv1
            (fun _ h => h)
          have inv3 := DFSInv.leave s ms2 curr st2 d1 (done ++ [curr]) inv2
            (by rw [h3]; exact hsv1) h4
          have hdeg' := hdeg curr
          have harith : (D : Int) * (s.graph.nodeCount - ((done ++ [curr]).length : Int)) =
              D * (s.graph.nodeCount - done.length) - D := by
            simp only [List.length_append, List.length_singleton]
            push_cast
            ring
          have hst2 : (st2.length : Int) ≤ rest.length + (s.graph.adjList curr).length := by
            exact_mod_cast h6
          have hdegD : ((s.graph.adjList curr).length : Int) ≤ D := by exact_mod_cast hdeg'
          obtain ⟨r, ms', counted, d', hr, hret⟩ := ih ms2 st2 _ (done ++ [curr]) inv3
            (by
              rw [harith]
              simp only [List.length_cons] at hf
              push_cast at hf
              omega)
          refine ⟨r, ms', counted, d', ?_, hret⟩
          simp only [MazeSolver.dfsStackLoopTrace, StackLinkedList.isEmpty, List.isEmpty_cons,
            Bool.false_eq_true, if_false, StackLinkedList.pop, hb, and_self, if_true, hcu, hce,
            Graph.getAdjList]
          rw [h1]
          exact hr

theorem MazeSolver.solveDFSStackTrace_spec (s : MazeSolver) (wf : s.WellFormed)
    (parent0 stack0 path : Int → Int) (D : Nat) (hdeg : ∀ a, (s.graph.adjList a).length ≤ D)
    (fuel : Nat) (hf : D * s.graph.nodeCount + 2 ≤ fuel) (hf' : s.graph.nodeCount + 1 ≤ fuel) :
    ∃ r ms counted d, s.solveDFSStackTrace parent0 stack0 path fuel = .ok (r, ms, counted) ∧
      Returned s stack0 path fuel r ms counted d := by
  obtain ⟨r, ms, counted, d, hr, hret⟩ := MazeSolver.dfsStackLoopTrace_spec s wf stack0 path
    fuel hf' D hdeg fuel _ _ _ _ (DFSInv.dfs_init s wf parent0)
    (by simp only [List.length_singleton, List.length_nil, Nat.cast_zero, Nat.cast_one, sub_zero]
        omega)
  refine ⟨r, ms, counted, d, ?_, hret⟩
  unfold MazeSolver.solveDFSStackTrace Graph.getNodeCount
  rw [if_pos wf.countLe]
  exact hr

/-! ## What holds at the return of `solveDFSRecursive` -/

theorem CountedExact.enter_node (ms : Marks) (log : List Int) (c : Int) (h : CountedExact ms log)
    (hc : ms.visited c = false) :
    CountedExact (Marks.mk (store ms.visited c true) ms.parent (ms.nodesVisited + 1))
      (log ++ [c]) := by
  obtain ⟨h1, h2, h3⟩ := h
  have hcl : c ∉ log := by
    intro hmem
    have := (h2 c).mp hmem
    rw [hc] at this
    cases this
  refine ⟨?_, ?_, ?_⟩
  · apply List.Nodup.append h1 (List.nodup_singleton _)
    intro x hx hxc
    rw [List.mem_singleton.mp hxc] at hx
    exact hcl hx
  · intro v
    show v ∈ log ++ [c] ↔ store ms.visited c true v = true
    rw [store_true_iff, List.mem_append, List.mem_singleton, h2 v]
    exact Or.comm
  · show ms.nodesVisited + 1 = _
    rw [h3]
    simp

theorem MazeSolver.dfsRecursiveScanLog_exact
    (call : Int → Marks → List Int → Except Fault (Bool × Marks × List Int))
    (hcall : ∀ c ms log b ms' log', call c ms log = .ok (b, ms', log') → CountedExact ms log →
      ms.visited c = false → CountedExact ms' log')
    (curr : Int) (adj : List AdjListNode) :
    ∀ (ms : Marks) (log : List Int) (b : Bool) (ms' : Marks) (log' : List Int),
      MazeSolver.dfsRecursiveScanLog call curr adj ms log = .ok (b, ms', log') →
      CountedExact ms log → CountedExact ms' log' := by
  induction adj with
  | nil =>
    intro ms log b ms' log' h hm
    simp only [MazeSolver.dfsRecursiveScanLog] at h
    injection h with h
    injection h with _ h
    injection h with h1 h2
    rw [← h1, ← h2]
    exact hm
  | cons e rest ih =>
    intro ms log b ms' log' h hm
    simp only [MazeSolver.dfsRecursiveScanLog] at h
    split at h
    · split at h
      · rename_i hv
        have hm0 : CountedExact (Marks.mk ms.visited (store ms.parent e.dest curr)
            ms.nodesVisited) log := hm
        split at h
        · cases h
        · rename_i ms1 log1 hc
          injection h with h
          injection h with _ h
          injection h with h1 h2
          rw [← h1, ← h2]
          exact hcall _ _ _ _ _ _ hc hm0 hv
        · rename_i ms1 log1 hc
          exact ih ms1 log1 b ms' log' h (hcall _ _ _ _ _ _ hc hm0 hv)
      · exact ih ms log b ms' log' h hm
    · cases h

theorem MazeSolver.dfsRecursiveHelperLog_exact (s : MazeSolver) (fuel : Nat) :
    ∀ (c : Int) (ms : Marks) (log : List Int) (b : Bool) (ms' : Marks) (log' : List Int),
      MazeSolver.dfsRecursiveHelperLog s fuel c ms log = .ok (b, ms', log') →
      CountedExact ms log → ms.visited c = false → CountedExact ms' log' := by
  induction fuel with
  | zero =>
    intro c ms log b ms' log' h _ _
    cases h
  | succ fuel ih =>
    intro c ms log b ms' log' h hm hv
    have hm1 := CountedExact.enter_node ms log c hm hv
    simp only [MazeSolver.dfsRecursiveHelperLog] at h
    split at h
    · split at h
      · injection h with h
        injection h with _ h
        injection h with h1 h2
        rw [← h1, ← h2]
        exact hm1
      · split at h
        · cases h
        · exact MazeSolver.dfsRecursiveScanLog_exact _ ih c _ _ _ b ms' log' h hm1
    · cases h

theorem MazeSolver.solveDFSRecursiveTrace_spec (s : MazeSolver) (wf : s.WellFormed)
    (parent0 stack0 path : Int → Int) (fuel : Nat) (hf : s.graph.nodeCount + 1 ≤ fuel) :
    ∃ r ms counted d, s.solveDFSRecursiveTrace parent0 stack0 path fuel = .ok (r, ms, counted) ∧
      Returned s stack0 path fuel r ms counted d := by
  have inv0 : RecInv s (s.initMarks parent0) (fun _ => 0) [] := by
    refine ⟨⟨?_, ?_, rfl, ?_, ?_⟩, List.nodup_nil, ?_, rfl⟩
    · intro v hv
      cases hv
    · exact MazeSolver.initParent_of_valid _ _ _ wf.startValid
    · intro v hv
      cases hv
    · intro v hv
      cases hv
    · intro v
      constructor
      · intro h
        cases h
      · intro h
        cases h
  obtain ⟨b, ms', hc, hsv, d', done', inv', _, _, ht, _⟩ :=
    MazeSolver.dfsRecursiveHelper_spec s wf fuel s.startNode _ _ _ inv0
      (fun v hv => by cases hv) wf.startValid rfl (fun h => absurd rfl h)
      (fun h => absurd rfl h) (by simp only [List.length_nil, Nat.cast_zero, add_zero]; omega)
  have hproj := MazeSolver.dfsRecursiveHelperLog_fst s fuel s.startNode (s.initMarks parent0) []
  rw [hc] at hproj
  obtain ⟨b1, ms1, log1, hlog, hb1, hms1⟩ : ∃ b1 ms1 log1,
      MazeSolver.dfsRecursiveHelperLog s fuel s.startNode (s.initMarks parent0) [] =
        .ok (b1, ms1, log1) ∧ b1 = b ∧ ms1 = ms' := by
    cases hl : MazeSolver.dfsRecursiveHelperLog s fuel s.startNode (s.initMarks parent0) [] with
    | error f =>
      rw [hl] at hproj
      cases hproj
    | ok p =>
      obtain ⟨b1, ms1, log1⟩ := p
      rw [hl] at hproj
      injection hproj with hproj
      injection hproj with h1 h2
      exact ⟨b1, ms1, log1, rfl, h1, h2⟩
  subst hb1 hms1
  have hex0 : CountedExact (s.initMarks parent0) [] :=
    ⟨List.nodup_nil, fun v => ⟨(fun h => by cases h), (fun h => by cases h)⟩, rfl⟩
  obtain ⟨x1, x2, x3⟩ := MazeSolver.dfsRecursiveHelperLog_exact s fuel _ _ _ _ _ _ hlog hex0 rfl
  cases b1 with
  | true =>
    obtain ⟨path', nodes, e1, _⟩ := TreeInv.reconstruct s ms1 d' inv'.tree wf.countLe
      (ht rfl) stack0 path fuel hf
    refine ⟨{ found := true, path := path', pathLen := nodes.length,
              nodesVisited := ms1.nodesVisited }, ms1, log1, d', ?_, ?_⟩
    · unfold MazeSolver.solveDFSRecursiveTrace Graph.getNodeCount
      rw [if_pos wf.countLe, hlog]
      simp only
      rw [e1]
    · exact ⟨inv'.tree, x1, fun v hv => (x2 v).mp hv, x3, (x2 _).mpr hsv, fun _ => ht rfl,
        fun _ v hv _ => (x2 v).mpr hv, fun _ => e1⟩
  | false =>
    refine ⟨{ found := false, path := path, pathLen := 0, nodesVisited := ms1.nodesVisited },
      ms1, log1, d', ?_, ?_⟩
    · unfold MazeSolver.solveDFSRecursiveTrace Graph.getNodeCount
      rw [if_pos wf.countLe, hlog]
    · exact ⟨inv'.tree, x1, fun v hv => (x2 v).mp hv, x3, (x2 _).mpr hsv,
        (fun h => by cases h), (fun h => by cases h), (fun h => by cases h)⟩

/-! ## Consequences of `Returned` -/

theorem Returned.counts (s : MazeSolver) (wf : s.WellFormed) (stack0 path : Int → Int)
    (rfuel : Nat) (r : SolveResult) (ms : Marks) (counted : List Int) (d : Int → Nat)
    (h : Returned s stack0 path rfuel r ms counted d) :
    (∀ v ∈ counted, 0 ≤ v ∧ v < s.graph.nodeCount) ∧ 1 ≤ r.nodesVisited ∧
      r.nodesVisited ≤ s.graph.nodeCount := by
  have hvalid : ∀ v ∈ counted, 0 ≤ v ∧ v < s.graph.nodeCount :=
    fun v hv => h.tree.valid v (h.visited v hv)
  have h1 := length_le_of_nodup_valid counted s.graph.nodeCount
    (by have := wf.startValid; omega) h.nodup hvalid
  have h2 : 1 ≤ counted.length := List.length_pos_of_mem h.start
  refine ⟨hvalid, ?_, ?_⟩
  · rw [h.count]
    exact_mod_cast h2
  · rw [h.count]
    exact h1

theorem Returned.chainFacts (s : MazeSolver) (wf : s.WellFormed) (stack0 path : Int → Int)
    (rfuel : Nat) (hrf : s.graph.nodeCount + 1 ≤ rfuel) (r : SolveResult) (ms : Marks)
    (counted : List Int) (d : Int → Nat) (h : Returned s stack0 path rfuel r ms counted d)
    (hfound : r.found = true) : ∃ l, ChainFacts s ms counted r l := by
  have hend := h.endV hfound
  obtain ⟨l, c1, c2, c3, c4, c5, _, _, c8⟩ := TreeInv.chain s ms d h.tree _ s.endNode hend rfl
  have hvalid : ∀ x ∈ l, 0 ≤ x ∧ x < s.graph.nodeCount := fun x hx => h.tree.valid x (c3 x hx)
  have hnd : l.Nodup := by
    apply List.Pairwise.imp _ c8
    intro a b hab heq
    rw [heq] at hab
    exact lt_irrefl _ hab
  have hn : 0 ≤ s.graph.nodeCount := by
    have := wf.startValid
    omega
  have hlen := length_le_of_nodup_valid l _ hn hnd hvalid
  have hcap := wf.countLe
  have hb : ∀ x ∈ l, 0 ≤ x ∧ x < MAX_NODES :=
    fun x hx => ⟨(hvalid x hx).1, by have := (hvalid x hx).2; omega⟩
  obtain ⟨p1, e1, e2⟩ := MazeSolver.reconstructPath_spec s stack0 ms.parent path rfuel l c1 hb
    (by omega) (by omega)
  have hrec := h.recon hfound
  rw [e1] at hrec
  injection hrec with hrec
  injection hrec with hp hl
  refine ⟨l, c1, hnd, c5, h.tree.rootParent, ?_, hvalid, ?_, by omega, ?_, ?_⟩
  · intro v hv hne
    exact (h.tree.step v (c3 v hv) hne).2.1
  · intro v hv
    apply h.above hfound v (c3 v hv)
    cases l with
    | nil => cases hv
    | cons a l' =>
      simp only [List.head?_cons, Option.some.injEq] at c4
      subst c4
      rcases List.mem_cons.mp hv with rfl | hv'
      · exact Or.inl rfl
      · exact Or.inr ((List.pairwise_cons.mp c8).1 v hv')
  · intro stack0' fuel' hf'
    obtain ⟨st, f1, f2, f3⟩ := MazeSolver.chainLoop_spec ms.parent s.endNode l c1 fuel'
      (StackArray.init stack0') hb hf' (by simp [StackArray.init])
      (by simp only [StackArray.init]; omega)
    have hnil : (StackArray.init stack0').toList = [] := by
      simp [StackArray.toList, StackArray.init]
    rw [hnil, List.append_nil] at f2
    refine ⟨st, f1, f2, ?_⟩
    rw [f3]
    simp only [StackArray.init]
    omega
  · refine ⟨by rw [← hl, List.length_reverse], ?_⟩
    intro i v hi
    rw [← hp]
    exact e2 i v hi

/-- On a built graph distinct nodes have distinct linearised coordinates: a path
over pairwise distinct nodes repeats no cell. -/
theorem Built.path_distinct (m : Maze) (s : MazeSolver) (hb : Built m s) (hc : m.cols ≤ MAX_COLS)
    (r : SolveResult) (nodes : List Int) (hpath : PathOf s r nodes) (hnd : nodes.Nodup)
    (hvalid : ∀ x ∈ nodes, 0 ≤ x ∧ x < s.graph.nodeCount) :
    ∀ i j : Nat, i < j → j < nodes.length → r.path i ≠ r.path j := by
  intro i j hij hj heq
  have hi : i < nodes.length := by omega
  have hcell : ∀ (n : Nat) (hn : n < nodes.length), ∃ k : Nat, nodes[n] = (k : Int) ∧
      ∃ hk : k < m.passableCells.length, decode (r.path n) = m.passableCells[k] := by
    intro n hn
    have hv := hvalid nodes[n] (List.getElem_mem _)
    rw [hb.nodes.count] at hv
    obtain ⟨k, hk⟩ := Int.eq_ofNat_of_zero_le hv.1
    have hkl : k < m.passableCells.length := by omega
    refine ⟨k, hk, hkl, ?_⟩
    rw [hpath.2 n nodes[n] (List.getElem?_eq_getElem hn), hk]
    exact (Built.linear_eq m s hb hc k _ (List.getElem?_eq_getElem hkl)).2
  obtain ⟨ka, ha, hka, da⟩ := hcell i hi
  obtain ⟨kb, hb', hkb, db⟩ := hcell j hj
  rw [heq, db] at da
  have hk : ka = kb := getElem?_inj_of_nodup _ (Maze.nodup_passableCells m) ka kb
    m.passableCells[ka] (List.getElem?_eq_getElem hka)
    (by rw [← da]; exact List.getElem?_eq_getElem hkb)
  have hab : nodes[i] = nodes[j] := by rw [ha, hb', hk]
  have := getElem?_inj_of_nodup nodes hnd i j nodes[i] (List.getElem?_eq_getElem hi)
    (by rw [hab]; exact List.getElem?_eq_getElem hj)
  omega

/-! ## Claim C21 -/

/-- C21: on the graph built from a maze of at most 50 x 50 cells with a start and an
end cell, each solver returns, and whenever it returns `found = true` the parent
chain `l` followed from `endNode` through the `parent` array it leaves behind holds no
node twice, reaches `startNode` (whose parent is `-1`) after `l.length - 1 <=
nodeCount - 1` steps, and every node on it but the start has as parent a node with an
edge to it; the first loop of `reconstructPath` ends with exactly the `l.length <=
nodeCount <= MAX_NODES` chain nodes on its array stack (none dropped),
`reconstructPath` returns the `path`, `pathLen` of the result, and the entries
`path[0 .. pathLen)` are pairwise distinct.  This covers `solveDFSStack`, which
rewrites the parent of a node that is on the stack and not yet visited. -/
theorem C21_parent_chain_reaches_start (m : Maze) (u : Uninit) (s : MazeSolver)
    (hr : m.rows ≤ MAX_ROWS) (hc : m.cols ≤ MAX_COLS)
    (hbuild : MazeSolver.buildGraph m u = .ok s)
    (hS : ∃ p : Int × Int, m.getCell p.1 p.2 = 'S')
    (hE : ∃ p : Int × Int, m.getCell p.1 p.2 = 'E')
    (parent0 stack0 path : Int → Int) (fuel : Nat)
    (hfuel : 4 * s.graph.nodeCount + 2 ≤ fuel) :
    s.graph.nodeCount ≤ MAX_NODES ∧
    (∃ r ms counted, s.solveBFS parent0 stack0 path fuel = .ok r ∧
      s.solveBFSTrace parent0 stack0 path fuel = .ok (r, ms, counted) ∧
      (r.found = true → ∃ l, ChainFacts s ms counted r l ∧
        s.reconstructPath stack0 fuel ms.parent path = .ok (r.path, r.pathLen) ∧
        r.pathLen = (l.length : Int) ∧
        ∀ i j : Nat, i < j → (j : Int) < r.pathLen → r.path i ≠ r.path j)) ∧
    (∃ r ms counted, s.solveDFSStack parent0 stack0 path fuel = .ok r ∧
      s.solveDFSStackTrace parent0 stack0 path fuel = .ok (r, ms, counted) ∧
      (r.found = true → ∃ l, ChainFacts s ms counted r l ∧
        s.reconstructPath stack0 fuel ms.parent path = .ok (r.path, r.pathLen) ∧
        r.pathLen = (l.length : Int) ∧
        ∀ i j : Nat, i < j → (j : Int) < r.pathLen → r.path i ≠ r.path j)) ∧
    (∃ r ms counted, s.solveDFSRecursive parent0 stack0 path fuel = .ok r ∧
      s.solveDFSRecursiveTrace parent0 stack0 path fuel = .ok (r, ms, counted) ∧
      (r.found = true → ∃ l, ChainFacts s ms counted r l ∧
        s.reconstructPath stack0 fuel ms.parent path = .ok (r.path, r.pathLen) ∧
        r.pathLen = (l.length : Int) ∧
        ∀ i j : Nat, i < j → (j : Int) < r.pathLen → r.path i ≠ r.path j)) := by
  have hb := MazeSolver.buildGraph_built m u s hr hc hbuild
  have wf := Built.wellFormed_of_exists m s hb hr hc hS hE
  have hn : 0 ≤ s.graph.nodeCount := by
    have := wf.startValid
    omega
  have hf1 : s.graph.nodeCount + 1 ≤ fuel := by omega
  have key : ∀ (r : SolveResult) (ms : Marks) (counted : List Int) (d : Int → Nat),
      Returned s stack0 path fuel r ms counted d → r.found = true →
      ∃ l, ChainFacts s ms counted r l ∧
        s.reconstructPath stack0 fuel ms.parent path = .ok (r.path, r.pathLen) ∧
        r.pathLen = (l.length : Int) ∧
        ∀ i j : Nat, i < j → (j : Int) < r.pathLen → r.path i ≠ r.path j := by
    intro r ms counted d hret hfound
    obtain ⟨l, hl⟩ := Returned.chainFacts s wf stack0 path fuel hf1 r ms counted d hret hfound
    have hlen : r.pathLen = (l.length : Int) := by
      rw [hl.path.1, List.length_reverse]
    refine ⟨l, hl, hret.recon hfound, hlen, ?_⟩
    intro i j hij hj
    refine Built.path_distinct m s hb hc r l.reverse hl.path (List.nodup_reverse.mpr hl.nodup)
      (fun x hx => hl.valid x (List.mem_reverse.mp hx)) i j hij ?_
    rw [List.length_reverse]
    rw [hlen] at hj
    exact_mod_cast hj
  refine ⟨wf.countLe, ?_, ?_, ?_⟩
  · obtain ⟨r, ms, counted, d, h1, hret⟩ := MazeSolver.solveBFSTrace_spec s wf parent0 stack0
      path fuel hf1
    have h2 := MazeSolver.solveBFSTrace_fst s parent0 stack0 path fuel
    rw [h1] at h2
    exact ⟨r, ms, counted, h2.symm, h1, key r ms counted d hret⟩
  · obtain ⟨r, ms, counted, d, h1, hret⟩ := MazeSolver.solveDFSStackTrace_spec s wf parent0
      stack0 path 4 (Built.degree_le m s hb) fuel (by push_cast; omega) hf1
    have h2 := MazeSolver.solveDFSStackTrace_fst s parent0 stack0 path fuel
    rw [h1] at h2
    exact ⟨r, ms, counted, h2.symm, h1, key r ms counted d hret⟩
  · obtain ⟨r, ms, counted, d, h1, hret⟩ := MazeSolver.solveDFSRecursiveTrace_spec s wf parent0
      stack0 path fuel hf1
    have h2 := MazeSolver.solveDFSRecursiveTrace_fst s parent0 stack0 path fuel
    rw [h1] at h2
    exact ⟨r, ms, counted, h2.symm, h1, key r ms counted d hret⟩

/-- C21 on the room maze: `solveDFSStack` returns `found = true` with a parent chain of
at most 6 nodes that holds no node twice and ends in the start node. -/
theorem C21_parent_chain_reaches_start_witness :
    ∃ s r ms counted l, MazeSolver.buildGraph roomMaze zeroUninit = .ok s ∧
      s.solveDFSStackTrace zeros zeros zeros 30 = .ok (r, ms, counted) ∧ r.found = true ∧
      ParentChain ms.parent s.endNode l ∧ l.Nodup ∧ l.getLast? = some s.startNode ∧
      l.length ≤ 6 := by
  obtain ⟨s, hs⟩ := roomMaze_builds
  have hcnt : s.graph.nodeCount = 6 := roomMaze_nodeCount s hs
  obtain ⟨_, _, ⟨r, ms, counted, h1, h2, h3⟩, _⟩ := C21_parent_chain_reaches_start roomMaze
    zeroUninit s (by decide) (by decide) hs ⟨(1, 1), by decide⟩ ⟨(2, 3), by decide⟩
    zeros zeros zeros 30 (by rw [hcnt]; decide)
  have hrun : runDFSStack roomMaze 30 = .ok (true, 6, 6, [51, 101, 102, 52, 53, 103]) := by decide
  have hfound : r.found = true := by
    unfold runDFSStack at hrun
    rw [hs] at hrun
    simp only [h1, Except.map] at hrun
    injection hrun with hrun
    exact congrArg Prod.fst hrun
  obtain ⟨l, hl, _⟩ := h3 hfound
  refine ⟨s, r, ms, counted, l, hs, h2, hfound, hl.chain, hl.nodup, hl.last, ?_⟩
  have := hl.steps
  rw [hcnt] at this
  omega

/-! ## Claim C23 -/

theorem Returned.countFacts (s : MazeSolver) (wf : s.WellFormed) (stack0 path : Int → Int)
    (rfuel : Nat) (hrf : s.graph.nodeCount + 1 ≤ rfuel) (r : SolveResult) (ms : Marks)
    (counted : List Int) (d : Int → Nat) (h : Returned s stack0 path rfuel r ms counted d) :
    CountFacts s r counted := by
  obtain ⟨hvalid, h1, h2⟩ := Returned.counts s wf stack0 path rfuel r ms counted d h
  refine ⟨h.nodup, hvalid, h.count, h1, h2, ?_, ?_⟩
  · intro hfound
    obtain ⟨l, hl⟩ := Returned.chainFacts s wf stack0 path rfuel hrf r ms counted d h hfound
    exact ⟨l.reverse, hl.path, fun v hv => hl.counted v (List.mem_reverse.mp hv)⟩
  · intro hfound
    obtain ⟨l, hl⟩ := Returned.chainFacts s wf stack0 path rfuel hrf r ms counted d h hfound
    have hsub : l ⊆ counted := fun v hv => hl.counted v hv
    have hle := (List.Nodup.subperm hl.nodup hsub).length_le
    rw [hl.path.1, List.length_reverse, h.count]
    exact_mod_cast hle

/-- C23: on a graph with `nodeCount <= MAX_NODES`, valid edge destinations, valid
start and end nodes and adjacency lists of at most `D` entries, each solver returns,
and the nodes at which it executed `nodesVisited++` are pairwise distinct node ids, so
`1 <= nodesVisited <= nodeCount`; with `found = true` every node of the returned path
is one of the counted nodes, so `pathLen <= nodesVisited <= nodeCount`. -/
theorem C23_nodesVisited_bounds (s : MazeSolver) (wf : s.WellFormed) (D : Nat)
    (hdeg : ∀ a, (s.graph.adjList a).length ≤ D) (parent0 stack0 path : Int → Int) (fuel : Nat)
    (hf : D * s.graph.nodeCount + 2 ≤ fuel) (hf1 : s.graph.nodeCount + 1 ≤ fuel) :
    (∃ r ms counted, s.solveBFS parent0 stack0 path fuel = .ok r ∧
      s.solveBFSTrace parent0 stack0 path fuel = .ok (r, ms, counted) ∧
      CountFacts s r counted) ∧
    (∃ r ms counted, s.solveDFSStack parent0 stack0 path fuel = .ok r ∧
      s.solveDFSStackTrace parent0 stack0 path fuel = .ok (r, ms, counted) ∧
      CountFacts s r counted) ∧
    (∃ r ms counted, s.solveDFSRecursive parent0 stack0 path fuel = .ok r ∧
      s.solveDFSRecursiveTrace parent0 stack0 path fuel = .ok (r, ms, counted) ∧
      CountFacts s r counted) := by
  refine ⟨?_, ?_, ?_⟩
  · obtain ⟨r, ms, counted, d, h1, hret⟩ := MazeSolver.solveBFSTrace_spec s wf parent0 stack0
      path fuel hf1
    have h2 := MazeSolver.solveBFSTrace_fst s parent0 stack0 path fuel
    rw [h1] at h2
    exact ⟨r, ms, counted, h2.symm, h1,
      Returned.countFacts s wf stack0 path fuel hf1 r ms counted d hret⟩
  · obtain ⟨r, ms, counted, d, h1, hret⟩ := MazeSolver.solveDFSStackTrace_spec s wf parent0
      stack0 path D hdeg fuel hf hf1
    have h2 := MazeSolver.solveDFSStackTrace_fst s parent0 stack0 path fuel
    rw [h1] at h2
    exact ⟨r, ms, counted, h2.symm, h1,
      Returned.countFacts s wf stack0 path fuel hf1 r ms counted d hret⟩
  · obtain ⟨r, ms, counted, d, h1, hret⟩ := MazeSolver.solveDFSRecursiveTrace_spec s wf parent0
      stack0 path fuel hf1
    have h2 := MazeSolver.solveDFSRecursiveTrace_fst s parent0 stack0 path fuel
    rw [h1] at h2
    exact ⟨r, ms, counted, h2.symm, h1,
      Returned.countFacts s wf stack0 path fuel hf1 r ms counted d hret⟩

/-- C23 on the room maze (6 nodes): the three solvers return `pathLen` / `nodesVisited`
4 / 6, 6 / 6 and 4 / 4, and the bounds hold of each result. -/
theorem C23_nodesVisited_bounds_witness :
    runBFS roomMaze 30 = .ok (true, 4, 6, [51, 52, 53, 103]) ∧
    runDFSStack roomMaze 30 = .ok (true, 6, 6, [51, 101, 102, 52, 53, 103]) ∧
    runDFSRecursive roomMaze 30 = .ok (true, 4, 4, [51, 52, 53, 103]) ∧
    ∃ s, MazeSolver.buildGraph roomMaze zeroUninit = .ok s ∧ s.graph.nodeCount = 6 ∧
      (∃ r, s.solveBFS zeros zeros zeros 30 = .ok r ∧ 1 ≤ r.nodesVisited ∧
        r.nodesVisited ≤ 6 ∧ (r.found = true → r.pathLen ≤ r.nodesVisited)) ∧
      (∃ r, s.solveDFSStack zeros zeros zeros 30 = .ok r ∧ 1 ≤ r.nodesVisited ∧
        r.nodesVisited ≤ 6 ∧ (r.found = true → r.pathLen ≤ r.nodesVisited)) ∧
      (∃ r, s.solveDFSRecursive zeros zeros zeros 30 = .ok r ∧ 1 ≤ r.nodesVisited ∧
        r.nodesVisited ≤ 6 ∧ (r.found = true → r.pathLen ≤ r.nodesVisited)) := by
  refine ⟨by decide, by decide, by decide, ?_⟩
  obtain ⟨s, hs⟩ := roomMaze_builds
  have hb := MazeSolver.buildGraph_built roomMaze zeroUninit s (by decide) (by decide) hs
  have wf := Built.wellFormed roomMaze s hb (by decide) (by decide) (1, 1) (2, 3) (by decide)
    roomMaze_start (by decide) roomMaze_end
  have hcnt : s.graph.nodeCount = 6 := roomMaze_nodeCount s hs
  obtain ⟨⟨r1, _, _, a1, _, a3⟩, ⟨r2, _, _, b1, _, b3⟩, ⟨r3, _, _, c1, _, c3⟩⟩ :=
    C23_nodesVisited_bounds s wf 4 (Built.degree_le roomMaze s hb) zeros zeros zeros 30
      (by rw [hcnt]; decide) (by rw [hcnt]; decide)
  have a4 := a3.atMostAll
  have b4 := b3.atMostAll
  have c4 := c3.atMostAll
  rw [hcnt] at a4 b4 c4
  exact ⟨s, hs, hcnt, ⟨r1, a1, a3.atLeastOne, a4, a3.pathLenLe⟩,
    ⟨r2, b1, b3.atLeastOne, b4, b3.pathLenLe⟩, ⟨r3, c1, c3.atLeastOne, c4, c3.pathLenLe⟩⟩

end MazeProject
